import Mathlib

/-!
# dsjslib: the Guava-style LRU cache (`lib/Cache.js`)

A shallow embedding of `lib/Cache.js`.  JavaScript objects live in a heap that is
indexed by object identity (a natural number); every field of an `Entry` object
(`key`, `value`, `writeTime`, `nextA`, `prevA`, `nextW`, `prevW`) is one map of the heap.
Exceptions are explicit: a call either returns, or throws and leaves the state it had
reached, or runs out of loop fuel.  `Date.now()` is the argument `now` of the call that
reads it.  Calls to functions that the user supplies (the removal listener, the `get`
callback, the loader) are recorded, in order, in the field `events`.
-/

namespace Dsjslib

/-! ## JavaScript values -/

/-- The JavaScript values that the model distinguishes. -/
inductive Val where
  | undefined
  | null
  | bool (b : Bool)
  | num (n : Int)
  | str (s : String)
  | error (msg : String)
  | typeError
  | referenceError
  deriving DecidableEq, Repr

/-- JavaScript truthiness. -/
def Val.truthy : Val → Bool
  | .undefined => false
  | .null => false
  | .bool b => b
  | .num n => n != 0
  | .str s => s != ""
  | .error _ => true
  | .typeError => true
  | .referenceError => true

/-- String conversion, as used by `'Illegal value for key ' + v`. -/
def Val.toStr : Val → String
  | .undefined => "undefined"
  | .null => "null"
  | .bool b => if b then "true" else "false"
  | .num n => toString n
  | .str s => s
  | .error msg => "Error: " ++ msg
  | .typeError => "TypeError"
  | .referenceError => "ReferenceError"

/-- The content of a link field (`nextA`, `prevA`, `nextW`, `prevW`) of an object. -/
inductive Link where
  | undefined
  | null
  | obj (id : Nat)
  deriving DecidableEq, Repr

/-- Truthiness of a link: only an object reference is truthy. -/
def Link.truthy : Link → Bool
  | .obj _ => true
  | _ => false

/-- The `type` of a `Queue` (`'A'` for the access queue, `'W'` for the write queue); it selects
the link fields `'next' + type` and `'prev' + type` of an entry. -/
inductive QType where
  | A
  | W
  deriving DecidableEq, Repr

/-- A `Queue` object: `head` and `tail` are object identities.  Its `type` is the index under
which the cache holds it. -/
structure Queue where
  head : Nat
  tail : Nat
  deriving DecidableEq, Repr

/-- The heap of `Entry` objects (sentinels included), one map per field. -/
structure Heap where
  key : Nat → Option String
  value : Nat → Val
  writeTime : Nat → Option Nat
  next : QType → Nat → Link
  prev : QType → Nat → Link
  nextId : Nat

/-- The argument `cachespec` of the constructor.  A field that is not a number (or not a
function) is `none` (or `false`). -/
structure CacheSpec where
  maximumWeight : Option Int
  weigherFunction : Option (String → Val → Int)
  maximumSize : Option Int
  expiresAfterWrite : Option Int
  loaderFunction : Bool
  onRemove : Bool
  recordStats : Bool

/-- The object `this._spec` that `configure` builds. -/
structure Spec where
  loaderFn : Bool
  expiresAfterWrite : Option Int
  recordStats : Bool
  maxSize : Option Int
  maxWeight : Option Int
  weighFn : Option (String → Val → Int)
  onRemove : Bool

/-- The object `this.stats`. -/
structure Stats where
  hitCount : Nat
  missCount : Nat
  requestCount : Nat
  deriving DecidableEq, Repr

/-- A call of a user-supplied function.  `loader key entry` is a call of the loader: its
completion function belongs to the expired entry `entry`, or to the miss branch when
`entry` is `none`. -/
inductive Event where
  | onRemove (key : String) (value : Val) (cause : String)
  | callback (err : Val) (result : Val)
  | loader (key : String) (entry : Option Nat)
  deriving DecidableEq, Repr

/-- A `Cache` object together with the heap of the entries. -/
structure Cache where
  _spec : Spec
  _accessQueue : Queue
  _writeQueue : Option Queue
  size : Int
  weight : Int
  _cache : String → Option Nat
  stats : Stats
  heap : Heap
  events : List Event

/-- The result of a call: it returned `a`, it threw `e`, or the loop fuel ran out. -/
inductive Res (α : Type) where
  | ok (a : α) (c : Cache)
  | thrown (e : Val) (c : Cache)
  | fuelOut

/-- A method body: a function of the state. -/
def M (α : Type) : Type := Cache → Res α

/-- Sequencing of two statements; a throw ends the sequence. -/
def M.bind {α β : Type} (m : M α) (f : α → M β) : M β := fun c =>
  match m c with
  | .ok a c1 => f a c1
  | .thrown e c1 => .thrown e c1
  | .fuelOut => .fuelOut

instance : Monad M where
  pure a := fun c => .ok a c
  bind := M.bind

/-- The statement `throw e`. -/
def throw (e : Val) {α : Type} : M α := fun c => .thrown e c

/-- Read the state. -/
def getState : M Cache := fun c => .ok c c

/-- Apply a state change that cannot throw. -/
def modify (f : Cache → Cache) : M Unit := fun c => .ok () (f c)

/-- The block `try { m } catch (e) { err = e }`: returns the value of `err` afterwards, when it
was `undefined` before. -/
def tryCatch (m : M Unit) : M Val := fun c =>
  match m c with
  | .ok _ c1 => .ok .undefined c1
  | .thrown e c1 => .ok e c1
  | .fuelOut => .fuelOut

/-- The constants `_REMOVAL_CAUSE_I`, `_REMOVAL_CAUSE_C`, `_REMOVAL_CAUSE_E`. -/
def _REMOVAL_CAUSE_I : String := "explicit"

def _REMOVAL_CAUSE_C : String := "capacity"

def _REMOVAL_CAUSE_E : String := "expired"

/-! ## Heap access -/

/-- The name under which a key is a property of `this._cache`. -/
def propKey (k : Option String) : String := k.getD "undefined"

/-- Write `this['next' + queue.type] = v`. -/
def Heap.setNext (h : Heap) (q : QType) (e : Nat) (v : Link) : Heap :=
  { h with next := Function.update h.next q (Function.update (h.next q) e v) }

/-- Write `this['prev' + queue.type] = v`. -/
def Heap.setPrev (h : Heap) (q : QType) (e : Nat) (v : Link) : Heap :=
  { h with prev := Function.update h.prev q (Function.update (h.prev q) e v) }

/-- A new object without own fields, as made by `Object.create(Entry.prototype)`. -/
def Heap.alloc (h : Heap) : Heap :=
  { key := Function.update h.key h.nextId none
    value := Function.update h.value h.nextId .undefined
    writeTime := Function.update h.writeTime h.nextId none
    next := fun q => Function.update (h.next q) h.nextId .undefined
    prev := fun q => Function.update (h.prev q) h.nextId .undefined
    nextId := h.nextId + 1 }

/-- The queue object behind `this._accessQueue` or `this._writeQueue`. -/
def Cache.queue (c : Cache) : QType → Option Queue
  | .A => some c._accessQueue
  | .W => c._writeQueue

/-- Assign to `queue.head`. -/
def Cache.setHead (c : Cache) (q : QType) (e : Nat) : Cache :=
  match q with
  | .A => { c with _accessQueue := { c._accessQueue with head := e } }
  | .W => { c with _writeQueue := c._writeQueue.map fun Q => { Q with head := e } }

/-- Assign to `queue.tail`. -/
def Cache.setTail (c : Cache) (q : QType) (e : Nat) : Cache :=
  match q with
  | .A => { c with _accessQueue := { c._accessQueue with tail := e } }
  | .W => { c with _writeQueue := c._writeQueue.map fun Q => { Q with tail := e } }

/-- Record a call of a user-supplied function. -/
def emit (ev : Event) : M Unit := modify fun c => { c with events := c.events ++ [ev] }

/-- The call `callback.apply(null, [err, result])`; without a supplied callback the default
empty function is called, which nobody observes. -/
def callCallback (callback : Bool) (err result : Val) : M Unit :=
  if callback then emit (.callback err result) else pure ()

/-! ## `Entry` -/

namespace Entry

/-- The method `Entry.prototype.next`: with `e` not `undefined` it assigns, and it returns the field. -/
def next (this : Nat) (queue : QType) (e : Link) : M Link := fun c =>
  if e ≠ .undefined then
    .ok e { c with heap := c.heap.setNext queue this e }
  else
    .ok (c.heap.next queue this) c

/-- The method `Entry.prototype.prev`: with `e` not `undefined` it assigns, and it returns the field. -/
def prev (this : Nat) (queue : QType) (e : Link) : M Link := fun c =>
  if e ≠ .undefined then
    .ok e { c with heap := c.heap.setPrev queue this e }
  else
    .ok (c.heap.prev queue this) c

/-- A method call `l.f(...)` on the content of a link: a `TypeError` unless it is an object. -/
def callOn {α : Type} (l : Link) (f : Nat → M α) : M α :=
  match l with
  | .obj id => f id
  | _ => throw .typeError

/-- The method `Entry.prototype.setValue`. -/
def setValue (this : Nat) (v : Val) : M Unit :=
  if v = .undefined ∨ v = .null then
    throw (.error ("Illegal value for key " ++ v.toStr))
  else
    modify fun c => { c with heap := { c.heap with value := Function.update c.heap.value this v } }

/-- The assignment `this.writeTime = Date.now()`. -/
def setWriteTime (this : Nat) (now : Nat) : M Unit :=
  modify fun c =>
    { c with heap := { c.heap with writeTime := Function.update c.heap.writeTime this (some now) } }

/-- The constructor `new Entry(key, value)`.  An illegal value throws before the object is
reachable from anywhere, so the state is then left as it was. -/
def new (now : Nat) (key : String) (value : Val) : M Nat := fun c =>
  if value = .undefined ∨ value = .null then
    .thrown (.error ("Illegal value for key " ++ value.toStr)) c
  else
    let h := c.heap.alloc
    .ok c.heap.nextId
      { c with heap := { h with key := Function.update h.key c.heap.nextId (some key)
                                value := Function.update h.value c.heap.nextId value
                                writeTime := Function.update h.writeTime c.heap.nextId (some now) } }

/-- The method `Entry.prototype.moveToHead`. -/
def moveToHead (this : Nat) (queue : QType) : M Unit := do
  let c ← getState
  match c.queue queue with
  | some Q =>
    let head := Q.head
    let _ ← next this queue (.obj head)
    let _ ← prev head queue (.obj this)
    modify fun c => c.setHead queue this
  | none => pure ()

/-- The method `Entry.prototype.isExpired`. -/
def isExpired (this : Nat) (now : Nat) (c : Cache) : Bool :=
  match c._spec.expiresAfterWrite with
  | some exp =>
    (exp != 0 && decide (exp > 0)) &&
      (match c.heap.writeTime this with
       | some w => decide ((now : Int) - (w : Int) > exp)
       | none => false)
  | none => false

/-- The method `Entry.prototype.remove`. -/
def remove (this : Nat) (queue : QType) : M Unit := do
  let c ← getState
  match c.queue queue with
  | some _ =>
    let ePrev ← prev this queue .undefined
    let eNext ← next this queue .undefined
    if ePrev.truthy then
      let _ ← callOn ePrev fun p => next p queue eNext
      let _ ← callOn eNext fun n => prev n queue ePrev
    else
      let _ ← callOn eNext fun n => prev n queue .null
      callOn eNext fun n => modify fun c => c.setHead queue n
    let nn ← callOn eNext fun n => next n queue .undefined
    if !nn.truthy then
      callOn eNext fun n => modify fun c => c.setTail queue n
    let _ ← next this queue .null
    let _ ← prev this queue .null
  | none => pure ()

end Entry

/-- The constructor `new Queue(type)`: head and tail are one new sentinel object. -/
def Queue.new : M Queue := fun c =>
  .ok { head := c.heap.nextId, tail := c.heap.nextId } { c with heap := c.heap.alloc }

namespace Cache

/-- The method `_init`. -/
def _init : M Unit := do
  let qa ← Queue.new
  modify fun c => { c with _accessQueue := qa }
  let c ← getState
  if (match c._spec.expiresAfterWrite with | some exp => exp != 0 | none => false) then
    let qw ← Queue.new
    modify fun c => { c with _writeQueue := some qw }
  else
    modify fun c => { c with _writeQueue := none }
  modify fun c =>
    { c with size := 0, weight := 0, _cache := fun _ => none,
             stats := { hitCount := 0, missCount := 0, requestCount := 0 } }

/-- The function `configure` of the constructor: the error it throws, or `this._spec`. -/
def configure (inSpec : CacheSpec) : Except Val Spec :=
  let maxWeight := inSpec.maximumWeight
  let weighFn := inSpec.weigherFunction
  let maxSize := inSpec.maximumSize
  let isMaxW : Bool := match maxWeight with
    | some w => decide (w > -1)
    | none => false
  let isWFn : Bool := weighFn.isSome
  if (!isMaxW && isWFn) || (isMaxW && !isWFn) then
    .error (.error "Maximum weight or weight function has illegal values")
  else if isMaxW && isWFn && (match maxSize with | some s => decide (s > -1) | none => false) then
    .error (.error "Both max weight and size can't be configured")
  else
    .ok { loaderFn := inSpec.loaderFunction
          expiresAfterWrite := inSpec.expiresAfterWrite.map fun d => d * 1000
          recordStats := inSpec.recordStats
          maxSize := maxSize
          maxWeight := maxWeight
          weighFn := weighFn
          onRemove := inSpec.onRemove }

/-- The object on which the constructor starts: no field is set and no object exists yet. -/
def blank (s : Spec) : Cache :=
  { _spec := s
    _accessQueue := { head := 0, tail := 0 }
    _writeQueue := none
    size := 0
    weight := 0
    _cache := fun _ => none
    stats := { hitCount := 0, missCount := 0, requestCount := 0 }
    heap := { key := fun _ => none, value := fun _ => .undefined, writeTime := fun _ => none,
              next := fun _ _ => .undefined, prev := fun _ _ => .undefined, nextId := 0 }
    events := [] }

/-- The constructor `new Cache(cachespec)`: the configuration error, or the new cache. -/
def new (cachespec : CacheSpec) : Except Val Cache :=
  match configure cachespec with
  | .error e => .error e
  | .ok s =>
    match _init (blank s) with
    | .ok _ c => .ok c
    | .thrown e _ => .error e
    | .fuelOut => .error .undefined

/-- The method `_notify`. -/
def _notify (entry : Nat) (cause : String) : M Unit := do
  let c ← getState
  if c._spec.onRemove then
    emit (.onRemove (propKey (c.heap.key entry)) (c.heap.value entry) cause)

/-- The method `_updateCacheSize`. -/
def _updateCacheSize (entry : Nat) (incr : Bool) : M Unit := do
  let c ← getState
  if (match c._spec.maxWeight with | some w => w != 0 | none => false) then
    match c._spec.weighFn with
    | some weighFn =>
      let w := weighFn (propKey (c.heap.key entry)) (c.heap.value entry)
      modify fun c => { c with weight := c.weight + (if incr then w else -w) }
    | none => throw .typeError
  modify fun c => { c with size := c.size + (if incr then 1 else -1) }

/-- The method `_promoteEntry`; `queue` is `this._accessQueue` or `this._writeQueue`. -/
def _promoteEntry (entry : Nat) (queue : QType) : M Unit := do
  let c ← getState
  if (c.queue queue).isSome && (c.heap.prev queue entry).truthy then
    Entry.remove entry queue
    Entry.moveToHead entry queue

/-- The method `_rmEntry`; `entry` is `none` when the argument is `undefined`. -/
def _rmEntry (entry : Option Nat) (cause : String) : M Unit :=
  match entry with
  | none => throw .typeError
  | some e => do
    Entry.remove e .A
    Entry.remove e .W
    _updateCacheSize e false
    modify fun c => { c with _cache := Function.update c._cache (propKey (c.heap.key e)) none }
    _notify e cause

/-- The method `_canReap`. -/
def _canReap (c : Cache) : Bool :=
  (match c._spec.maxSize with
   | some m => m != 0 && decide (c.size ≥ m)
   | none => false) ||
  (match c._spec.maxWeight with
   | some m => m != 0 && decide (c.weight > m)
   | none => false)

/-- The first loop of `_cleanup`: `while (lruEntry && lruEntry.isExpired(this))` over the write
queue. -/
def cleanupExpired (now : Nat) : Nat → Link → M Unit
  | 0, _ => fun _ => .fuelOut
  | fuel + 1, lruEntry => do
    let c ← getState
    match lruEntry with
    | .obj e =>
      if Entry.isExpired e now c then
        let next ← Entry.prev e .W .undefined
        _rmEntry (some e) _REMOVAL_CAUSE_E
        cleanupExpired now fuel next
    | _ => pure ()

/-- The second loop of `_cleanup`: `while (lruEntry && this._canReap())` over the access queue. -/
def cleanupCapacity : Nat → Link → M Unit
  | 0, _ => fun _ => .fuelOut
  | fuel + 1, lruEntry => do
    let c ← getState
    match lruEntry with
    | .obj e =>
      if _canReap c then
        let next ← Entry.prev e .A .undefined
        _rmEntry (some e) _REMOVAL_CAUSE_C
        cleanupCapacity fuel next
    | _ => pure ()

/-- The method `_cleanup`. -/
def _cleanup (now fuel : Nat) (capacity : Bool) : M Unit := do
  let c ← getState
  match c._writeQueue with
  | some queue =>
    let lruEntry ← Entry.prev queue.tail .W .undefined
    cleanupExpired now fuel lruEntry
  | none => pure ()
  if capacity then
    let c ← getState
    let lruEntry ← Entry.prev c._accessQueue.tail .A .undefined
    cleanupCapacity fuel lruEntry

/-- The method `_createEntry`. -/
def _createEntry (now fuel : Nat) (key : String) (value : Val) : M Nat := do
  let entry ← Entry.new now key value
  _cleanup now fuel true
  modify fun c => { c with _cache := Function.update c._cache key (some entry) }
  _updateCacheSize entry true
  Entry.moveToHead entry .A
  Entry.moveToHead entry .W
  pure entry

/-- The method `put`; it has no `return` statement. -/
def put (now fuel : Nat) (key : String) (value : Val) : M Val := do
  let c ← getState
  match c._cache key with
  | none =>
    let _ ← _createEntry now fuel key value
  | some ex =>
    Entry.setValue ex value
    Entry.setWriteTime ex now
    _promoteEntry ex .A
    _promoteEntry ex .W
    _cleanup now fuel false
  pure .undefined

/-- The completion function that `get` hands to the loader for a present, expired `entry`. -/
def reloaded (entry : Nat) (callback : Bool) (error result : Val) : M Unit := do
  let err ←
    if !error.truthy then
      tryCatch do
        _notify entry _REMOVAL_CAUSE_E
        Entry.setValue entry result
        _promoteEntry entry .A
        _promoteEntry entry .W
    else
      pure error
  callCallback callback err result

/-- The completion function that `get` hands to the loader for an absent `key`. -/
def loaded (now fuel : Nat) (key : String) (callback : Bool) (error result : Val) : M Unit := do
  let err ←
    if !error.truthy then
      tryCatch do
        let _ ← _createEntry now fuel key result
    else
      pure error
  callCallback callback err result

/-- The method `get(key, callback, suppressLoad)`; it has no `return` statement.  A call of the
loader is recorded as an event; the loader's completion is the later call of `reloaded` or
`loaded`. -/
def get (now : Nat) (key : String) (callback : Bool) (suppressLoad : Bool) : M Val := do
  modify fun c => { c with stats := { c.stats with requestCount := c.stats.requestCount + 1 } }
  let c ← getState
  let loaderFn := c._spec.loaderFn
  match c._cache key with
  | some entry =>
    if !Entry.isExpired entry now c then
      _promoteEntry entry .A
      let ret := c.heap.value entry
      modify fun c => { c with stats := { c.stats with hitCount := c.stats.hitCount + 1 } }
      callCallback callback .null ret
    else
      if loaderFn && !suppressLoad then
        emit (.loader key (some entry))
      else
        _rmEntry (some entry) _REMOVAL_CAUSE_E
        callCallback callback .null .undefined
  | none =>
    if loaderFn && !suppressLoad then
      emit (.loader key none)
    modify fun c => { c with stats := { c.stats with missCount := c.stats.missCount + 1 } }
  pure .undefined

/-- The method `getIfPresent`. -/
def getIfPresent (now : Nat) (key : String) : M Val :=
  get now key false true

/-- The method `invalidate`. -/
def invalidate (key : String) : M Unit := do
  let c ← getState
  _rmEntry (c._cache key) _REMOVAL_CAUSE_I

/-- The method `invalidateAll`. -/
def invalidateAll : M Unit :=
  _init

end Cache

end Dsjslib
namespace Dsjslib

/-! ## The abstract content of a queue -/

/-- The successor of `e` in the list `l ++ [s]`. -/
def nextOf (s : Nat) : List Nat → Nat → Nat
  | [], _ => s
  | a :: r, e => if e = a then r.headD s else nextOf s r e

/-- The predecessor of `e` in the list `l`, which follows an element `p` (if any); for an `e`
outside `l` it is the last element. -/
def prevOf : Option Nat → List Nat → Nat → Option Nat
  | p, [], _ => p
  | p, a :: r, e => if e = a then p else prevOf (some a) r e

/-- A link field holds the optional object `o`: a falsy content stands for `none`. -/
def Link.Rep (k : Link) : Option Nat → Prop
  | none => k.truthy = false
  | some x => k = .obj x

/-- The link fields `nx`, `pv` and the queue object `Q` hold the list `l`, most recently promoted
first: `head` is the first entry, the last entry is followed by the sentinel `tail`. -/
structure QRep (nx pv : Nat → Link) (Q : Queue) (l : List Nat) : Prop where
  nodup : l.Nodup
  tail_not_mem : Q.tail ∉ l
  head_eq : Q.head = l.headD Q.tail
  next_eq : ∀ e ∈ l, nx e = .obj (nextOf Q.tail l e)
  next_tail : (nx Q.tail).truthy = false
  prev_eq : ∀ e, e ∈ l ∨ e = Q.tail → Link.Rep (pv e) (prevOf none l e)
  prev_out : ∀ e, e ∉ l → e ≠ Q.tail → (pv e).truthy = false

/-- Replace the queue object of type `q`. -/
def Cache.setQueue (c : Cache) (q : QType) (Q : Queue) : Cache :=
  match q with
  | .A => { c with _accessQueue := Q }
  | .W => { c with _writeQueue := some Q }

/-- Replace the link fields and the queue object of type `q`. -/
def Cache.withQ (c : Cache) (q : QType) (nx pv : Nat → Link) (Q : Queue) : Cache :=
  Cache.setQueue
    { c with heap := { c.heap with next := Function.update c.heap.next q nx
                                   prev := Function.update c.heap.prev q pv } } q Q

end Dsjslib
namespace Dsjslib

/-- The representation invariant of a cache: the access queue holds the list `la` and the write
queue (if there is one) holds the list `lw`, both most recent first; every entry of the mapping
is an entry of `la` and stands under its own key; `size` is the length of `la`. -/
structure Rep (c : Cache) (la lw : List Nat) : Prop where
  qa : QRep (c.heap.next .A) (c.heap.prev .A) c._accessQueue la
  qw : ∀ Qw, c._writeQueue = some Qw →
    QRep (c.heap.next .W) (c.heap.prev .W) Qw lw ∧ lw.Perm la ∧ Qw.tail < c.heap.nextId ∧
      c.heap.key Qw.tail = none
  wq : c._writeQueue.isSome =
    (match c._spec.expiresAfterWrite with
     | some exp => exp != 0
     | none => false)
  map : ∀ k e, c._cache k = some e → e ∈ la ∧ c.heap.key e = some k
  keyed : ∀ e ∈ la, ∃ k, c.heap.key e = some k
  size_eq : c.size = la.length
  alloc : ∀ e ∈ la, e < c.heap.nextId
  tail_alloc : c._accessQueue.tail < c.heap.nextId
  tail_key : c.heap.key c._accessQueue.tail = none
  weigh : ∀ w, c._spec.maxWeight = some w → w ≠ 0 → c._spec.weighFn.isSome

/-- Every entry of the queue is the entry that the mapping holds for its key: no key has two
entries. -/
def Strong (c : Cache) (la : List Nat) : Prop :=
  ∀ e ∈ la, ∀ k, c.heap.key e = some k → c._cache k = some e

/-- A well-formed cache state: the queues, the mapping and `size` agree, with one entry per
key. -/
def WF (c : Cache) : Prop := ∃ la lw, Rep c la lw ∧ Strong c la

/-- The parts of the state that relinking and removal leave alone. -/
structure Same (c c2 : Cache) : Prop where
  spec : c2._spec = c._spec
  key : c2.heap.key = c.heap.key
  value : c2.heap.value = c.heap.value
  writeTime : c2.heap.writeTime = c.heap.writeTime
  nextId : c2.heap.nextId = c.heap.nextId
  stats : c2.stats = c.stats
  atail : c2._accessQueue.tail = c._accessQueue.tail
  wtail : c2._writeQueue.map Queue.tail = c._writeQueue.map Queue.tail

end Dsjslib
namespace Dsjslib

/-- The write queue, when there is one, holds the list `lw`. -/
def WRep (c : Cache) (lw : List Nat) : Prop :=
  ∀ Qw, c._writeQueue = some Qw → QRep (c.heap.next .W) (c.heap.prev .W) Qw lw

/-- The state `c2` differs from `c` at most in the write queue and its link fields. -/
structure OnlyW (c c2 : Cache) : Prop where
  spec : c2._spec = c._spec
  accessQueue : c2._accessQueue = c._accessQueue
  size : c2.size = c.size
  weight : c2.weight = c.weight
  cache : c2._cache = c._cache
  stats : c2.stats = c.stats
  events : c2.events = c.events
  key : c2.heap.key = c.heap.key
  value : c2.heap.value = c.heap.value
  writeTime : c2.heap.writeTime = c.heap.writeTime
  nextId : c2.heap.nextId = c.heap.nextId
  nextA : c2.heap.next .A = c.heap.next .A
  prevA : c2.heap.prev .A = c.heap.prev .A
  tail : c2._writeQueue.map Queue.tail = c._writeQueue.map Queue.tail

/-- The removal notifications for the entries `rm`, in order, read in the state `c`. -/
def notes (c : Cache) (cause : String) (rm : List Nat) : List Event :=
  if c._spec.onRemove then
    rm.map fun e => Event.onRemove (propKey (c.heap.key e)) (c.heap.value e) cause
  else []

/-- The mapping `m` after `delete this._cache[entry.key]` for the entries `rm`, in order. -/
def delKeys (c : Cache) (rm : List Nat) (m : String → Option Nat) : String → Option Nat :=
  rm.foldl (fun m e => Function.update m (propKey (c.heap.key e)) none) m

/-- The cache evicts by size only: `maximumSize` is the number `N >= 1` and there are no weight
settings. -/
def SizeMode (c : Cache) (N : Int) : Prop :=
  c._spec.maxSize = some N ∧ 1 ≤ N ∧ c._spec.maxWeight = none

/-- What `_cleanup` achieves from a state `c` that holds `la` and `lw`: the expiry scan removes
the entries `rmE` and leaves `la1`, `lw1`; the capacity scan then removes `rmC` and leaves
`la2`, `lw2` in the state `c2`. -/
structure CleanupPost (now : Nat) (capacity : Bool) (c : Cache) (la lw : List Nat) (c2 : Cache)
    (la2 lw2 rmE rmC la1 lw1 : List Nat) : Prop where
  rep : Rep c2 la2 lw2
  same : Same c c2
  la_perm : la.Perm (rmE ++ la1)
  la_sub : la1.Sublist la
  la_split : la1 = la2 ++ rmC.reverse
  lw_split : c._writeQueue.isSome → lw = lw1 ++ rmE.reverse
  lw_sub : lw2.Sublist lw1
  noqueue : c._writeQueue = none → lw1 = lw ∧ rmE = [] ∧ la1 = la
  events : c2.events = c.events ++ notes c _REMOVAL_CAUSE_E rmE ++ notes c _REMOVAL_CAUSE_C rmC
  strong : Strong c la → Strong c2 la2
  cache : c2._cache = delKeys c rmC (delKeys c rmE c._cache)
  expired : ∀ e ∈ rmE, Entry.isExpired e now c = true
  live : ∀ Qw, c._writeQueue = some Qw →
    ∀ e, prevOf none lw1 Qw.tail = some e → Entry.isExpired e now c = false
  cap : capacity = true → la2 = [] ∨ Cache._canReap c2 = false
  nocap : capacity = false → rmC = []
  sized : ∀ N : Int, SizeMode c N → capacity = true → (la1.length : Int) ≥ N →
    (la2.length : Int) = N - 1
  idle : rmE = [] → (capacity = true → Cache._canReap c = false) → c2 = c ∧ la2 = la ∧ rmC = []

/-- The state after `new Entry(key, value)` with a legal value: the new object is
`c.heap.nextId`. -/
def allocEntry (now : Nat) (key : String) (value : Val) (c : Cache) : Cache :=
  { c with heap := { c.heap.alloc with
      key := Function.update c.heap.alloc.key c.heap.nextId (some key)
      value := Function.update c.heap.alloc.value c.heap.nextId value
      writeTime := Function.update c.heap.alloc.writeTime c.heap.nextId (some now) } }

/-- The state after `exists.setValue(value); exists.writeTime = Date.now()` with a legal value. -/
def overwrite (ex now : Nat) (value : Val) (c : Cache) : Cache :=
  { c with heap := { c.heap with
      value := Function.update c.heap.value ex value
      writeTime := Function.update c.heap.writeTime ex (some now) } }

/-- A value that `setValue` accepts. -/
def Val.legal (v : Val) : Prop := v ≠ .undefined ∧ v ≠ .null

instance (v : Val) : Decidable v.legal := by
  unfold Val.legal; exact inferInstance

/-- The state after `this._cache[key] = entry; this._updateCacheSize(entry, true)`, with the
new weight `w`. -/
def inserted (c : Cache) (key : String) (x : Nat) (w : Int) : Cache :=
  { c with _cache := Function.update c._cache key (some x), weight := w, size := c.size + 1 }

/-- The state `c` with other counters and a longer record of calls: what a read changes besides
the queues. -/
def got (c : Cache) (stats : Stats) (events : List Event) : Cache :=
  { c with stats := stats, events := events }

/-- The record of `callback.apply(null, [err, result])`, when a callback was supplied. -/
def cbEvents (callback : Bool) (err result : Val) : List Event :=
  if callback then [Event.callback err result] else []

/-- Whether `_init` makes a write queue: `this._spec.expiresAfterWrite` is truthy. -/
def Spec.hasWriteQueue (s : Spec) : Bool :=
  match s.expiresAfterWrite with
  | some exp => exp != 0
  | none => false

/-- The state after `_init`: new sentinels and queues, an empty mapping, and new counters. -/
def initState (c : Cache) : Cache :=
  { c with
    _accessQueue := Queue.mk c.heap.nextId c.heap.nextId
    _writeQueue :=
      if c._spec.hasWriteQueue then some (Queue.mk (c.heap.nextId + 1) (c.heap.nextId + 1))
      else none
    size := 0
    weight := 0
    _cache := fun _ => none
    stats := Stats.mk 0 0 0
    heap := if c._spec.hasWriteQueue then c.heap.alloc.alloc else c.heap.alloc }

end Dsjslib
namespace Dsjslib

/-! ## Observing the result of a call, and sequences of calls -/

/-- The state in which a call ends, whether it returned or threw. -/
def Res.state? {α : Type} : Res α → Option Cache
  | .ok _ c => some c
  | .thrown _ c => some c
  | .fuelOut => none

/-- The value that a call returned. -/
def Res.value? {α : Type} : Res α → Option α
  | .ok a _ => some a
  | _ => none

/-- The exception that a call threw. -/
def Res.error? {α : Type} : Res α → Option Val
  | .thrown e _ => some e
  | _ => none

/-- The state after a call, for runs on concrete input; a run that is out of fuel stays where
it was. -/
def Res.stateD {α : Type} (r : Res α) (c : Cache) : Cache :=
  (r.state?).getD c

/-- A configuration without any setting. -/
def CacheSpec.none : CacheSpec :=
  { maximumWeight := Option.none, weigherFunction := Option.none, maximumSize := Option.none,
    expiresAfterWrite := Option.none, loaderFunction := false, onRemove := false,
    recordStats := false }

/-- The cache that the constructor returns; for a configuration that it rejects, the blank
object. -/
def Cache.make (cs : CacheSpec) : Cache :=
  match Cache.new cs with
  | .ok c => c
  | .error _ =>
    Cache.blank { loaderFn := false, expiresAfterWrite := Option.none, recordStats := false,
                  maxSize := Option.none, maxWeight := Option.none, weighFn := Option.none,
                  onRemove := false }

/-- A call of the public interface, with the time at which it reads the clock. -/
inductive Op where
  | put (now : Nat) (key : String) (value : Val)
  | get (now : Nat) (key : String)
  | getIfPresent (now : Nat) (key : String)
  | invalidate (key : String)
  deriving DecidableEq, Repr

/-- Run one call; the caller goes on after an exception, in the state that the call left. -/
def Op.run (fuel : Nat) : Op → Cache → Option Cache
  | .put now key value, c => (Cache.put now fuel key value c).state?
  | .get now key, c => (Cache.get now key true false c).state?
  | .getIfPresent now key, c => (Cache.getIfPresent now key c).state?
  | .invalidate key, c => (Cache.invalidate key c).state?

/-- Run a sequence of calls. -/
def runOps (fuel : Nat) : List Op → Cache → Option Cache
  | [], c => some c
  | op :: ops, c =>
    match op.run fuel c with
    | some c1 => runOps fuel ops c1
    | none => Option.none

/-- The calls read a clock that does not go back from `t0`. -/
def Clocked : Nat → List Op → Prop
  | _, [] => True
  | t0, .put now _ _ :: ops => t0 ≤ now ∧ Clocked now ops
  | t0, .get now _ :: ops => t0 ≤ now ∧ Clocked now ops
  | t0, .getIfPresent now _ :: ops => t0 ≤ now ∧ Clocked now ops
  | t0, .invalidate _ :: ops => Clocked t0 ops

/-- A bound is given: the setting is a number above `-1`. -/
def Bound (x : Option Int) : Prop := ∃ n, x = some n ∧ -1 < n

end Dsjslib
/-!
# dsjslib: the binary search tree (`src/BinarySearchTree.js`)

Nodes are objects of a heap (a list indexed by object identity); a `null` field is `none`.
Loops and recursion run on fuel.
-/

namespace Dsjslib

namespace BinarySearchTree

/-- A node object made by `mkNode_`. -/
structure Node where
  item : Int
  value : Val
  parent : Option Nat
  leftChild : Option Nat
  rightChild : Option Nat
  height : Int
  deriving DecidableEq, Repr

/-- A `BinarySearchTree` object with the heap of its nodes. -/
structure Tree where
  root : Option Nat
  nodes : List Node
  deriving DecidableEq, Repr

/-- The result of a call on a tree: it returned `a`, it threw `e`, or the fuel ran out. -/
inductive TRes (α : Type) where
  | ok (a : α) (t : Tree)
  | thrown (e : Val) (t : Tree)
  | fuelOut
  deriving DecidableEq, Repr

/-- What `get`, `successor` and `predecessor` return: `undefined`, `null`, or the object
`{key, value}`. -/
inductive KV where
  | undefined
  | null
  | kv (key : Int) (value : Val)
  deriving DecidableEq, Repr

/-- The constructor: `this.root = null`. -/
def new : Tree := { root := none, nodes := [] }

/-- The node object with identity `n`; the default stands for an identity that is not in use. -/
def Tree.node (t : Tree) (n : Nat) : Node :=
  t.nodes.getD n { item := 0, value := .undefined, parent := none, leftChild := none,
                   rightChild := none, height := 0 }

/-- Replace the node object with identity `n`. -/
def Tree.setNode (t : Tree) (n : Nat) (nd : Node) : Tree :=
  { t with nodes := t.nodes.set n nd }

/-- The method `mkNode_(item, val, parent)`: the identity of the new node and the new heap. -/
def mkNode_ (t : Tree) (item : Int) (val : Val) (parent : Option Nat) : Nat × Tree :=
  (t.nodes.length,
    { t with nodes := t.nodes ++ [{ item := item, value := val, parent := parent,
                                    leftChild := none, rightChild := none, height := 0 }] })

/-- The loop of `reCalcHeight`. -/
def reCalcHeight : Nat → Option Nat → Tree → Option Tree
  | 0, _, _ => none
  | _ + 1, none, t => some t
  | fuel + 1, some p, t =>
    let nd := t.node p
    let hl : Int := match nd.leftChild with
      | some l => (t.node l).height
      | none => -1
    let hr : Int := match nd.rightChild with
      | some r => (t.node r).height
      | none => -1
    reCalcHeight fuel nd.parent (t.setNode p { nd with height := max hl hr + 1 })

/-- The descent loop of `put`: from `cNode` down to the parent `pNode` of the new node and the
side `isLeft` on which it goes. -/
def putDescend (t : Tree) (key : Int) : Nat → Option Nat → Option Nat → Bool →
    Option (Option Nat × Bool)
  | 0, _, _, _ => none
  | _ + 1, none, pNode, isLeft => some (pNode, isLeft)
  | fuel + 1, some c, _, _ =>
    if key < (t.node c).item then putDescend t key fuel (t.node c).leftChild (some c) true
    else putDescend t key fuel (t.node c).rightChild (some c) false

/-- The method `put`.  It returns `this` or an object with a `put` method; the model returns the
identity of the inserted node. -/
def put (fuel : Nat) (key : Int) (value : Val) (t : Tree) : TRes Nat :=
  match t.root with
  | none =>
    let (n, t1) := mkNode_ t key value none
    .ok n { t1 with root := some n }
  | some r =>
    match putDescend t key fuel (some r) none false with
    | none => .fuelOut
    | some (none, _) => .thrown .typeError t
    | some (some p, isLeft) =>
      let (n, t1) := mkNode_ t key value (some p)
      let pd := t1.node p
      let t2 := t1.setNode p
        (if isLeft then { pd with leftChild := some n } else { pd with rightChild := some n })
      match reCalcHeight fuel (some n) t2 with
      | some t3 => .ok n t3
      | none => .fuelOut

/-- The function `recFind` of `get`: the node with the key, or `null`. -/
def recFind (t : Tree) (key : Int) : Nat → Option Nat → Option (Option Nat)
  | 0, _ => none
  | _ + 1, none => some none
  | fuel + 1, some n =>
    if key < (t.node n).item then recFind t key fuel (t.node n).leftChild
    else if key > (t.node n).item then recFind t key fuel (t.node n).rightChild
    else some (some n)

/-- The call `get(key)` with one argument: the object `{key, value}` or `null`. -/
def get (fuel : Nat) (key : Int) (t : Tree) : TRes KV :=
  match recFind t key fuel t.root with
  | none => .fuelOut
  | some none => .ok .null t
  | some (some n) => .ok (.kv (t.node n).item (t.node n).value) t

/-- The function `minNode`. -/
def minNode (t : Tree) : Nat → Nat → Option Nat
  | 0, _ => none
  | fuel + 1, m =>
    match (t.node m).leftChild with
    | some l => minNode t fuel l
    | none => some m

/-- The function `maxNode`. -/
def maxNode (t : Tree) : Nat → Nat → Option Nat
  | 0, _ => none
  | fuel + 1, m =>
    match (t.node m).rightChild with
    | some r => maxNode t fuel r
    | none => some m

/-- The climbing loop of `successorNode`: `while (sp && sp.leftChild !== p)`. -/
def climbLeft (t : Tree) : Nat → Option Nat → Option Nat → Option (Option Nat)
  | 0, _, _ => none
  | _ + 1, _, none => some none
  | fuel + 1, p, some sp =>
    if (t.node sp).leftChild ≠ p then
      let p2 := p.bind fun x => (t.node x).parent
      climbLeft t fuel p2 (p2.bind fun x => (t.node x).parent)
    else some (some sp)

/-- The climbing loop of `predecessorNode`: `while (sp && sp.rightChild !== p)`. -/
def climbRight (t : Tree) : Nat → Option Nat → Option Nat → Option (Option Nat)
  | 0, _, _ => none
  | _ + 1, _, none => some none
  | fuel + 1, p, some sp =>
    if (t.node sp).rightChild ≠ p then
      let p2 := p.bind fun x => (t.node x).parent
      climbRight t fuel p2 (p2.bind fun x => (t.node x).parent)
    else some (some sp)

/-- Lift a fuel-bounded search to a result. -/
def ofFuel (t : Tree) : Option (Option Nat) → TRes Link
  | none => .fuelOut
  | some none => .ok .null t
  | some (some n) => .ok (.obj n) t

/-- The function `successorNode`; `node` is `none` for `null`. -/
def successorNode (fuel : Nat) (node : Option Nat) (t : Tree) : TRes Link :=
  match node with
  | none => .ok .undefined t
  | some n =>
    match (t.node n).parent with
    | none => .thrown .typeError t
    | some p =>
      if (t.node p).leftChild = some n then
        match (t.node n).rightChild with
        | some rc => ofFuel t ((minNode t fuel rc).map some)
        | none => .ok (.obj p) t
      else if (t.node p).rightChild = some n then
        match (t.node n).rightChild with
        | some rc => ofFuel t ((minNode t fuel rc).map some)
        | none => ofFuel t (climbLeft t fuel (some p) (t.node p).parent)
      else .ok .undefined t

/-- The expression `sc && {key: sc.item, value: sc.value}`. -/
def toKV (t : Tree) : Link → KV
  | .undefined => .undefined
  | .null => .null
  | .obj n => .kv (t.node n).item (t.node n).value

/-- The method `successor`. -/
def successor (fuel : Nat) (item : Int) (t : Tree) : TRes KV :=
  match recFind t item fuel t.root with
  | none => .fuelOut
  | some node =>
    match successorNode fuel node t with
    | .ok sc t1 => .ok (toKV t1 sc) t1
    | .thrown e t1 => .thrown e t1
    | .fuelOut => .fuelOut

/-- The function `predecessorNode`; in its second branch the source calls `maxNode(rc)` with a
variable `rc` that is declared nowhere in reach, which is a `ReferenceError`. -/
def predecessorNode (fuel : Nat) (node : Option Nat) (t : Tree) : TRes Link :=
  match node with
  | none => .ok .undefined t
  | some n =>
    match (t.node n).parent with
    | none => .thrown .typeError t
    | some p =>
      if (t.node p).rightChild = some n then
        match (t.node n).leftChild with
        | some lc => ofFuel t ((maxNode t fuel lc).map some)
        | none => .ok (.obj p) t
      else if (t.node p).leftChild = some n then
        match (t.node n).leftChild with
        | some _ => .thrown .referenceError t
        | none => ofFuel t (climbRight t fuel (some p) (t.node p).parent)
      else .ok .undefined t

/-- The method `predecessor`. -/
def predecessor (fuel : Nat) (key : Int) (t : Tree) : TRes KV :=
  match recFind t key fuel t.root with
  | none => .fuelOut
  | some node =>
    match predecessorNode fuel node t with
    | .ok sc t1 => .ok (toKV t1 sc) t1
    | .thrown e t1 => .thrown e t1
    | .fuelOut => .fuelOut

/-- The method `delete`; the recursion of `case 2` runs on the same fuel. -/
def delete : Nat → Int → Tree → TRes Unit
  | 0, _, _ => .fuelOut
  | fuel + 1, item, t =>
    match recFind t item (fuel + 1) t.root with
    | none => .fuelOut
    | some none => .ok () t
    | some (some node) =>
      let nd := t.node node
      match nd.leftChild, nd.rightChild with
      | none, none =>
        match nd.parent with
        | some p =>
          let pd := t.node p
          .ok () (t.setNode p
            (if pd.leftChild = some node then { pd with leftChild := none }
             else { pd with rightChild := none }))
        | none => .ok () t
      | some child, none | none, some child =>
        match nd.parent with
        | some p =>
          let t1 := t.setNode child { t.node child with parent := some p }
          let pd := t1.node p
          .ok () (t1.setNode p
            (if pd.leftChild = some node then { pd with leftChild := some child }
             else { pd with rightChild := some child }))
        | none => .ok () (t.setNode child { t.node child with parent := none })
      | some _, some _ =>
        match successor (fuel + 1) nd.item t with
        | .fuelOut => .fuelOut
        | .thrown e t1 => .thrown e t1
        | .ok (.kv temp _) t1 =>
          match delete fuel temp t1 with
          | .ok _ t2 => .ok () (t2.setNode node { t2.node node with item := temp })
          | .thrown e t2 => .thrown e t2
          | .fuelOut => .fuelOut
        | .ok _ t1 => .thrown .typeError t1

end BinarySearchTree

end Dsjslib
namespace Dsjslib

/-! ## Example runs -/

namespace Example

/-- A weigher: a number weighs its value, any other value weighs 1. -/
def weigher : String → Val → Int := fun _ v =>
  match v with
  | .num n => n
  | _ => 1

/-- The configuration `{maximumWeight: 10, weigherFunction: weigher}`. -/
def weightSpec : CacheSpec :=
  { CacheSpec.none with maximumWeight := some 10, weigherFunction := some weigher }

/-- The configuration `{expiresAfterWrite: 1}`, without a loader. -/
def expirySpec : CacheSpec :=
  { CacheSpec.none with expiresAfterWrite := some 1 }

/-- The configuration `{expiresAfterWrite: 1, loaderFunction: f}`. -/
def loaderSpec : CacheSpec :=
  { CacheSpec.none with expiresAfterWrite := some 1, loaderFunction := true }

/-- The configuration `{maximumSize: n}`. -/
def sizeSpec (n : Int) : CacheSpec :=
  { CacheSpec.none with maximumSize := some n }

/-- Weight mode: `put('a', 100); put('a', 1)`. -/
def overwritten : Cache :=
  let c0 := Cache.make weightSpec
  let c1 := (Cache.put 0 9 "a" (.num 100) c0).stateD c0
  (Cache.put 0 9 "a" (.num 1) c1).stateD c1

/-- Weight mode: `put('a', 1); put('a', 5)`. -/
def reweighed : Cache :=
  let c0 := Cache.make weightSpec
  let c1 := (Cache.put 0 9 "a" (.num 1) c0).stateD c0
  (Cache.put 0 9 "a" (.num 5) c1).stateD c1

/-- With a loader and a one second expiry: `put('k', 1)` at time 0, then `get('k', cb)` at time
2000, whose loader then completes with `(undefined, 7)`. -/
def reloadedOnce : Cache :=
  let c0 := Cache.make loaderSpec
  let c1 := (Cache.put 0 9 "k" (.num 1) c0).stateD c0
  let c2 := (Cache.get 2000 "k" true false c1).stateD c1
  (Cache.reloaded 2 true .undefined (.num 7) c2).stateD c2

/-- Without settings: `get('a', cb)` on the new cache. -/
def missedOnce : Cache :=
  let c0 := Cache.make CacheSpec.none
  (Cache.get 0 "a" true false c0).stateD c0

/-- With a one second expiry and no loader: `put('k', 1)` at time 0. -/
def written : Cache :=
  let c0 := Cache.make expirySpec
  (Cache.put 0 9 "k" (.num 1) c0).stateD c0

/-- With a loader: `get('k', cb)` misses and calls the loader, `put('k', 1)` follows, and then
the loader completes with `(undefined, 2)`. -/
def raced : Cache :=
  let c0 := Cache.make loaderSpec
  let c1 := (Cache.get 0 "k" true false c0).stateD c0
  let c2 := (Cache.put 0 9 "k" (.num 1) c1).stateD c1
  (Cache.loaded 0 9 "k" true .undefined (.num 2) c2).stateD c2

/-- With `maximumSize: 2`: `put('A', 1); put('B', 2); get('A', cb); put('C', 3)`. -/
def lruRun : Cache :=
  let c0 := Cache.make (sizeSpec 2)
  let c1 := (Cache.put 0 9 "A" (.num 1) c0).stateD c0
  let c2 := (Cache.put 1 9 "B" (.num 2) c1).stateD c1
  let c3 := (Cache.get 2 "A" true false c2).stateD c2
  (Cache.put 3 9 "C" (.num 3) c3).stateD c3

/-- The state of a tree after a call, for runs on concrete input. -/
def treeAfter {α : Type} (r : BinarySearchTree.TRes α) : BinarySearchTree.Tree :=
  match r with
  | .ok _ t => t
  | .thrown _ t => t
  | .fuelOut => BinarySearchTree.new

/-- The tree after `put(16, 'sVal'); put(29, 'zzz'); put(29, 'newvalfor29')`. -/
def twice29 : BinarySearchTree.Tree :=
  treeAfter (BinarySearchTree.put 20 29 (.str "newvalfor29")
    (treeAfter (BinarySearchTree.put 20 29 (.str "zzz")
      (treeAfter (BinarySearchTree.put 20 16 (.str "sVal") BinarySearchTree.new)))))

/-- The tree after `put(5, 'a'); put(3, 'b'); put(2, 'c')`. -/
def leftSpine : BinarySearchTree.Tree :=
  treeAfter (BinarySearchTree.put 20 2 (.str "c")
    (treeAfter (BinarySearchTree.put 20 3 (.str "b")
      (treeAfter (BinarySearchTree.put 20 5 (.str "a") BinarySearchTree.new)))))

/-- The tree after `put(1, 'a')`. -/
def single : BinarySearchTree.Tree :=
  treeAfter (BinarySearchTree.put 20 1 (.str "a") BinarySearchTree.new)

/-- The tree after `put(9, 'nine'); put(3, 'three'); put(1, 'one'); put(5, 'five')`: the node
with the key 3 is a left child and has two children. -/
def twoChildren : BinarySearchTree.Tree :=
  treeAfter (BinarySearchTree.put 20 5 (.str "five")
    (treeAfter (BinarySearchTree.put 20 1 (.str "one")
      (treeAfter (BinarySearchTree.put 20 3 (.str "three")
        (treeAfter (BinarySearchTree.put 20 9 (.str "nine") BinarySearchTree.new)))))))

end Example

end Dsjslib
namespace Dsjslib

/-- The write time of an entry, 0 for an object without one. -/
def wtD (c : Cache) (e : Nat) : Nat := (c.heap.writeTime e).getD 0

/-- The entries of `lw` were written at times up to `T`, the later ones first. -/
structure TimeSorted (c : Cache) (lw : List Nat) (T : Nat) : Prop where
  timed : ∀ e ∈ lw, ∃ w, c.heap.writeTime e = some w ∧ w ≤ T
  sorted : lw.Pairwise (fun a b => wtD c b ≤ wtD c a)

/-- The invariant of a cache with the expiry `E > 0` (in ms) and no loader, under a clock that
has reached `T`. -/
structure ExpInv (E : Int) (c : Cache) (la lw : List Nat) (T : Nat) : Prop where
  rep : Rep c la lw
  exp : c._spec.expiresAfterWrite = some E
  noload : c._spec.loaderFn = false
  ts : TimeSorted c lw T

end Dsjslib
namespace Dsjslib

/-- The call promotes the key `k` to the head of the access queue: a `put` of `k` that is
carried out, or a `get`/`getIfPresent` of `k` that hits. -/
def Op.promotes (k : String) (c : Cache) : Op → Bool
  | .put _ key value => decide (key = k) && decide value.legal
  | .get now key =>
    decide (key = k) &&
      (match c._cache key with
       | some e => !Entry.isExpired e now c
       | none => false)
  | .getIfPresent now key =>
    decide (key = k) &&
      (match c._cache key with
       | some e => !Entry.isExpired e now c
       | none => false)
  | .invalidate _ => false

/-- The number of calls since each key was last promoted, after one more call. -/
def tick (op : Op) (c : Cache) (a : String → Nat) : String → Nat :=
  fun k => if op.promotes k c then 0 else a k + 1

/-- The number of calls since each key was last promoted, after the calls `ops` from the state
`c`, where it was `a`. -/
def ages (fuel : Nat) : List Op → Cache → (String → Nat) → String → Nat
  | [], _, a => a
  | op :: ops, c, a =>
    match op.run fuel c with
    | some c1 => ages fuel ops c1 (tick op c a)
    | none => a

/-- The invariant of a cache that evicts by size `N` and has no expiry: the access queue holds
the entries in the order of their last promotion, the latest first. -/
structure LruInv (N : Int) (c : Cache) (la lw : List Nat) (a : String → Nat) : Prop where
  rep : Rep c la lw
  strong : Strong c la
  mode : SizeMode c N
  noexp : c._spec.expiresAfterWrite = none
  le : (la.length : Int) ≤ N
  order : la.Pairwise (fun e1 e2 => a (propKey (c.heap.key e1)) < a (propKey (c.heap.key e2)))

end Dsjslib
namespace Dsjslib

/-- The record is a call of the removal listener. -/
def Event.isRemoval : Event → Bool
  | .onRemove _ _ _ => true
  | _ => false

/-- The calls of the removal listener among the recorded calls, in order. -/
def removals (evs : List Event) : List Event := evs.filter Event.isRemoval

/-- The call `onRemove(entry.key, entry.value, cause)` for the entry `e` as the state `c` holds
it. -/
def note (c : Cache) (cause : String) (e : Nat) : Event :=
  Event.onRemove (propKey (c.heap.key e)) (c.heap.value e) cause

/-- The entry `e` is in the mapping of `c` and, under the same key, no longer in that of `c2`. -/
def removedBy (c c2 : Cache) (e : Nat) : Prop :=
  ∃ k, c._cache k = some e ∧ c2._cache k ≠ some e

end Dsjslib
namespace Dsjslib

/-- Walk the `next` links from `cur` to the sentinel `tail`: the entries met on the way, or
`none` when a link is missing or the walk is longer than `fuel` steps. -/
def walk : Nat → (Nat → Link) → Nat → Nat → Option (List Nat)
  | 0, _, cur, tail => if cur = tail then some [] else none
  | fuel + 1, nx, cur, tail =>
    if cur = tail then some []
    else
      match nx cur with
      | .obj n => (walk fuel nx n tail).map fun l => cur :: l
      | _ => none

/-- The links `nx` and `pv` are inverse to each other on the entries of `l`. -/
def Inverse (nx pv : Nat → Link) (l : List Nat) : Prop :=
  ∀ x ∈ l, ∀ y, nx x = .obj y ↔ pv y = .obj x

/-- The other queue. -/
def otherQ : QType → QType
  | .A => .W
  | .W => .A

/-- From `c` to `c2` the links and the queue object of the queue other than `q` are the same. -/
def Framed (q : QType) (c c2 : Cache) : Prop :=
  c2.heap.next (otherQ q) = c.heap.next (otherQ q) ∧
    c2.heap.prev (otherQ q) = c.heap.prev (otherQ q) ∧ c2.queue (otherQ q) = c.queue (otherQ q)

/-- The state in which a call made in `c` ends is framed. -/
def Res.Framed {α : Type} (q : QType) (c : Cache) : Res α → Prop
  | .ok _ c2 => Dsjslib.Framed q c c2
  | .thrown _ c2 => Dsjslib.Framed q c c2
  | .fuelOut => True

/-- Every run of the method body `m` is framed. -/
def Frames {α : Type} (q : QType) (m : M α) : Prop := ∀ c, (m c).Framed q c

/-- The states that a program reaches from a new cache (made from a configuration whose
`maximumWeight`, if given, is not negative) by calls of `put`, `get`, `getIfPresent` and
`invalidate` and by calls of the completion functions that `get` hands to the loader: the one
for an expired entry belongs to an `Entry` object, the one for a miss to a key.  The loops get
enough fuel. -/
inductive Reachable : Cache → Prop
  | fresh (cs : CacheSpec) (c : Cache) :
    Cache.new cs = .ok c → (∀ w, cs.maximumWeight = some w → 0 ≤ w) → Reachable c
  | put (c : Cache) (now fuel : Nat) (key : String) (value : Val) :
    Reachable c → c.size < fuel → Reachable ((Cache.put now fuel key value c).stateD c)
  | get (c : Cache) (now : Nat) (key : String) (callback suppressLoad : Bool) :
    Reachable c → Reachable ((Cache.get now key callback suppressLoad c).stateD c)
  | getIfPresent (c : Cache) (now : Nat) (key : String) :
    Reachable c → Reachable ((Cache.getIfPresent now key c).stateD c)
  | invalidate (c : Cache) (key : String) :
    Reachable c → Reachable ((Cache.invalidate key c).stateD c)
  | reloaded (c : Cache) (entry : Nat) (callback : Bool) (error result : Val) :
    Reachable c → (c.heap.key entry).isSome →
    Reachable ((Cache.reloaded entry callback error result c).stateD c)
  | loaded (c : Cache) (now fuel : Nat) (key : String) (callback : Bool) (error result : Val) :
    Reachable c → c.size < fuel →
    Reachable ((Cache.loaded now fuel key callback error result c).stateD c)

end Dsjslib
/-!
# dsjslib: the skip list (`src/SkipList.js`)

Nodes are objects of a heap with one map per field.  `Math.random() * 100 < 50` reads the next
element of a stream of booleans.  Loops and recursion run on fuel.
-/

namespace Dsjslib

/-- A `SkipList` object with the heap of its nodes; `rnd` counts the calls of `Math.random`. -/
structure SkipList where
  top_ : Nat
  key : Nat → Option Int
  value : Nat → Val
  next : Nat → Link
  prev : Nat → Link
  down : Nat → Link
  isMin : Nat → Bool
  isMax : Nat → Bool
  nextId : Nat
  rnd : Nat

namespace SkipList

/-- The result of a call on a skip list: it returned `a`, it threw `e`, or the fuel ran out. -/
inductive SRes (α : Type) where
  | ok (a : α) (s : SkipList)
  | thrown (e : Val) (s : SkipList)
  | fuelOut

/-- The function `Node_(key, value)`: the identity of the new node and the new heap. -/
def Node_ (key : Option Int) (value : Val) (s : SkipList) : Nat × SkipList :=
  (s.nextId,
    { s with key := Function.update s.key s.nextId key
             value := Function.update s.value s.nextId value
             next := Function.update s.next s.nextId .null
             prev := Function.update s.prev s.nextId .null
             down := Function.update s.down s.nextId .null
             isMin := Function.update s.isMin s.nextId false
             isMax := Function.update s.isMax s.nextId false
             nextId := s.nextId + 1 })

/-- The function `this.List_()`: a new list of the two sentinels; it returns the minimum. -/
def List_ (s : SkipList) : Nat × SkipList :=
  let (minNode, s1) := Node_ none .undefined s
  let s2 := { s1 with isMin := Function.update s1.isMin minNode true }
  let (node2, s3) := Node_ none .undefined s2
  let s4 := { s3 with isMax := Function.update s3.isMax node2 true }
  let s5 := { s4 with next := Function.update s4.next minNode (.obj node2) }
  (minNode, { s5 with prev := Function.update s5.prev node2 (.obj minNode) })

/-- The constructor `new SkipList()`, with the natural ordering of the keys. -/
def new : SkipList :=
  let (minNode, s) := List_
    { top_ := 0, key := fun _ => none, value := fun _ => .undefined, next := fun _ => .undefined,
      prev := fun _ => .undefined, down := fun _ => .undefined, isMin := fun _ => false,
      isMax := fun _ => false, nextId := 0, rnd := 0 }
  { s with top_ := minNode }

/-- The method `insert(k, v, down)` of the node `this`: the new node goes before `this`. -/
def insert (this : Nat) (k : Int) (v : Val) (down : Link) (s : SkipList) : SRes Link :=
  let (node, s1) := Node_ (some k) v s
  match s1.prev this with
  | .obj p =>
    let s2 := { s1 with next := Function.update s1.next p (.obj node) }
    let s3 := { s2 with prev := Function.update s2.prev node (s2.prev this) }
    let s4 := { s3 with next := Function.update s3.next node (.obj this) }
    let s5 := { s4 with prev := Function.update s4.prev this (.obj node) }
    .ok (.obj node) { s5 with down := Function.update s5.down node down }
  | _ => .thrown .typeError s1

/-- The function `this.compareFn(node, key)` without a user-supplied `compareFn`. -/
def compareFn (s : SkipList) (node : Nat) (key : Int) : Int :=
  if s.isMin node then 1
  else if s.isMax node then -1
  else
    match s.key node with
    | some k => if k < key then 1 else if k > key then -1 else 0
    | none => 0

/-- The loop `while (cur && this.compareFn(cur, key) > 0) cur = cur.next`: the final `cur`. -/
def advance (s : SkipList) (key : Int) : Nat → Link → Option Link
  | 0, _ => none
  | fuel + 1, cur =>
    match cur with
    | .obj n => if compareFn s n key > 0 then advance s key fuel (s.next n) else some cur
    | _ => some cur

/-- The loop `while (cur) { cur.key = key; cur.value = value; cur = cur.down }`. -/
def replace (key : Int) (value : Val) : Nat → Link → SkipList → Option SkipList
  | 0, _, _ => none
  | fuel + 1, cur, s =>
    match cur with
    | .obj n =>
      replace key value fuel (s.down n)
        { s with key := Function.update s.key n (some key)
                 value := Function.update s.value n value }
    | _ => some s

/-- The test `(Math.random() * 100) < 50`. -/
def flip (coins : Nat → Bool) (s : SkipList) : Bool × SkipList :=
  (coins s.rnd, { s with rnd := s.rnd + 1 })

/-- The method `insert_(key, value, currentList)`; it returns a node or `undefined`. -/
def insert_ (coins : Nat → Bool) (key : Int) (value : Val) :
    Nat → Nat → SkipList → SRes Link
  | 0, _, _ => .fuelOut
  | fuel + 1, currentList, s =>
    match advance s key (fuel + 1) (.obj currentList) with
    | none => .fuelOut
    | some (.obj cur) =>
      if compareFn s cur key = 0 then
        match replace key value (fuel + 1) (.obj cur) s with
        | some s1 => .ok .undefined s1
        | none => .fuelOut
      else
        match s.prev cur with
        | .obj p =>
          let r : SRes Link :=
            match s.down p with
            | .obj d => insert_ coins key value fuel d s
            | _ => .ok .undefined s
          match r with
          | .ok down s1 =>
            if !(s1.down currentList).truthy then
              insert cur key value .undefined s1
            else if down.truthy then
              let (b, s2) := flip coins s1
              if b then insert cur key value down s2 else .ok .undefined s2
            else .ok .undefined s1
          | .thrown e s1 => .thrown e s1
          | .fuelOut => .fuelOut
        | _ => .thrown .typeError s
    | some _ => .thrown .typeError s

/-- The loop of `put`: `while (((Math.random() * 100) < 50) && topNode) { ... }`. -/
def putLoop (coins : Nat → Bool) (key : Int) (value : Val) (fuel : Nat) :
    Nat → Link → SkipList → SRes Unit
  | 0, _, _ => .fuelOut
  | n + 1, topNode, s =>
    let (b, s1) := flip coins s
    if b && topNode.truthy then
      let (newList, s2) := List_ s1
      let s3 := { s2 with down := Function.update s2.down newList (.obj s2.top_) }
      let s4 := { s3 with top_ := newList }
      match insert_ coins key value fuel s4.top_ s4 with
      | .ok t s5 => putLoop coins key value fuel n t s5
      | .thrown e s5 => .thrown e s5
      | .fuelOut => .fuelOut
    else .ok () s1

/-- The method `put(key, value)`; it returns `this`. -/
def put (coins : Nat → Bool) (fuel : Nat) (key : Int) (value : Val) (s : SkipList) : SRes Unit :=
  match insert_ coins key value fuel s.top_ s with
  | .ok topNode s1 => putLoop coins key value fuel fuel topNode s1
  | .thrown e s1 => .thrown e s1
  | .fuelOut => .fuelOut

/-- The method `search_(key, list)`: the object `{key, value}`, or `undefined`. -/
def search_ (key : Int) : Nat → Nat → SkipList → SRes (Option (Int × Val))
  | 0, _, _ => .fuelOut
  | fuel + 1, list, s =>
    match advance s key (fuel + 1) (.obj list) with
    | none => .fuelOut
    | some (.obj cur) =>
      if compareFn s cur key = 0 then .ok (some (key, s.value cur)) s
      else
        match s.prev cur with
        | .obj p =>
          match s.down p with
          | .obj d => search_ key fuel d s
          | _ => .ok none s
        | _ => .thrown .typeError s
    | some _ => .thrown .typeError s

/-- The method `get(key)`. -/
def get (fuel : Nat) (key : Int) (s : SkipList) : SRes (Option (Int × Val)) :=
  search_ key fuel s.top_ s

/-- The calls `put(k1, v1); put(k2, v2); ...` in turn: the final state, or `none` when a call
threw or ran out of fuel. -/
def runPuts (coins : Nat → Bool) (fuel : Nat) : List (Int × Val) → SkipList → Option SkipList
  | [], s => some s
  | (k, v) :: ops, s =>
    match put coins fuel k v s with
    | .ok _ s1 => runPuts coins fuel ops s1
    | _ => none

/-- The value that a call returned. -/
def SRes.value? {α : Type} : SRes α → Option α
  | .ok a _ => some a
  | _ => none

/-- The value of the most recent `put(k, ·)` among the calls `ops`. -/
def lastPut (k : Int) : List (Int × Val) → Option Val
  | [] => none
  | (k2, v) :: ops =>
    match lastPut k ops with
    | some w => some w
    | none => if k2 = k then some v else none

end SkipList

end Dsjslib
namespace Dsjslib

namespace SkipList

/-! ## The abstract content of a skip list -/

/-- One list of the skip list: the two sentinels and the nodes between them, in order. -/
structure Level where
  min : Nat
  max : Nat
  l : List Nat

/-- All nodes of a list, in order. -/
def Level.full (lv : Level) : List Nat := lv.min :: (lv.l ++ [lv.max])

/-- The nodes of the lists `ls`. -/
def nodesOf : List Level → List Nat
  | [] => []
  | lv :: rest => lv.full ++ nodesOf rest

/-- The key of a node, 0 for a node without one. -/
def keyD (s : SkipList) (e : Nat) : Int := (s.key e).getD 0

/-- The fields of the nodes hold the list `lv`: the nodes are linked in both directions, the
sentinels are marked, and the keys of the nodes between them increase. -/
structure LevelOK (s : SkipList) (lv : Level) : Prop where
  linked : lv.full.Chain' (fun x y => s.next x = .obj y ∧ s.prev y = .obj x)
  min_isMin : s.isMin lv.min = true
  max_isMax : s.isMax lv.max = true
  max_notMin : s.isMin lv.max = false
  plain : ∀ e ∈ lv.l, s.isMin e = false ∧ s.isMax e = false ∧ (s.key e).isSome
  sorted : lv.l.Pairwise (fun a b => keyD s a < keyD s b)
  alloc : ∀ e ∈ lv.full, e < s.nextId

/-- The `down` fields of the list `lv`, above the list `b` or at the bottom. -/
def DownOK (s : SkipList) (lv : Level) : Option Level → Prop
  | none => (s.down lv.min).truthy = false ∧ ∀ e ∈ lv.l, (s.down e).truthy = false
  | some b =>
    s.down lv.min = .obj b.min ∧ ∀ e ∈ lv.l, ∃ e2 ∈ b.l, s.down e = .obj e2 ∧ s.key e2 = s.key e

/-- The lists `ls`, the top one first, down to the bottom list. -/
def StackOK (s : SkipList) : List Level → Prop
  | [] => True
  | lv :: rest => LevelOK s lv ∧ DownOK s lv rest.head? ∧ StackOK s rest

/-- Some list of `ls` has a node with the key `k`. -/
def Present (s : SkipList) (ls : List Level) (k : Int) : Prop :=
  ∃ lv ∈ ls, ∃ e ∈ lv.l, s.key e = some k

/-- The skip list `s` consists of the lists `ls` and holds the map `M`. -/
structure Inv (s : SkipList) (ls : List Level) (M : Int → Option Val) : Prop where
  stack : StackOK s ls
  nodup : (nodesOf ls).Nodup
  top : ∃ lv rest, ls = lv :: rest ∧ s.top_ = lv.min
  vals : ∀ lv ∈ ls, ∀ e ∈ lv.l, M (keyD s e) = some (s.value e)
  dom : ∀ k, M k ≠ none → Present s ls k

/-- The list `lv2` is the list `lv` with at most one more node, which is not older than
`n0`. -/
def Grow (n0 : Nat) (lv lv2 : Level) : Prop :=
  lv2.min = lv.min ∧ lv2.max = lv.max ∧ (∀ e ∈ lv.l, e ∈ lv2.l) ∧
    (∀ e ∈ lv2.l, e ∈ lv.l ∨ n0 ≤ e) ∧ lv2.l.length ≤ lv.l.length + 1

/-- What a call that writes `v` under the key `k` in the lists with the nodes `X` leaves as it
was, from `s` to `s2`. -/
structure Frame (s s2 : SkipList) (X : List Nat) (k : Int) (v : Val) : Prop where
  nextId : s.nextId ≤ s2.nextId
  key : ∀ e < s.nextId, s2.key e = s.key e
  isMin : ∀ e < s.nextId, s2.isMin e = s.isMin e
  isMax : ∀ e < s.nextId, s2.isMax e = s.isMax e
  down : ∀ e < s.nextId, s2.down e = s.down e
  value : ∀ e < s.nextId, s2.value e = s.value e ∨ (e ∈ X ∧ s.key e = some k ∧ s2.value e = v)
  next : ∀ e < s.nextId, e ∉ X → s2.next e = s.next e
  prev : ∀ e < s.nextId, e ∉ X → s2.prev e = s.prev e

/-- The state after `cur.insert(k, v, down)`, where `p` is `cur.prev`: the new node is
`s.nextId`. -/
def withNode (s : SkipList) (cur p : Nat) (k : Int) (v : Val) (down : Link) : SkipList :=
  { s with
    key := Function.update s.key s.nextId (some k)
    value := Function.update s.value s.nextId v
    next := Function.update (Function.update (Function.update s.next s.nextId .null) p
      (.obj s.nextId)) s.nextId (.obj cur)
    prev := Function.update (Function.update (Function.update s.prev s.nextId .null) s.nextId
      (.obj p)) cur (.obj s.nextId)
    down := Function.update (Function.update s.down s.nextId .null) s.nextId down
    isMin := Function.update s.isMin s.nextId false
    isMax := Function.update s.isMax s.nextId false
    nextId := s.nextId + 1 }

/-- The state after `newList = this.List_(); newList.down = this.top_; this.top_ = newList`:
the new sentinels are `s.nextId` and `s.nextId + 1`. -/
def withList (s : SkipList) : SkipList :=
  { s with
    top_ := s.nextId
    key := Function.update (Function.update s.key s.nextId none) (s.nextId + 1) none
    value := Function.update (Function.update s.value s.nextId .undefined) (s.nextId + 1)
      .undefined
    next := Function.update (Function.update (Function.update s.next s.nextId .null)
      (s.nextId + 1) .null) s.nextId (.obj (s.nextId + 1))
    prev := Function.update (Function.update (Function.update s.prev s.nextId .null)
      (s.nextId + 1) .null) (s.nextId + 1) (.obj s.nextId)
    down := Function.update (Function.update (Function.update s.down s.nextId .null)
      (s.nextId + 1) .null) s.nextId (.obj s.top_)
    isMin := Function.update (Function.update s.isMin s.nextId true) (s.nextId + 1) false
    isMax := Function.update (Function.update (Function.update s.isMax s.nextId false)
      (s.nextId + 1) false) (s.nextId + 1) true
    nextId := s.nextId + 2 }

/-- What `insert_(k, v, ·)` does to the lists `ls`, which become `ls2`, from `s` to `s2`. -/
structure RestPost (s : SkipList) (ls : List Level) (k : Int) (v : Val) (s2 : SkipList)
    (ls2 : List Level) : Prop where
  stack : StackOK s2 ls2
  nodup : (nodesOf ls2).Nodup
  grow : List.Forall₂ (Grow s.nextId) ls ls2
  frame : Frame s s2 (nodesOf ls) k v
  keyed : ∀ lv ∈ ls2, ∀ e ∈ lv.l, s2.key e = some k → s2.value e = v
  fresh : ∀ lv ∈ ls2, ∀ e ∈ lv.l, s.nextId ≤ e → s2.key e = some k
  top : s2.top_ = s.top_

/-- What `insert_(k, v, ·)` achieves on the lists `ls` of the state `s`: the lists `ls2` of the
state `s2` hold the key, and the returned `res` is the new node of the top list, if any. -/
structure InsertPost (s : SkipList) (ls : List Level) (k : Int) (v : Val) (res : Link)
    (s2 : SkipList) (ls2 : List Level) : Prop where
  rest : RestPost s ls k v s2 ls2
  present : Present s2 ls2 k
  ret : res = .undefined ∨
    ∃ n, res = .obj n ∧ (∃ lv rest, ls2 = lv :: rest ∧ n ∈ lv.l) ∧ s2.key n = some k
  old : Present s ls k → res = .undefined

end SkipList

end Dsjslib
namespace Dsjslib

namespace Example

/-- The coin flips heads, tails, heads, tails, ... -/
def skipCoins : Nat → Bool := fun n => n % 2 == 0

/-- The calls `put(5, 50); put(3, 30); put(5, 55)`. -/
def skipOps : List (Int × Val) := [(5, .num 50), (3, .num 30), (5, .num 55)]

/-- The skip list after the calls `skipOps` under the coin flips `skipCoins`. -/
def skipRun : SkipList :=
  (SkipList.runPuts skipCoins 36 skipOps SkipList.new).getD SkipList.new

end Example

end Dsjslib
namespace Dsjslib

namespace Example

/-- The configuration `{expiresAfterWrite: 1, loaderFunction: f, onRemove: g}`. -/
def heardSpec : CacheSpec :=
  { CacheSpec.none with expiresAfterWrite := some 1, loaderFunction := true, onRemove := true }

/-- With a loader, a one second expiry and a removal listener: `get('k', cb)` misses and calls
the loader, `put('k', 1)` follows, and then the loader completes with `(undefined, 2)`. -/
def racedHeard : Cache :=
  let c0 := Cache.make heardSpec
  let c1 := (Cache.get 0 "k" true false c0).stateD c0
  let c2 := (Cache.put 0 9 "k" (.num 1) c1).stateD c1
  (Cache.loaded 0 9 "k" true .undefined (.num 2) c2).stateD c2

/-- The configuration `{maximumSize: 2, loaderFunction: f, onRemove: g}`. -/
def fullSpec : CacheSpec :=
  { CacheSpec.none with maximumSize := some 2, loaderFunction := true, onRemove := true }

/-- With a loader, the capacity 2 and a removal listener: `get('k', cb)` misses and calls the
loader, `put('k', 1)` follows, and then the loader completes with `(undefined, 2)`. -/
def racedFull : Cache :=
  let c0 := Cache.make fullSpec
  let c1 := (Cache.get 0 "k" true false c0).stateD c0
  let c2 := (Cache.put 0 9 "k" (.num 1) c1).stateD c1
  (Cache.loaded 0 9 "k" true .undefined (.num 2) c2).stateD c2

end Example

end Dsjslib
namespace Dsjslib

theorem nextOf_mem (s : Nat) (l : List Nat) (x : Nat) :
    nextOf s l x ∈ l ∨ nextOf s l x = s := by
  induction l with
  | nil => simp [nextOf]
  | cons a r ih =>
    simp only [nextOf]
    split
    · cases r with
      | nil => simp
      | cons b r2 => simp
    · rcases ih with h | h
      · left; exact List.mem_cons_of_mem _ h
      · right; exact h

theorem headD_mem (s : Nat) (l : List Nat) : l.headD s ∈ l ∨ l.headD s = s := by
  cases l <;> simp

theorem nextOf_ne (s : Nat) (l : List Nat) (x : Nat) (hn : l.Nodup) (hs : s ∉ l) (hx : x ∈ l) :
    nextOf s l x ≠ x := by
  induction l with
  | nil => simp at hx
  | cons a r ih =>
    simp only [List.nodup_cons, List.mem_cons, not_or] at hn hs hx
    simp only [nextOf]
    split
    · rename_i h
      subst h
      rcases headD_mem s r with h | h
      · intro h2; rw [h2] at h; exact hn.1 h
      · rw [h]; exact hs.1
    · rename_i h
      exact ih hn.2 hs.2 (hx.resolve_left h)

theorem prevOf_some_mem (p : Option Nat) (l : List Nat) (e z : Nat) (h : prevOf p l e = some z) :
    p = some z ∨ z ∈ l := by
  induction l generalizing p with
  | nil => left; simpa [prevOf] using h
  | cons a r ih =>
    simp only [prevOf] at h
    split at h
    · left; exact h
    · rcases ih _ h with h2 | h2
      · right; simp at h2; simp [h2]
      · right; exact List.mem_cons_of_mem _ h2

theorem prevOf_head (s : Nat) (p : Option Nat) (l : List Nat) (e : Nat) (he : e ∈ l ∨ e = s) :
    prevOf p l e = if e = l.headD s then p else prevOf none l e := by
  cases l with
  | nil => simp at he; simp [prevOf, he]
  | cons a r => simp only [prevOf, List.headD_cons]; split <;> rfl

theorem prevOf_isSome (a : Nat) (l : List Nat) (e : Nat) : (prevOf (some a) l e).isSome := by
  induction l generalizing a with
  | nil => simp [prevOf]
  | cons b r ih => simp only [prevOf]; split; · rfl
                   · exact ih b

theorem prevOf_eq_none (s : Nat) (l : List Nat) (e : Nat) (he : e ∈ l ∨ e = s) :
    prevOf none l e = none ↔ e = l.headD s := by
  cases l with
  | nil => simp at he; simp [prevOf, he]
  | cons a r =>
    simp only [prevOf, List.headD_cons]
    split
    · simp [*]
    · have := prevOf_isSome a r e
      constructor
      · intro h; rw [h] at this; simp at this
      · intro h; contradiction

theorem prevOf_eq_some (s : Nat) (p : Option Nat) (l : List Nat) (e y : Nat)
    (hn : l.Nodup) (hs : s ∉ l) (hp : ∀ z, p = some z → z ∉ l) (hy : y ∈ l)
    (he : e ∈ l ∨ e = s) : prevOf p l e = some y ↔ nextOf s l y = e := by
  induction l generalizing p with
  | nil => simp at hy
  | cons a r ih =>
    simp only [List.nodup_cons, List.mem_cons, not_or] at hn hs
    simp only [prevOf, nextOf]
    by_cases hea : e = a
    · subst hea
      simp only [if_true]
      constructor
      · intro h; exact absurd hy (hp _ h)
      · intro h
        exfalso
        split at h
        · rcases headD_mem s r with h2 | h2
          · rw [h] at h2; exact hn.1 h2
          · rw [h] at h2; exact hs.1 h2.symm
        · rcases nextOf_mem s r y with h2 | h2
          · rw [h] at h2; exact hn.1 h2
          · rw [h] at h2; exact hs.1 h2.symm
    · simp only [if_neg hea]
      have he2 : e ∈ r ∨ e = s := by
        rcases he with h | h
        · simp only [List.mem_cons] at h; exact Or.inl (h.resolve_left hea)
        · exact Or.inr h
      by_cases hya : y = a
      · subst hya
        simp only [if_true]
        rw [prevOf_head s _ r e he2]
        split
        · rename_i h; simp [h]
        · rename_i h
          constructor
          · intro h3
            rcases prevOf_some_mem _ _ _ _ h3 with h4 | h4
            · simp at h4
            · exact absurd h4 hn.1
          · intro h3; exact absurd h3.symm h
      · simp only [if_neg hya]
        have hy2 : y ∈ r := by
          simp only [List.mem_cons] at hy; exact hy.resolve_left hya
        exact ih (some a) hn.2 hs.2 (by intro z hz; simp at hz; subst hz; exact hn.1) hy2 he2

end Dsjslib
namespace Dsjslib

theorem nextOf_erase (s : Nat) (l : List Nat) (x e : Nat) (hn : l.Nodup) (hs : s ∉ l)
    (he : e ∈ l) (hex : e ≠ x) :
    nextOf s (l.erase x) e = if nextOf s l e = x then nextOf s l x else nextOf s l e := by
  induction l with
  | nil => simp at he
  | cons a r ih =>
    simp only [List.nodup_cons, List.mem_cons, not_or] at hn hs he
    by_cases hax : a = x
    · subst hax
      have her : e ∈ r := he.resolve_left hex
      have h1 : nextOf s r e ≠ a := by
        rcases nextOf_mem s r e with h | h
        · intro h2; rw [h2] at h; exact hn.1 h
        · rw [h]; exact hs.1
      simp [nextOf, hex, h1]
    · have hxa : ¬ x = a := fun h => hax h.symm
      rw [List.erase_cons_tail (by simpa using hax)]
      simp only [nextOf, if_neg hxa]
      by_cases hea : e = a
      · subst hea
        simp only [if_true]
        cases r with
        | nil => simp [Ne.symm hs.1 , nextOf]
        | cons b r2 =>
          by_cases hbx : b = x
          · subst hbx; simp [nextOf]
          · rw [List.erase_cons_tail (by simpa using hbx)]
            simp [hbx]
      · simp only [if_neg hea]
        exact ih hn.2 hs.2 (he.resolve_left hea)

theorem prevOf_erase (s : Nat) (p : Option Nat) (l : List Nat) (x e : Nat) (hn : l.Nodup)
    (hp : p ≠ some x) (he : e ∈ l ∨ e = s) (hex : e ≠ x) :
    prevOf p (l.erase x) e = if prevOf p l e = some x then prevOf p l x else prevOf p l e := by
  induction l generalizing p with
  | nil => simp [prevOf, hp]
  | cons a r ih =>
    simp only [List.nodup_cons] at hn
    by_cases hax : a = x
    · subst hax
      have her : e ∈ r ∨ e = s := by
        rcases he with h | h
        · simp only [List.mem_cons] at h; exact Or.inl (h.resolve_left hex)
        · exact Or.inr h
      simp only [List.erase_cons_head, prevOf, if_neg hex, if_true]
      rw [prevOf_head s (some a) r e her, prevOf_head s p r e her]
      split
      · simp
      · have h1 : prevOf none r e ≠ some a := by
          intro h
          rcases prevOf_some_mem _ _ _ _ h with h2 | h2
          · simp at h2
          · exact hn.1 h2
        simp [h1]
    · have hxa : ¬ x = a := fun h => hax h.symm
      rw [List.erase_cons_tail (by simpa using hax)]
      simp only [prevOf, if_neg hxa]
      by_cases hea : e = a
      · simp [hea, hp]
      · simp only [if_neg hea]
        have her : e ∈ r ∨ e = s := by
          rcases he with h | h
          · simp only [List.mem_cons] at h; exact Or.inl (h.resolve_left hea)
          · exact Or.inr h
        exact ih (some a) hn.2 (by simpa using hax) her

theorem prevOf_tail_erase (s : Nat) (l : List Nat) (x : Nat) (hn : l.Nodup) (hs : s ∉ l)
    (h : prevOf none l s = some x) : l = l.erase x ++ [x] := by
  induction l with
  | nil => simp [prevOf] at h
  | cons a r ih =>
    simp only [List.nodup_cons, List.mem_cons, not_or] at hn hs
    simp only [prevOf, if_neg hs.1] at h
    by_cases hax : a = x
    · subst hax
      cases r with
      | nil => simp
      | cons b r2 =>
        exfalso
        simp only [List.mem_cons, not_or] at hn hs
        simp only [prevOf, if_neg hs.2.1] at h
        rcases prevOf_some_mem _ _ _ _ h with h2 | h2
        · simp at h2; exact hn.1.1 h2.symm
        · exact hn.1.2 h2
    · rw [List.erase_cons_tail (by simpa using hax)]
      rw [prevOf_head s (some a) r s (Or.inr rfl)] at h
      split at h
      · rename_i h3
        simp at h; exact absurd h hax
      · simp only [List.cons_append]
        rw [← ih hn.2 hs.2 h]

end Dsjslib
namespace Dsjslib

@[simp] theorem bind_apply {α β : Type} (m : M α) (f : α → M β) (c : Cache) :
    (m >>= f) c = match m c with
      | .ok a c1 => f a c1
      | .thrown e c1 => .thrown e c1
      | .fuelOut => .fuelOut := rfl

@[simp] theorem pure_apply {α : Type} (a : α) (c : Cache) : (pure a : M α) c = .ok a c := rfl

@[simp] theorem getState_apply (c : Cache) : getState c = .ok c c := rfl

@[simp] theorem modify_apply (f : Cache → Cache) (c : Cache) : modify f c = .ok () (f c) := rfl

@[simp] theorem throw_apply {α : Type} (e : Val) (c : Cache) :
    (throw e : M α) c = .thrown e c := rfl

@[simp] theorem emit_apply (ev : Event) (c : Cache) :
    emit ev c = .ok () { c with events := c.events ++ [ev] } := rfl

@[simp] theorem withQ_queue_same (c : Cache) (q : QType) (nx pv : Nat → Link) (Q : Queue) :
    (c.withQ q nx pv Q).queue q = some Q := by
  cases q <;> rfl

@[simp] theorem withQ_next_same (c : Cache) (q : QType) (nx pv : Nat → Link) (Q : Queue) :
    (c.withQ q nx pv Q).heap.next q = nx := by
  cases q <;> simp [Cache.withQ, Cache.setQueue]

@[simp] theorem withQ_prev_same (c : Cache) (q : QType) (nx pv : Nat → Link) (Q : Queue) :
    (c.withQ q nx pv Q).heap.prev q = pv := by
  cases q <;> simp [Cache.withQ, Cache.setQueue]

theorem withQ_withQ (c : Cache) (q : QType) (nx pv nx2 pv2 : Nat → Link) (Q Q2 : Queue) :
    (c.withQ q nx pv Q).withQ q nx2 pv2 Q2 = c.withQ q nx2 pv2 Q2 := by
  cases q <;> simp [Cache.withQ, Cache.setQueue]

theorem withQ_self (c : Cache) (q : QType) (Q : Queue) (h : c.queue q = some Q) :
    c.withQ q (c.heap.next q) (c.heap.prev q) Q = c := by
  cases q
  · simp [Cache.queue] at h; subst h; simp [Cache.withQ, Cache.setQueue]
  · cases c; simp_all [Cache.queue, Cache.withQ, Cache.setQueue]

theorem next_set_withQ (c : Cache) (q : QType) (nx pv : Nat → Link) (Q : Queue) (e : Nat)
    (v : Link) (hv : v ≠ .undefined) :
    Entry.next e q v (c.withQ q nx pv Q) = .ok v (c.withQ q (Function.update nx e v) pv Q) := by
  cases q <;> simp [Entry.next, hv, Cache.withQ, Cache.setQueue, Heap.setNext]

theorem next_get_withQ (c : Cache) (q : QType) (nx pv : Nat → Link) (Q : Queue) (e : Nat) :
    Entry.next e q .undefined (c.withQ q nx pv Q) = .ok (nx e) (c.withQ q nx pv Q) := by
  simp [Entry.next]

theorem prev_set_withQ (c : Cache) (q : QType) (nx pv : Nat → Link) (Q : Queue) (e : Nat)
    (v : Link) (hv : v ≠ .undefined) :
    Entry.prev e q v (c.withQ q nx pv Q) = .ok v (c.withQ q nx (Function.update pv e v) Q) := by
  cases q <;> simp [Entry.prev, hv, Cache.withQ, Cache.setQueue, Heap.setPrev]

theorem prev_get_withQ (c : Cache) (q : QType) (nx pv : Nat → Link) (Q : Queue) (e : Nat) :
    Entry.prev e q .undefined (c.withQ q nx pv Q) = .ok (pv e) (c.withQ q nx pv Q) := by
  simp [Entry.prev]

theorem setHead_withQ (c : Cache) (q : QType) (nx pv : Nat → Link) (Q : Queue) (e : Nat) :
    (c.withQ q nx pv Q).setHead q e = c.withQ q nx pv { Q with head := e } := by
  cases q <;> simp [Cache.withQ, Cache.setQueue, Cache.setHead]

theorem setTail_withQ (c : Cache) (q : QType) (nx pv : Nat → Link) (Q : Queue) (e : Nat) :
    (c.withQ q nx pv Q).setTail q e = c.withQ q nx pv { Q with tail := e } := by
  cases q <;> simp [Cache.withQ, Cache.setQueue, Cache.setTail]

end Dsjslib
namespace Dsjslib

theorem headD_erase_of_ne (s : Nat) (l : List Nat) (x : Nat) (h : x ≠ l.headD s) :
    (l.erase x).headD s = l.headD s := by
  cases l with
  | nil => rfl
  | cons a r =>
    simp only [List.headD_cons] at h
    rw [List.erase_cons_tail (by simpa using (Ne.symm h))]
    rfl

theorem QRep.erase_head {nx pv : Nat → Link} {Q : Queue} {l : List Nat} (h : QRep nx pv Q l)
    (x : Nat) (hx : x ∈ l) (hp : prevOf none l x = none) :
    QRep (Function.update nx x .null)
      (Function.update (Function.update pv (nextOf Q.tail l x) .null) x .null)
      { head := nextOf Q.tail l x, tail := Q.tail } (l.erase x) := by
  have hxs : x ≠ Q.tail := fun h2 => h.tail_not_mem (h2 ▸ hx)
  have hhd : x = l.headD Q.tail := (prevOf_eq_none Q.tail l x (Or.inl hx)).1 hp
  have hl : l = x :: l.erase x := by
    cases l with
    | nil => simp at hx
    | cons a r => simp only [List.headD_cons] at hhd; subst hhd; simp
  have hn : nextOf Q.tail l x = (l.erase x).headD Q.tail := by
    conv_lhs => rw [hl]
    simp [nextOf]
  have hmem : ∀ e, e ∈ l.erase x → e ∈ l ∧ e ≠ x := fun e he =>
    ((List.Nodup.mem_erase_iff h.nodup).1 he).symm
  constructor
  · exact h.nodup.erase x
  · exact fun h2 => h.tail_not_mem (List.mem_of_mem_erase h2)
  · exact hn
  · intro e he
    obtain ⟨hel, hex⟩ := hmem e he
    rw [Function.update_noteq hex, h.next_eq e hel,
      nextOf_erase Q.tail l x e h.nodup h.tail_not_mem hel hex]
    have : nextOf Q.tail l e ≠ x := by
      intro h2
      have := (prevOf_eq_some Q.tail none l x e h.nodup h.tail_not_mem (by simp) hel
        (Or.inl hx)).2 h2
      rw [hp] at this; simp at this
    simp [this]
  · show (Function.update nx x Link.null Q.tail).truthy = false
    rw [Function.update_noteq (Ne.symm hxs)]; exact h.next_tail
  · intro e he
    have hex : e ≠ x := by
      rcases he with he | he
      · exact (hmem e he).2
      · exact he ▸ (Ne.symm hxs)
    have hel : e ∈ l ∨ e = Q.tail := he.imp (fun h2 => (hmem e h2).1) id
    rw [Function.update_noteq hex,
      prevOf_erase Q.tail none l x e h.nodup (by simp) hel hex]
    have hiff := prevOf_eq_some Q.tail none l e x h.nodup h.tail_not_mem (by simp) hx hel
    by_cases hen : e = nextOf Q.tail l x
    · rw [if_pos (hiff.2 hen.symm), hp, hen, Function.update_same]
      rfl
    · rw [if_neg (fun h2 => hen (hiff.1 h2).symm), Function.update_noteq hen]
      exact h.prev_eq e hel
  · intro e he hes
    by_cases hex : e = x
    · rw [hex, Function.update_same]; rfl
    · have hel : e ∉ l := fun h2 => he ((List.Nodup.mem_erase_iff h.nodup).2 ⟨hex, h2⟩)
      rw [Function.update_noteq hex]
      by_cases hen : e = nextOf Q.tail l x
      · rw [hen, Function.update_same]; rfl
      · rw [Function.update_noteq hen]; exact h.prev_out e hel hes

theorem QRep.erase_inner {nx pv : Nat → Link} {Q : Queue} {l : List Nat} (h : QRep nx pv Q l)
    (x p : Nat) (hx : x ∈ l) (hp : prevOf none l x = some p) :
    QRep (Function.update (Function.update nx p (.obj (nextOf Q.tail l x))) x .null)
      (Function.update (Function.update pv (nextOf Q.tail l x) (.obj p)) x .null)
      Q (l.erase x) := by
  have hxs : x ≠ Q.tail := fun h2 => h.tail_not_mem (h2 ▸ hx)
  have hpl : p ∈ l := by
    rcases prevOf_some_mem _ _ _ _ hp with h2 | h2
    · simp at h2
    · exact h2
  have hps : p ≠ Q.tail := fun h2 => h.tail_not_mem (h2 ▸ hpl)
  have hhd : x ≠ l.headD Q.tail := by
    intro h2
    rw [(prevOf_eq_none Q.tail l x (Or.inl hx)).2 h2] at hp; simp at hp
  have hmem : ∀ e, e ∈ l.erase x → e ∈ l ∧ e ≠ x := fun e he =>
    ((List.Nodup.mem_erase_iff h.nodup).1 he).symm
  constructor
  · exact h.nodup.erase x
  · exact fun h2 => h.tail_not_mem (List.mem_of_mem_erase h2)
  · rw [headD_erase_of_ne _ _ _ hhd]; exact h.head_eq
  · intro e he
    obtain ⟨hel, hex⟩ := hmem e he
    rw [Function.update_noteq hex,
      nextOf_erase Q.tail l x e h.nodup h.tail_not_mem hel hex]
    have hiff := prevOf_eq_some Q.tail none l x e h.nodup h.tail_not_mem (by simp) hel
      (Or.inl hx)
    by_cases hep : e = p
    · rw [if_pos (hiff.1 (hep ▸ hp)), hep, Function.update_same]
    · rw [if_neg (fun h2 => hep (by have := hiff.2 h2; rw [hp] at this; simpa using this.symm)),
        Function.update_noteq hep]
      exact h.next_eq e hel
  · rw [Function.update_noteq (Ne.symm hxs), Function.update_noteq (Ne.symm hps)]
    exact h.next_tail
  · intro e he
    have hex : e ≠ x := by
      rcases he with he | he
      · exact (hmem e he).2
      · exact he ▸ (Ne.symm hxs)
    have hel : e ∈ l ∨ e = Q.tail := he.imp (fun h2 => (hmem e h2).1) id
    rw [Function.update_noteq hex,
      prevOf_erase Q.tail none l x e h.nodup (by simp) hel hex]
    have hiff := prevOf_eq_some Q.tail none l e x h.nodup h.tail_not_mem (by simp) hx hel
    by_cases hen : e = nextOf Q.tail l x
    · rw [if_pos (hiff.2 hen.symm), hp, hen, Function.update_same]
      rfl
    · rw [if_neg (fun h2 => hen (hiff.1 h2).symm), Function.update_noteq hen]
      exact h.prev_eq e hel
  · intro e he hes
    by_cases hex : e = x
    · rw [hex, Function.update_same]; rfl
    · have hel : e ∉ l := fun h2 => he ((List.Nodup.mem_erase_iff h.nodup).2 ⟨hex, h2⟩)
      rw [Function.update_noteq hex]
      have hen : e ≠ nextOf Q.tail l x := by
        intro h2
        rcases nextOf_mem Q.tail l x with h3 | h3
        · exact hel (h2 ▸ h3)
        · exact hes (h2.trans h3)
      rw [Function.update_noteq hen]; exact h.prev_out e hel hes

theorem QRep.cons {nx pv : Nat → Link} {Q : Queue} {l : List Nat} (h : QRep nx pv Q l)
    (x : Nat) (hx : x ∉ l) (hxs : x ≠ Q.tail) :
    QRep (Function.update nx x (.obj Q.head)) (Function.update pv Q.head (.obj x))
      { Q with head := x } (x :: l) := by
  have hhd : x ≠ Q.head := by
    rw [h.head_eq]
    rcases headD_mem Q.tail l with h2 | h2
    · exact fun h3 => hx (h3 ▸ h2)
    · rw [h2]; exact hxs
  constructor
  · exact List.nodup_cons.2 ⟨hx, h.nodup⟩
  · simp only [List.mem_cons, not_or]
    exact ⟨Ne.symm hxs, h.tail_not_mem⟩
  · rfl
  · intro e he
    simp only [nextOf]
    by_cases hex : e = x
    · rw [if_pos hex, hex, Function.update_same, h.head_eq]
    · rw [if_neg hex, Function.update_noteq hex]
      exact h.next_eq e ((List.mem_cons.1 he).resolve_left hex)
  · show (Function.update nx x (Link.obj Q.head) Q.tail).truthy = false
    rw [Function.update_noteq (Ne.symm hxs)]; exact h.next_tail
  · intro e he
    simp only [prevOf]
    by_cases hex : e = x
    · rw [if_pos hex, hex, Function.update_noteq hhd]
      exact h.prev_out x hx hxs
    · have hel : e ∈ l ∨ e = Q.tail := by
        rcases he with he | he
        · exact Or.inl ((List.mem_cons.1 he).resolve_left hex)
        · exact Or.inr he
      rw [if_neg hex, prevOf_head Q.tail (some x) l e hel, ← h.head_eq]
      by_cases heh : e = Q.head
      · rw [if_pos heh, heh, Function.update_same]; rfl
      · rw [if_neg heh, Function.update_noteq heh]; exact h.prev_eq e hel
  · intro e he hes
    simp only [List.mem_cons, not_or] at he
    have heh : e ≠ Q.head := by
      rw [h.head_eq]
      rcases headD_mem Q.tail l with h2 | h2
      · exact fun h3 => he.2 (h3 ▸ h2)
      · rw [h2]; exact hes
    rw [Function.update_noteq heh]
    exact h.prev_out e he.2 hes

end Dsjslib
namespace Dsjslib

theorem next_obj_withQ (c : Cache) (q : QType) (nx pv : Nat → Link) (Q : Queue) (e y : Nat) :
    Entry.next e q (.obj y) (c.withQ q nx pv Q) =
      .ok (.obj y) (c.withQ q (Function.update nx e (.obj y)) pv Q) :=
  next_set_withQ c q nx pv Q e _ (by simp)

theorem next_null_withQ (c : Cache) (q : QType) (nx pv : Nat → Link) (Q : Queue) (e : Nat) :
    Entry.next e q .null (c.withQ q nx pv Q) =
      .ok .null (c.withQ q (Function.update nx e .null) pv Q) :=
  next_set_withQ c q nx pv Q e _ (by simp)

theorem prev_obj_withQ (c : Cache) (q : QType) (nx pv : Nat → Link) (Q : Queue) (e y : Nat) :
    Entry.prev e q (.obj y) (c.withQ q nx pv Q) =
      .ok (.obj y) (c.withQ q nx (Function.update pv e (.obj y)) Q) :=
  prev_set_withQ c q nx pv Q e _ (by simp)

theorem prev_null_withQ (c : Cache) (q : QType) (nx pv : Nat → Link) (Q : Queue) (e : Nat) :
    Entry.prev e q .null (c.withQ q nx pv Q) =
      .ok .null (c.withQ q nx (Function.update pv e .null) Q) :=
  prev_set_withQ c q nx pv Q e _ (by simp)

@[simp] theorem Link.truthy_obj (x : Nat) : (Link.obj x).truthy = true := rfl

theorem remove_withQ (c : Cache) (q : QType) {nx pv : Nat → Link} {Q : Queue} {l : List Nat}
    (h : QRep nx pv Q l) (x : Nat) (hx : x ∈ l) :
    ∃ nx2 pv2 Q2, Entry.remove x q (c.withQ q nx pv Q) = .ok () (c.withQ q nx2 pv2 Q2) ∧
      QRep nx2 pv2 Q2 (l.erase x) ∧ Q2.tail = Q.tail ∧
      (∀ e, e ∉ l → nx2 e = nx e) := by
  have hnx := h.next_eq x hx
  have hpv := h.prev_eq x (Or.inl hx)
  cases hp : prevOf none l x with
  | none =>
    rw [hp] at hpv
    simp only [Link.Rep] at hpv
    refine ⟨_, _, _, ?_, h.erase_head x hx hp, rfl, ?_⟩
    · simp only [Entry.remove, bind_apply, getState_apply, withQ_queue_same, prev_get_withQ,
        next_get_withQ, hpv, hnx, Entry.callOn, Bool.false_eq_true, if_false,
        prev_null_withQ, next_null_withQ, modify_apply, setHead_withQ, setTail_withQ, pure_apply]
      by_cases ht : (nx (nextOf Q.tail l x)).truthy = true
      · simp only [ht, Bool.not_true, Bool.false_eq_true, if_false, bind_apply, pure_apply,
          prev_null_withQ, next_null_withQ]
      · have hn : nextOf Q.tail l x = Q.tail := by
          rcases nextOf_mem Q.tail l x with h3 | h3
          · rw [h.next_eq _ h3] at ht; simp [Link.truthy] at ht
          · exact h3
        rw [hn]
        split <;>
        simp only [bind_apply, pure_apply, modify_apply,
          prev_null_withQ, next_null_withQ, setTail_withQ]
    · intro e he
      rw [Function.update_noteq (fun h2 => he (by rw [h2]; exact hx))]
  | some p =>
    rw [hp] at hpv
    simp only [Link.Rep] at hpv
    have hpl : p ∈ l := by
      rcases prevOf_some_mem _ _ _ _ hp with h2 | h2
      · simp at h2
      · exact h2
    refine ⟨_, _, _, ?_, h.erase_inner x p hx hp, rfl, ?_⟩
    · simp only [Entry.remove, bind_apply, getState_apply, withQ_queue_same, prev_get_withQ,
        next_get_withQ, hpv, hnx, Entry.callOn, Link.truthy_obj, if_true,
        prev_obj_withQ, next_obj_withQ, modify_apply, pure_apply]
      by_cases ht : (Function.update nx p (Link.obj (nextOf Q.tail l x))
          (nextOf Q.tail l x)).truthy = true
      · simp only [ht, Bool.not_true, Bool.false_eq_true, if_false, bind_apply, pure_apply,
          prev_null_withQ, next_null_withQ]
      · have hn : nextOf Q.tail l x = Q.tail := by
          rcases nextOf_mem Q.tail l x with h3 | h3
          · exfalso
            apply ht
            by_cases h4 : nextOf Q.tail l x = p
            · rw [h4, Function.update_same]; rfl
            · rw [Function.update_noteq h4, h.next_eq _ h3]; rfl
          · exact h3
        rw [hn]
        split <;>
        simp only [bind_apply, pure_apply, modify_apply,
          prev_null_withQ, next_null_withQ, setTail_withQ]
    · intro e he
      rw [Function.update_noteq (fun h2 => he (by rw [h2]; exact hx)),
        Function.update_noteq (fun h2 => he (by rw [h2]; exact hpl))]

theorem moveToHead_withQ (c : Cache) (q : QType) {nx pv : Nat → Link} {Q : Queue} {l : List Nat}
    (h : QRep nx pv Q l) (x : Nat) (hx : x ∉ l) (hxs : x ≠ Q.tail) :
    ∃ nx2 pv2 Q2, Entry.moveToHead x q (c.withQ q nx pv Q) = .ok () (c.withQ q nx2 pv2 Q2) ∧
      QRep nx2 pv2 Q2 (x :: l) ∧ Q2.tail = Q.tail ∧
      (∀ e, e ∉ l → e ≠ x → nx2 e = nx e) := by
  refine ⟨_, _, _, ?_, h.cons x hx hxs, rfl, ?_⟩
  · simp only [Entry.moveToHead, bind_apply, getState_apply, withQ_queue_same, next_obj_withQ,
      prev_obj_withQ, modify_apply, setHead_withQ]
  · intro e _ hex
    rw [Function.update_noteq hex]

theorem erase_head_eq (s : Nat) (l : List Nat) (x : Nat) (hx : x ∈ l)
    (hp : prevOf none l x = none) : x :: l.erase x = l := by
  have hhd : x = l.headD s := (prevOf_eq_none s l x (Or.inl hx)).1 hp
  cases l with
  | nil => simp at hx
  | cons a r => simp only [List.headD_cons] at hhd; subst hhd; simp

theorem promote_withQ (c : Cache) (q : QType) {nx pv : Nat → Link} {Q : Queue} {l : List Nat}
    (h : QRep nx pv Q l) (x : Nat) (hx : x ∈ l) :
    ∃ nx2 pv2 Q2, Cache._promoteEntry x q (c.withQ q nx pv Q) = .ok () (c.withQ q nx2 pv2 Q2) ∧
      QRep nx2 pv2 Q2 (x :: l.erase x) ∧ Q2.tail = Q.tail ∧
      (∀ e, e ∉ l → nx2 e = nx e) := by
  have hpv := h.prev_eq x (Or.inl hx)
  have hxs : x ≠ Q.tail := fun h2 => h.tail_not_mem (h2 ▸ hx)
  cases hp : prevOf none l x with
  | none =>
    rw [hp] at hpv
    simp only [Link.Rep] at hpv
    refine ⟨nx, pv, Q, ?_, ?_, rfl, fun _ _ => rfl⟩
    · simp [Cache._promoteEntry, hpv]
    · rw [erase_head_eq Q.tail l x hx hp]; exact h
  | some p =>
    rw [hp] at hpv
    simp only [Link.Rep] at hpv
    obtain ⟨nx1, pv1, Q1, h1, hq1, ht1, hf1⟩ := remove_withQ c q h x hx
    obtain ⟨nx2, pv2, Q2, h2, hq2, ht2, hf2⟩ := moveToHead_withQ c q hq1 x
      (fun h3 => (List.Nodup.mem_erase_iff h.nodup).1 h3 |>.1 rfl) (ht1 ▸ hxs)
    refine ⟨nx2, pv2, Q2, ?_, hq2, ht2.trans ht1, ?_⟩
    · simp [Cache._promoteEntry, hpv, h1, h2]
    · intro e he
      rw [hf2 e (fun h3 => he (List.mem_of_mem_erase h3)) (fun h3 => he (by rw [h3]; exact hx)),
        hf1 e he]

end Dsjslib
namespace Dsjslib

@[simp] theorem withQ_spec (c : Cache) (q : QType) (nx pv : Nat → Link) (Q : Queue) :
    (c.withQ q nx pv Q)._spec = c._spec := by cases q <;> rfl

@[simp] theorem withQ_size (c : Cache) (q : QType) (nx pv : Nat → Link) (Q : Queue) :
    (c.withQ q nx pv Q).size = c.size := by cases q <;> rfl

@[simp] theorem withQ_weight (c : Cache) (q : QType) (nx pv : Nat → Link) (Q : Queue) :
    (c.withQ q nx pv Q).weight = c.weight := by cases q <;> rfl

@[simp] theorem withQ_cache (c : Cache) (q : QType) (nx pv : Nat → Link) (Q : Queue) :
    (c.withQ q nx pv Q)._cache = c._cache := by cases q <;> rfl

@[simp] theorem withQ_stats (c : Cache) (q : QType) (nx pv : Nat → Link) (Q : Queue) :
    (c.withQ q nx pv Q).stats = c.stats := by cases q <;> rfl

@[simp] theorem withQ_events (c : Cache) (q : QType) (nx pv : Nat → Link) (Q : Queue) :
    (c.withQ q nx pv Q).events = c.events := by cases q <;> rfl

@[simp] theorem withQ_key (c : Cache) (q : QType) (nx pv : Nat → Link) (Q : Queue) :
    (c.withQ q nx pv Q).heap.key = c.heap.key := by cases q <;> rfl

@[simp] theorem withQ_value (c : Cache) (q : QType) (nx pv : Nat → Link) (Q : Queue) :
    (c.withQ q nx pv Q).heap.value = c.heap.value := by cases q <;> rfl

@[simp] theorem withQ_writeTime (c : Cache) (q : QType) (nx pv : Nat → Link) (Q : Queue) :
    (c.withQ q nx pv Q).heap.writeTime = c.heap.writeTime := by cases q <;> rfl

@[simp] theorem withQ_nextId (c : Cache) (q : QType) (nx pv : Nat → Link) (Q : Queue) :
    (c.withQ q nx pv Q).heap.nextId = c.heap.nextId := by cases q <;> rfl

@[simp] theorem withQ_A_accessQueue (c : Cache) (nx pv : Nat → Link) (Q : Queue) :
    (c.withQ .A nx pv Q)._accessQueue = Q := rfl

@[simp] theorem withQ_W_accessQueue (c : Cache) (nx pv : Nat → Link) (Q : Queue) :
    (c.withQ .W nx pv Q)._accessQueue = c._accessQueue := rfl

@[simp] theorem withQ_A_writeQueue (c : Cache) (nx pv : Nat → Link) (Q : Queue) :
    (c.withQ .A nx pv Q)._writeQueue = c._writeQueue := rfl

@[simp] theorem withQ_W_writeQueue (c : Cache) (nx pv : Nat → Link) (Q : Queue) :
    (c.withQ .W nx pv Q)._writeQueue = some Q := rfl

@[simp] theorem withQ_A_next_W (c : Cache) (nx pv : Nat → Link) (Q : Queue) :
    (c.withQ .A nx pv Q).heap.next .W = c.heap.next .W := by
  simp [Cache.withQ, Cache.setQueue]

@[simp] theorem withQ_A_prev_W (c : Cache) (nx pv : Nat → Link) (Q : Queue) :
    (c.withQ .A nx pv Q).heap.prev .W = c.heap.prev .W := by
  simp [Cache.withQ, Cache.setQueue]

@[simp] theorem withQ_W_next_A (c : Cache) (nx pv : Nat → Link) (Q : Queue) :
    (c.withQ .W nx pv Q).heap.next .A = c.heap.next .A := by
  simp [Cache.withQ, Cache.setQueue]

@[simp] theorem withQ_W_prev_A (c : Cache) (nx pv : Nat → Link) (Q : Queue) :
    (c.withQ .W nx pv Q).heap.prev .A = c.heap.prev .A := by
  simp [Cache.withQ, Cache.setQueue]

theorem Same.refl (c : Cache) : Same c c := ⟨rfl, rfl, rfl, rfl, rfl, rfl, rfl, rfl⟩

theorem Same.trans {c c1 c2 : Cache} (h1 : Same c c1) (h2 : Same c1 c2) : Same c c2 :=
  ⟨h2.spec.trans h1.spec, h2.key.trans h1.key, h2.value.trans h1.value,
    h2.writeTime.trans h1.writeTime, h2.nextId.trans h1.nextId, h2.stats.trans h1.stats,
    h2.atail.trans h1.atail, h2.wtail.trans h1.wtail⟩

theorem Same.wq {c c2 : Cache} (h : Same c c2) :
    c2._writeQueue.isSome = c._writeQueue.isSome := by
  have := h.wtail
  cases h1 : c2._writeQueue <;> cases h2 : c._writeQueue <;> simp_all

theorem Same.wq_some {c c2 : Cache} (h : Same c c2) (Q2 : Queue)
    (h2 : c2._writeQueue = some Q2) : ∃ Q, c._writeQueue = some Q ∧ Q2.tail = Q.tail := by
  have := h.wtail
  rw [h2] at this
  cases h1 : c._writeQueue with
  | none => rw [h1] at this; simp at this
  | some Q => rw [h1] at this; simp at this; exact ⟨Q, rfl, this⟩

theorem Same.wq_some_rev {c c2 : Cache} (h : Same c c2) (Q : Queue)
    (h1 : c._writeQueue = some Q) : ∃ Q2, c2._writeQueue = some Q2 ∧ Q2.tail = Q.tail := by
  have := h.wtail
  rw [h1] at this
  cases h2 : c2._writeQueue with
  | none => rw [h2] at this; simp at this
  | some Q2 => rw [h2] at this; simp at this; exact ⟨Q2, rfl, this⟩

theorem Same.withQ_A (c : Cache) (nx pv : Nat → Link) (Q : Queue)
    (h : Q.tail = c._accessQueue.tail) : Same c (c.withQ .A nx pv Q) := by
  refine ⟨by simp, by simp, by simp, by simp, by simp, by simp, ?_, ?_⟩
  · simpa using h
  · simp

/-- Each of the three queue operations on a cache whose queue `q` holds `l`. -/
theorem remove_spec (c : Cache) (q : QType) (Q : Queue) (l : List Nat) (hQ : c.queue q = some Q)
    (h : QRep (c.heap.next q) (c.heap.prev q) Q l) (x : Nat) (hx : x ∈ l) :
    ∃ nx2 pv2 Q2, Entry.remove x q c = .ok () (c.withQ q nx2 pv2 Q2) ∧
      QRep nx2 pv2 Q2 (l.erase x) ∧ Q2.tail = Q.tail := by
  obtain ⟨nx2, pv2, Q2, h1, h2, h3, _⟩ := remove_withQ c q h x hx
  rw [withQ_self c q Q hQ] at h1
  exact ⟨nx2, pv2, Q2, h1, h2, h3⟩

theorem moveToHead_spec (c : Cache) (q : QType) (Q : Queue) (l : List Nat)
    (hQ : c.queue q = some Q) (h : QRep (c.heap.next q) (c.heap.prev q) Q l) (x : Nat)
    (hx : x ∉ l) (hxs : x ≠ Q.tail) :
    ∃ nx2 pv2 Q2, Entry.moveToHead x q c = .ok () (c.withQ q nx2 pv2 Q2) ∧
      QRep nx2 pv2 Q2 (x :: l) ∧ Q2.tail = Q.tail := by
  obtain ⟨nx2, pv2, Q2, h1, h2, h3, _⟩ := moveToHead_withQ c q h x hx hxs
  rw [withQ_self c q Q hQ] at h1
  exact ⟨nx2, pv2, Q2, h1, h2, h3⟩

theorem promote_spec (c : Cache) (q : QType) (Q : Queue) (l : List Nat)
    (hQ : c.queue q = some Q) (h : QRep (c.heap.next q) (c.heap.prev q) Q l) (x : Nat)
    (hx : x ∈ l) :
    ∃ nx2 pv2 Q2, Cache._promoteEntry x q c = .ok () (c.withQ q nx2 pv2 Q2) ∧
      QRep nx2 pv2 Q2 (x :: l.erase x) ∧ Q2.tail = Q.tail := by
  obtain ⟨nx2, pv2, Q2, h1, h2, h3, _⟩ := promote_withQ c q h x hx
  rw [withQ_self c q Q hQ] at h1
  exact ⟨nx2, pv2, Q2, h1, h2, h3⟩

theorem remove_noqueue (c : Cache) (x : Nat) (h : c._writeQueue = none) :
    Entry.remove x .W c = .ok () c := by
  simp [Entry.remove, Cache.queue, h]

theorem moveToHead_noqueue (c : Cache) (x : Nat) (h : c._writeQueue = none) :
    Entry.moveToHead x .W c = .ok () c := by
  simp [Entry.moveToHead, Cache.queue, h]

theorem promote_noqueue (c : Cache) (x : Nat) (h : c._writeQueue = none) :
    Cache._promoteEntry x .W c = .ok () c := by
  simp [Cache._promoteEntry, Cache.queue, h]

theorem updateCacheSize_ok (c : Cache) (e : Nat) (incr : Bool)
    (hw : ∀ w, c._spec.maxWeight = some w → w ≠ 0 → c._spec.weighFn.isSome) :
    ∃ w, Cache._updateCacheSize e incr c =
      .ok () { c with weight := w, size := c.size + (if incr then 1 else -1) } := by
  cases hm : c._spec.maxWeight with
  | none => exact ⟨c.weight, by simp [Cache._updateCacheSize, hm]⟩
  | some m =>
    by_cases hm0 : m = 0
    · exact ⟨c.weight, by simp [Cache._updateCacheSize, hm, hm0]⟩
    · have := hw m hm hm0
      obtain ⟨f, hf⟩ := Option.isSome_iff_exists.1 this
      exact ⟨_, by simp [Cache._updateCacheSize, hm, hm0, hf]; rfl⟩

end Dsjslib
namespace Dsjslib

theorem OnlyW.refl_w (c : Cache) : OnlyW c c :=
  ⟨rfl, rfl, rfl, rfl, rfl, rfl, rfl, rfl, rfl, rfl, rfl, rfl, rfl, rfl⟩

theorem OnlyW.withQ (c : Cache) (nx pv : Nat → Link) (Q Q2 : Queue) (h : c._writeQueue = some Q)
    (ht : Q2.tail = Q.tail) : OnlyW c (c.withQ .W nx pv Q2) := by
  refine ⟨by simp, by simp, by simp, by simp, by simp, by simp, by simp, by simp, by simp,
    by simp, by simp, by simp, by simp, ?_⟩
  simp [h, ht]

theorem OnlyW.same {c c2 : Cache} (h : OnlyW c c2) : Same c c2 := by
  exact ⟨h.spec, h.key, h.value, h.writeTime, h.nextId, h.stats,
    by rw [h.accessQueue], h.tail⟩

theorem OnlyW.wq_some_w {c c2 : Cache} (h : OnlyW c c2) (Q2 : Queue)
    (h2 : c2._writeQueue = some Q2) : ∃ Q, c._writeQueue = some Q ∧ Q2.tail = Q.tail := by
  have := h.tail
  rw [h2] at this
  cases h1 : c._writeQueue with
  | none => rw [h1] at this; simp at this
  | some Q => rw [h1] at this; simp at this; exact ⟨Q, rfl, this⟩

theorem removeW_spec (c : Cache) (lw : List Nat) (h : WRep c lw) (x : Nat)
    (hx : c._writeQueue.isSome → x ∈ lw) :
    ∃ c2, Entry.remove x .W c = .ok () c2 ∧ WRep c2 (lw.erase x) ∧ OnlyW c c2 := by
  cases hw : c._writeQueue with
  | none =>
    refine ⟨c, remove_noqueue c x hw, ?_, OnlyW.refl_w c⟩
    intro Qw hQw; rw [hw] at hQw; cases hQw
  | some Q =>
    obtain ⟨nx2, pv2, Q2, h1, h2, h3⟩ := remove_spec c .W Q lw hw (h Q hw) x (hx (by simp [hw]))
    refine ⟨_, h1, ?_, OnlyW.withQ c nx2 pv2 Q Q2 hw h3⟩
    intro Qw hQw
    simp only [withQ_W_writeQueue, Option.some.injEq] at hQw
    subst hQw
    simpa using h2

theorem promoteW_spec (c : Cache) (lw : List Nat) (h : WRep c lw) (x : Nat)
    (hx : c._writeQueue.isSome → x ∈ lw) :
    ∃ c2, Cache._promoteEntry x .W c = .ok () c2 ∧ WRep c2 (x :: lw.erase x) ∧ OnlyW c c2 := by
  cases hw : c._writeQueue with
  | none =>
    refine ⟨c, promote_noqueue c x hw, ?_, OnlyW.refl_w c⟩
    intro Qw hQw; rw [hw] at hQw; cases hQw
  | some Q =>
    obtain ⟨nx2, pv2, Q2, h1, h2, h3⟩ := promote_spec c .W Q lw hw (h Q hw) x (hx (by simp [hw]))
    refine ⟨_, h1, ?_, OnlyW.withQ c nx2 pv2 Q Q2 hw h3⟩
    intro Qw hQw
    simp only [withQ_W_writeQueue, Option.some.injEq] at hQw
    subst hQw
    simpa using h2

theorem moveToHeadW_spec (c : Cache) (lw : List Nat) (h : WRep c lw) (x : Nat)
    (hx : c._writeQueue.isSome → x ∉ lw) (hxs : ∀ Qw, c._writeQueue = some Qw → x ≠ Qw.tail) :
    ∃ c2, Entry.moveToHead x .W c = .ok () c2 ∧ WRep c2 (x :: lw) ∧ OnlyW c c2 := by
  cases hw : c._writeQueue with
  | none =>
    refine ⟨c, moveToHead_noqueue c x hw, ?_, OnlyW.refl_w c⟩
    intro Qw hQw; rw [hw] at hQw; cases hQw
  | some Q =>
    obtain ⟨nx2, pv2, Q2, h1, h2, h3⟩ :=
      moveToHead_spec c .W Q lw hw (h Q hw) x (hx (by simp [hw])) (hxs Q hw)
    refine ⟨_, h1, ?_, OnlyW.withQ c nx2 pv2 Q Q2 hw h3⟩
    intro Qw hQw
    simp only [withQ_W_writeQueue, Option.some.injEq] at hQw
    subst hQw
    simpa using h2

theorem notify_ok (c : Cache) (e : Nat) (cause : String) :
    Cache._notify e cause c = .ok ()
      { c with events := c.events ++
          (if c._spec.onRemove then
            [Event.onRemove (propKey (c.heap.key e)) (c.heap.value e) cause] else []) } := by
  by_cases h : c._spec.onRemove = true
  · simp [Cache._notify, h]
  · simp [Cache._notify, h]

end Dsjslib
namespace Dsjslib

theorem Rep.wrep {c : Cache} {la lw : List Nat} (h : Rep c la lw) : WRep c lw :=
  fun Qw hQ => (h.qw Qw hQ).1

theorem Rep.mem_lw {c : Cache} {la lw : List Nat} (h : Rep c la lw) (x : Nat) (hx : x ∈ la) :
    c._writeQueue.isSome → x ∈ lw := by
  intro hs
  obtain ⟨Q, hQ⟩ := Option.isSome_iff_exists.1 hs
  exact (h.qw Q hQ).2.1.mem_iff.2 hx

theorem rmEntry_spec (c : Cache) (la lw : List Nat) (h : Rep c la lw) (x : Nat) (hx : x ∈ la)
    (cause : String) :
    ∃ c2, Cache._rmEntry (some x) cause c = .ok () c2 ∧ Rep c2 (la.erase x) (lw.erase x) ∧
      Same c c2 ∧ (Strong c la → Strong c2 (la.erase x)) ∧
      c2.events = c.events ++
        (if c._spec.onRemove then
          [Event.onRemove (propKey (c.heap.key x)) (c.heap.value x) cause] else []) ∧
      c2._cache = Function.update c._cache (propKey (c.heap.key x)) none := by
  obtain ⟨nxA, pvA, QA, hA, hqA, htA⟩ := remove_spec c .A c._accessQueue la rfl h.qa x hx
  obtain ⟨cW, hW, hqW, hoW⟩ := removeW_spec (c.withQ .A nxA pvA QA) lw
    (by intro Qw hQ; simpa using h.wrep Qw (by simpa using hQ))
    x (by simpa using h.mem_lw x hx)
  obtain ⟨w, hU⟩ := updateCacheSize_ok cW x false (by rw [hoW.spec]; simpa using h.weigh)
  obtain ⟨kx, hkx⟩ := h.keyed x hx
  have hkW : cW.heap.key = c.heap.key := by rw [hoW.key]; simp
  have hvW : cW.heap.value = c.heap.value := by rw [hoW.value]; simp
  have hsW : cW._spec = c._spec := by rw [hoW.spec]; simp
  refine ⟨{ cW with weight := w, size := cW.size + -1,
                    _cache := Function.update cW._cache (propKey (cW.heap.key x)) none,
                    events := cW.events ++
                      (if cW._spec.onRemove then
                        [Event.onRemove (propKey (cW.heap.key x)) (cW.heap.value x) cause]
                       else []) }, ?_, ?_, ?_, ?_, ?_, ?_⟩
  · simp only [Cache._rmEntry, bind_apply, hA, hW, hU, modify_apply, notify_ok]
    rfl
  · constructor
    · show QRep (cW.heap.next .A) (cW.heap.prev .A) cW._accessQueue _
      rw [hoW.nextA, hoW.prevA, hoW.accessQueue]
      simpa using hqA
    · intro Qw hQ
      have hQ2 : cW._writeQueue = some Qw := hQ
      refine ⟨hqW Qw hQ2, ?_, ?_⟩
      · obtain ⟨Q0, hQ0, _⟩ := hoW.wq_some_w Qw hQ2
        exact (h.qw Q0 (by simpa using hQ0)).2.1.erase x
      · show Qw.tail < cW.heap.nextId ∧ cW.heap.key Qw.tail = none
        obtain ⟨a, ha, hta⟩ := hoW.wq_some_w Qw hQ2
        rw [hoW.nextId, hta, hkW]; simpa using (h.qw a (by simpa using ha)).2.2
    · show cW._writeQueue.isSome = _
      rw [show cW._spec = c._spec from hsW, ← h.wq]
      simpa using hoW.same.wq
    · intro k e
      show Function.update cW._cache (propKey (cW.heap.key x)) none k = some e →
        e ∈ la.erase x ∧ cW.heap.key e = some k
      rw [hoW.cache, hkW, hkx, List.Nodup.mem_erase_iff h.qa.nodup]
      simp only [withQ_cache, propKey, Option.getD_some]
      by_cases hk : k = kx
      · subst hk
        rw [Function.update_same]
        intro h2; cases h2
      · rw [Function.update_noteq hk]
        intro h2
        obtain ⟨hel, hke⟩ := h.map k e h2
        refine ⟨⟨?_, hel⟩, hke⟩
        intro h3; rw [h3, hkx] at hke; exact hk (Option.some.inj hke).symm
    · intro e he
      show ∃ k, cW.heap.key e = some k
      rw [hkW]; exact h.keyed e (List.mem_of_mem_erase he)
    · show cW.size + -1 = _
      rw [hoW.size, withQ_size, h.size_eq, List.length_erase_of_mem hx]
      have : 0 < la.length := List.length_pos_of_mem hx
      omega
    · intro e he
      show e < cW.heap.nextId
      rw [hoW.nextId]; simpa using h.alloc e (List.mem_of_mem_erase he)
    · show cW._accessQueue.tail < cW.heap.nextId
      rw [hoW.accessQueue, hoW.nextId]; simpa [htA] using h.tail_alloc
    · show cW.heap.key cW._accessQueue.tail = none
      rw [hoW.accessQueue, hkW]; simpa [htA] using h.tail_key
    · show ∀ w, cW._spec.maxWeight = some w → _
      rw [hsW]; exact h.weigh
  · have hs := (Same.withQ_A c nxA pvA QA htA).trans hoW.same
    exact ⟨hs.spec, hs.key, hs.value, hs.writeTime, hs.nextId, hs.stats, hs.atail, hs.wtail⟩
  · intro hst e he k hke
    have hke2 : c.heap.key e = some k := by rw [← hkW]; exact hke
    obtain ⟨hne, hel⟩ := (List.Nodup.mem_erase_iff h.qa.nodup).1 he
    show Function.update cW._cache (propKey (cW.heap.key x)) none k = some e
    rw [hoW.cache, hkW, hkx]
    simp only [withQ_cache, propKey, Option.getD_some]
    have hk : k ≠ kx := by
      intro h3
      rw [h3] at hke2
      have h1 := hst e hel kx hke2
      have h2 := hst x hx kx hkx
      rw [h1] at h2; exact hne (Option.some.inj h2)
    rw [Function.update_noteq hk]
    exact hst e hel k hke2
  · show cW.events ++ _ = _
    rw [hoW.events, hsW, hkW, hvW]; simp
  · show Function.update cW._cache _ none = _
    rw [hoW.cache, hkW]; simp

end Dsjslib
namespace Dsjslib

theorem prevOf_tail_none (s : Nat) (l : List Nat) (hs : s ∉ l) (h : prevOf none l s = none) :
    l = [] := by
  have := (prevOf_eq_none s l s (Or.inr rfl)).1 h
  cases l with
  | nil => rfl
  | cons a r => simp at this hs; exact absurd this hs.1

theorem prevOf_tail_mem (s : Nat) (l : List Nat) (e : Nat) (h : prevOf none l s = some e) :
    e ∈ l := by
  rcases prevOf_some_mem _ _ _ _ h with h2 | h2
  · simp at h2
  · exact h2

theorem prevOf_tail_step (s : Nat) (l : List Nat) (e : Nat) (hn : l.Nodup) (hs : s ∉ l)
    (h : prevOf none l s = some e) : prevOf none (l.erase e) s = prevOf none l e := by
  have hes : s ≠ e := fun h2 => hs (h2 ▸ prevOf_tail_mem s l e h)
  rw [prevOf_erase s none l e s hn (by simp) (Or.inr rfl) hes, if_pos h]

theorem Link.Rep_none_cases {k : Link} (h : Link.Rep k none) : k = .undefined ∨ k = .null := by
  cases k <;> simp [Link.Rep, Link.truthy] at h ⊢

theorem notes_nil (c : Cache) (cause : String) : notes c cause [] = [] := by
  simp [notes]

theorem notes_cons (c : Cache) (cause : String) (e : Nat) (rm : List Nat) :
    notes c cause (e :: rm) = notes c cause [e] ++ notes c cause rm := by
  simp only [notes]; split <;> simp

theorem notes_same {c c2 : Cache} (h : Same c c2) (cause : String) (rm : List Nat) :
    notes c2 cause rm = notes c cause rm := by
  simp only [notes, h.spec, h.key, h.value]

theorem delKeys_same {c c2 : Cache} (h : Same c c2) (rm : List Nat)
    (m : String → Option Nat) : delKeys c2 rm m = delKeys c rm m := by
  simp only [delKeys, h.key]

theorem canReap_same_size {c c2 : Cache} (hs : c2._spec = c._spec) (h1 : c2.size = c.size)
    (h2 : c2.weight = c.weight) : Cache._canReap c2 = Cache._canReap c := by
  simp only [Cache._canReap, hs, h1, h2]

theorem cleanupCapacity_spec (fuel : Nat) :
    ∀ (c : Cache) (la lw : List Nat) (lru : Link), Rep c la lw →
      Link.Rep lru (prevOf none la c._accessQueue.tail) → la.length < fuel →
      ∃ c2 la2 lw2 rm, Cache.cleanupCapacity fuel lru c = .ok () c2 ∧ Rep c2 la2 lw2 ∧
        Same c c2 ∧ la = la2 ++ rm.reverse ∧ lw2.Sublist lw ∧
        c2.events = c.events ++ notes c _REMOVAL_CAUSE_C rm ∧
        (Strong c la → Strong c2 la2) ∧ c2._cache = delKeys c rm c._cache ∧
        (la2 = [] ∨ Cache._canReap c2 = false) ∧
        (rm = [] → c2 = c ∧ lw2 = lw) ∧ (Cache._canReap c = false → rm = []) ∧
        (∀ N : Int, SizeMode c N → ((la.length : Int) ≥ N → (la2.length : Int) = N - 1)) := by
  induction fuel with
  | zero => intro c la lw lru _ _ hf; omega
  | succ fuel ih =>
    intro c la lw lru h hl hf
    cases hp : prevOf none la c._accessQueue.tail with
    | none =>
      rw [hp] at hl
      have hnil := prevOf_tail_none _ _ h.qa.tail_not_mem hp
      refine ⟨c, la, lw, [], ?_, h, Same.refl c, by simp, List.Sublist.refl _,
        by simp [notes_nil], id, rfl, Or.inl hnil, fun _ => ⟨rfl, rfl⟩, fun _ => rfl, ?_⟩
      · rcases Link.Rep_none_cases hl with h2 | h2 <;> simp [Cache.cleanupCapacity, h2]
      · intro N hN hge
        rw [hnil] at hge ⊢
        have := hN.2.1
        simp at hge; omega
    | some e =>
      rw [hp] at hl
      simp only [Link.Rep] at hl
      subst hl
      by_cases hc : Cache._canReap c = true
      · have hel : e ∈ la := prevOf_tail_mem _ _ _ hp
        obtain ⟨c1, h1, hr1, hs1, hst1, he1, hca1⟩ :=
          rmEntry_spec c la lw h e hel _REMOVAL_CAUSE_C
        have hla : la = la.erase e ++ [e] := prevOf_tail_erase _ _ _ h.qa.nodup h.qa.tail_not_mem hp
        have hlen : (la.erase e).length < fuel := by
          rw [List.length_erase_of_mem hel]
          have : 0 < la.length := List.length_pos_of_mem hel
          omega
        have hl1 : Link.Rep (c.heap.prev .A e) (prevOf none (la.erase e) c1._accessQueue.tail) := by
          rw [hs1.atail, prevOf_tail_step _ _ _ h.qa.nodup h.qa.tail_not_mem hp]
          exact h.qa.prev_eq e (Or.inl hel)
        obtain ⟨c2, la2, lw2, rm, h2, hr2, hs2, hla2, hlw2, hev2, hst2, hca2, hcap2, hidle2,
          hnone2, hsz2⟩ := ih c1 (la.erase e) (lw.erase e) (c.heap.prev .A e) hr1 hl1 hlen
        refine ⟨c2, la2, lw2, e :: rm, ?_, hr2, hs1.trans hs2, ?_, ?_, ?_,
          fun h3 => hst2 (hst1 h3), ?_, hcap2, ?_, ?_, ?_⟩
        · simp only [Cache.cleanupCapacity, bind_apply, getState_apply, hc, if_true, Entry.prev,
            ne_eq, not_true_eq_false, if_false, h1, h2]
        · rw [List.reverse_cons, ← List.append_assoc, ← hla2]; exact hla
        · exact hlw2.trans (List.erase_sublist e lw)
        · rw [hev2, he1, notes_cons c _ e rm, notes_same hs1, List.append_assoc]
          simp [notes]
        · rw [hca2, hca1, delKeys_same hs1]; rfl
        · intro h3; cases h3
        · intro h3; rw [h3] at hc; cases hc
        · intro N hN hge
          have hN1 : SizeMode c1 N := by
            unfold SizeMode at hN ⊢; rw [hs1.spec]; exact hN
          have hlen1 : ((la.erase e).length : Int) = la.length - 1 := by
            rw [List.length_erase_of_mem hel]
            have : 0 < la.length := List.length_pos_of_mem hel
            omega
          by_cases hge1 : ((la.erase e).length : Int) ≥ N
          · exact hsz2 N hN1 hge1
          · have hcr : Cache._canReap c1 = false := by
              simp only [Cache._canReap, hN1.1, hN1.2.2, hr1.size_eq]
              simp; intro _; omega
            have hrm := hnone2 hcr
            subst hrm
            simp at hla2
            rw [← hla2, hlen1]; omega
      · rw [Bool.not_eq_true] at hc
        refine ⟨c, la, lw, [], ?_, h, Same.refl c, by simp, List.Sublist.refl _,
          by simp [notes_nil], id, rfl, Or.inr hc, fun _ => ⟨rfl, rfl⟩, fun _ => rfl, ?_⟩
        · simp [Cache.cleanupCapacity, hc]
        · intro N hN hge
          exfalso
          simp only [Cache._canReap, hN.1, hN.2.2, h.size_eq] at hc
          have := hN.2.1
          simp at hc
          have := hc (by omega)
          omega

theorem isExpired_same {c c2 : Cache} (h : Same c c2) (e now : Nat) :
    Entry.isExpired e now c2 = Entry.isExpired e now c := by
  simp only [Entry.isExpired, h.spec, h.writeTime]

theorem cleanupExpired_spec (now fuel : Nat) :
    ∀ (c : Cache) (la lw : List Nat) (lru : Link) (Qw : Queue), Rep c la lw →
      c._writeQueue = some Qw → Link.Rep lru (prevOf none lw Qw.tail) → lw.length < fuel →
      ∃ c2 la2 lw2 rm, Cache.cleanupExpired now fuel lru c = .ok () c2 ∧ Rep c2 la2 lw2 ∧
        Same c c2 ∧ lw = lw2 ++ rm.reverse ∧ la2.Sublist la ∧ la.Perm (rm ++ la2) ∧
        c2.events = c.events ++ notes c _REMOVAL_CAUSE_E rm ∧
        (Strong c la → Strong c2 la2) ∧ c2._cache = delKeys c rm c._cache ∧
        (∀ e ∈ rm, Entry.isExpired e now c = true) ∧
        (∀ e, prevOf none lw2 Qw.tail = some e → Entry.isExpired e now c = false) ∧
        (rm = [] → c2 = c ∧ la2 = la) := by
  induction fuel with
  | zero => intro c la lw lru _ _ _ _ hf; omega
  | succ fuel ih =>
    intro c la lw lru Qw h hQ hl hf
    have hqw := h.qw Qw hQ
    cases hp : prevOf none lw Qw.tail with
    | none =>
      rw [hp] at hl
      refine ⟨c, la, lw, [], ?_, h, Same.refl c, by simp, List.Sublist.refl _, by simp,
        by simp [notes_nil], id, rfl, by simp, ?_, fun _ => ⟨rfl, rfl⟩⟩
      · rcases Link.Rep_none_cases hl with h2 | h2 <;> simp [Cache.cleanupExpired, h2]
      · intro e he; rw [hp] at he; cases he
    | some e =>
      rw [hp] at hl
      simp only [Link.Rep] at hl
      subst hl
      by_cases hc : Entry.isExpired e now c = true
      · have helw : e ∈ lw := prevOf_tail_mem _ _ _ hp
        have hel : e ∈ la := hqw.2.1.mem_iff.1 helw
        obtain ⟨c1, h1, hr1, hs1, hst1, he1, hca1⟩ :=
          rmEntry_spec c la lw h e hel _REMOVAL_CAUSE_E
        have hlw : lw = lw.erase e ++ [e] :=
          prevOf_tail_erase _ _ _ hqw.1.nodup hqw.1.tail_not_mem hp
        have hlen : (lw.erase e).length < fuel := by
          rw [List.length_erase_of_mem helw]
          have : 0 < lw.length := List.length_pos_of_mem helw
          omega
        obtain ⟨Q1, hQ1, hQ1t⟩ := hs1.wq_some_rev Qw hQ
        have hl1 : Link.Rep (c.heap.prev .W e) (prevOf none (lw.erase e) Q1.tail) := by
          rw [hQ1t, prevOf_tail_step _ _ _ hqw.1.nodup hqw.1.tail_not_mem hp]
          exact hqw.1.prev_eq e (Or.inl helw)
        obtain ⟨c2, la2, lw2, rm, h2, hr2, hs2, hlw2, hsub2, hperm2, hev2, hst2, hca2, hexp2,
          hlast2, _⟩ := ih c1 (la.erase e) (lw.erase e) (c.heap.prev .W e) Q1 hr1 hQ1 hl1 hlen
        refine ⟨c2, la2, lw2, e :: rm, ?_, hr2, hs1.trans hs2, ?_, ?_, ?_, ?_,
          fun h3 => hst2 (hst1 h3), ?_, ?_, ?_, ?_⟩
        · simp only [Cache.cleanupExpired, bind_apply, getState_apply, hc, if_true, Entry.prev,
            ne_eq, not_true_eq_false, if_false, h1, h2]
        · rw [List.reverse_cons, ← List.append_assoc, ← hlw2]; exact hlw
        · exact hsub2.trans (List.erase_sublist e la)
        · exact (List.perm_cons_erase hel).trans (by simpa using hperm2)
        · rw [hev2, he1, notes_cons c _ e rm, notes_same hs1, List.append_assoc]
          simp [notes]
        · rw [hca2, hca1, delKeys_same hs1]; rfl
        · intro x hx
          rcases List.mem_cons.1 hx with h3 | h3
          · rw [h3]; exact hc
          · rw [← isExpired_same hs1]; exact hexp2 x h3
        · intro x hx
          rw [← isExpired_same hs1]; exact hlast2 x (by rw [hQ1t]; exact hx)
        · intro h3; cases h3
      · rw [Bool.not_eq_true] at hc
        refine ⟨c, la, lw, [], ?_, h, Same.refl c, by simp, List.Sublist.refl _, by simp,
          by simp [notes_nil], id, rfl, by simp, ?_, fun _ => ⟨rfl, rfl⟩⟩
        · simp [Cache.cleanupExpired, hc]
        · intro x hx; rw [hp] at hx; cases hx; exact hc

end Dsjslib
namespace Dsjslib

theorem cleanup_spec (now fuel : Nat) (capacity : Bool) (c : Cache) (la lw : List Nat)
    (h : Rep c la lw) (hf : la.length < fuel) :
    ∃ c2 la2 lw2 rmE rmC la1 lw1, Cache._cleanup now fuel capacity c = .ok () c2 ∧
      CleanupPost now capacity c la lw c2 la2 lw2 rmE rmC la1 lw1 := by
  -- the expiry scan
  have hE : ∃ c1 la1 lw1 rmE, ((∀ Qw, c._writeQueue = some Qw →
        Cache.cleanupExpired now fuel (c.heap.prev .W Qw.tail) c = .ok () c1) ∧
        (c._writeQueue = none → c1 = c)) ∧ Rep c1 la1 lw1 ∧ Same c c1 ∧
        la.Perm (rmE ++ la1) ∧ la1.Sublist la ∧
        (c._writeQueue.isSome → lw = lw1 ++ rmE.reverse) ∧
        (c._writeQueue = none → lw1 = lw ∧ rmE = [] ∧ la1 = la) ∧
        c1.events = c.events ++ notes c _REMOVAL_CAUSE_E rmE ∧
        (Strong c la → Strong c1 la1) ∧ c1._cache = delKeys c rmE c._cache ∧
        (∀ e ∈ rmE, Entry.isExpired e now c = true) ∧
        (∀ Qw, c._writeQueue = some Qw →
          ∀ e, prevOf none lw1 Qw.tail = some e → Entry.isExpired e now c = false) ∧
        (rmE = [] → c1 = c ∧ la1 = la ∧ lw1 = lw) := by
    cases hw : c._writeQueue with
    | none =>
      exact ⟨c, la, lw, [], ⟨by simp, fun _ => rfl⟩, h, Same.refl c, by simp,
        List.Sublist.refl _, by simp,
        fun _ => ⟨rfl, rfl, rfl⟩, by simp [notes_nil], id, rfl, by simp,
        by simp, fun _ => ⟨rfl, rfl, rfl⟩⟩
    | some Qw =>
      have hqw := h.qw Qw hw
      have hlen : lw.length < fuel := by rw [hqw.2.1.length_eq]; exact hf
      obtain ⟨c1, la1, lw1, rmE, h1, hr1, hs1, hlw1, hsub1, hperm1, hev1, hst1, hca1, hexp1,
        hlive1, hidle1⟩ :=
        cleanupExpired_spec now fuel c la lw (c.heap.prev .W Qw.tail) Qw h hw
          (hqw.1.prev_eq Qw.tail (Or.inr rfl)) hlen
      refine ⟨c1, la1, lw1, rmE, ?_, hr1, hs1, hperm1, hsub1, fun _ => hlw1, ?_, hev1, hst1,
        hca1, hexp1, ?_, ?_⟩
      · refine ⟨?_, by simp⟩
        intro Q2 hQ2
        simp only [Option.some.injEq] at hQ2; subst hQ2
        exact h1
      · intro h2; cases h2
      · intro Q2 hQ2 e he
        simp only [Option.some.injEq] at hQ2; subst hQ2
        exact hlive1 e he
      · intro h2
        have := hidle1 h2
        refine ⟨this.1, this.2, ?_⟩
        rw [h2] at hlw1; simpa using hlw1.symm
  obtain ⟨c1, la1, lw1, rmE, h1, hr1, hs1, hperm1, hsub1, hlw1, hnq1, hev1, hst1, hca1, hexp1,
    hlive1, hidle1⟩ := hE
  cases capacity with
  | false =>
    refine ⟨c1, la1, lw1, rmE, [], la1, lw1, ?_, ?_⟩
    · simp only [Cache._cleanup, bind_apply, getState_apply]
      cases hw : c._writeQueue with
      | none => simp [h1.2 hw]
      | some Qw =>
        simp only [bind_apply, Entry.prev, ne_eq, not_true_eq_false, if_false, h1.1 Qw hw]
        simp
    · exact ⟨hr1, hs1, hperm1, hsub1, by simp, hlw1, List.Sublist.refl _, hnq1,
        by simp [notes_nil, hev1], hst1, by rw [hca1]; rfl, hexp1, hlive1, by simp,
        fun _ => rfl,
        (by intro N _ h2; cases h2),
        fun h2 _ => ⟨(hidle1 h2).1, (hidle1 h2).2.1, rfl⟩⟩
  | true =>
    have hlen1 : la1.length < fuel := lt_of_le_of_lt hsub1.length_le hf
    obtain ⟨c2, la2, lw2, rmC, h2, hr2, hs2, hla2, hlw2, hev2, hst2, hca2, hcap2, hidle2, hnone2,
      hsz2⟩ :=
      cleanupCapacity_spec fuel c1 la1 lw1 (c1.heap.prev .A c1._accessQueue.tail) hr1
        (hr1.qa.prev_eq _ (Or.inr rfl)) hlen1
    refine ⟨c2, la2, lw2, rmE, rmC, la1, lw1, ?_, ?_⟩
    · simp only [Cache._cleanup, bind_apply, getState_apply]
      cases hw : c._writeQueue with
      | none =>
        have := h1.2 hw
        subst this
        simp [Entry.prev, h2]
      | some Qw =>
        simp only [bind_apply, Entry.prev, ne_eq, not_true_eq_false, if_false, h1.1 Qw hw,
          getState_apply, if_true, h2]
    · refine ⟨hr2, hs1.trans hs2, hperm1, hsub1, hla2, hlw1, hlw2, hnq1, ?_,
        fun h3 => hst2 (hst1 h3), ?_, hexp1, hlive1,
        fun _ => hcap2, (by intro h3; cases h3), ?_, ?_⟩
      · rw [hev2, hev1, notes_same hs1]
      · rw [hca2, hca1, delKeys_same hs1]
      · intro N hN _ hge
        have hN1 : SizeMode c1 N := by
          unfold SizeMode at hN ⊢; rw [hs1.spec]; exact hN
        exact hsz2 N hN1 hge
      · intro h3 h4
        obtain ⟨hc1, hla1, hlw1e⟩ := hidle1 h3
        subst hc1
        have hrm := hnone2 (h4 rfl)
        obtain ⟨hc2, _⟩ := hidle2 hrm
        refine ⟨hc2, ?_, hrm⟩
        rw [hrm] at hla2; simp at hla2; rw [← hla2, hla1]

end Dsjslib
namespace Dsjslib

theorem Entry.new_ok (now : Nat) (key : String) (value : Val) (c : Cache) (hv : value.legal) :
    Entry.new now key value c = .ok c.heap.nextId (allocEntry now key value c) := by
  simp [Entry.new, hv.1, hv.2, allocEntry]

theorem Entry.new_thrown (now : Nat) (key : String) (value : Val) (c : Cache)
    (hv : ¬ value.legal) :
    Entry.new now key value c =
      .thrown (.error ("Illegal value for key " ++ value.toStr)) c := by
  have : value = .undefined ∨ value = .null := by
    unfold Val.legal at hv
    by_cases h1 : value = .undefined
    · exact Or.inl h1
    · by_cases h2 : value = .null
      · exact Or.inr h2
      · exact absurd ⟨h1, h2⟩ hv
  simp [Entry.new, this]

theorem Entry.setValue_ok (ex : Nat) (value : Val) (c : Cache) (hv : value.legal) :
    Entry.setValue ex value c = .ok ()
      { c with heap := { c.heap with value := Function.update c.heap.value ex value } } := by
  simp [Entry.setValue, hv.1, hv.2]

theorem Entry.setValue_thrown (ex : Nat) (value : Val) (c : Cache) (hv : ¬ value.legal) :
    Entry.setValue ex value c =
      .thrown (.error ("Illegal value for key " ++ value.toStr)) c := by
  have : value = .undefined ∨ value = .null := by
    unfold Val.legal at hv
    by_cases h1 : value = .undefined
    · exact Or.inl h1
    · by_cases h2 : value = .null
      · exact Or.inr h2
      · exact absurd ⟨h1, h2⟩ hv
  simp [Entry.setValue, this]

theorem allocEntry_key_ne (now : Nat) (key : String) (value : Val) (c : Cache) (e : Nat)
    (he : e ≠ c.heap.nextId) : (allocEntry now key value c).heap.key e = c.heap.key e := by
  simp [allocEntry, Heap.alloc, Function.update_noteq he]

theorem allocEntry_value_ne (now : Nat) (key : String) (value : Val) (c : Cache) (e : Nat)
    (he : e ≠ c.heap.nextId) : (allocEntry now key value c).heap.value e = c.heap.value e := by
  simp [allocEntry, Heap.alloc, Function.update_noteq he]

theorem allocEntry_writeTime_ne (now : Nat) (key : String) (value : Val) (c : Cache) (e : Nat)
    (he : e ≠ c.heap.nextId) :
    (allocEntry now key value c).heap.writeTime e = c.heap.writeTime e := by
  simp [allocEntry, Heap.alloc, Function.update_noteq he]

@[simp] theorem allocEntry_key (now : Nat) (key : String) (value : Val) (c : Cache) :
    (allocEntry now key value c).heap.key c.heap.nextId = some key := by
  simp [allocEntry]

@[simp] theorem allocEntry_value (now : Nat) (key : String) (value : Val) (c : Cache) :
    (allocEntry now key value c).heap.value c.heap.nextId = value := by
  simp [allocEntry]

@[simp] theorem allocEntry_writeTime (now : Nat) (key : String) (value : Val) (c : Cache) :
    (allocEntry now key value c).heap.writeTime c.heap.nextId = some now := by
  simp [allocEntry]

theorem QRep.alloc {nx pv : Nat → Link} {Q : Queue} {l : List Nat} (h : QRep nx pv Q l)
    (x : Nat) (hx : x ∉ l) (hxs : x ≠ Q.tail) :
    QRep (Function.update nx x .undefined) (Function.update pv x .undefined) Q l := by
  constructor
  · exact h.nodup
  · exact h.tail_not_mem
  · exact h.head_eq
  · intro e he
    rw [Function.update_noteq (fun h2 => hx (by rw [← h2]; exact he))]; exact h.next_eq e he
  · rw [Function.update_noteq (Ne.symm hxs)]; exact h.next_tail
  · intro e he
    have : e ≠ x := by
      rcases he with he | he
      · exact fun h2 => hx (by rw [← h2]; exact he)
      · rw [he]; exact Ne.symm hxs
    rw [Function.update_noteq this]; exact h.prev_eq e he
  · intro e he hes
    by_cases hex : e = x
    · rw [hex, Function.update_same]; rfl
    · rw [Function.update_noteq hex]; exact h.prev_out e he hes

theorem Rep.allocEntry {c : Cache} {la lw : List Nat} (h : Rep c la lw) (now : Nat)
    (key : String) (value : Val) : Rep (allocEntry now key value c) la lw := by
  have hx : c.heap.nextId ∉ la := fun h2 => Nat.lt_irrefl _ (h.alloc _ h2)
  have hne : ∀ e ∈ la, e ≠ c.heap.nextId := fun e he h3 => hx (by rw [← h3]; exact he)
  constructor
  · exact h.qa.alloc _ hx (Nat.ne_of_gt h.tail_alloc)
  · intro Qw hQ
    obtain ⟨h1, h2, h3, h4⟩ := h.qw Qw hQ
    refine ⟨h1.alloc _ (fun h4 => hx (h2.mem_iff.1 h4)) (Nat.ne_of_gt h3), h2, ?_, ?_⟩
    · exact Nat.lt_succ_of_lt h3
    · rw [allocEntry_key_ne _ _ _ _ _ (Nat.ne_of_lt h3)]; exact h4
  · exact h.wq
  · intro k e h1
    obtain ⟨h2, h3⟩ := h.map k e h1
    exact ⟨h2, by rw [allocEntry_key_ne _ _ _ _ _ (hne e h2)]; exact h3⟩
  · intro e he
    obtain ⟨k, hk⟩ := h.keyed e he
    exact ⟨k, by rw [allocEntry_key_ne _ _ _ _ _ (hne e he)]; exact hk⟩
  · exact h.size_eq
  · intro e he; exact Nat.lt_succ_of_lt (h.alloc e he)
  · exact Nat.lt_succ_of_lt h.tail_alloc
  · show (Dsjslib.allocEntry now key value c).heap.key c._accessQueue.tail = none
    rw [allocEntry_key_ne _ _ _ _ _ (Nat.ne_of_lt h.tail_alloc)]; exact h.tail_key
  · exact h.weigh

theorem Strong.alloc_strong {c : Cache} {la lw : List Nat} (h : Rep c la lw) (hst : Strong c la)
    (now : Nat) (key : String) (value : Val) : Strong (allocEntry now key value c) la := by
  intro e he k hk
  have hne : e ≠ c.heap.nextId := fun h3 => Nat.lt_irrefl _ (h3 ▸ h.alloc e he)
  rw [allocEntry_key_ne _ _ _ _ _ hne] at hk
  exact hst e he k hk

theorem Rep.overwrite {c : Cache} {la lw : List Nat} (h : Rep c la lw) (ex now : Nat)
    (value : Val) : Rep (overwrite ex now value c) la lw :=
  ⟨h.qa, h.qw, h.wq, h.map, h.keyed, h.size_eq, h.alloc, h.tail_alloc, h.tail_key, h.weigh⟩

end Dsjslib
namespace Dsjslib

theorem createEntry_spec (now fuel : Nat) (key : String) (value : Val) (c : Cache)
    (la lw : List Nat) (h : Rep c la lw) (hv : value.legal) (hf : la.length < fuel) :
    ∃ c1 c2 la2 lw2 rmE rmC la1 lw1,
      Cache._createEntry now fuel key value c = .ok c.heap.nextId c2 ∧
      CleanupPost now true (allocEntry now key value c) la lw c1 la2 lw2 rmE rmC la1 lw1 ∧
      Rep c2 (c.heap.nextId :: la2) (c.heap.nextId :: lw2) ∧ Same c1 c2 ∧
      (c._cache key = none → Strong c la → Strong c2 (c.heap.nextId :: la2)) ∧
      c2.events = c1.events ∧
      c2._cache = Function.update c1._cache key (some c.heap.nextId) ∧
      c2.size = c1.size + 1 := by
  have h0 := h.allocEntry now key value
  obtain ⟨c1, la2, lw2, rmE, rmC, la1, lw1, hcl, post⟩ :=
    cleanup_spec now fuel true (allocEntry now key value c) la lw h0 hf
  have hr1 := post.rep
  have hs1 := post.same
  have hsub : ∀ e ∈ la2, e ∈ la := by
    intro e he
    apply post.la_sub.subset
    rw [post.la_split]; exact List.mem_append_left _ he
  have hxla : c.heap.nextId ∉ la2 := fun h2 => Nat.lt_irrefl _ (h.alloc _ (hsub _ h2))
  have hxt : c.heap.nextId ≠ c1._accessQueue.tail := by
    rw [hs1.atail]; exact Nat.ne_of_gt h.tail_alloc
  obtain ⟨w, hU⟩ := updateCacheSize_ok
    { c1 with _cache := Function.update c1._cache key (some c.heap.nextId) } c.heap.nextId true
    hr1.weigh
  have hU2 : Cache._updateCacheSize c.heap.nextId true
      { c1 with _cache := Function.update c1._cache key (some c.heap.nextId) } =
      .ok () (inserted c1 key c.heap.nextId w) := hU
  obtain ⟨nxA, pvA, QA, hA, hqA, htA⟩ := moveToHead_spec
    (inserted c1 key c.heap.nextId w) .A c1._accessQueue la2 rfl hr1.qa
    c.heap.nextId hxla hxt
  obtain ⟨cW, hW, hqW, hoW⟩ := moveToHeadW_spec
    (Cache.withQ (inserted c1 key c.heap.nextId w) .A nxA pvA QA) lw2
    (by intro Qw hQ; simpa using hr1.wrep Qw (by simpa using hQ)) c.heap.nextId
    (by
      intro hs h2
      obtain ⟨Q1, hQ1⟩ := Option.isSome_iff_exists.1 hs
      have hQ1' : c1._writeQueue = some Q1 := by simpa using hQ1
      exact hxla ((hr1.qw Q1 hQ1').2.1.mem_iff.1 h2))
    (by
      intro Qw hQ
      have hQ1 : c1._writeQueue = some Qw := by simpa using hQ
      obtain ⟨Q0, hQ0, hQt⟩ := hs1.wq_some Qw hQ1
      rw [hQt]
      exact Nat.ne_of_gt (h.qw Q0 hQ0).2.2.1)
  have hkey1 : c1.heap.key = (allocEntry now key value c).heap.key := hs1.key
  have hkeyx : c1.heap.key c.heap.nextId = some key := by rw [hkey1]; simp
  have hkeyne : ∀ e ∈ la2, c1.heap.key e = c.heap.key e := by
    intro e he
    rw [hkey1, allocEntry_key_ne _ _ _ _ _ (fun h4 => hxla (h4 ▸ he))]
  refine ⟨c1, cW, la2, lw2, rmE, rmC, la1, lw1, ?_, post, ?_, ?_, ?_, ?_, ?_, ?_⟩
  · simp only [Cache._createEntry, bind_apply, Entry.new_ok now key value c hv, hcl,
      modify_apply, hU2, hA, hW, pure_apply]
  · constructor
    · rw [hoW.nextA, hoW.prevA, hoW.accessQueue]
      simpa using hqA
    · intro Qw hQ
      obtain ⟨Q1, hQ1, hQt⟩ := hoW.wq_some_w Qw hQ
      have hQ1' : c1._writeQueue = some Q1 := by simpa using hQ1
      refine ⟨hqW Qw hQ, List.Perm.cons _ (hr1.qw Q1 hQ1').2.1, ?_, ?_⟩
      · rw [hoW.nextId, hQt]; simpa [inserted] using (hr1.qw Q1 hQ1').2.2.1
      · rw [hoW.key, hQt]; simpa [inserted] using (hr1.qw Q1 hQ1').2.2.2
    · rw [hoW.spec, hoW.same.wq]; simpa using hr1.wq
    · intro k e
      rw [hoW.cache, hoW.key]
      simp only [withQ_cache, withQ_key, List.mem_cons, inserted]
      by_cases hke : k = key
      · subst hke
        rw [Function.update_same]
        intro h2
        have := Option.some.inj h2
        subst this
        exact ⟨Or.inl rfl, hkeyx⟩
      · rw [Function.update_noteq hke]
        intro h2
        obtain ⟨h3, h4⟩ := hr1.map k e h2
        exact ⟨Or.inr h3, h4⟩
    · intro e he
      rw [hoW.key]
      simp only [withQ_key]
      rcases List.mem_cons.1 he with h2 | h2
      · exact ⟨key, by rw [h2]; exact hkeyx⟩
      · exact hr1.keyed e h2
    · rw [hoW.size]
      simp only [withQ_size, List.length_cons, inserted, hr1.size_eq]
      omega
    · intro e he
      rw [hoW.nextId]
      simp only [withQ_nextId]
      rcases List.mem_cons.1 he with h2 | h2
      · show e < c1.heap.nextId
        rw [h2, hs1.nextId]; exact Nat.lt_succ_self _
      · exact hr1.alloc e h2
    · rw [hoW.accessQueue, hoW.nextId]
      simp only [withQ_A_accessQueue, withQ_nextId, htA]
      exact hr1.tail_alloc
    · rw [hoW.accessQueue, hoW.key]
      simp only [withQ_A_accessQueue, withQ_key, htA]
      exact hr1.tail_key
    · rw [hoW.spec]; simpa using hr1.weigh
  · have hs := (Same.withQ_A (inserted c1 key c.heap.nextId w) nxA pvA QA htA).trans hoW.same
    exact ⟨hs.spec, hs.key, hs.value, hs.writeTime, hs.nextId, hs.stats, hs.atail, hs.wtail⟩
  · intro hk hst e he k hke
    rw [hoW.key] at hke
    simp only [withQ_key, inserted] at hke
    rw [hoW.cache]
    simp only [withQ_cache, inserted]
    have hst1 := post.strong (Strong.alloc_strong h hst now key value)
    have hc1 : c1._cache key = none := by
      cases hc : c1._cache key with
      | none => rfl
      | some e1 =>
        exfalso
        obtain ⟨h3, h4⟩ := hr1.map key e1 hc
        rw [hkeyne e1 h3] at h4
        have := hst e1 (hsub e1 h3) key h4
        rw [hk] at this; cases this
    rcases List.mem_cons.1 he with h2 | h2
    · rw [h2, hkeyx] at hke
      have := Option.some.inj hke
      subst this
      rw [h2, Function.update_same]
    · have hkk : k ≠ key := by
        intro h3
        rw [h3] at hke
        have := hst1 e h2 key hke
        rw [hc1] at this; cases this
      rw [Function.update_noteq hkk]
      exact hst1 e h2 k hke
  · rw [hoW.events]; simp [inserted]
  · rw [hoW.cache]; simp [inserted]
  · rw [hoW.size]; simp [inserted]

end Dsjslib
namespace Dsjslib

theorem Rep.requeue {c c2 : Cache} {la lw la2 lw2 : List Nat} (h : Rep c la lw)
    (hs : Same c c2) (hc : c2._cache = c._cache) (hsz : c2.size = c.size)
    (hqa : QRep (c2.heap.next .A) (c2.heap.prev .A) c2._accessQueue la2) (hpa : la2.Perm la)
    (hqw : WRep c2 lw2) (hpw : c._writeQueue.isSome → lw2.Perm lw) : Rep c2 la2 lw2 := by
  constructor
  · exact hqa
  · intro Qw hQ
    obtain ⟨Q0, hQ0, hQt⟩ := hs.wq_some Qw hQ
    obtain ⟨_, h2, h3, h4⟩ := h.qw Q0 hQ0
    refine ⟨hqw Qw hQ, ((hpw (by simp [hQ0])).trans h2).trans hpa.symm, ?_, ?_⟩
    · rw [hs.nextId, hQt]; exact h3
    · rw [hs.key, hQt]; exact h4
  · rw [hs.wq, hs.spec]; exact h.wq
  · intro k e h1
    rw [hc] at h1
    obtain ⟨h2, h3⟩ := h.map k e h1
    exact ⟨hpa.mem_iff.2 h2, by rw [hs.key]; exact h3⟩
  · intro e he
    rw [hs.key]; exact h.keyed e (hpa.mem_iff.1 he)
  · rw [hsz, h.size_eq, hpa.length_eq]
  · intro e he
    rw [hs.nextId]; exact h.alloc e (hpa.mem_iff.1 he)
  · rw [hs.atail, hs.nextId]; exact h.tail_alloc
  · rw [hs.atail, hs.key]; exact h.tail_key
  · rw [hs.spec]; exact h.weigh

theorem Strong.requeue_strong {c c2 : Cache} {la la2 : List Nat} (hst : Strong c la)
    (hk : c2.heap.key = c.heap.key) (hc : c2._cache = c._cache) (hpa : la2.Perm la) :
    Strong c2 la2 := by
  intro e he k hke
  rw [hk] at hke
  rw [hc]
  exact hst e (hpa.mem_iff.1 he) k hke

/-- What a relinking step leaves alone: everything but the links and the queue objects. -/
theorem promoteA_spec (c : Cache) (la lw : List Nat) (h : Rep c la lw) (x : Nat)
    (hx : x ∈ la) :
    ∃ c2, Cache._promoteEntry x .A c = .ok () c2 ∧ Rep c2 (x :: la.erase x) lw ∧ Same c c2 ∧
      c2._cache = c._cache ∧ c2.size = c.size ∧ c2.weight = c.weight ∧
      c2.events = c.events ∧ c2.heap.next .W = c.heap.next .W ∧
      c2.heap.prev .W = c.heap.prev .W ∧ c2._writeQueue = c._writeQueue := by
  obtain ⟨nx, pv, Q, h1, hq, ht⟩ := promote_spec c .A c._accessQueue la rfl h.qa x hx
  have hs := Same.withQ_A c nx pv Q ht
  refine ⟨_, h1, ?_, hs, by simp, by simp, by simp, by simp, by simp, by simp, by simp⟩
  refine h.requeue hs (by simp) (by simp) (by simpa using hq) (List.perm_cons_erase hx).symm
    ?_ (fun _ => List.Perm.refl _)
  intro Qw hQ
  simpa using h.wrep Qw (by simpa using hQ)

theorem promoteBoth_spec (c : Cache) (la lw : List Nat) (h : Rep c la lw) (x : Nat)
    (hx : x ∈ la) :
    ∃ c1 c2, Cache._promoteEntry x .A c = .ok () c1 ∧ Cache._promoteEntry x .W c1 = .ok () c2 ∧
      Rep c2 (x :: la.erase x) (x :: lw.erase x) ∧ Same c c2 ∧
      c2._cache = c._cache ∧ c2.size = c.size ∧ c2.weight = c.weight ∧
      c2.events = c.events := by
  obtain ⟨c1, h1, hr1, hs1, hc1, hz1, hw1, he1, _⟩ := promoteA_spec c la lw h x hx
  obtain ⟨c2, h2, hq2, ho2⟩ := promoteW_spec c1 lw hr1.wrep x
    (by
      intro hs
      obtain ⟨Q, hQ⟩ := Option.isSome_iff_exists.1 hs
      exact (hr1.qw Q hQ).2.1.mem_iff.2 (List.mem_cons_self _ _))
  have hs2 := hs1.trans ho2.same
  refine ⟨c1, c2, h1, h2, ?_, hs2, ?_, ?_, ?_, ?_⟩
  · refine hr1.requeue ho2.same ho2.cache ho2.size ?_ (List.Perm.refl _) hq2 ?_
    · rw [ho2.nextA, ho2.prevA, ho2.accessQueue]; exact hr1.qa
    · intro hs
      obtain ⟨Q, hQ⟩ := Option.isSome_iff_exists.1 hs
      exact (List.perm_cons_erase ((hr1.qw Q hQ).2.1.mem_iff.2 (List.mem_cons_self _ _))).symm
  · rw [ho2.cache, hc1]
  · rw [ho2.size, hz1]
  · rw [ho2.weight, hw1]
  · rw [ho2.events, he1]

theorem promote_detached (c : Cache) (q : QType) (Q : Queue) (l : List Nat)
    (hQ : c.queue q = some Q) (h : QRep (c.heap.next q) (c.heap.prev q) Q l) (x : Nat)
    (hx : x ∉ l) (hxs : x ≠ Q.tail) : Cache._promoteEntry x q c = .ok () c := by
  have := h.prev_out x hx hxs
  simp [Cache._promoteEntry, this]

end Dsjslib
namespace Dsjslib

theorem put_illegal (now fuel : Nat) (key : String) (value : Val) (c : Cache)
    (hv : ¬ value.legal) :
    Cache.put now fuel key value c =
      .thrown (.error ("Illegal value for key " ++ value.toStr)) c := by
  cases hk : c._cache key with
  | none =>
    simp only [Cache.put, bind_apply, getState_apply, hk, Cache._createEntry,
      Entry.new_thrown now key value c hv]
  | some ex =>
    simp only [Cache.put, bind_apply, getState_apply, hk, Entry.setValue_thrown ex value c hv]

theorem put_new_spec (now fuel : Nat) (key : String) (value : Val) (c : Cache)
    (la lw : List Nat) (h : Rep c la lw) (hv : value.legal) (hk : c._cache key = none)
    (hf : la.length < fuel) :
    ∃ c1 c2 la2 lw2 rmE rmC la1 lw1,
      Cache.put now fuel key value c = .ok .undefined c2 ∧
      CleanupPost now true (allocEntry now key value c) la lw c1 la2 lw2 rmE rmC la1 lw1 ∧
      Rep c2 (c.heap.nextId :: la2) (c.heap.nextId :: lw2) ∧ Same c1 c2 ∧
      (Strong c la → Strong c2 (c.heap.nextId :: la2)) ∧
      c2.events = c1.events ∧
      c2._cache = Function.update c1._cache key (some c.heap.nextId) ∧
      c2.size = c1.size + 1 := by
  obtain ⟨c1, c2, la2, lw2, rmE, rmC, la1, lw1, h1, post, hr, hs, hst, he, hc, hz⟩ :=
    createEntry_spec now fuel key value c la lw h hv hf
  refine ⟨c1, c2, la2, lw2, rmE, rmC, la1, lw1, ?_, post, hr, hs, hst hk, he, hc, hz⟩
  simp only [Cache.put, bind_apply, getState_apply, hk, h1, pure_apply]

theorem overwrite_eq (ex now : Nat) (value : Val) (c : Cache) (hv : value.legal) :
    (do Entry.setValue ex value; Entry.setWriteTime ex now : M Unit) c =
      .ok () (overwrite ex now value c) := by
  simp only [bind_apply, Entry.setValue_ok ex value c hv, Entry.setWriteTime, modify_apply]
  rfl

theorem Same.overwrite_of {c : Cache} (ex now : Nat) (value : Val) :
    (overwrite ex now value c)._spec = c._spec ∧
    (overwrite ex now value c).heap.key = c.heap.key ∧
    (overwrite ex now value c)._cache = c._cache ∧
    (overwrite ex now value c).events = c.events ∧
    (overwrite ex now value c).size = c.size ∧
    (overwrite ex now value c).weight = c.weight ∧
    (overwrite ex now value c).stats = c.stats :=
  ⟨rfl, rfl, rfl, rfl, rfl, rfl, rfl⟩

theorem put_exists_spec (now fuel : Nat) (key : String) (value : Val) (c : Cache)
    (la lw : List Nat) (h : Rep c la lw) (hv : value.legal) (ex : Nat)
    (hk : c._cache key = some ex) (hf : la.length < fuel) :
    ∃ cp c2 la2 lw2 rmE la1 lw1,
      Cache.put now fuel key value c = .ok .undefined c2 ∧
      Rep cp (ex :: la.erase ex) (ex :: lw.erase ex) ∧
      Same (overwrite ex now value c) cp ∧ cp._cache = c._cache ∧ cp.size = c.size ∧
      cp.weight = c.weight ∧ cp.events = c.events ∧
      (Strong c la → Strong cp (ex :: la.erase ex)) ∧
      CleanupPost now false cp (ex :: la.erase ex) (ex :: lw.erase ex) c2 la2 lw2 rmE [] la1
        lw1 := by
  have hex : ex ∈ la := (h.map key ex hk).1
  have h0 : Rep (overwrite ex now value c) la lw := h.overwrite ex now value
  obtain ⟨c1, cp, h1, h2, hrp, hsp, hcp, hzp, hwp, hep⟩ :=
    promoteBoth_spec (overwrite ex now value c) la lw h0 ex hex
  have hlen : (ex :: la.erase ex).length < fuel := by
    rw [(List.perm_cons_erase hex).length_eq.symm]; exact hf
  obtain ⟨c2, la2, lw2, rmE, rmC, la1, lw1, hcl, post⟩ :=
    cleanup_spec now fuel false cp (ex :: la.erase ex) (ex :: lw.erase ex) hrp hlen
  have hrmC : rmC = [] := post.nocap rfl
  subst hrmC
  refine ⟨cp, c2, la2, lw2, rmE, la1, lw1, ?_, hrp, hsp, hcp, hzp, hwp, hep, ?_, post⟩
  · simp only [overwrite] at h1
    simp only [Cache.put, bind_apply, getState_apply, hk, Entry.setValue_ok ex value c hv,
      Entry.setWriteTime, modify_apply, h1, h2, hcl, pure_apply]
  · intro hst
    exact Strong.requeue_strong (c := overwrite ex now value c) hst hsp.key hcp
      (List.perm_cons_erase hex).symm

end Dsjslib
namespace Dsjslib

theorem Rep.got {c : Cache} {la lw : List Nat} (h : Rep c la lw) (s : Stats)
    (ev : List Event) : Rep (got c s ev) la lw :=
  ⟨h.qa, h.qw, h.wq, h.map, h.keyed, h.size_eq, h.alloc, h.tail_alloc, h.tail_key, h.weigh⟩

theorem Strong.got_strong {c : Cache} {la : List Nat} (h : Strong c la) (s : Stats)
    (ev : List Event) : Strong (got c s ev) la := h

theorem callCallback_ok (callback : Bool) (err result : Val) (c : Cache) :
    callCallback callback err result c =
      .ok () { c with events := c.events ++ cbEvents callback err result } := by
  cases callback
  · simp [callCallback, cbEvents]
  · simp [callCallback, cbEvents]

theorem get_miss (now : Nat) (key : String) (callback suppressLoad : Bool) (c : Cache)
    (hk : c._cache key = none) :
    Cache.get now key callback suppressLoad c = .ok .undefined
      (got c (Stats.mk (c.stats.hitCount) (c.stats.missCount + 1) (c.stats.requestCount + 1))
        (c.events ++ if c._spec.loaderFn && !suppressLoad then [Event.loader key none]
          else [])) := by
  by_cases hl : (c._spec.loaderFn && !suppressLoad) = true
  · simp only [Cache.get, bind_apply, modify_apply, getState_apply, hk, hl, if_true, emit_apply,
      pure_apply]
    rfl
  · simp only [Cache.get, bind_apply, modify_apply, getState_apply, hk, hl, if_false,
      pure_apply, Bool.false_eq_true]
    simp [got]

theorem get_expired_load (now : Nat) (key : String) (callback suppressLoad : Bool) (c : Cache)
    (e : Nat) (hk : c._cache key = some e) (hexp : Entry.isExpired e now c = true)
    (hl : (c._spec.loaderFn && !suppressLoad) = true) :
    Cache.get now key callback suppressLoad c = .ok .undefined
      (got c (Stats.mk (c.stats.hitCount) (c.stats.missCount) (c.stats.requestCount + 1))
        (c.events ++ [Event.loader key (some e)])) := by
  have hexp2 : Entry.isExpired e now
      { c with stats := { c.stats with requestCount := c.stats.requestCount + 1 } } = true :=
    hexp
  simp only [Cache.get, bind_apply, modify_apply, getState_apply, hk, hexp2, hl, if_true,
    emit_apply, pure_apply, Bool.not_true, Bool.false_eq_true, if_false]
  rfl

theorem get_hit_spec (now : Nat) (key : String) (callback suppressLoad : Bool) (c : Cache)
    (la lw : List Nat) (h : Rep c la lw) (e : Nat) (hk : c._cache key = some e)
    (hexp : Entry.isExpired e now c = false) :
    ∃ c2, Cache.get now key callback suppressLoad c = .ok .undefined c2 ∧
      Rep c2 (e :: la.erase e) lw ∧ (Strong c la → Strong c2 (e :: la.erase e)) ∧
      Same (got c (Stats.mk (c.stats.hitCount + 1) (c.stats.missCount) (c.stats.requestCount + 1)) c.events) c2 ∧
      c2._cache = c._cache ∧ c2.size = c.size ∧ c2.weight = c.weight ∧
      c2.events = c.events ++ cbEvents callback .null (c.heap.value e) ∧
      c2.heap.next .W = c.heap.next .W ∧ c2.heap.prev .W = c.heap.prev .W ∧
      c2._writeQueue = c._writeQueue := by
  have hel : e ∈ la := (h.map key e hk).1
  have hexp2 : Entry.isExpired e now
      { c with stats := { c.stats with requestCount := c.stats.requestCount + 1 } } = false :=
    hexp
  obtain ⟨cA, hA, hrA, hsA, hcA, hzA, hwA, heA, hnA, hpA, hqA⟩ :=
    promoteA_spec { c with stats := { c.stats with requestCount := c.stats.requestCount + 1 } }
      la lw (h.got _ _) e hel
  refine ⟨got cA { cA.stats with hitCount := cA.stats.hitCount + 1 }
      (cA.events ++ cbEvents callback .null (c.heap.value e)),
    ?_, ?_, ?_, ?_, hcA, hzA, hwA, ?_, hnA, hpA, hqA⟩
  · simp only [Cache.get, bind_apply, modify_apply, getState_apply, hk, hexp2, Bool.not_false,
      if_true, hA, callCallback_ok, pure_apply]
    rfl
  · exact hrA.got _ _
  · intro hst
    exact Strong.requeue_strong (c := c) hst hsA.key hcA (List.perm_cons_erase hel).symm
  · refine ⟨hsA.spec, hsA.key, hsA.value, hsA.writeTime, hsA.nextId, ?_, hsA.atail, hsA.wtail⟩
    show ({ cA.stats with hitCount := cA.stats.hitCount + 1 } : Stats) = _
    rw [hsA.stats]; rfl
  · show cA.events ++ _ = _
    rw [heA]

theorem get_expired_spec (now : Nat) (key : String) (callback suppressLoad : Bool) (c : Cache)
    (la lw : List Nat) (h : Rep c la lw) (e : Nat) (hk : c._cache key = some e)
    (hexp : Entry.isExpired e now c = true)
    (hl : (c._spec.loaderFn && !suppressLoad) = false) :
    ∃ c2, Cache.get now key callback suppressLoad c = .ok .undefined c2 ∧
      Rep c2 (la.erase e) (lw.erase e) ∧ (Strong c la → Strong c2 (la.erase e)) ∧
      Same (got c (Stats.mk (c.stats.hitCount) (c.stats.missCount) (c.stats.requestCount + 1)) c.events) c2 ∧
      c2._cache = Function.update c._cache key none ∧ c2.size = c.size - 1 ∧
      c2.events = c.events ++ notes c _REMOVAL_CAUSE_E [e] ++
        cbEvents callback .null .undefined := by
  have hel : e ∈ la := (h.map key e hk).1
  have hke : c.heap.key e = some key := (h.map key e hk).2
  have hexp2 : Entry.isExpired e now
      { c with stats := { c.stats with requestCount := c.stats.requestCount + 1 } } = true :=
    hexp
  obtain ⟨c1, h1, hr1, hs1, hst1, he1, hc1⟩ :=
    rmEntry_spec { c with stats := { c.stats with requestCount := c.stats.requestCount + 1 } }
      la lw (h.got _ _) e hel _REMOVAL_CAUSE_E
  refine ⟨got c1 c1.stats (c1.events ++ cbEvents callback .null .undefined),
    ?_, ?_, ?_, ?_, ?_, ?_, ?_⟩
  · have hl2 : ({ c with stats := { c.stats with requestCount := c.stats.requestCount + 1 } }
        : Cache)._spec.loaderFn = c._spec.loaderFn := rfl
    simp only [Cache.get, bind_apply, modify_apply, getState_apply, hk, hexp2, Bool.not_true,
      Bool.false_eq_true, if_false, hl2, hl, h1, callCallback_ok, pure_apply]
    rfl
  · exact hr1.got _ _
  · intro hst; exact hst1 hst
  · exact ⟨hs1.spec, hs1.key, hs1.value, hs1.writeTime, hs1.nextId, hs1.stats, hs1.atail,
      hs1.wtail⟩
  · show c1._cache = _
    rw [hc1]
    show Function.update c._cache (propKey (c.heap.key e)) none = _
    rw [hke]; rfl
  · show c1.size = _
    rw [hr1.size_eq, h.size_eq, List.length_erase_of_mem hel]
    have : 0 < la.length := List.length_pos_of_mem hel
    omega
  · show c1.events ++ _ = _
    rw [he1]
    simp only [notes]
    rfl

theorem invalidate_absent (key : String) (c : Cache) (hk : c._cache key = none) :
    Cache.invalidate key c = .thrown .typeError c := by
  simp [Cache.invalidate, hk, Cache._rmEntry]

theorem invalidate_spec (key : String) (c : Cache) (la lw : List Nat) (h : Rep c la lw)
    (e : Nat) (hk : c._cache key = some e) :
    ∃ c2, Cache.invalidate key c = .ok () c2 ∧ Rep c2 (la.erase e) (lw.erase e) ∧
      (Strong c la → Strong c2 (la.erase e)) ∧ Same c c2 ∧
      c2._cache = Function.update c._cache key none ∧ c2.size = c.size - 1 ∧
      c2.events = c.events ++ notes c _REMOVAL_CAUSE_I [e] := by
  have hel : e ∈ la := (h.map key e hk).1
  have hke : c.heap.key e = some key := (h.map key e hk).2
  obtain ⟨c1, h1, hr1, hs1, hst1, he1, hc1⟩ := rmEntry_spec c la lw h e hel _REMOVAL_CAUSE_I
  refine ⟨c1, ?_, hr1, hst1, hs1, ?_, ?_, ?_⟩
  · simp only [Cache.invalidate, bind_apply, getState_apply, hk, h1]
  · rw [hc1, hke]; rfl
  · rw [hr1.size_eq, h.size_eq, List.length_erase_of_mem hel]
    have : 0 < la.length := List.length_pos_of_mem hel
    omega
  · rw [he1]; simp only [notes]; rfl

end Dsjslib
namespace Dsjslib

theorem QRep.empty (nx pv : Nat → Link) (s : Nat) (hn : (nx s).truthy = false)
    (hp : ∀ e, (pv e).truthy = false) : QRep nx pv { head := s, tail := s } [] := by
  constructor
  · exact List.nodup_nil
  · simp
  · rfl
  · intro e he; cases he
  · exact hn
  · intro e _; exact hp e
  · intro e _ _; exact hp e

theorem init_eq (c : Cache) : Cache._init c = .ok () (initState c) := by
  by_cases he : c._spec.hasWriteQueue = true
  · have he2 : (match c._spec.expiresAfterWrite with | some exp => exp != 0 | none => false)
        = true := he
    simp only [Cache._init, bind_apply, Queue.new, modify_apply, getState_apply, he2, if_true,
      initState, he]
    rfl
  · have he2 : ¬ (match c._spec.expiresAfterWrite with | some exp => exp != 0 | none => false)
        = true := he
    simp only [Cache._init, bind_apply, Queue.new, modify_apply, getState_apply, he2, if_false,
      initState, he, Bool.false_eq_true]

theorem alloc_link_falsy (h : Heap) (q : QType) (e : Nat)
    (hh : ∀ q x, (h.prev q x).truthy = false) : ((h.alloc.prev q) e).truthy = false := by
  simp only [Heap.alloc, Function.update_apply]
  split
  · rfl
  · exact hh q e

theorem alloc_next_falsy (h : Heap) (q : QType) (e : Nat)
    (hh : ∀ q x, (h.next q x).truthy = false) : ((h.alloc.next q) e).truthy = false := by
  simp only [Heap.alloc, Function.update_apply]
  split
  · rfl
  · exact hh q e

theorem init_blank (s : Spec)
    (hw : ∀ w, s.maxWeight = some w → w ≠ 0 → s.weighFn.isSome) :
    Rep (initState (Cache.blank s)) [] [] := by
  have hp0 : ∀ q x, (((Cache.blank s).heap.prev q) x).truthy = false := fun _ _ => rfl
  have hn0 : ∀ q x, (((Cache.blank s).heap.next q) x).truthy = false := fun _ _ => rfl
  have hp1 : ∀ q x, (((Cache.blank s).heap.alloc.prev q) x).truthy = false :=
    fun q x => alloc_link_falsy _ q x hp0
  have hn1 : ∀ q x, (((Cache.blank s).heap.alloc.next q) x).truthy = false :=
    fun q x => alloc_next_falsy _ q x hn0
  have hp2 : ∀ q x, (((Cache.blank s).heap.alloc.alloc.prev q) x).truthy = false :=
    fun q x => alloc_link_falsy _ q x hp1
  have hn2 : ∀ q x, (((Cache.blank s).heap.alloc.alloc.next q) x).truthy = false :=
    fun q x => alloc_next_falsy _ q x hn1
  by_cases he : s.hasWriteQueue = true
  · have he1 : (Cache.blank s)._spec.hasWriteQueue = true := he
    constructor
    · simp only [initState, he1, if_true]
      exact QRep.empty _ _ _ (hn2 _ _) (hp2 _)
    · intro Qw hQ
      simp only [initState, he1, if_true, Option.some.injEq] at hQ
      subst hQ
      simp only [initState, he1, if_true]
      refine ⟨QRep.empty _ _ _ (hn2 _ _) (hp2 _), List.Perm.refl _, ?_, ?_⟩
      · simp [Heap.alloc, Cache.blank]
      · simp [Heap.alloc, Cache.blank]
    · simp only [initState, he1, if_true]; exact he.symm
    · intro k e h2; cases h2
    · intro e h2; cases h2
    · rfl
    · intro e h2; cases h2
    · simp [initState, he1, Heap.alloc, Cache.blank, he]
    · simp [initState, he1, Heap.alloc, Cache.blank, Function.update_apply, he]
    · exact hw
  · have he1 : ¬ (Cache.blank s)._spec.hasWriteQueue = true := he
    constructor
    · simp only [initState, he1, if_false]
      exact QRep.empty _ _ _ (hn1 _ _) (hp1 _)
    · intro Qw hQ
      simp [initState, he1] at hQ
    · simp only [initState, he1, if_false]
      rw [Bool.not_eq_true] at he
      exact he.symm
    · intro k e h2; cases h2
    · intro e h2; cases h2
    · rfl
    · intro e h2; cases h2
    · simp [initState, he1, Heap.alloc, Cache.blank, he]
    · simp [initState, he1, Heap.alloc, Cache.blank, he]
    · exact hw

theorem configure_weigh (cs : CacheSpec) (s : Spec) (h : Cache.configure cs = .ok s)
    (hw : ∀ w, cs.maximumWeight = some w → 0 ≤ w) :
    ∀ w, s.maxWeight = some w → w ≠ 0 → s.weighFn.isSome := by
  intro w hm _
  unfold Cache.configure at h
  simp only at h
  split at h
  · cases h
  · rename_i h1
    split at h
    · cases h
    · simp only [Except.ok.injEq] at h
      subst h
      simp only at hm ⊢
      have h0 := hw w hm
      simp only [hm] at h1
      have : decide (w > -1) = true := by simp; omega
      simp only [this] at h1
      cases hf : cs.weigherFunction with
      | none => simp [hf] at h1
      | some f => rfl

theorem new_spec (cs : CacheSpec) (s : Spec) (h : Cache.configure cs = .ok s)
    (hw : ∀ w, cs.maximumWeight = some w → 0 ≤ w) :
    Cache.new cs = .ok (initState (Cache.blank s)) ∧ Rep (initState (Cache.blank s)) [] [] ∧
      Strong (initState (Cache.blank s)) [] := by
  refine ⟨?_, init_blank s (configure_weigh cs s h hw), ?_⟩
  · simp only [Cache.new, h, init_eq]
  · intro e he; cases he

end Dsjslib
namespace Dsjslib

@[simp] theorem tryCatch_apply (m : M Unit) (c : Cache) :
    tryCatch m c = match m c with
      | .ok _ c1 => .ok .undefined c1
      | .thrown e c1 => .ok e c1
      | .fuelOut => .fuelOut := rfl

theorem reloaded_error (entry : Nat) (callback : Bool) (error result : Val) (c : Cache)
    (h : error.truthy = true) :
    Cache.reloaded entry callback error result c =
      .ok () { c with events := c.events ++ cbEvents callback error result } := by
  simp [Cache.reloaded, h, callCallback_ok]

theorem loaded_error (now fuel : Nat) (key : String) (callback : Bool) (error result : Val)
    (c : Cache) (h : error.truthy = true) :
    Cache.loaded now fuel key callback error result c =
      .ok () { c with events := c.events ++ cbEvents callback error result } := by
  simp [Cache.loaded, h, callCallback_ok]

theorem Rep.setValue {c : Cache} {la lw : List Nat} (h : Rep c la lw) (e : Nat) (v : Val)
    (ev : List Event) :
    Rep { c with heap := { c.heap with value := Function.update c.heap.value e v },
                 events := ev } la lw :=
  ⟨h.qa, h.qw, h.wq, h.map, h.keyed, h.size_eq, h.alloc, h.tail_alloc, h.tail_key, h.weigh⟩

theorem promoteAny_spec (c : Cache) (la lw : List Nat) (h : Rep c la lw) (e : Nat)
    (hkey : (c.heap.key e).isSome) :
    ∃ c1 c2 la2 lw2, Cache._promoteEntry e .A c = .ok () c1 ∧
      Cache._promoteEntry e .W c1 = .ok () c2 ∧ Rep c2 la2 lw2 ∧ Same c c2 ∧
      c2._cache = c._cache ∧ c2.size = c.size ∧ c2.weight = c.weight ∧
      c2.events = c.events ∧ la2.Perm la := by
  by_cases hel : e ∈ la
  · obtain ⟨c1, c2, h1, h2, hr, hs, hc, hz, hw, he⟩ := promoteBoth_spec c la lw h e hel
    exact ⟨c1, c2, _, _, h1, h2, hr, hs, hc, hz, hw, he, (List.perm_cons_erase hel).symm⟩
  · have hta : e ≠ c._accessQueue.tail := by
      intro h2; rw [h2, h.tail_key] at hkey; cases hkey
    have h1 := promote_detached c .A c._accessQueue la rfl h.qa e hel hta
    refine ⟨c, c, la, lw, h1, ?_, h, Same.refl c, rfl, rfl, rfl, rfl, List.Perm.refl _⟩
    cases hw : c._writeQueue with
    | none => exact promote_noqueue c e hw
    | some Qw =>
      obtain ⟨hq, hp, _, hk⟩ := h.qw Qw hw
      refine promote_detached c .W Qw lw hw hq e (fun h2 => hel (hp.mem_iff.1 h2)) ?_
      intro h2; rw [h2, hk] at hkey; cases hkey

theorem reloaded_spec (e : Nat) (callback : Bool) (error result : Val) (c : Cache)
    (la lw : List Nat) (h : Rep c la lw) (hkey : (c.heap.key e).isSome) :
    ∃ c2 la2 lw2, Cache.reloaded e callback error result c = .ok () c2 ∧ Rep c2 la2 lw2 ∧
      c2._spec = c._spec ∧ c2.stats = c.stats ∧ c2.size = c.size ∧ c2._cache = c._cache ∧
      c2.heap.key = c.heap.key ∧ la2.Perm la := by
  by_cases her : error.truthy = true
  · refine ⟨_, la, lw, reloaded_error e callback error result c her, ?_, rfl, rfl, rfl, rfl,
      rfl, List.Perm.refl _⟩
    exact ⟨h.qa, h.qw, h.wq, h.map, h.keyed, h.size_eq, h.alloc, h.tail_alloc, h.tail_key,
      h.weigh⟩
  · rw [Bool.not_eq_true] at her
    by_cases hv : result.legal
    · obtain ⟨c1, c2, la2, lw2, h1, h2, hr, hs, hc, hz, hw, he, hp⟩ := promoteAny_spec
        { c with heap := { c.heap with value := Function.update c.heap.value e result },
                 events := c.events ++ (if c._spec.onRemove then
                   [Event.onRemove (propKey (c.heap.key e)) (c.heap.value e) _REMOVAL_CAUSE_E]
                   else []) }
        la lw (h.setValue e result _) e hkey
      refine ⟨got c2 c2.stats (c2.events ++ cbEvents callback .undefined result), la2, lw2, ?_,
        hr.got _ _, hs.spec, hs.stats, hz, hc, hs.key, hp⟩
      simp only [Cache.reloaded, bind_apply, her, Bool.not_false, if_true, tryCatch_apply,
        notify_ok, Entry.setValue_ok _ _ _ hv, h1, h2, callCallback_ok]
      rfl
    · refine ⟨got c c.stats ((c.events ++ (if c._spec.onRemove then
          [Event.onRemove (propKey (c.heap.key e)) (c.heap.value e) _REMOVAL_CAUSE_E]
          else [])) ++ cbEvents callback (Val.error ("Illegal value for key " ++ result.toStr))
          result), la, lw, ?_, ?_, rfl, rfl, rfl, rfl, rfl, List.Perm.refl _⟩
      · simp only [Cache.reloaded, bind_apply, her, Bool.not_false, if_true, tryCatch_apply,
          notify_ok, Entry.setValue_thrown _ _ _ hv, callCallback_ok]
        rfl
      · exact ⟨h.qa, h.qw, h.wq, h.map, h.keyed, h.size_eq, h.alloc, h.tail_alloc, h.tail_key,
          h.weigh⟩

theorem loaded_spec (now fuel : Nat) (key : String) (callback : Bool) (error result : Val)
    (c : Cache) (la lw : List Nat) (h : Rep c la lw) (hf : la.length < fuel) :
    ∃ c2 la2 lw2, Cache.loaded now fuel key callback error result c = .ok () c2 ∧
      Rep c2 la2 lw2 ∧ c2._spec = c._spec ∧ c2.stats = c.stats ∧
      la2.length ≤ la.length + 1 := by
  by_cases her : error.truthy = true
  · refine ⟨_, la, lw, loaded_error now fuel key callback error result c her, ?_, rfl, rfl,
      Nat.le_succ _⟩
    exact ⟨h.qa, h.qw, h.wq, h.map, h.keyed, h.size_eq, h.alloc, h.tail_alloc, h.tail_key,
      h.weigh⟩
  · rw [Bool.not_eq_true] at her
    by_cases hv : result.legal
    · obtain ⟨c1, c2, la2, lw2, rmE, rmC, la1, lw1, h1, post, hr, hs, _, he, hc, hz⟩ :=
        createEntry_spec now fuel key result c la lw h hv hf
      refine ⟨got c2 c2.stats (c2.events ++ cbEvents callback .undefined result), _, _, ?_,
        hr.got _ _, ?_, ?_, ?_⟩
      · simp only [Cache.loaded, bind_apply, her, Bool.not_false, if_true, tryCatch_apply,
          h1, pure_apply, callCallback_ok]
        rfl
      · show c2._spec = c._spec
        rw [hs.spec, post.same.spec]; rfl
      · show c2.stats = c.stats
        rw [hs.stats, post.same.stats]; rfl
      · have h3 := post.la_sub.length_le
        rw [post.la_split, List.length_append] at h3
        simp only [List.length_cons]
        omega
    · refine ⟨got c c.stats (c.events ++ cbEvents callback
          (Val.error ("Illegal value for key " ++ result.toStr)) result), la, lw, ?_, ?_, rfl,
          rfl, Nat.le_succ _⟩
      · simp only [Cache.loaded, bind_apply, her, Bool.not_false, if_true, tryCatch_apply,
          Cache._createEntry, Entry.new_thrown _ _ _ _ hv, callCallback_ok]
        rfl
      · exact ⟨h.qa, h.qw, h.wq, h.map, h.keyed, h.size_eq, h.alloc, h.tail_alloc, h.tail_key,
          h.weigh⟩

end Dsjslib
namespace Dsjslib

theorem delKeys_of_not (c : Cache) (rm : List Nat) (m : String → Option Nat) (k : String)
    (h : ∀ e ∈ rm, propKey (c.heap.key e) ≠ k) : delKeys c rm m k = m k := by
  induction rm generalizing m with
  | nil => rfl
  | cons a r ih =>
    show delKeys c r (Function.update m (propKey (c.heap.key a)) none) k = m k
    rw [ih _ (fun e he => h e (List.mem_cons_of_mem _ he))]
    exact Function.update_noteq (Ne.symm (h a (List.mem_cons_self _ _))) _ _

theorem delKeys_none (c : Cache) (rm : List Nat) (m : String → Option Nat) (k : String)
    (h : m k = none) : delKeys c rm m k = none := by
  induction rm generalizing m with
  | nil => exact h
  | cons a r ih =>
    show delKeys c r (Function.update m (propKey (c.heap.key a)) none) k = none
    apply ih
    by_cases hk : k = propKey (c.heap.key a)
    · rw [hk, Function.update_same]
    · rw [Function.update_noteq hk]; exact h

theorem delKeys_of_mem (c : Cache) (rm : List Nat) (m : String → Option Nat) (e : Nat)
    (he : e ∈ rm) : delKeys c rm m (propKey (c.heap.key e)) = none := by
  induction rm generalizing m with
  | nil => cases he
  | cons a r ih =>
    show delKeys c r (Function.update m (propKey (c.heap.key a)) none) _ = none
    rcases List.mem_cons.1 he with h | h
    · rw [h]
      exact delKeys_none c r _ _ (Function.update_same _ _ _)
    · exact ih _ h

theorem isExpired_fresh (c : Cache) (e now : Nat) (h : c.heap.writeTime e = some now) :
    Entry.isExpired e now c = false := by
  simp only [Entry.isExpired, h]
  cases c._spec.expiresAfterWrite with
  | none => rfl
  | some exp =>
    simp only [sub_self, Bool.and_eq_false_imp, Bool.and_eq_true, bne_iff_ne, ne_eq,
      decide_eq_true_eq, decide_eq_false_iff_not, not_lt, and_imp]
    intro _ h2; exact le_of_lt h2

/-- What a `put` with a legal value achieves on a well-formed state. -/
theorem put_legal_spec (now fuel : Nat) (key : String) (value : Val) (c : Cache)
    (la lw : List Nat) (h : Rep c la lw) (hst : Strong c la) (hv : value.legal)
    (hf : la.length < fuel) :
    ∃ c2 la2 lw2 x, Cache.put now fuel key value c = .ok .undefined c2 ∧ Rep c2 la2 lw2 ∧
      Strong c2 la2 ∧ c2._cache key = some x ∧ c2.heap.value x = value ∧
      c2.heap.writeTime x = some now ∧ c2._spec = c._spec ∧ c2.stats = c.stats ∧
      la2.length ≤ la.length + 1 := by
  cases hk : c._cache key with
  | none =>
    obtain ⟨c1, c2, la2, lw2, rmE, rmC, la1, lw1, h1, post, hr, hs, hst2, he, hc, hz⟩ :=
      put_new_spec now fuel key value c la lw h hv hk hf
    refine ⟨c2, _, _, c.heap.nextId, h1, hr, hst2 hst, ?_, ?_, ?_, ?_, ?_, ?_⟩
    · rw [hc, Function.update_same]
    · rw [hs.value, post.same.value]; simp
    · rw [hs.writeTime, post.same.writeTime]; simp
    · rw [hs.spec, post.same.spec]; rfl
    · rw [hs.stats, post.same.stats]; rfl
    · have h3 := post.la_sub.length_le
      rw [post.la_split, List.length_append] at h3
      simp only [List.length_cons]
      omega
  | some ex =>
    obtain ⟨cp, c2, la2, lw2, rmE, la1, lw1, h1, hrp, hsp, hcp, hzp, hwp, hep, hstp, post⟩ :=
      put_exists_spec now fuel key value c la lw h hv ex hk hf
    have hex : ex ∈ la := (h.map key ex hk).1
    have hstp2 := hstp hst
    have hwt : cp.heap.writeTime ex = some now := by
      rw [hsp.writeTime]; simp [overwrite]
    refine ⟨c2, la2, lw2, ex, h1, post.rep, post.strong hstp2, ?_, ?_, ?_, ?_, ?_, ?_⟩
    · rw [post.cache]
      show delKeys cp [] (delKeys cp rmE cp._cache) key = some ex
      show delKeys cp rmE cp._cache key = some ex
      rw [delKeys_of_not, hcp, hk]
      intro e he hke
      have hexp := post.expired e he
      have hel : e ∈ ex :: la.erase ex :=
        post.la_perm.mem_iff.2 (List.mem_append_left _ he)
      obtain ⟨ke, hke2⟩ := hrp.keyed e hel
      rw [hke2] at hke
      simp only [propKey, Option.getD_some] at hke
      subst hke
      have h5 := hstp2 e hel ke hke2
      rw [hcp, hk] at h5
      have := Option.some.inj h5
      subst this
      rw [isExpired_fresh cp ex now hwt] at hexp
      cases hexp
    · rw [post.same.value, hsp.value]; simp [overwrite]
    · rw [post.same.writeTime, hwt]
    · rw [post.same.spec, hsp.spec]; rfl
    · rw [post.same.stats, hsp.stats]; rfl
    · have h3 := post.la_sub.length_le
      rw [post.la_split] at h3
      simp only [List.reverse_nil, List.append_nil, List.length_cons] at h3
      rw [List.length_erase_of_mem hex] at h3
      have : 0 < la.length := List.length_pos_of_mem hex
      omega

end Dsjslib
namespace Dsjslib

theorem WF.fuel {c : Cache} {la lw : List Nat} (h : Rep c la lw) (fuel : Nat)
    (hf : c.size < fuel) : la.length < fuel := by
  rw [h.size_eq] at hf; exact_mod_cast hf

theorem make_eq (cs : CacheSpec) (s : Spec) (h : Cache.configure cs = .ok s) :
    Cache.make cs = initState (Cache.blank s) := by
  simp only [Cache.make, Cache.new, h, init_eq]

theorem wf_make (cs : CacheSpec) (s : Spec) (h : Cache.configure cs = .ok s)
    (hw : ∀ w, cs.maximumWeight = some w → 0 ≤ w) : WF (Cache.make cs) := by
  obtain ⟨_, h2, h3⟩ := new_spec cs s h hw
  rw [make_eq cs s h]
  exact ⟨[], [], h2, h3⟩

theorem wf_put (now fuel : Nat) (key : String) (value : Val) (c : Cache) (h : WF c)
    (hv : value.legal) (hf : c.size < fuel) :
    WF ((Cache.put now fuel key value c).stateD c) := by
  obtain ⟨la, lw, hr, hst⟩ := h
  obtain ⟨c2, la2, lw2, x, h1, hr2, hst2, _⟩ :=
    put_legal_spec now fuel key value c la lw hr hst hv (WF.fuel hr fuel hf)
  rw [h1]
  exact ⟨la2, lw2, hr2, hst2⟩

theorem wf_written : WF Example.written :=
  wf_put 0 9 "k" (.num 1) (Cache.make Example.expirySpec)
    (wf_make Example.expirySpec _ rfl (by intro w h; cases h)) (by decide) (by decide)

theorem get_stats (now : Nat) (key : String) (callback suppressLoad : Bool) (c : Cache)
    (la lw : List Nat) (h : Rep c la lw) :
    ∃ c2, Cache.get now key callback suppressLoad c = .ok .undefined c2 ∧
      c2.stats.requestCount = c.stats.requestCount + 1 ∧
      c2.stats.hitCount = c.stats.hitCount +
        (match c._cache key with
         | some e => if Entry.isExpired e now c then 0 else 1
         | none => 0) ∧
      c2.stats.missCount = c.stats.missCount +
        (match c._cache key with
         | some _ => 0
         | none => 1) := by
  cases hk : c._cache key with
  | none => exact ⟨_, get_miss now key callback suppressLoad c hk, rfl, rfl, rfl⟩
  | some e =>
    by_cases hexp : Entry.isExpired e now c = true
    · by_cases hl : (c._spec.loaderFn && !suppressLoad) = true
      · exact ⟨_, get_expired_load now key callback suppressLoad c e hk hexp hl, rfl,
          by simp [hexp, got], rfl⟩
      · rw [Bool.not_eq_true] at hl
        obtain ⟨c2, h1, _, _, hs, _⟩ :=
          get_expired_spec now key callback suppressLoad c la lw h e hk hexp hl
        refine ⟨c2, h1, ?_, ?_, ?_⟩
        · rw [hs.stats]; rfl
        · rw [hs.stats]; simp [hexp, got]
        · rw [hs.stats]; rfl
    · rw [Bool.not_eq_true] at hexp
      obtain ⟨c2, h1, _, _, hs, _⟩ :=
        get_hit_spec now key callback suppressLoad c la lw h e hk hexp
      refine ⟨c2, h1, ?_, ?_, ?_⟩
      · rw [hs.stats]; rfl
      · rw [hs.stats]; simp [hexp, got]
      · rw [hs.stats]; rfl

theorem put_stats (now fuel : Nat) (key : String) (value : Val) (c : Cache)
    (la lw : List Nat) (h : Rep c la lw) (hf : la.length < fuel) :
    ∃ c2, (Cache.put now fuel key value c).state? = some c2 ∧ c2.stats = c.stats := by
  by_cases hv : value.legal
  · cases hk : c._cache key with
    | none =>
      obtain ⟨c1, c2, la2, lw2, rmE, rmC, la1, lw1, h1, post, hr, hs, _⟩ :=
        put_new_spec now fuel key value c la lw h hv hk hf
      refine ⟨c2, by rw [h1]; rfl, ?_⟩
      rw [hs.stats, post.same.stats]; rfl
    | some ex =>
      obtain ⟨cp, c2, la2, lw2, rmE, la1, lw1, h1, hrp, hsp, _, _, _, _, _, post⟩ :=
        put_exists_spec now fuel key value c la lw h hv ex hk hf
      refine ⟨c2, by rw [h1]; rfl, ?_⟩
      rw [post.same.stats, hsp.stats]; rfl
  · exact ⟨c, by rw [put_illegal now fuel key value c hv]; rfl, rfl⟩

theorem invalidate_stats (key : String) (c : Cache) (la lw : List Nat) (h : Rep c la lw) :
    ∃ c2, (Cache.invalidate key c).state? = some c2 ∧ c2.stats = c.stats := by
  cases hk : c._cache key with
  | none => exact ⟨c, by rw [invalidate_absent key c hk]; rfl, rfl⟩
  | some e =>
    obtain ⟨c2, h1, _, _, hs, _⟩ := invalidate_spec key c la lw h e hk
    exact ⟨c2, by rw [h1]; rfl, hs.stats⟩

theorem canReap_sizeMode {c : Cache} {N : Int} (h : SizeMode c N) :
    Cache._canReap c = decide (c.size ≥ N) := by
  have := h.2.1
  simp only [Cache._canReap, h.1, h.2.2]
  have hN : (N != 0) = true := by simp; omega
  simp [hN]

theorem step_put_size (N : Int) (fuel now : Nat) (key : String) (value : Val) (c : Cache)
    (la lw : List Nat) (h : Rep c la lw) (hm : SizeMode c N) (hle : (la.length : Int) ≤ N)
    (hf : la.length < fuel) :
    ∃ c2 la2 lw2, (Cache.put now fuel key value c).state? = some c2 ∧ Rep c2 la2 lw2 ∧
      SizeMode c2 N ∧ (la2.length : Int) ≤ N ∧ la2.length ≤ la.length + 1 := by
  by_cases hv : value.legal
  · cases hk : c._cache key with
    | none =>
      obtain ⟨c1, c2, la2, lw2, rmE, rmC, la1, lw1, h1, post, hr, hs, _⟩ :=
        put_new_spec now fuel key value c la lw h hv hk hf
      have hm1 : SizeMode c1 N := by
        unfold SizeMode at hm ⊢; rw [post.same.spec]; exact hm
      refine ⟨c2, _, _, by rw [h1]; rfl, hr, ?_, ?_, ?_⟩
      · unfold SizeMode at hm1 ⊢; rw [hs.spec]; exact hm1
      · simp only [List.length_cons]
        rcases post.cap rfl with h2 | h2
        · rw [h2]; simp; exact hm.2.1
        · rw [canReap_sizeMode hm1, post.rep.size_eq] at h2
          simp at h2
          push_cast; omega
      · have h3 := post.la_sub.length_le
        rw [post.la_split, List.length_append] at h3
        simp only [List.length_cons]
        omega
    | some ex =>
      obtain ⟨cp, c2, la2, lw2, rmE, la1, lw1, h1, hrp, hsp, _, _, _, _, _, post⟩ :=
        put_exists_spec now fuel key value c la lw h hv ex hk hf
      have hex : ex ∈ la := (h.map key ex hk).1
      have h3 := post.la_sub.length_le
      rw [post.la_split] at h3
      simp only [List.reverse_nil, List.append_nil, List.length_cons] at h3
      rw [List.length_erase_of_mem hex] at h3
      have : 0 < la.length := List.length_pos_of_mem hex
      refine ⟨c2, la2, lw2, by rw [h1]; rfl, post.rep, ?_, by omega, by omega⟩
      unfold SizeMode at hm ⊢; rw [post.same.spec, hsp.spec]; exact hm
  · exact ⟨c, la, lw, by rw [put_illegal now fuel key value c hv]; rfl, h, hm, hle,
      Nat.le_succ _⟩

theorem run_puts_size (N : Int) (fuel : Nat) (ops : List Op)
    (hops : ∀ op ∈ ops, ∃ t k v, op = Op.put t k v) :
    ∀ (c : Cache) (la lw : List Nat), Rep c la lw → SizeMode c N → (la.length : Int) ≤ N →
      la.length + ops.length < fuel →
      ∃ c2, runOps fuel ops c = some c2 ∧ c2.size ≤ N := by
  induction ops with
  | nil =>
    intro c la lw h _ hle _
    exact ⟨c, rfl, by rw [h.size_eq]; exact hle⟩
  | cons op ops ih =>
    intro c la lw h hm hle hf
    obtain ⟨t, k, v, hop⟩ := hops op (List.mem_cons_self _ _)
    subst hop
    simp only [List.length_cons] at hf
    obtain ⟨c1, la1, lw1, h1, hr1, hm1, hle1, hlen1⟩ :=
      step_put_size N fuel t k v c la lw h hm hle (by omega)
    obtain ⟨c2, h2, h3⟩ := ih (fun op hop => hops op (List.mem_cons_of_mem _ hop)) c1 la1 lw1
      hr1 hm1 hle1 (by omega)
    refine ⟨c2, ?_, h3⟩
    simp only [runOps, Op.run, h1, h2]

theorem configure_size (cs : CacheSpec) (hw : cs.maximumWeight = none)
    (hf : cs.weigherFunction = none) :
    Cache.configure cs = .ok
      { loaderFn := cs.loaderFunction
        expiresAfterWrite := cs.expiresAfterWrite.map fun d => d * 1000
        recordStats := cs.recordStats
        maxSize := cs.maximumSize
        maxWeight := none
        weighFn := none
        onRemove := cs.onRemove } := by
  simp [Cache.configure, hw, hf]

end Dsjslib
namespace Dsjslib

theorem TimeSorted.mono {c c2 : Cache} {lw lw2 : List Nat} {T T2 : Nat}
    (h : TimeSorted c lw T) (hw : ∀ e ∈ lw2, c2.heap.writeTime e = c.heap.writeTime e)
    (hsub : lw2.Sublist lw) (hT : T ≤ T2) : TimeSorted c2 lw2 T2 := by
  constructor
  · intro e he
    obtain ⟨w, h1, h2⟩ := h.timed e (hsub.subset he)
    exact ⟨w, by rw [hw e he]; exact h1, le_trans h2 hT⟩
  · have h1 := h.sorted.sublist hsub
    refine List.Pairwise.imp_of_mem ?_ h1
    intro a b ha hb hab
    simp only [wtD, hw a ha, hw b hb]
    exact hab

theorem TimeSorted.cons_new {c : Cache} {lw : List Nat} {T t : Nat} (h : TimeSorted c lw T)
    (x : Nat) (hx : c.heap.writeTime x = some t) (hT : T ≤ t) : TimeSorted c (x :: lw) t := by
  constructor
  · intro e he
    rcases List.mem_cons.1 he with h1 | h1
    · exact ⟨t, by rw [h1]; exact hx, le_refl _⟩
    · obtain ⟨w, h2, h3⟩ := h.timed e h1
      exact ⟨w, h2, le_trans h3 hT⟩
  · refine List.pairwise_cons.2 ⟨?_, h.sorted⟩
    intro b hb
    obtain ⟨w, h2, h3⟩ := h.timed b hb
    simp only [wtD, h2, hx, Option.getD_some]
    exact le_trans h3 hT

theorem isExpired_eq (c : Cache) (E : Int) (hE : 0 < E)
    (hexp : c._spec.expiresAfterWrite = some E) (e w t : Nat)
    (hw : c.heap.writeTime e = some w) :
    Entry.isExpired e t c = decide ((t : Int) - w > E) := by
  have hE2 : E ≠ 0 := by omega
  simp only [Entry.isExpired, hexp, hw]
  simp [hE2, hE]

theorem live_all (c : Cache) (E : Int) (hE : 0 < E)
    (hexp : c._spec.expiresAfterWrite = some E) (l : List Nat) (s T t : Nat)
    (hn : l.Nodup) (hs : s ∉ l) (hts : TimeSorted c l T)
    (hl : ∀ z, prevOf none l s = some z → Entry.isExpired z t c = false) :
    ∀ e ∈ l, Entry.isExpired e t c = false := by
  intro e he
  cases hp : prevOf none l s with
  | none =>
    rw [prevOf_tail_none s l hs hp] at he; cases he
  | some z =>
    have hz := hl z hp
    have hsplit := prevOf_tail_erase s l z hn hs hp
    obtain ⟨wz, hwz, _⟩ := hts.timed z (prevOf_tail_mem s l z hp)
    obtain ⟨we, hwe, _⟩ := hts.timed e he
    rw [isExpired_eq c E hE hexp z wz t hwz] at hz
    rw [isExpired_eq c E hE hexp e we t hwe]
    simp only [decide_eq_false_iff_not, not_lt] at hz ⊢
    have hle : wz ≤ we := by
      by_cases hez : e = z
      · rw [hez, hwz] at hwe; cases hwe; exact le_refl _
      · have hsorted := hts.sorted
        rw [hsplit] at hsorted he
        have hmem : e ∈ l.erase z := by
          rcases List.mem_append.1 he with h1 | h1
          · exact h1
          · simp at h1; exact absurd h1 hez
        have := (List.pairwise_append.1 hsorted).2.2 e hmem z (by simp)
        simpa [wtD, hwz, hwe] using this
    have : (wz : Int) ≤ we := by exact_mod_cast hle
    omega

/-- After a `put` with a legal value at a time `t` not before `T`, no entry of the cache is
expired at `t`. -/
theorem put_live (E : Int) (hE : 0 < E) (t fuel : Nat) (key : String) (value : Val)
    (c : Cache) (la lw : List Nat) (T : Nat) (h : ExpInv E c la lw T) (hv : value.legal)
    (hT : T ≤ t) (hf : la.length < fuel) :
    ∃ c2 la2 lw2, Cache.put t fuel key value c = .ok .undefined c2 ∧ ExpInv E c2 la2 lw2 t ∧
      (∀ e ∈ lw2, Entry.isExpired e t c2 = false) ∧ la2.length ≤ la.length + 1 := by
  have hE2 : E ≠ 0 := by omega
  have hws : c._writeQueue.isSome := by
    rw [h.rep.wq, h.exp]; simpa using hE2
  obtain ⟨Qw, hQ⟩ := Option.isSome_iff_exists.1 hws
  obtain ⟨hqw, hperm, htl, _⟩ := h.rep.qw Qw hQ
  cases hk : c._cache key with
  | none =>
    obtain ⟨c1, c2, la2, lw2, rmE, rmC, la1, lw1, h1, post, hr, hs, _, _, _, _⟩ :=
      put_new_spec t fuel key value c la lw h.rep hv hk hf
    have hne : ∀ e ∈ lw, e ≠ c.heap.nextId := by
      intro e he h2
      exact Nat.lt_irrefl _ (h2 ▸ h.rep.alloc e (hperm.mem_iff.1 he))
    have hts0 : TimeSorted (allocEntry t key value c) lw T :=
      h.ts.mono (fun e he => allocEntry_writeTime_ne _ _ _ _ _ (hne e he))
        (List.Sublist.refl _) (le_refl _)
    have hsplit := post.lw_split hws
    have hsub1 : lw1.Sublist lw := by
      rw [hsplit]; exact List.sublist_append_left _ _
    have hts1 : TimeSorted (allocEntry t key value c) lw1 T :=
      hts0.mono (fun _ _ => rfl) hsub1 (le_refl _)
    have hexp0 : (allocEntry t key value c)._spec.expiresAfterWrite = some E := h.exp
    have hlive1 := live_all (allocEntry t key value c) E hE hexp0 lw1 Qw.tail T t
      (hqw.nodup.sublist hsub1) (fun h2 => hqw.tail_not_mem (hsub1.subset h2)) hts1
      (post.live Qw hQ)
    have hsame := post.same.trans hs
    have hwx : c2.heap.writeTime c.heap.nextId = some t := by
      rw [hsame.writeTime]; simp
    have hts2 : TimeSorted c2 lw2 T :=
      hts1.mono (fun e _ => by rw [hsame.writeTime]) post.lw_sub (le_refl _)
    refine ⟨c2, _, _, h1, ⟨hr, ?_, ?_, hts2.cons_new _ hwx hT⟩, ?_, ?_⟩
    · rw [hsame.spec]; exact h.exp
    · rw [hsame.spec]; exact h.noload
    · intro e he
      rcases List.mem_cons.1 he with h2 | h2
      · rw [h2]; exact isExpired_fresh c2 _ t hwx
      · rw [isExpired_same hsame]
        exact hlive1 e (post.lw_sub.subset h2)
    · have h3 := post.la_sub.length_le
      rw [post.la_split, List.length_append] at h3
      simp only [List.length_cons]
      omega
  | some ex =>
    obtain ⟨cp, c2, la2, lw2, rmE, la1, lw1, h1, hrp, hsp, _, _, _, _, _, post⟩ :=
      put_exists_spec t fuel key value c la lw h.rep hv ex hk hf
    have hex : ex ∈ la := (h.rep.map key ex hk).1
    have hwp : cp.heap.writeTime = Function.update c.heap.writeTime ex (some t) := by
      rw [hsp.writeTime]; rfl
    have htsp0 : TimeSorted cp (lw.erase ex) T := by
      refine h.ts.mono ?_ (List.erase_sublist _ _) (le_refl _)
      intro e he
      rw [hwp, Function.update_noteq]
      exact fun h2 => ((List.Nodup.mem_erase_iff hqw.nodup).1 he).1 h2
    have htsp : TimeSorted cp (ex :: lw.erase ex) t :=
      htsp0.cons_new ex (by rw [hwp, Function.update_same]) hT
    have hwsp : cp._writeQueue.isSome := by rw [hsp.wq]; exact hws
    obtain ⟨Qp, hQp⟩ := Option.isSome_iff_exists.1 hwsp
    obtain ⟨hqp, _, _, _⟩ := hrp.qw Qp hQp
    have hsplit := post.lw_split hwsp
    have hsub1 : lw1.Sublist (ex :: lw.erase ex) := by
      rw [hsplit]; exact List.sublist_append_left _ _
    have hts1 : TimeSorted cp lw1 t := htsp.mono (fun _ _ => rfl) hsub1 (le_refl _)
    have hexpp : cp._spec.expiresAfterWrite = some E := by rw [hsp.spec]; exact h.exp
    have hlive1 := live_all cp E hE hexpp lw1 Qp.tail t t
      (hqp.nodup.sublist hsub1) (fun h2 => hqp.tail_not_mem (hsub1.subset h2)) hts1
      (post.live Qp hQp)
    have hts2 : TimeSorted c2 lw2 t :=
      hts1.mono (fun e _ => by rw [post.same.writeTime]) post.lw_sub (le_refl _)
    refine ⟨c2, la2, lw2, h1, ⟨post.rep, ?_, ?_, hts2⟩, ?_, ?_⟩
    · rw [post.same.spec]; exact hexpp
    · rw [post.same.spec, hsp.spec]; exact h.noload
    · intro e he
      rw [isExpired_same post.same]
      exact hlive1 e (post.lw_sub.subset he)
    · have h3 := post.la_sub.length_le
      rw [post.la_split] at h3
      simp only [List.reverse_nil, List.append_nil, List.length_cons] at h3
      rw [List.length_erase_of_mem hex] at h3
      have : 0 < la.length := List.length_pos_of_mem hex
      omega

end Dsjslib
namespace Dsjslib

theorem ExpInv.got_exp {E : Int} {c : Cache} {la lw : List Nat} {T : Nat} (h : ExpInv E c la lw T)
    (s : Stats) (ev : List Event) (T2 : Nat) (hT : T ≤ T2) : ExpInv E (got c s ev) la lw T2 :=
  ⟨h.rep.got _ _, h.exp, h.noload, h.ts.mono (fun _ _ => rfl) (List.Sublist.refl _) hT⟩

theorem get_exp (E : Int) (now : Nat) (key : String) (callback suppressLoad : Bool) (c : Cache)
    (la lw : List Nat) (T : Nat) (h : ExpInv E c la lw T) (hT : T ≤ now) :
    ∃ c2 la2 lw2, Cache.get now key callback suppressLoad c = .ok .undefined c2 ∧
      ExpInv E c2 la2 lw2 now ∧ la2.length ≤ la.length := by
  cases hk : c._cache key with
  | none =>
    exact ⟨_, la, lw, get_miss now key callback suppressLoad c hk, h.got_exp _ _ now hT, le_refl _⟩
  | some e =>
    have hel : e ∈ la := (h.rep.map key e hk).1
    cases hx : Entry.isExpired e now c with
    | true =>
      obtain ⟨c2, h1, hr, _, hs, _⟩ := get_expired_spec now key callback suppressLoad c la lw
        h.rep e hk hx (by rw [h.noload]; rfl)
      refine ⟨c2, _, _, h1, ⟨hr, ?_, ?_, ?_⟩, List.length_erase_le _ _⟩
      · rw [hs.spec]; exact h.exp
      · rw [hs.spec]; exact h.noload
      · exact h.ts.mono (fun _ _ => by rw [hs.writeTime]; rfl) (List.erase_sublist _ _) hT
    | false =>
      obtain ⟨c2, h1, hr, _, hs, _⟩ := get_hit_spec now key callback suppressLoad c la lw
        h.rep e hk hx
      refine ⟨c2, _, _, h1, ⟨hr, ?_, ?_, ?_⟩, ?_⟩
      · rw [hs.spec]; exact h.exp
      · rw [hs.spec]; exact h.noload
      · exact h.ts.mono (fun _ _ => by rw [hs.writeTime]; rfl) (List.Sublist.refl _) hT
      · simp only [List.length_cons, List.length_erase_of_mem hel]
        have : 0 < la.length := List.length_pos_of_mem hel
        omega

theorem invalidate_exp (E : Int) (key : String) (c : Cache) (la lw : List Nat) (T : Nat)
    (h : ExpInv E c la lw T) :
    ∃ c2 la2 lw2, (Cache.invalidate key c).state? = some c2 ∧
      ExpInv E c2 la2 lw2 T ∧ la2.length ≤ la.length := by
  cases hk : c._cache key with
  | none =>
    exact ⟨c, la, lw, by rw [invalidate_absent key c hk]; rfl, h, le_refl _⟩
  | some e =>
    obtain ⟨c2, h1, hr, _, hs, _⟩ := invalidate_spec key c la lw h.rep e hk
    refine ⟨c2, _, _, by rw [h1]; rfl, ⟨hr, ?_, ?_, ?_⟩, List.length_erase_le _ _⟩
    · rw [hs.spec]; exact h.exp
    · rw [hs.spec]; exact h.noload
    · exact h.ts.mono (fun _ _ => by rw [hs.writeTime]) (List.erase_sublist _ _) (le_refl _)

theorem step_exp (E : Int) (hE : 0 < E) (fuel : Nat) (op : Op) (rest : List Op) (c : Cache)
    (la lw : List Nat) (T : Nat) (h : ExpInv E c la lw T) (hf : la.length < fuel)
    (hclk : Clocked T (op :: rest)) :
    ∃ c2 la2 lw2 T2, op.run fuel c = some c2 ∧ ExpInv E c2 la2 lw2 T2 ∧
      la2.length ≤ la.length + 1 ∧ Clocked T2 rest := by
  cases op with
  | put now key value =>
    obtain ⟨hT, hrest⟩ := hclk
    by_cases hv : value.legal
    · obtain ⟨c2, la2, lw2, h1, h2, _, h4⟩ := put_live E hE now fuel key value c la lw T h hv hT hf
      exact ⟨c2, la2, lw2, now, by simp only [Op.run, h1]; rfl, h2, h4, hrest⟩
    · refine ⟨c, la, lw, now, by simp only [Op.run, put_illegal now fuel key value c hv]; rfl,
        ⟨h.rep, h.exp, h.noload, h.ts.mono (fun _ _ => rfl) (List.Sublist.refl _) hT⟩,
        Nat.le_succ _, hrest⟩
  | get now key =>
    obtain ⟨hT, hrest⟩ := hclk
    obtain ⟨c2, la2, lw2, h1, h2, h3⟩ := get_exp E now key true false c la lw T h hT
    exact ⟨c2, la2, lw2, now, by simp only [Op.run, h1]; rfl, h2, Nat.le_succ_of_le h3, hrest⟩
  | getIfPresent now key =>
    obtain ⟨hT, hrest⟩ := hclk
    obtain ⟨c2, la2, lw2, h1, h2, h3⟩ := get_exp E now key false true c la lw T h hT
    exact ⟨c2, la2, lw2, now, by simp only [Op.run, Cache.getIfPresent, h1]; rfl, h2,
      Nat.le_succ_of_le h3, hrest⟩
  | invalidate key =>
    obtain ⟨c2, la2, lw2, h1, h2, h3⟩ := invalidate_exp E key c la lw T h
    exact ⟨c2, la2, lw2, T, h1, h2, Nat.le_succ_of_le h3, hclk⟩

theorem run_exp (E : Int) (hE : 0 < E) (fuel : Nat) (t : Nat) (key : String) (value : Val)
    (hv : value.legal) (ops : List Op) :
    ∀ (c : Cache) (la lw : List Nat) (T : Nat), ExpInv E c la lw T →
      la.length + ops.length < fuel → Clocked T (ops ++ [Op.put t key value]) →
      ∃ c1 c2 la2 lw2, runOps fuel ops c = some c1 ∧
        Cache.put t fuel key value c1 = .ok .undefined c2 ∧ ExpInv E c2 la2 lw2 t ∧
        ∀ e ∈ lw2, Entry.isExpired e t c2 = false := by
  induction ops with
  | nil =>
    intro c la lw T h hf hclk
    obtain ⟨c2, la2, lw2, h1, h2, h3, _⟩ :=
      put_live E hE t fuel key value c la lw T h hv hclk.1 (by simpa using hf)
    exact ⟨c, c2, la2, lw2, rfl, h1, h2, h3⟩
  | cons op ops ih =>
    intro c la lw T h hf hclk
    simp only [List.length_cons] at hf
    obtain ⟨c1, la1, lw1, T1, h1, h2, h3, h4⟩ :=
      step_exp E hE fuel op (ops ++ [Op.put t key value]) c la lw T h (by omega) hclk
    obtain ⟨c3, c4, la4, lw4, h5, h6⟩ := ih c1 la1 lw1 T1 h2 (by omega) h4
    exact ⟨c3, c4, la4, lw4, by simp only [runOps, h1, h5], h6⟩

theorem configure_exp (cs : CacheSpec) (s : Spec) (h : Cache.configure cs = .ok s) :
    s.expiresAfterWrite = cs.expiresAfterWrite.map (fun d => d * 1000) ∧
      s.loaderFn = cs.loaderFunction ∧ s.onRemove = cs.onRemove := by
  simp only [Cache.configure] at h
  split at h
  · cases h
  · split at h
    · cases h
    · cases h; exact ⟨rfl, rfl, rfl⟩

end Dsjslib
namespace Dsjslib

theorem isExpired_noexp (c : Cache) (h : c._spec.expiresAfterWrite = none) (e now : Nat) :
    Entry.isExpired e now c = false := by
  simp only [Entry.isExpired, h]

theorem noqueue_of_noexp {c : Cache} {la lw : List Nat} (h : Rep c la lw)
    (hne : c._spec.expiresAfterWrite = none) : c._writeQueue = none := by
  have := h.wq
  rw [hne] at this
  cases hq : c._writeQueue with
  | none => rfl
  | some Q => rw [hq] at this; cases this

/-- A `put` of a new key in size mode without expiry: nothing is removed below the bound, and at
the bound exactly the last entry of the access queue. -/
theorem put_new_lru (N : Int) (now fuel : Nat) (key : String) (value : Val) (c : Cache)
    (la lw : List Nat) (h : Rep c la lw) (hst : Strong c la) (hm : SizeMode c N)
    (hne : c._spec.expiresAfterWrite = none) (hle : (la.length : Int) ≤ N)
    (hv : value.legal) (hk : c._cache key = none) (hf : la.length < fuel) :
    ∃ c2 la2 lw2 rmC, Cache.put now fuel key value c = .ok .undefined c2 ∧
      Rep c2 (c.heap.nextId :: la2) (c.heap.nextId :: lw2) ∧
      Strong c2 (c.heap.nextId :: la2) ∧ Same (allocEntry now key value c) c2 ∧
      la = la2 ++ rmC ∧
      c2._cache = Function.update (delKeys c rmC c._cache) key (some c.heap.nextId) ∧
      c2.events = c.events ++ notes c _REMOVAL_CAUSE_C rmC ∧
      (((la.length : Int) < N ∧ rmC = []) ∨ ((la.length : Int) = N ∧ ∃ v, rmC = [v])) := by
  obtain ⟨c1, c2, la2, lw2, rmE, rmC, la1, lw1, h1, post, hr, hs, hst2, he, hc, _⟩ :=
    put_new_spec now fuel key value c la lw h hv hk hf
  have hq : (allocEntry now key value c)._writeQueue = none :=
    show c._writeQueue = none from noqueue_of_noexp h hne
  obtain ⟨_, hrmE, hla1⟩ := post.noqueue hq
  have hm0 : SizeMode (allocEntry now key value c) N := hm
  have hsplit : la = la2 ++ rmC.reverse := by rw [← hla1]; exact post.la_split
  have hkeys : ∀ e ∈ la, (allocEntry now key value c).heap.key e = c.heap.key e := by
    intro e hel
    exact allocEntry_key_ne _ _ _ _ _ (fun h3 => Nat.lt_irrefl _ (h3 ▸ h.alloc e hel))
  have hvals : ∀ e ∈ la, (allocEntry now key value c).heap.value e = c.heap.value e := by
    intro e hel
    exact allocEntry_value_ne _ _ _ _ _ (fun h3 => Nat.lt_irrefl _ (h3 ▸ h.alloc e hel))
  have hcases : ((la.length : Int) < N ∧ rmC = []) ∨ ((la.length : Int) = N ∧ ∃ v, rmC = [v]) := by
    by_cases hlt : (la.length : Int) < N
    · left
      refine ⟨hlt, (post.idle hrmE ?_).2.2⟩
      intro _
      rw [canReap_sizeMode hm0]
      have : (allocEntry now key value c).size = c.size := rfl
      rw [this, h.size_eq]
      simpa using hlt
    · right
      have heq : (la.length : Int) = N := by omega
      refine ⟨heq, ?_⟩
      have h2 := post.sized N hm0 rfl (by rw [hla1]; omega)
      have h3 : rmC.length = 1 := by
        have := congrArg List.length hsplit
        simp only [List.length_append, List.length_reverse] at this
        omega
      match rmC, h3 with
      | [v], _ => exact ⟨v, rfl⟩
  have hrev : rmC.reverse = rmC := by
    rcases hcases with ⟨_, h2⟩ | ⟨_, v, h2⟩ <;> rw [h2] <;> rfl
  rw [hrev] at hsplit
  have hsub : ∀ e ∈ rmC, e ∈ la := by
    intro e hel; rw [hsplit]; exact List.mem_append_right _ hel
  refine ⟨c2, la2, lw2, rmC, h1, hr, hst2 hst, post.same.trans hs, hsplit, ?_, ?_, hcases⟩
  · rw [hc, post.cache, hrmE]
    congr 1
    rcases hcases with ⟨_, h2⟩ | ⟨_, v, h2⟩
    · rw [h2]; rfl
    · rw [h2] at hsub ⊢
      simp only [delKeys, List.foldl_cons, List.foldl_nil]
      rw [hkeys v (hsub v (List.mem_singleton_self v))]
      rfl
  · rw [he, post.events, hrmE, notes_nil, List.append_nil]
    congr 1
    rcases hcases with ⟨_, h2⟩ | ⟨_, v, h2⟩
    · rw [h2, notes_nil, notes_nil]
    · rw [h2] at hsub ⊢
      simp only [notes, List.map_cons, List.map_nil]
      rw [hkeys v (hsub v (List.mem_singleton_self v)),
        hvals v (hsub v (List.mem_singleton_self v))]
      rfl

end Dsjslib
namespace Dsjslib

theorem strong_cache {c : Cache} {la lw : List Nat} (h : Rep c la lw) (hst : Strong c la)
    (e : Nat) (he : e ∈ la) : c._cache (propKey (c.heap.key e)) = some e := by
  obtain ⟨k, hk⟩ := h.keyed e he
  rw [hk]
  exact hst e he k hk

theorem LruInv.step_keep {N : Int} {c c2 : Cache} {la lw l2 lw2 : List Nat} {a : String → Nat}
    (h : LruInv N c la lw a) (op : Op) (hr : Rep c2 l2 lw2) (hst : Strong c2 l2)
    (hspec : c2._spec = c._spec) (hkey : ∀ e ∈ l2, c2.heap.key e = c.heap.key e)
    (hsub : l2.Sublist la)
    (hp : ∀ e ∈ l2, op.promotes (propKey (c.heap.key e)) c = false) :
    LruInv N c2 l2 lw2 (tick op c a) := by
  refine ⟨hr, hst, ?_, ?_, ?_, ?_⟩
  · unfold SizeMode; rw [hspec]; exact h.mode
  · rw [hspec]; exact h.noexp
  · have := hsub.length_le
    have := h.le
    omega
  · refine List.Pairwise.imp_of_mem ?_ (h.order.sublist hsub)
    intro e1 e2 h1 h2 h12
    simp only [tick, hkey e1 h1, hkey e2 h2, hp e1 h1, hp e2 h2]
    simpa using h12

theorem LruInv.step_front {N : Int} {c c2 : Cache} {la lw l2 lw2 : List Nat} {a : String → Nat}
    (h : LruInv N c la lw a) (op : Op) (p : Nat) (hr : Rep c2 (p :: l2) lw2)
    (hst : Strong c2 (p :: l2)) (hspec : c2._spec = c._spec)
    (hkey : ∀ e ∈ l2, c2.heap.key e = c.heap.key e) (hsub : l2.Sublist la)
    (hlen : ((l2.length : Int) + 1) ≤ N)
    (hpp : op.promotes (propKey (c2.heap.key p)) c = true)
    (hp : ∀ e ∈ l2, op.promotes (propKey (c.heap.key e)) c = false) :
    LruInv N c2 (p :: l2) lw2 (tick op c a) := by
  refine ⟨hr, hst, ?_, ?_, ?_, ?_⟩
  · unfold SizeMode; rw [hspec]; exact h.mode
  · rw [hspec]; exact h.noexp
  · simp only [List.length_cons]; push_cast; exact hlen
  · refine List.pairwise_cons.2 ⟨?_, ?_⟩
    · intro e he
      simp only [tick, hpp, hkey e he, hp e he]
      simp
    · refine List.Pairwise.imp_of_mem ?_ (h.order.sublist hsub)
      intro e1 e2 h1 h2 h12
      simp only [tick, hkey e1 h1, hkey e2 h2, hp e1 h1, hp e2 h2]
      simpa using h12

theorem put_lru (N : Int) (now fuel : Nat) (key : String) (value : Val) (c : Cache)
    (la lw : List Nat) (a : String → Nat) (h : LruInv N c la lw a) (hf : la.length < fuel) :
    ∃ c2 la2 lw2, (Cache.put now fuel key value c).state? = some c2 ∧
      LruInv N c2 la2 lw2 (tick (Op.put now key value) c a) ∧ la2.length ≤ la.length + 1 := by
  by_cases hv : value.legal
  · cases hk : c._cache key with
    | none =>
      obtain ⟨c2, la2, lw2, rmC, h1, hr, hst, hs, hsplit, _, _, hcases⟩ :=
        put_new_lru N now fuel key value c la lw h.rep h.strong h.mode h.noexp h.le hv hk hf
      have hsub : la2.Sublist la := by rw [hsplit]; exact List.sublist_append_left _ _
      have hne : ∀ e ∈ la, e ≠ c.heap.nextId :=
        fun e he h3 => Nat.lt_irrefl _ (h3 ▸ h.rep.alloc e he)
      refine ⟨c2, c.heap.nextId :: la2, c.heap.nextId :: lw2, by rw [h1]; rfl, ?_, ?_⟩
      · refine h.step_front _ _ hr hst hs.spec ?_ hsub ?_ ?_ ?_
        · intro e he
          rw [hs.key]
          exact allocEntry_key_ne _ _ _ _ _ (hne e (hsub.subset he))
        · have hl := congrArg List.length hsplit
          simp only [List.length_append] at hl
          rcases hcases with ⟨h2, h3⟩ | ⟨h2, v, h3⟩
          · rw [h3] at hl; simp only [List.length_nil] at hl; omega
          · rw [h3] at hl; simp only [List.length_singleton] at hl; omega
        · rw [hs.key, allocEntry_key]
          simp [Op.promotes, propKey, hv]
        · intro e he
          have h4 := strong_cache h.rep h.strong e (hsub.subset he)
          have h5 : key ≠ propKey (c.heap.key e) := by
            intro h6; rw [← h6, hk] at h4; cases h4
          simp [Op.promotes, h5]
      · have hl := congrArg List.length hsplit
        simp only [List.length_append, List.length_cons] at hl ⊢
        omega
    | some ex =>
      obtain ⟨cp, c2, la2, lw2, rmE, la1, lw1, h1, hrp, hsp, hcp, _, _, _, hstp, post⟩ :=
        put_exists_spec now fuel key value c la lw h.rep hv ex hk hf
      have hex : ex ∈ la := (h.rep.map key ex hk).1
      have hkex : c.heap.key ex = some key := (h.rep.map key ex hk).2
      have hspec : cp._spec = c._spec := hsp.spec
      have hq : cp._writeQueue = none :=
        noqueue_of_noexp hrp (by rw [hspec]; exact h.noexp)
      obtain ⟨_, hrmE, _⟩ := post.noqueue hq
      obtain ⟨hc2, hla2, _⟩ := post.idle hrmE (fun h2 => by cases h2)
      subst hc2
      subst hla2
      have hkey : c2.heap.key = c.heap.key := hsp.key
      refine ⟨c2, ex :: la.erase ex, lw2, by rw [h1]; rfl, ?_, ?_⟩
      · refine h.step_front _ _ post.rep (hstp h.strong) hspec ?_ (List.erase_sublist _ _)
          ?_ ?_ ?_
        · intro e _; rw [hkey]
        · rw [List.length_erase_of_mem hex]
          have : 0 < la.length := List.length_pos_of_mem hex
          have := h.le
          omega
        · rw [hkey, hkex]
          simp [Op.promotes, propKey, hv]
        · intro e he
          have hel := (List.Nodup.mem_erase_iff h.rep.qa.nodup).1 he
          have h4 := strong_cache h.rep h.strong e hel.2
          have h5 : key ≠ propKey (c.heap.key e) := by
            intro h6; rw [← h6, hk] at h4
            exact hel.1 (Option.some.inj h4).symm
          simp [Op.promotes, h5]
      · simp only [List.length_cons, List.length_erase_of_mem hex]
        have : 0 < la.length := List.length_pos_of_mem hex
        omega
  · refine ⟨c, la, lw, by rw [put_illegal now fuel key value c hv]; rfl, ?_, Nat.le_succ _⟩
    exact h.step_keep _ h.rep h.strong rfl (fun _ _ => rfl) (List.Sublist.refl _)
      (fun e _ => by simp [Op.promotes, hv])

theorem get_lru (N : Int) (now : Nat) (key : String) (callback suppressLoad : Bool)
    (c : Cache) (op : Op) (hop : ∀ k, op.promotes k c = (decide (key = k) &&
      (match c._cache key with
       | some e => !Entry.isExpired e now c
       | none => false)))
    (la lw : List Nat) (a : String → Nat) (h : LruInv N c la lw a) :
    ∃ c2 la2 lw2, Cache.get now key callback suppressLoad c = .ok .undefined c2 ∧
      LruInv N c2 la2 lw2 (tick op c a) ∧ la2.length ≤ la.length := by
  cases hk : c._cache key with
  | none =>
    refine ⟨_, la, lw, get_miss now key callback suppressLoad c hk, ?_, le_refl _⟩
    refine h.step_keep op (h.rep.got _ _) (h.strong.got_strong _ _) rfl (fun _ _ => rfl)
      (List.Sublist.refl _) ?_
    intro e _
    rw [hop, hk]; simp
  | some e =>
    have hel : e ∈ la := (h.rep.map key e hk).1
    have hke : c.heap.key e = some key := (h.rep.map key e hk).2
    have hx := isExpired_noexp c h.noexp e now
    obtain ⟨c2, h1, hr, hst, hs, _⟩ := get_hit_spec now key callback suppressLoad c la lw
      h.rep e hk hx
    have hkey : c2.heap.key = c.heap.key := hs.key
    refine ⟨c2, e :: la.erase e, lw, h1, ?_, ?_⟩
    · refine h.step_front op e hr (hst h.strong) hs.spec (fun _ _ => by rw [hkey])
        (List.erase_sublist _ _) ?_ ?_ ?_
      · rw [List.length_erase_of_mem hel]
        have : 0 < la.length := List.length_pos_of_mem hel
        have := h.le
        omega
      · rw [hkey, hke, hop, hk]; simp [propKey, hx]
      · intro e2 he2
        have hel2 := (List.Nodup.mem_erase_iff h.rep.qa.nodup).1 he2
        have h4 := strong_cache h.rep h.strong e2 hel2.2
        have h5 : key ≠ propKey (c.heap.key e2) := by
          intro h6; rw [← h6, hk] at h4
          exact hel2.1 (Option.some.inj h4).symm
        rw [hop]; simp [h5]
    · simp only [List.length_cons, List.length_erase_of_mem hel]
      have : 0 < la.length := List.length_pos_of_mem hel
      omega

theorem invalidate_lru (N : Int) (key : String) (c : Cache) (la lw : List Nat)
    (a : String → Nat) (h : LruInv N c la lw a) :
    ∃ c2 la2 lw2, (Cache.invalidate key c).state? = some c2 ∧
      LruInv N c2 la2 lw2 (tick (Op.invalidate key) c a) ∧ la2.length ≤ la.length := by
  cases hk : c._cache key with
  | none =>
    exact ⟨c, la, lw, by rw [invalidate_absent key c hk]; rfl,
      h.step_keep _ h.rep h.strong rfl (fun _ _ => rfl) (List.Sublist.refl _) (fun _ _ => rfl),
      le_refl _⟩
  | some e =>
    obtain ⟨c2, h1, hr, hst, hs, _⟩ := invalidate_spec key c la lw h.rep e hk
    exact ⟨c2, la.erase e, lw.erase e, by rw [h1]; rfl,
      h.step_keep _ hr (hst h.strong) hs.spec (fun _ _ => by rw [hs.key])
        (List.erase_sublist _ _) (fun _ _ => rfl),
      List.length_erase_le _ _⟩

theorem step_lru (N : Int) (fuel : Nat) (op : Op) (c : Cache) (la lw : List Nat)
    (a : String → Nat) (h : LruInv N c la lw a) (hf : la.length < fuel) :
    ∃ c2 la2 lw2, op.run fuel c = some c2 ∧ LruInv N c2 la2 lw2 (tick op c a) ∧
      la2.length ≤ la.length + 1 := by
  cases op with
  | put now key value => exact put_lru N now fuel key value c la lw a h hf
  | get now key =>
    obtain ⟨c2, la2, lw2, h1, h2, h3⟩ :=
      get_lru N now key true false c (Op.get now key) (fun _ => rfl) la lw a h
    exact ⟨c2, la2, lw2, by simp only [Op.run, h1]; rfl, h2, Nat.le_succ_of_le h3⟩
  | getIfPresent now key =>
    obtain ⟨c2, la2, lw2, h1, h2, h3⟩ :=
      get_lru N now key false true c (Op.getIfPresent now key) (fun _ => rfl) la lw a h
    exact ⟨c2, la2, lw2, by simp only [Op.run, Cache.getIfPresent, h1]; rfl, h2,
      Nat.le_succ_of_le h3⟩
  | invalidate key =>
    obtain ⟨c2, la2, lw2, h1, h2, h3⟩ := invalidate_lru N key c la lw a h
    exact ⟨c2, la2, lw2, h1, h2, Nat.le_succ_of_le h3⟩

theorem run_lru (N : Int) (fuel : Nat) (ops : List Op) :
    ∀ (c : Cache) (la lw : List Nat) (a : String → Nat), LruInv N c la lw a →
      la.length + ops.length < fuel →
      ∃ c2 la2 lw2, runOps fuel ops c = some c2 ∧ LruInv N c2 la2 lw2 (ages fuel ops c a) ∧
        la2.length ≤ la.length + ops.length := by
  induction ops with
  | nil =>
    intro c la lw a h _
    exact ⟨c, la, lw, rfl, h, le_refl _⟩
  | cons op ops ih =>
    intro c la lw a h hf
    simp only [List.length_cons] at hf
    obtain ⟨c1, la1, lw1, h1, h2, h3⟩ := step_lru N fuel op c la lw a h (by omega)
    obtain ⟨c2, la2, lw2, h4, h5, h6⟩ := ih c1 la1 lw1 _ h2 (by omega)
    refine ⟨c2, la2, lw2, by simp only [runOps, h1, h4], ?_, ?_⟩
    · simp only [ages, h1]; exact h5
    · simp only [List.length_cons]; omega

end Dsjslib
namespace Dsjslib

theorem removals_append (l1 l2 : List Event) :
    removals (l1 ++ l2) = removals l1 ++ removals l2 := by
  simp [removals]

theorem removals_cb (callback : Bool) (err result : Val) :
    removals (cbEvents callback err result) = [] := by
  cases callback <;> rfl

theorem removals_notes (c : Cache) (hon : c._spec.onRemove = true) (cause : String)
    (rm : List Nat) : removals (notes c cause rm) = rm.map (note c cause) := by
  simp only [notes, hon, if_true, removals]
  induction rm with
  | nil => rfl
  | cons e r ih =>
    simp only [List.map_cons, List.filter_cons, Event.isRemoval, if_true, ih]
    rfl

theorem notes_congr (c c2 : Cache) (cause : String) (rm : List Nat)
    (hs : c2._spec = c._spec) (hk : ∀ e ∈ rm, c2.heap.key e = c.heap.key e)
    (hv : ∀ e ∈ rm, c2.heap.value e = c.heap.value e) :
    notes c2 cause rm = notes c cause rm := by
  simp only [notes, hs]
  split
  · apply List.map_congr_left
    intro e he
    rw [hk e he, hv e he]
  · rfl

/-- The entries that `_cleanup` takes out of the queues are those it takes out of the mapping. -/
theorem cleanup_removed {now : Nat} {capacity : Bool} {c c1 : Cache}
    {la lw la2 lw2 rmE rmC la1 lw1 : List Nat} (h : Rep c la lw) (hst : Strong c la)
    (post : CleanupPost now capacity c la lw c1 la2 lw2 rmE rmC la1 lw1) :
    (rmE ++ rmC).Nodup ∧ (∀ e ∈ rmE ++ rmC, e ∈ la) ∧
      (∀ e ∈ rmE ++ rmC, c1._cache (propKey (c.heap.key e)) = none) ∧
      (∀ k, (∀ e ∈ rmE ++ rmC, propKey (c.heap.key e) ≠ k) → c1._cache k = c._cache k) := by
  have hperm : la.Perm (rmE ++ (la2 ++ rmC.reverse)) := by
    rw [← post.la_split]; exact post.la_perm
  have hnd : (rmE ++ (la2 ++ rmC.reverse)).Nodup := hperm.nodup_iff.1 h.qa.nodup
  have hmem : ∀ e ∈ rmE ++ rmC, e ∈ la := by
    intro e he
    apply hperm.mem_iff.2
    rcases List.mem_append.1 he with h1 | h1
    · exact List.mem_append_left _ h1
    · exact List.mem_append_right _ (List.mem_append_right _ (List.mem_reverse.2 h1))
  refine ⟨?_, hmem, ?_, ?_⟩
  · have h1 := List.nodup_append.1 hnd
    have h2 := List.nodup_append.1 h1.2.1
    refine List.nodup_append.2 ⟨h1.1, List.nodup_reverse.1 h2.2.1, ?_⟩
    intro e he1 he2
    exact h1.2.2 he1 (List.mem_append_right _ (List.mem_reverse.2 he2))
  · intro e he
    rw [post.cache]
    rcases List.mem_append.1 he with h1 | h1
    · exact delKeys_none c rmC _ _ (delKeys_of_mem c rmE _ e h1)
    · exact delKeys_of_mem c rmC _ e h1
  · intro k hk
    rw [post.cache, delKeys_of_not c rmC _ k (fun e he => hk e (List.mem_append_right _ he)),
      delKeys_of_not c rmE _ k (fun e he => hk e (List.mem_append_left _ he))]

end Dsjslib
namespace Dsjslib

theorem isExpired_congr (c c2 : Cache) (e now : Nat) (hs : c2._spec = c._spec)
    (hw : c2.heap.writeTime e = c.heap.writeTime e) :
    Entry.isExpired e now c2 = Entry.isExpired e now c := by
  simp only [Entry.isExpired, hs, hw]

/-- The entries that a `put` with a legal value takes out of the mapping are those for which it
calls the removal listener: first the expired ones, then the ones evicted for capacity. -/
theorem put_removals (now fuel : Nat) (key : String) (value : Val) (c : Cache)
    (la lw : List Nat) (h : Rep c la lw) (hst : Strong c la) (hv : value.legal)
    (hf : la.length < fuel) :
    ∃ (c2 : Cache) (rmE rmC : List Nat), Cache.put now fuel key value c = .ok .undefined c2 ∧
      c2.events = c.events ++ notes c _REMOVAL_CAUSE_E rmE ++ notes c _REMOVAL_CAUSE_C rmC ∧
      (rmE ++ rmC).Nodup ∧ (∀ e, e ∈ rmE ++ rmC ↔ removedBy c c2 e) ∧
      (∀ e ∈ rmE, Entry.isExpired e now c = true) ∧ (rmC ≠ [] → c._cache key = none) := by
  cases hk : c._cache key with
  | none =>
    obtain ⟨c1, c2, la2, lw2, rmE, rmC, la1, lw1, h1, post, _, _, _, he, hc, _⟩ :=
      put_new_spec now fuel key value c la lw h hv hk hf
    obtain ⟨hnd, hmem, hnone, hsame⟩ :=
      cleanup_removed (h.allocEntry now key value) (hst.alloc_strong h now key value) post
    have hne : ∀ e ∈ la, e ≠ c.heap.nextId :=
      fun e hel h3 => Nat.lt_irrefl _ (h3 ▸ h.alloc e hel)
    have hkeys : ∀ e ∈ la, (allocEntry now key value c).heap.key e = c.heap.key e :=
      fun e hel => allocEntry_key_ne _ _ _ _ _ (hne e hel)
    have hvals : ∀ e ∈ la, (allocEntry now key value c).heap.value e = c.heap.value e :=
      fun e hel => allocEntry_value_ne _ _ _ _ _ (hne e hel)
    refine ⟨c2, rmE, rmC, h1, ?_, hnd, ?_, ?_, fun _ => rfl⟩
    · rw [he, post.events,
        notes_congr c (allocEntry now key value c) _ rmE rfl
          (fun e hel => hkeys e (hmem e (List.mem_append_left _ hel)))
          (fun e hel => hvals e (hmem e (List.mem_append_left _ hel))),
        notes_congr c (allocEntry now key value c) _ rmC rfl
          (fun e hel => hkeys e (hmem e (List.mem_append_right _ hel)))
          (fun e hel => hvals e (hmem e (List.mem_append_right _ hel)))]
      rfl
    · intro e
      constructor
      · intro hel
        have hcv := strong_cache h hst e (hmem e hel)
        have hkk : propKey (c.heap.key e) ≠ key := by
          intro h3; rw [h3, hk] at hcv; cases hcv
        refine ⟨_, hcv, ?_⟩
        have h4 := hnone e hel
        rw [hkeys e (hmem e hel)] at h4
        rw [hc, Function.update_noteq hkk, h4]
        exact fun h5 => by cases h5
      · rintro ⟨k, hk1, hk2⟩
        by_contra hnot
        apply hk2
        have hkk : k ≠ key := by
          intro h3; rw [h3, hk] at hk1; cases hk1
        rw [hc, Function.update_noteq hkk, hsame k ?_]
        · exact hk1
        · intro e2 hel2 h3
          have hcv := strong_cache h hst e2 (hmem e2 hel2)
          rw [hkeys e2 (hmem e2 hel2)] at h3
          rw [h3, hk1] at hcv
          exact hnot ((Option.some.inj hcv) ▸ hel2)
    · intro e hel
      rw [← post.expired e hel]
      exact (isExpired_congr c (allocEntry now key value c) e now rfl
        (allocEntry_writeTime_ne _ _ _ _ _ (hne e (hmem e (List.mem_append_left _ hel))))).symm
  | some ex =>
    obtain ⟨cp, c2, la2, lw2, rmE, la1, lw1, h1, hrp, hsp, hcp, _, _, hep, hstp, post⟩ :=
      put_exists_spec now fuel key value c la lw h hv ex hk hf
    obtain ⟨hnd, hmem, hnone, hsame⟩ := cleanup_removed hrp (hstp hst) post
    have hex : ex ∈ la := (h.map key ex hk).1
    have hkeyp : cp.heap.key = c.heap.key := hsp.key
    have hwx : cp.heap.writeTime ex = some now := by
      rw [hsp.writeTime]; simp [overwrite]
    have hnex : ∀ e ∈ rmE, e ≠ ex := by
      intro e hel h3
      have h4 := post.expired e hel
      rw [h3, isExpired_fresh cp ex now hwx] at h4
      cases h4
    have hmem2 : ∀ e ∈ rmE, e ∈ la := by
      intro e hel
      have := hmem e (List.mem_append_left _ hel)
      rcases List.mem_cons.1 this with h3 | h3
      · exact absurd h3 (hnex e hel)
      · exact List.mem_of_mem_erase h3
    refine ⟨c2, rmE, [], h1, ?_, hnd, ?_, ?_, fun h3 => absurd rfl h3⟩
    · rw [post.events, hep,
        notes_congr c cp _ rmE hsp.spec (fun e _ => by rw [hkeyp])
          (fun e hel => by
            rw [hsp.value]
            exact Function.update_noteq (hnex e hel) _ _),
        notes_nil, notes_nil]
    · intro e
      constructor
      · intro hel
        have hcv := strong_cache h hst e (hmem2 e (by simpa using hel))
        refine ⟨_, hcv, ?_⟩
        have h4 := hnone e hel
        rw [hkeyp] at h4
        rw [h4]
        exact fun h5 => by cases h5
      · rintro ⟨k, hk1, hk2⟩
        by_contra hnot
        apply hk2
        rw [hsame k ?_, hcp]
        · exact hk1
        · intro e2 hel2 h3
          have hcv := strong_cache h hst e2 (hmem2 e2 (by simpa using hel2))
          rw [hkeyp] at h3
          rw [h3, hk1] at hcv
          exact hnot ((Option.some.inj hcv) ▸ hel2)
    · intro e hel
      rw [← post.expired e hel]
      refine (isExpired_congr c cp e now hsp.spec ?_).symm
      rw [hsp.writeTime]
      exact Function.update_noteq (hnex e hel) _ _

end Dsjslib
namespace Dsjslib

theorem removedBy_same (c c2 : Cache) (h : c2._cache = c._cache) (e : Nat) :
    ¬ removedBy c c2 e := by
  rintro ⟨k, h1, h2⟩
  rw [h] at h2
  exact h2 h1

theorem removedBy_delete (c c2 : Cache) (key : String) (e : Nat) (hk : c._cache key = some e)
    (h : c2._cache = Function.update c._cache key none) (e2 : Nat) :
    e2 ∈ [e] ↔ removedBy c c2 e2 := by
  constructor
  · intro h1
    rw [List.mem_singleton.1 h1]
    refine ⟨key, hk, ?_⟩
    rw [h, Function.update_same]
    exact fun h2 => by cases h2
  · rintro ⟨k, h1, h2⟩
    by_cases hkk : k = key
    · rw [hkk, hk] at h1
      exact List.mem_singleton.2 (Option.some.inj h1).symm
    · rw [h, Function.update_noteq hkk] at h2
      exact absurd h1 h2

/-- The only entry that a `get` takes out of the mapping is an expired one that it read, and it
calls the removal listener for it. -/
theorem get_removals (now : Nat) (key : String) (callback suppressLoad : Bool) (c : Cache)
    (la lw : List Nat) (h : Rep c la lw) (hon : c._spec.onRemove = true) :
    ∃ (c2 : Cache) (rmE : List Nat), Cache.get now key callback suppressLoad c = .ok .undefined c2 ∧
      removals c2.events = removals c.events ++ rmE.map (note c _REMOVAL_CAUSE_E) ∧
      rmE.Nodup ∧ (∀ e, e ∈ rmE ↔ removedBy c c2 e) ∧
      (∀ e ∈ rmE, Entry.isExpired e now c = true) := by
  cases hk : c._cache key with
  | none =>
    refine ⟨_, [], get_miss now key callback suppressLoad c hk, ?_, List.nodup_nil, ?_, ?_⟩
    · simp only [got, removals_append, List.map_nil, List.append_nil]
      split <;> simp [removals, Event.isRemoval]
    · intro e
      exact ⟨fun h1 => absurd h1 (List.not_mem_nil _), fun h1 => absurd h1 (removedBy_same c _ rfl e)⟩
    · intro e h1; cases h1
  | some e =>
    cases hx : Entry.isExpired e now c with
    | true =>
      by_cases hl : (c._spec.loaderFn && !suppressLoad) = true
      · refine ⟨_, [], get_expired_load now key callback suppressLoad c e hk hx hl, ?_,
          List.nodup_nil, ?_, ?_⟩
        · simp [got, removals_append, removals, Event.isRemoval]
        · intro e2
          exact ⟨fun h1 => absurd h1 (List.not_mem_nil _), fun h1 => absurd h1 (removedBy_same c _ rfl e2)⟩
        · intro e2 h1; cases h1
      · obtain ⟨c2, h1, _, _, _, hc, _, hev⟩ := get_expired_spec now key callback suppressLoad
          c la lw h e hk hx (by simpa using hl)
        refine ⟨c2, [e], h1, ?_, List.nodup_singleton e, removedBy_delete c c2 key e hk hc, ?_⟩
        · rw [hev, removals_append, removals_append, removals_cb, removals_notes c hon,
            List.append_nil]
        · intro e2 h2
          rw [List.mem_singleton.1 h2]; exact hx
    | false =>
      obtain ⟨c2, h1, _, _, _, hc, _, _, hev, _⟩ := get_hit_spec now key callback suppressLoad
        c la lw h e hk hx
      refine ⟨c2, [], h1, ?_, List.nodup_nil, ?_, ?_⟩
      · rw [hev, removals_append, removals_cb]; rfl
      · intro e2
        exact ⟨fun h1 => absurd h1 (List.not_mem_nil _), fun h1 => absurd h1 (removedBy_same c _ hc e2)⟩
      · intro e2 h1; cases h1

end Dsjslib
namespace Dsjslib

theorem walk_chain (nx : Nat → Link) (tail : Nat) (l : List Nat) :
    ∀ cur, l.headD tail = cur → (∀ e ∈ l, e ≠ tail) → l.Nodup →
      (∀ e ∈ l, nx e = .obj (nextOf tail l e)) → walk l.length nx cur tail = some l := by
  induction l with
  | nil =>
    intro cur hc _ _ _
    simp only [List.headD_nil] at hc
    simp [walk, hc]
  | cons a r ih =>
    intro cur hc hne hnd hnx
    simp only [List.headD_cons] at hc
    subst hc
    have ha : a ≠ tail := hne a (List.mem_cons_self _ _)
    have hnd2 := List.nodup_cons.1 hnd
    have h1 := hnx a (List.mem_cons_self _ _)
    simp only [nextOf, if_true] at h1
    have h2 := ih (r.headD tail) rfl (fun e he => hne e (List.mem_cons_of_mem _ he)) hnd2.2
      (by
        intro e he
        have h3 := hnx e (List.mem_cons_of_mem _ he)
        have hea : e ≠ a := fun h4 => hnd2.1 (h4 ▸ he)
        simpa [nextOf, hea] using h3)
    simp only [List.length_cons, walk, ha, if_false, h1, h2]
    rfl

theorem QRep.walk_eq {nx pv : Nat → Link} {Q : Queue} {l : List Nat} (h : QRep nx pv Q l) :
    walk l.length nx Q.head Q.tail = some l :=
  walk_chain nx Q.tail l Q.head h.head_eq.symm
    (fun e he h2 => h.tail_not_mem (h2 ▸ he)) h.nodup h.next_eq

theorem QRep.inverse {nx pv : Nat → Link} {Q : Queue} {l : List Nat} (h : QRep nx pv Q l) :
    Inverse nx pv l := by
  intro x hx y
  have hnx := h.next_eq x hx
  constructor
  · intro h1
    rw [hnx] at h1
    have hy : nextOf Q.tail l x = y := by injection h1
    have hmem : y ∈ l ∨ y = Q.tail := hy ▸ nextOf_mem Q.tail l x
    have hp := (prevOf_eq_some Q.tail none l y x h.nodup h.tail_not_mem
      (fun z hz => by cases hz) hx hmem).2 hy
    have := h.prev_eq y hmem
    rw [hp] at this
    exact this
  · intro h1
    by_cases hmem : y ∈ l ∨ y = Q.tail
    · have h2 := h.prev_eq y hmem
      cases hp : prevOf none l y with
      | none =>
        rw [hp] at h2
        rw [h1] at h2
        cases h2
      | some z =>
        rw [hp] at h2
        have h3 : Link.obj z = Link.obj x := h2.symm.trans h1
        have hzx : z = x := by injection h3
        rw [hzx] at hp
        have hy := (prevOf_eq_some Q.tail none l y x h.nodup h.tail_not_mem
          (fun z hz => by cases hz) hx hmem).1 hp
        rw [hnx, hy]
    · have h2 := h.prev_out y (fun h3 => hmem (Or.inl h3)) (fun h3 => hmem (Or.inr h3))
      rw [h1] at h2
      cases h2

end Dsjslib
namespace Dsjslib

theorem Framed.refl_f (q : QType) (c : Cache) : Framed q c c := ⟨rfl, rfl, rfl⟩

theorem Framed.trans_f {q : QType} {c c1 c2 : Cache} (h1 : Framed q c c1) (h2 : Framed q c1 c2) :
    Framed q c c2 :=
  ⟨h2.1.trans h1.1, h2.2.1.trans h1.2.1, h2.2.2.trans h1.2.2⟩

theorem frames_pure {α : Type} (q : QType) (a : α) : Frames q (pure a : M α) :=
  fun c => Framed.refl_f q c

theorem frames_bind {α β : Type} (q : QType) (m : M α) (f : α → M β) (hm : Frames q m)
    (hf : ∀ a, Frames q (f a)) : Frames q (m >>= f) := by
  intro c
  have h1 := hm c
  rw [bind_apply]
  cases hmc : m c with
  | ok a c1 =>
    rw [hmc] at h1
    have h2 := hf a c1
    show (f a c1).Framed q c
    cases hfc : f a c1 with
    | ok b c2 => rw [hfc] at h2; exact Framed.trans_f h1 h2
    | thrown e c2 => rw [hfc] at h2; exact Framed.trans_f h1 h2
    | fuelOut => trivial
  | thrown e c1 => rw [hmc] at h1; exact h1
  | fuelOut => trivial

theorem frames_getState (q : QType) : Frames q getState := fun c => Framed.refl_f q c

theorem frames_throw {α : Type} (q : QType) (e : Val) : Frames q (throw e : M α) :=
  fun c => Framed.refl_f q c

theorem frames_modify (q : QType) (f : Cache → Cache) (hf : ∀ c, Framed q c (f c)) :
    Frames q (modify f) := fun c => hf c

theorem frames_next (q : QType) (this : Nat) (e : Link) : Frames q (Entry.next this q e) := by
  intro c
  simp only [Entry.next]
  split
  · cases q <;> exact ⟨by simp [Heap.setNext, otherQ], rfl, rfl⟩
  · exact Framed.refl_f q c

theorem frames_prev (q : QType) (this : Nat) (e : Link) : Frames q (Entry.prev this q e) := by
  intro c
  simp only [Entry.prev]
  split
  · cases q <;> exact ⟨rfl, by simp [Heap.setPrev, otherQ], rfl⟩
  · exact Framed.refl_f q c

theorem frames_callOn {α : Type} (q : QType) (l : Link) (f : Nat → M α)
    (hf : ∀ n, Frames q (f n)) : Frames q (Entry.callOn l f) := by
  cases l with
  | obj n => exact hf n
  | undefined => exact frames_throw q _
  | null => exact frames_throw q _

theorem framed_setHead (q : QType) (e : Nat) (c : Cache) : Framed q c (c.setHead q e) := by
  cases q <;> exact ⟨rfl, rfl, rfl⟩

theorem framed_setTail (q : QType) (e : Nat) (c : Cache) : Framed q c (c.setTail q e) := by
  cases q <;> exact ⟨rfl, rfl, rfl⟩

theorem frames_remove (q : QType) (x : Nat) : Frames q (Entry.remove x q) := by
  unfold Entry.remove
  refine frames_bind q _ _ (frames_getState q) (fun c => ?_)
  cases c.queue q with
  | none => exact frames_pure q ()
  | some Q =>
    dsimp only
    repeat' first
      | exact frames_pure q _
      | exact frames_next q _ _
      | exact frames_prev q _ _
      | exact frames_modify q _ (fun c => framed_setHead q _ c)
      | exact frames_modify q _ (fun c => framed_setTail q _ c)
      | apply frames_callOn
      | apply frames_bind
      | intro _
      | split

theorem frames_moveToHead (q : QType) (x : Nat) : Frames q (Entry.moveToHead x q) := by
  unfold Entry.moveToHead
  refine frames_bind q _ _ (frames_getState q) (fun c => ?_)
  cases c.queue q with
  | none => exact frames_pure q ()
  | some Q =>
    dsimp only
    repeat' first
      | exact frames_pure q _
      | exact frames_next q _ _
      | exact frames_prev q _ _
      | exact frames_modify q _ (fun c => framed_setHead q _ c)
      | apply frames_bind
      | intro _

theorem frames_promote (q : QType) (x : Nat) : Frames q (Cache._promoteEntry x q) := by
  unfold Cache._promoteEntry
  refine frames_bind q _ _ (frames_getState q) (fun c => ?_)
  split
  · exact frames_bind q _ _ (frames_remove q x) (fun _ => frames_moveToHead q x)
  · exact frames_pure q _

end Dsjslib
namespace Dsjslib

theorem stateD_ok {α : Type} (a : α) (c2 c : Cache) : (Res.ok a c2).stateD c = c2 := rfl

theorem stateD_thrown {α : Type} (e : Val) (c2 c : Cache) :
    (Res.thrown e c2 : Res α).stateD c = c2 := rfl

theorem rep_put (now fuel : Nat) (key : String) (value : Val) (c : Cache) (la lw : List Nat)
    (h : Rep c la lw) (hf : la.length < fuel) :
    ∃ la2 lw2, Rep ((Cache.put now fuel key value c).stateD c) la2 lw2 := by
  by_cases hv : value.legal
  · cases hk : c._cache key with
    | none =>
      obtain ⟨c1, c2, la2, lw2, rmE, rmC, la1, lw1, h1, _, hr, _⟩ :=
        put_new_spec now fuel key value c la lw h hv hk hf
      rw [h1]
      exact ⟨_, _, hr⟩
    | some ex =>
      obtain ⟨cp, c2, la2, lw2, rmE, la1, lw1, h1, _, _, _, _, _, _, _, post⟩ :=
        put_exists_spec now fuel key value c la lw h hv ex hk hf
      rw [h1]
      exact ⟨_, _, post.rep⟩
  · rw [put_illegal now fuel key value c hv]
    exact ⟨la, lw, h⟩

theorem rep_get (now : Nat) (key : String) (callback suppressLoad : Bool) (c : Cache)
    (la lw : List Nat) (h : Rep c la lw) :
    ∃ la2 lw2, Rep ((Cache.get now key callback suppressLoad c).stateD c) la2 lw2 := by
  cases hk : c._cache key with
  | none =>
    rw [get_miss now key callback suppressLoad c hk]
    exact ⟨la, lw, h.got _ _⟩
  | some e =>
    cases hx : Entry.isExpired e now c with
    | true =>
      by_cases hl : (c._spec.loaderFn && !suppressLoad) = true
      · rw [get_expired_load now key callback suppressLoad c e hk hx hl]
        exact ⟨la, lw, h.got _ _⟩
      · obtain ⟨c2, h1, hr, _⟩ := get_expired_spec now key callback suppressLoad c la lw h e hk
          hx (by simpa using hl)
        rw [h1]
        exact ⟨_, _, hr⟩
    | false =>
      obtain ⟨c2, h1, hr, _⟩ := get_hit_spec now key callback suppressLoad c la lw h e hk hx
      rw [h1]
      exact ⟨_, _, hr⟩

theorem rep_invalidate (key : String) (c : Cache) (la lw : List Nat) (h : Rep c la lw) :
    ∃ la2 lw2, Rep ((Cache.invalidate key c).stateD c) la2 lw2 := by
  cases hk : c._cache key with
  | none =>
    rw [invalidate_absent key c hk]
    exact ⟨la, lw, h⟩
  | some e =>
    obtain ⟨c2, h1, hr, _⟩ := invalidate_spec key c la lw h e hk
    rw [h1]
    exact ⟨_, _, hr⟩

/-- The queues of every reachable state hold lists of entries, and every entry of the mapping
is among them. -/
theorem reachable_rep (c : Cache) (h : Reachable c) : ∃ la lw, Rep c la lw := by
  induction h with
  | fresh cs c hnew hw =>
    cases hc : Cache.configure cs with
    | error e => simp only [Cache.new, hc] at hnew; cases hnew
    | ok s =>
      obtain ⟨h1, h2, _⟩ := new_spec cs s hc hw
      rw [h1] at hnew
      cases hnew
      exact ⟨[], [], h2⟩
  | put c now fuel key value _ hf ih =>
    obtain ⟨la, lw, hr⟩ := ih
    exact rep_put now fuel key value c la lw hr (WF.fuel hr fuel hf)
  | get c now key callback suppressLoad _ ih =>
    obtain ⟨la, lw, hr⟩ := ih
    exact rep_get now key callback suppressLoad c la lw hr
  | getIfPresent c now key _ ih =>
    obtain ⟨la, lw, hr⟩ := ih
    exact rep_get now key false true c la lw hr
  | invalidate c key _ ih =>
    obtain ⟨la, lw, hr⟩ := ih
    exact rep_invalidate key c la lw hr
  | reloaded c entry callback error result _ hkey ih =>
    obtain ⟨la, lw, hr⟩ := ih
    obtain ⟨c2, la2, lw2, h1, hr2, _⟩ := reloaded_spec entry callback error result c la lw hr hkey
    rw [h1]
    exact ⟨la2, lw2, hr2⟩
  | loaded c now fuel key callback error result _ hf ih =>
    obtain ⟨la, lw, hr⟩ := ih
    obtain ⟨c2, la2, lw2, h1, hr2, _⟩ :=
      loaded_spec now fuel key callback error result c la lw hr (WF.fuel hr fuel hf)
    rw [h1]
    exact ⟨la2, lw2, hr2⟩

theorem reachable_raced : Reachable Example.raced :=
  Reachable.loaded _ 0 9 "k" true .undefined (.num 2)
    (Reachable.put _ 0 9 "k" (.num 1)
      (Reachable.get _ 0 "k" true false
        (Reachable.fresh Example.loaderSpec (Cache.make Example.loaderSpec) rfl
          (by intro w h; cases h)))
      (by decide))
    (by decide)

end Dsjslib
namespace Dsjslib

/-- The list that the write queue holds is the one that the walk along `next` meets. -/
theorem Rep.write_list {c : Cache} {la lw : List Nat} (h : Rep c la lw) (Qw : Queue)
    (hq : c._writeQueue = some Qw) (n : Nat) (hn : c.size = n) (l : List Nat)
    (hw : walk n (c.heap.next .W) Qw.head Qw.tail = some l) : lw = l := by
  obtain ⟨hqr, hperm, _, _⟩ := h.qw Qw hq
  have hlen : lw.length = n := by
    have h1 := h.size_eq
    rw [hn, ← hperm.length_eq] at h1
    exact_mod_cast h1.symm
  have h2 := hqr.walk_eq
  rw [hlen, hw] at h2
  injection h2 with h3
  exact h3.symm

/-- The ways to split a list of two elements. -/
theorem split_two (a b : Nat) (l1 r : List Nat) (h : [a, b] = l1 ++ r) :
    (l1 = [] ∧ r = [a, b]) ∨ (l1 = [a] ∧ r = [b]) ∨ (l1 = [a, b] ∧ r = []) := by
  match l1, h with
  | [], h2 => exact Or.inl ⟨rfl, h2.symm⟩
  | [x], h2 =>
    simp only [List.singleton_append, List.cons.injEq] at h2
    exact Or.inr (Or.inl ⟨by rw [h2.1], h2.2.symm⟩)
  | [x, y], h2 =>
    simp only [List.cons_append, List.nil_append, List.cons.injEq] at h2
    refine Or.inr (Or.inr ⟨by rw [h2.1, h2.2.1], ?_⟩)
    exact h2.2.2.symm
  | x :: y :: d :: l, h2 =>
    simp at h2

/-- The list that the access queue holds is the one that the walk along `next` meets. -/
theorem Rep.access_list {c : Cache} {la lw : List Nat} (h : Rep c la lw) (n : Nat)
    (hn : c.size = n) (l : List Nat)
    (hw : walk n (c.heap.next .A) c._accessQueue.head c._accessQueue.tail = some l) :
    la = l := by
  have hlen : la.length = n := by
    have h1 := h.size_eq
    rw [hn] at h1
    exact_mod_cast h1.symm
  have h2 := h.qa.walk_eq
  rw [hlen, hw] at h2
  injection h2 with h3
  exact h3.symm

/-- A `put` on a key with two entries: the write queue holds the mapped entry `ex` and an older
entry `o` of the same key, which has expired.  The expiry scan of `put` removes `o`, and
`_rmEntry` deletes the key from the mapping, where it stood for `ex`; the listener, if there is
one, is called for `o`. -/
theorem put_orphan_spec (now fuel : Nat) (key : String) (value : Val) (c : Cache)
    (la : List Nat) (ex o : Nat) (h : Rep c la [ex, o]) (hv : value.legal) (E : Int)
    (hE : 0 < E) (hexp : c._spec.expiresAfterWrite = some E) (hk : c._cache key = some ex)
    (hko : c.heap.key o = some key) (w : Nat) (hw : c.heap.writeTime o = some w)
    (hold : (now : Int) - w > E) (hf : la.length < fuel) :
    ∃ c2, Cache.put now fuel key value c = .ok .undefined c2 ∧
      c2._cache = Function.update c._cache key none ∧
      c2.events = c.events ++ notes c _REMOVAL_CAUSE_E [o] ∧ c2._spec = c._spec ∧
      c2.heap.value ex = value := by
  obtain ⟨cp, c2, la2, lw2, rmE, la1, lw1, h1, hrp, hsame, hcache, _, _, hev, _, post⟩ :=
    put_exists_spec now fuel key value c la [ex, o] h hv ex hk hf
  have hws : c._writeQueue.isSome := by
    rw [h.wq, hexp]
    simpa using (ne_of_gt hE)
  obtain ⟨Qw, hQ⟩ := Option.isSome_iff_exists.1 hws
  have hne : o ≠ ex := by
    have := (h.qw Qw hQ).1.nodup
    simp only [List.nodup_cons, List.mem_singleton] at this
    exact fun h2 => this.1 h2.symm
  have hl : ex :: [ex, o].erase ex = [ex, o] := by
    simp [List.erase_cons_head]
  rw [hl] at post hrp
  have hspec : cp._spec = c._spec := hsame.spec
  have hexp2 : cp._spec.expiresAfterWrite = some E := by rw [hspec]; exact hexp
  have hwo : cp.heap.writeTime o = some w := by
    rw [hsame.writeTime]
    simp only [overwrite, Function.update_noteq hne]
    exact hw
  have hwx : cp.heap.writeTime ex = some now := by
    rw [hsame.writeTime]
    simp [overwrite]
  have hxo : Entry.isExpired o now cp = true := by
    rw [isExpired_eq cp E hE hexp2 o w now hwo]
    exact decide_eq_true hold
  have hxx : Entry.isExpired ex now cp = false := by
    rw [isExpired_eq cp E hE hexp2 ex now now hwx]
    apply decide_eq_false
    omega
  have hws2 : cp._writeQueue.isSome := by
    rw [hrp.wq, hexp2]
    simpa using (ne_of_gt hE)
  obtain ⟨Qp, hQp⟩ := Option.isSome_iff_exists.1 hws2
  have hsplit := post.lw_split hws2
  have hrm : rmE = [o] := by
    rcases split_two ex o lw1 rmE.reverse hsplit with ⟨_, h3⟩ | ⟨_, h3⟩ | ⟨h2, _⟩
    · have : ex ∈ rmE := by
        rw [← List.mem_reverse, h3]; simp
      have := post.expired ex this
      rw [hxx] at this
      cases this
    · have := congrArg List.reverse h3
      simpa using this
    · have hq := (hrp.qw Qp hQp).1
      have ht := hq.tail_not_mem
      simp only [List.mem_cons, List.mem_singleton, not_or, List.not_mem_nil,
        or_false] at ht
      have hp : prevOf none lw1 Qp.tail = some o := by
        rw [h2]
        simp [prevOf, ht.1, ht.2]
      have := post.live Qp hQp o hp
      rw [hxo] at this
      cases this
  have hkey : cp.heap.key o = some key := by
    rw [hsame.key]
    exact hko
  have hval : cp.heap.value o = c.heap.value o := by
    rw [hsame.value]
    simp only [overwrite, Function.update_noteq hne]
  refine ⟨c2, h1, ?_, ?_, ?_, ?_⟩
  · rw [post.cache, hrm, hcache]
    simp [delKeys, hkey, propKey]
  · rw [post.events, hrm, hev]
    simp [notes, hspec, hkey, hval, hko]
  · rw [post.same.spec, hspec]
  · rw [post.same.value, hsame.value]
    simp [overwrite]

/-- A `put` of a new key on a full cache of size 2 whose least recently used entry `o` is a
second entry of the key of `ex`: the capacity scan removes `o`, and `_rmEntry` deletes the key
from the mapping, where it stood for `ex`; the listener, if there is one, is called for `o`. -/
theorem put_evicts_orphan_spec (now fuel : Nat) (key2 : String) (value : Val) (c : Cache)
    (lw : List Nat) (ex o : Nat) (h : Rep c [ex, o] lw) (hv : value.legal)
    (hnq : c._writeQueue = none) (hsm : SizeMode c 2) (hk2 : c._cache key2 = none)
    (key : String) (hko : c.heap.key o = some key) (hf : 2 < fuel) :
    ∃ c2, Cache.put now fuel key2 value c = .ok .undefined c2 ∧
      c2._cache = Function.update (Function.update c._cache key none) key2
        (some c.heap.nextId) ∧
      c2.events = c.events ++ notes c _REMOVAL_CAUSE_C [o] := by
  obtain ⟨c1, c2, la2, lw2, rmE, rmC, la1, lw1, h1, post, _, _, _, he, hc, _⟩ :=
    put_new_spec now fuel key2 value c [ex, o] lw h hv hk2 hf
  obtain ⟨_, hrmE, hla1⟩ := post.noqueue hnq
  have hlen : (la2.length : Int) = 2 - 1 :=
    post.sized 2 hsm rfl (by rw [hla1]; simp)
  have hsplit := post.la_split
  rw [hla1] at hsplit
  have hrmC : rmC = [o] := by
    rcases split_two ex o la2 rmC.reverse hsplit with ⟨h2, _⟩ | ⟨_, h3⟩ | ⟨h2, _⟩
    · rw [h2] at hlen; simp at hlen
    · have := congrArg List.reverse h3
      simpa using this
    · rw [h2] at hlen; simp at hlen
  have hne : o ≠ c.heap.nextId :=
    fun h3 => Nat.lt_irrefl _ (h3 ▸ h.alloc o (by simp))
  have hkey : (allocEntry now key2 value c).heap.key o = some key := by
    rw [allocEntry_key_ne _ _ _ _ _ hne]; exact hko
  have hval : (allocEntry now key2 value c).heap.value o = c.heap.value o :=
    allocEntry_value_ne _ _ _ _ _ hne
  refine ⟨c2, h1, ?_, ?_⟩
  · rw [hc, post.cache, hrmE, hrmC]
    simp [delKeys, hkey, propKey]
    rfl
  · rw [he, post.events, hrmE, hrmC]
    simp [notes, hkey, hval, hko]
    rfl

theorem reachable_written : Reachable Example.written :=
  Reachable.put _ 0 9 "k" (.num 1)
    (Reachable.fresh Example.expirySpec (Cache.make Example.expirySpec) rfl
      (by intro w h; cases h))
    (by decide)

theorem reachable_racedHeard : Reachable Example.racedHeard :=
  Reachable.loaded _ 0 9 "k" true .undefined (.num 2)
    (Reachable.put _ 0 9 "k" (.num 1)
      (Reachable.get _ 0 "k" true false
        (Reachable.fresh Example.heardSpec (Cache.make Example.heardSpec) rfl
          (by intro w h; cases h)))
      (by decide))
    (by decide)

/-- The state after the race holds the entries 3 (from the loader) and 2 (from `put`), both
under the key `'k'`, in both queues. -/
theorem rep_raced : ∃ la, Rep Example.raced la [3, 2] := by
  obtain ⟨la, lw, hr⟩ := reachable_rep _ reachable_raced
  have h : lw = [3, 2] :=
    hr.write_list (Queue.mk 3 1) (by decide) 2 (by decide) [3, 2] (by decide)
  exact ⟨la, h ▸ hr⟩

theorem rep_racedHeard : ∃ la, Rep Example.racedHeard la [3, 2] := by
  obtain ⟨la, lw, hr⟩ := reachable_rep _ reachable_racedHeard
  have h : lw = [3, 2] :=
    hr.write_list (Queue.mk 3 1) (by decide) 2 (by decide) [3, 2] (by decide)
  exact ⟨la, h ▸ hr⟩

/-- After the race, `put('k', 9)` at time 5000 takes the key out of the mapping. -/
theorem raced_put :
    ∃ c2, Cache.put 5000 9 "k" (.num 9) Example.raced = .ok .undefined c2 ∧
      c2._cache = Function.update Example.raced._cache "k" none ∧
      c2.events = Example.raced.events ++ notes Example.raced _REMOVAL_CAUSE_E [2] ∧
      c2._spec = Example.raced._spec ∧ c2.heap.value 3 = .num 9 := by
  obtain ⟨la, hr⟩ := rep_raced
  exact put_orphan_spec 5000 9 "k" (.num 9) Example.raced la 3 2 hr (by decide) 1000
    (by decide) (by decide) (by decide) (by decide) 0 (by decide) (by decide)
    (WF.fuel hr 9 (by decide))

theorem racedHeard_put :
    ∃ c2, Cache.put 5000 9 "k" (.num 9) Example.racedHeard = .ok .undefined c2 ∧
      c2._cache = Function.update Example.racedHeard._cache "k" none ∧
      c2.events = Example.racedHeard.events ++ notes Example.racedHeard _REMOVAL_CAUSE_E [2] ∧
      c2._spec = Example.racedHeard._spec ∧ c2.heap.value 3 = .num 9 := by
  obtain ⟨la, hr⟩ := rep_racedHeard
  exact put_orphan_spec 5000 9 "k" (.num 9) Example.racedHeard la 3 2 hr (by decide) 1000
    (by decide) (by decide) (by decide) (by decide) 0 (by decide) (by decide)
    (WF.fuel hr 9 (by decide))

theorem reachable_racedFull : Reachable Example.racedFull :=
  Reachable.loaded _ 0 9 "k" true .undefined (.num 2)
    (Reachable.put _ 0 9 "k" (.num 1)
      (Reachable.get _ 0 "k" true false
        (Reachable.fresh Example.fullSpec (Cache.make Example.fullSpec) rfl
          (by intro w h; cases h)))
      (by decide))
    (by decide)

/-- The state after the race on a cache without expiry holds the entries 2 (from the loader)
and 1 (from `put`), both under the key `'k'`. -/
theorem rep_racedFull : ∃ lw, Rep Example.racedFull [2, 1] lw := by
  obtain ⟨la, lw, hr⟩ := reachable_rep _ reachable_racedFull
  have h : la = [2, 1] := hr.access_list 2 (by decide) [2, 1] (by decide)
  exact ⟨lw, h ▸ hr⟩

/-- After the race on a cache of capacity 2, `put('j', 5)` evicts the older entry of `'k'` and
takes the key out of the mapping. -/
theorem racedFull_put :
    ∃ c2, Cache.put 0 9 "j" (.num 5) Example.racedFull = .ok .undefined c2 ∧
      c2._cache = Function.update (Function.update Example.racedFull._cache "k" none) "j"
        (some Example.racedFull.heap.nextId) ∧
      c2.events = Example.racedFull.events ++
        notes Example.racedFull _REMOVAL_CAUSE_C [1] := by
  obtain ⟨lw, hr⟩ := rep_racedFull
  exact put_evicts_orphan_spec 0 9 "j" (.num 5) Example.racedFull lw 2 1 hr (by decide)
    (by decide) ⟨by decide, by decide, by decide⟩ (by decide) "k" (by decide) (by decide)

end Dsjslib
namespace Dsjslib

/-- The round trip on a well-formed state: after `put(K, V)` with a value other than
`undefined` and `null` (falsy values included), a `get(K, cb)` made before `V` expires calls
`cb` once with `(null, V)` and leaves the mapping and `size` as they were. -/
theorem round_trip_wf (c : Cache) (hwf : WF c) (now fuel : Nat) (K : String) (V : Val)
    (hv : V.legal) (hf : c.size < fuel) (now2 : Nat)
    (hne : ∀ exp, c._spec.expiresAfterWrite = some exp → (now2 : Int) - now ≤ exp) :
    ∃ c1 c2, Cache.put now fuel K V c = .ok .undefined c1 ∧
      Cache.get now2 K true false c1 = .ok .undefined c2 ∧
      c2.events = c1.events ++ [Event.callback .null V] ∧
      c2._cache = c1._cache ∧ c2.size = c1.size := by
  obtain ⟨la, lw, hr, hst⟩ := hwf
  obtain ⟨c1, la1, lw1, x, h1, hr1, hst1, hk1, hv1, hw1, hs1, _⟩ :=
    put_legal_spec now fuel K V c la lw hr hst hv (WF.fuel hr fuel hf)
  have hexp : Entry.isExpired x now2 c1 = false := by
    simp only [Entry.isExpired, hw1, hs1]
    cases he : c._spec.expiresAfterWrite with
    | none => rfl
    | some exp =>
      have := hne exp he
      simp only [Bool.and_eq_false_imp, Bool.and_eq_true, bne_iff_ne, ne_eq,
        decide_eq_true_eq, decide_eq_false_iff_not, not_lt, and_imp]
      intro _ _; exact this
  obtain ⟨c2, h2, _, _, _, hc2, hz2, _, he2, _⟩ :=
    get_hit_spec now2 K true false c1 la1 lw1 hr1 x hk1 hexp
  refine ⟨c1, c2, h1, h2, ?_, hc2, hz2⟩
  rw [he2, hv1]; rfl

/-- The removal notifications on a well-formed state with a removal listener: `put`, `get` and
`invalidate` call the listener exactly for the entries that they take out of the mapping, once
for each, with the key and the value of the entry: `put` with the cause `'expired'` for the
expired entries and then `'capacity'` for the evicted ones (only when the key is new), `get`
with `'expired'`, and `invalidate` with `'explicit'`; `invalidate` of a present key takes its
entry out of the mapping and of both queues, lowers `size` by 1 and makes the one call. -/
theorem removal_notification_wf (c : Cache) (hwf : WF c) (hon : c._spec.onRemove = true)
    (fuel : Nat) (hf : c.size < fuel) :
    (∀ now key value,
      ∃ (c2 : Cache) (rmE rmC : List Nat), (Cache.put now fuel key value c).state? = some c2 ∧
        removals c2.events = removals c.events ++ rmE.map (note c "expired") ++
          rmC.map (note c "capacity") ∧
        (rmE ++ rmC).Nodup ∧ (∀ e, e ∈ rmE ++ rmC ↔ removedBy c c2 e) ∧
        (∀ e ∈ rmE, Entry.isExpired e now c = true) ∧ (rmC ≠ [] → c._cache key = none)) ∧
    (∀ now key callback suppressLoad,
      ∃ (c2 : Cache) (rmE : List Nat),
        Cache.get now key callback suppressLoad c = .ok .undefined c2 ∧
        removals c2.events = removals c.events ++ rmE.map (note c "expired") ∧
        rmE.Nodup ∧ (∀ e, e ∈ rmE ↔ removedBy c c2 e) ∧
        (∀ e ∈ rmE, Entry.isExpired e now c = true)) ∧
    (∀ key,
      ∃ (c2 : Cache) (rmI : List Nat), (Cache.invalidate key c).state? = some c2 ∧
        removals c2.events = removals c.events ++ rmI.map (note c "explicit") ∧
        rmI.Nodup ∧ (∀ e, e ∈ rmI ↔ removedBy c c2 e)) ∧
    (∀ key e, c._cache key = some e →
      ∃ c2 la2 lw2, Cache.invalidate key c = .ok () c2 ∧ Rep c2 la2 lw2 ∧
        c2._cache = Function.update c._cache key none ∧ e ∉ la2 ∧
        (c2._writeQueue.isSome → e ∉ lw2) ∧ c2.size = c.size - 1 ∧
        c2.events = c.events ++ [Event.onRemove key (c.heap.value e) "explicit"]) := by
  obtain ⟨la, lw, hr, hst⟩ := hwf
  refine ⟨?_, ?_, ?_, ?_⟩
  · intro now key value
    by_cases hv : value.legal
    · obtain ⟨c2, rmE, rmC, h1, h2, h3, h4, h5, h6⟩ :=
        put_removals now fuel key value c la lw hr hst hv (WF.fuel hr fuel hf)
      refine ⟨c2, rmE, rmC, by rw [h1]; rfl, ?_, h3, h4, h5, h6⟩
      rw [h2, removals_append, removals_append, removals_notes c hon, removals_notes c hon]
      rfl
    · refine ⟨c, [], [], by rw [put_illegal now fuel key value c hv]; rfl, by simp, by simp,
        ?_, ?_, fun h1 => absurd rfl h1⟩
      · intro e
        exact ⟨fun h1 => absurd h1 (List.not_mem_nil _), fun h1 => absurd h1 (removedBy_same c c rfl e)⟩
      · intro e h1; cases h1
  · intro now key callback suppressLoad
    exact get_removals now key callback suppressLoad c la lw hr hon
  · intro key
    cases hk : c._cache key with
    | none =>
      refine ⟨c, [], by rw [invalidate_absent key c hk]; rfl, by simp, List.nodup_nil, ?_⟩
      intro e
      exact ⟨fun h1 => absurd h1 (List.not_mem_nil _), fun h1 => absurd h1 (removedBy_same c c rfl e)⟩
    | some e =>
      obtain ⟨c2, h1, _, _, _, hc, _, hev⟩ := invalidate_spec key c la lw hr e hk
      refine ⟨c2, [e], by rw [h1]; rfl, ?_, List.nodup_singleton e,
        removedBy_delete c c2 key e hk hc⟩
      rw [hev, removals_append, removals_notes c hon]
      rfl
  · intro key e hk
    obtain ⟨c2, h1, hr2, _, hs, hc, hz, hev⟩ := invalidate_spec key c la lw hr e hk
    have hke : c.heap.key e = some key := (hr.map key e hk).2
    refine ⟨c2, la.erase e, lw.erase e, h1, hr2, hc, ?_, ?_, hz, ?_⟩
    · exact fun h2 => ((List.Nodup.mem_erase_iff hr.qa.nodup).1 h2).1 rfl
    · intro hws h2
      rw [hs.wq] at hws
      obtain ⟨Qw, hQ⟩ := Option.isSome_iff_exists.1 hws
      exact ((List.Nodup.mem_erase_iff (hr.qw Qw hQ).1.nodup).1 h2).1 rfl
    · rw [hev]
      simp [notes, hon, hke, propKey, _REMOVAL_CAUSE_I]

end Dsjslib
namespace Dsjslib

namespace SkipList

/-! ## The skip list: lists and frames -/

theorem LevelOK.value_l {s : SkipList} {lv : Level} (h : LevelOK s lv) (f : Nat → Val) :
    LevelOK { s with value := f } lv :=
  ⟨h.linked, h.min_isMin, h.max_isMax, h.max_notMin, h.plain, h.sorted, h.alloc⟩

theorem DownOK.value_d {s : SkipList} {lv : Level} {b : Option Level} (h : DownOK s lv b)
    (f : Nat → Val) : DownOK { s with value := f } lv b := by
  cases b with
  | none => exact h
  | some b => exact h

theorem StackOK.value_s {s : SkipList} (f : Nat → Val) :
    ∀ {ls : List Level}, StackOK s ls → StackOK { s with value := f } ls
  | [], _ => trivial
  | _ :: _, h => ⟨h.1.value_l f, h.2.1.value_d f, StackOK.value_s f h.2.2⟩

theorem full_sub_nodes {lv : Level} {ls : List Level} (h : lv ∈ ls) :
    ∀ e ∈ lv.full, e ∈ nodesOf ls := by
  induction ls with
  | nil => cases h
  | cons a r ih =>
    intro e he
    rcases List.mem_cons.1 h with h1 | h1
    · subst h1; exact List.mem_append_left _ he
    · exact List.mem_append_right _ (ih h1 e he)

theorem mem_full_of_mem {lv : Level} {e : Nat} (h : e ∈ lv.l) : e ∈ lv.full :=
  List.mem_cons_of_mem _ (List.mem_append_left _ h)

theorem min_mem_full (lv : Level) : lv.min ∈ lv.full := List.mem_cons_self _ _

theorem max_mem_full (lv : Level) : lv.max ∈ lv.full :=
  List.mem_cons_of_mem _ (List.mem_append_right _ (List.mem_singleton_self _))

theorem StackOK.level {s : SkipList} :
    ∀ {ls : List Level}, StackOK s ls → ∀ lv ∈ ls, LevelOK s lv
  | [], _, _, h => by cases h
  | a :: r, h, lv, hl => by
    rcases List.mem_cons.1 hl with h1 | h1
    · rw [h1]; exact h.1
    · exact StackOK.level h.2.2 lv h1

theorem StackOK.alloc_lt {s : SkipList} {ls : List Level} (h : StackOK s ls) :
    ∀ e ∈ nodesOf ls, e < s.nextId := by
  induction ls with
  | nil => intro e he; cases he
  | cons a r ih =>
    intro e he
    rcases List.mem_append.1 he with h1 | h1
    · exact h.1.alloc e h1
    · exact ih h.2.2 e h1

/-- A list whose nodes a call has left alone is still a list. -/
theorem LevelOK.frame_l {s s2 : SkipList} {lv : Level} {X : List Nat} {k : Int} {v : Val}
    (h : LevelOK s lv) (hf : Frame s s2 X k v) (hd : ∀ e ∈ lv.full, e ∉ X) :
    LevelOK s2 lv := by
  have hal := h.alloc
  refine ⟨?_, ?_, ?_, ?_, ?_, ?_, ?_⟩
  · have h1 := List.Chain'.iff_mem.1 h.linked
    refine List.Chain'.imp ?_ h1
    rintro x y ⟨hx, hy, h2, h3⟩
    exact ⟨by rw [hf.next x (hal x hx) (hd x hx)]; exact h2,
      by rw [hf.prev y (hal y hy) (hd y hy)]; exact h3⟩
  · rw [hf.isMin _ (hal _ (min_mem_full lv))]; exact h.min_isMin
  · rw [hf.isMax _ (hal _ (max_mem_full lv))]; exact h.max_isMax
  · rw [hf.isMin _ (hal _ (max_mem_full lv))]; exact h.max_notMin
  · intro e he
    have hlt := hal e (mem_full_of_mem he)
    rw [hf.isMin e hlt, hf.isMax e hlt, hf.key e hlt]
    exact h.plain e he
  · refine List.Pairwise.imp_of_mem ?_ h.sorted
    intro a b ha hb hab
    simp only [keyD, hf.key a (hal a (mem_full_of_mem ha)), hf.key b (hal b (mem_full_of_mem hb))]
    exact hab
  · intro e he
    exact lt_of_lt_of_le (hal e he) hf.nextId

theorem DownOK.frame_d {s s2 : SkipList} {lv : Level} {b : Option Level} {X : List Nat} {k : Int}
    {v : Val} (h : DownOK s lv b) (hf : Frame s s2 X k v) (hl : ∀ e ∈ lv.full, e < s.nextId)
    (hb : ∀ lb, b = some lb → ∀ e ∈ lb.l, e < s.nextId) : DownOK s2 lv b := by
  cases b with
  | none =>
    refine ⟨?_, ?_⟩
    · rw [hf.down _ (hl _ (min_mem_full lv))]; exact h.1
    · intro e he
      rw [hf.down _ (hl _ (mem_full_of_mem he))]; exact h.2 e he
  | some lb =>
    refine ⟨?_, ?_⟩
    · rw [hf.down _ (hl _ (min_mem_full lv))]; exact h.1
    · intro e he
      obtain ⟨e2, h1, h2, h3⟩ := h.2 e he
      refine ⟨e2, h1, ?_, ?_⟩
      · rw [hf.down _ (hl _ (mem_full_of_mem he))]; exact h2
      · rw [hf.key _ (hb lb rfl e2 h1), hf.key _ (hl _ (mem_full_of_mem he))]; exact h3

theorem StackOK.frame_s {s s2 : SkipList} {X : List Nat} {k : Int} {v : Val}
    (hf : Frame s s2 X k v) :
    ∀ {ls : List Level}, StackOK s ls → (∀ e ∈ nodesOf ls, e ∉ X) → StackOK s2 ls
  | [], _, _ => trivial
  | a :: r, h, hd => by
    refine ⟨h.1.frame_l hf (fun e he => hd e (List.mem_append_left _ he)),
      h.2.1.frame_d hf h.1.alloc ?_,
      StackOK.frame_s hf h.2.2 (fun e he => hd e (List.mem_append_right _ he))⟩
    intro lb hlb e he
    cases r with
    | nil => cases hlb
    | cons b r2 =>
      simp only [List.head?_cons, Option.some.injEq] at hlb
      subst hlb
      exact h.2.2.1.alloc e (mem_full_of_mem he)

theorem Frame.refl_s (s : SkipList) (X : List Nat) (k : Int) (v : Val) : Frame s s X k v :=
  ⟨le_refl _, fun _ _ => rfl, fun _ _ => rfl, fun _ _ => rfl, fun _ _ => rfl,
    fun _ _ => Or.inl rfl, fun _ _ _ => rfl, fun _ _ _ => rfl⟩

theorem Frame.trans_s {s s1 s2 : SkipList} {X Y Z : List Nat} {k : Int} {v : Val}
    (h1 : Frame s s1 X k v) (h2 : Frame s1 s2 Y k v) (hX : ∀ e ∈ X, e ∈ Z)
    (hY : ∀ e ∈ Y, e ∈ Z) : Frame s s2 Z k v := by
  have hlt : ∀ e, e < s.nextId → e < s1.nextId := fun e he => lt_of_lt_of_le he h1.nextId
  refine ⟨le_trans h1.nextId h2.nextId, ?_, ?_, ?_, ?_, ?_, ?_, ?_⟩
  · intro e he; rw [h2.key e (hlt e he), h1.key e he]
  · intro e he; rw [h2.isMin e (hlt e he), h1.isMin e he]
  · intro e he; rw [h2.isMax e (hlt e he), h1.isMax e he]
  · intro e he; rw [h2.down e (hlt e he), h1.down e he]
  · intro e he
    rcases h2.value e (hlt e he) with h3 | ⟨h3, h4, h5⟩
    · rcases h1.value e he with h6 | ⟨h6, h7, h8⟩
      · left; rw [h3, h6]
      · right; exact ⟨hX e h6, h7, by rw [h3, h8]⟩
    · right
      rw [h1.key e he] at h4
      exact ⟨hY e h3, h4, h5⟩
  · intro e he hz
    rw [h2.next e (hlt e he) (fun h => hz (hY e h)), h1.next e he (fun h => hz (hX e h))]
  · intro e he hz
    rw [h2.prev e (hlt e he) (fun h => hz (hY e h)), h1.prev e he (fun h => hz (hX e h))]

end SkipList

end Dsjslib
namespace Dsjslib

namespace SkipList

/-! ## The skip list: the walk along a list -/

theorem sorted_split (f : Nat → Int) (k : Int) :
    ∀ l : List Nat, l.Pairwise (fun a b => f a < f b) →
      ∃ l1 l2, l = l1 ++ l2 ∧ (∀ e ∈ l1, f e < k) ∧ (∀ e ∈ l2, k ≤ f e) := by
  intro l
  induction l with
  | nil => intro _; exact ⟨[], [], rfl, fun _ h => absurd h (List.not_mem_nil _), fun _ h => absurd h (List.not_mem_nil _)⟩
  | cons a r ih =>
    intro h
    have h2 := List.pairwise_cons.1 h
    by_cases ha : f a < k
    · obtain ⟨r1, r2, hr, h3, h4⟩ := ih h2.2
      refine ⟨a :: r1, r2, by rw [hr]; rfl, ?_, h4⟩
      intro e he
      rcases List.mem_cons.1 he with h5 | h5
      · rw [h5]; exact ha
      · exact h3 e h5
    · refine ⟨[], a :: r, rfl, fun _ h => absurd h (List.not_mem_nil _), ?_⟩
      intro e he
      rcases List.mem_cons.1 he with h5 | h5
      · rw [h5]; omega
      · have := h2.1 e h5
        omega

theorem compare_min {s : SkipList} {lv : Level} (h : LevelOK s lv) (k : Int) :
    compareFn s lv.min k = 1 := by
  simp [compareFn, h.min_isMin]

theorem compare_max {s : SkipList} {lv : Level} (h : LevelOK s lv) (k : Int) :
    compareFn s lv.max k = -1 := by
  simp [compareFn, h.max_isMax, h.max_notMin]

theorem compare_plain {s : SkipList} {lv : Level} (h : LevelOK s lv) (k : Int) (e : Nat)
    (he : e ∈ lv.l) :
    compareFn s e k = if keyD s e < k then 1 else if keyD s e > k then -1 else 0 := by
  obtain ⟨h1, h2, h3⟩ := h.plain e he
  obtain ⟨kk, hk⟩ := Option.isSome_iff_exists.1 h3
  simp [compareFn, h1, h2, hk, keyD]

theorem key_of_keyD {s : SkipList} {lv : Level} (h : LevelOK s lv) (e : Nat) (he : e ∈ lv.l) :
    s.key e = some (keyD s e) := by
  obtain ⟨_, _, h3⟩ := h.plain e he
  obtain ⟨kk, hk⟩ := Option.isSome_iff_exists.1 h3
  simp [keyD, hk]

theorem chain_step {R : Nat → Nat → Prop} {A C : List Nat} {x y : Nat}
    (h : (A ++ x :: y :: C).Chain' R) : R x y :=
  (List.chain'_cons.1 (List.chain'_append.1 h).2.1).1

theorem advance_from {s : SkipList} {lv : Level} (h : LevelOK s lv) (k : Int)
    (l1 l2 : List Nat) (hl : lv.l = l1 ++ l2) (h1 : ∀ e ∈ l1, keyD s e < k)
    (h2 : ∀ e ∈ l2, k ≤ keyD s e) (cur : Nat) (hc : (l2 ++ [lv.max]).head? = some cur) :
    ∀ (B A : List Nat) (start : Nat), lv.min :: l1 = A ++ start :: B →
      ∀ fuel, B.length + 2 ≤ fuel → advance s k fuel (.obj start) = some (.obj cur) := by
  have hfull : lv.full = (lv.min :: l1) ++ (l2 ++ [lv.max]) := by
    simp [Level.full, hl]
  have hsub1 : ∀ e ∈ l1, e ∈ lv.l := fun e he => by rw [hl]; exact List.mem_append_left _ he
  have hsub2 : ∀ e ∈ l2, e ∈ lv.l := fun e he => by rw [hl]; exact List.mem_append_right _ he
  have hlow : ∀ e ∈ lv.min :: l1, compareFn s e k > 0 := by
    intro e he
    rcases List.mem_cons.1 he with h3 | h3
    · rw [h3, compare_min h]; decide
    · rw [compare_plain h k e (hsub1 e h3), if_pos (h1 e h3)]; decide
  have hhigh : ¬ compareFn s cur k > 0 := by
    cases l2 with
    | nil =>
      simp only [List.nil_append, List.head?_cons, Option.some.injEq] at hc
      rw [← hc, compare_max h]; decide
    | cons a r =>
      simp only [List.cons_append, List.head?_cons, Option.some.injEq] at hc
      subst hc
      have h3 := h2 a (List.mem_cons_self _ _)
      rw [compare_plain h k a (hsub2 a (List.mem_cons_self _ _))]
      split
      · omega
      · split <;> decide
  obtain ⟨W, hW⟩ : ∃ W, l2 ++ [lv.max] = cur :: W := by
    cases hw : l2 ++ [lv.max] with
    | nil => rw [hw] at hc; cases hc
    | cons a r =>
      rw [hw] at hc
      simp only [List.head?_cons, Option.some.injEq] at hc
      exact ⟨r, by rw [hc]⟩
  intro B
  induction B with
  | nil =>
    intro A start hA fuel hf
    have hch := h.linked
    rw [hfull, hA, hW, List.append_assoc] at hch
    have hn := (chain_step hch).1
    obtain ⟨f2, hf2⟩ : ∃ f2, fuel = f2 + 2 := ⟨fuel - 2, by simp at hf; omega⟩
    subst hf2
    have hs := hlow start (by rw [hA]; simp)
    simp only [advance, hs, if_true, hn, hhigh, if_false]
  | cons b B ih =>
    intro A start hA fuel hf
    have hch := h.linked
    rw [hfull, hA, List.append_assoc] at hch
    have hn := (chain_step hch).1
    obtain ⟨f2, hf2⟩ : ∃ f2, fuel = f2 + 1 := ⟨fuel - 1, by simp at hf; omega⟩
    subst hf2
    have hs := hlow start (by rw [hA]; simp)
    simp only [advance, hs, if_true, hn]
    exact ih (A ++ [start]) b (by rw [hA]; simp) f2 (by simp at hf; omega)

/-- Where the walk along the list `lv` for the key `k` ends: at `cur`, the first node that is
not below `k`, whose predecessor is `p`. -/
theorem level_pos {s : SkipList} {lv : Level} (h : LevelOK s lv) (k : Int) :
    ∃ l1 l2 p cur, lv.l = l1 ++ l2 ∧ (∀ e ∈ l1, keyD s e < k) ∧ (∀ e ∈ l2, k ≤ keyD s e) ∧
      (lv.min :: l1).getLast? = some p ∧ (l2 ++ [lv.max]).head? = some cur ∧
      s.prev cur = .obj p ∧ s.next p = .obj cur ∧
      ∀ start ∈ lv.min :: l1, ∀ fuel, lv.full.length ≤ fuel →
        advance s k fuel (.obj start) = some (.obj cur) := by
  obtain ⟨l1, l2, hl, h1, h2⟩ := sorted_split (keyD s) k lv.l h.sorted
  have hne1 : lv.min :: l1 ≠ [] := List.cons_ne_nil _ _
  have hne2 : l2 ++ [lv.max] ≠ [] := by simp
  obtain ⟨U, p, hU⟩ : ∃ U p, lv.min :: l1 = U ++ [p] :=
    ⟨_, _, (List.dropLast_append_getLast hne1).symm⟩
  obtain ⟨cur, W, hW⟩ : ∃ cur W, l2 ++ [lv.max] = cur :: W := by
    cases hw : l2 ++ [lv.max] with
    | nil => exact absurd hw hne2
    | cons a r => exact ⟨a, r, rfl⟩
  have hfull : lv.full = U ++ p :: cur :: W := by
    have : lv.full = (lv.min :: l1) ++ (l2 ++ [lv.max]) := by simp [Level.full, hl]
    rw [this, hU, hW]; simp
  have hch := h.linked
  rw [hfull] at hch
  have hR := chain_step hch
  have hc : (l2 ++ [lv.max]).head? = some cur := by rw [hW]; rfl
  refine ⟨l1, l2, p, cur, hl, h1, h2, by rw [hU]; simp, hc, hR.2, hR.1, ?_⟩
  intro start hs fuel hf
  obtain ⟨A, B, hAB⟩ := List.append_of_mem hs
  refine advance_from h k l1 l2 hl h1 h2 cur hc B A start hAB fuel ?_
  have h3 : lv.full.length = (lv.min :: l1).length + (l2 ++ [lv.max]).length := by
    simp [Level.full, hl]; omega
  rw [hAB] at h3
  simp only [List.length_append, List.length_cons, List.length_singleton, List.length_nil] at h3
  omega

end SkipList

end Dsjslib
namespace Dsjslib

namespace SkipList

/-! ## The skip list: a new node in a list -/

theorem insert_eq (s : SkipList) (cur p : Nat) (k : Int) (v : Val) (down : Link)
    (hp : s.prev cur = .obj p) (hc : cur ≠ s.nextId) :
    insert cur k v down s = .ok (.obj s.nextId) (withNode s cur p k v down) := by
  simp only [insert, Node_, Function.update_noteq hc, hp]
  rfl

theorem withNode_next (s : SkipList) (cur p : Nat) (k : Int) (v : Val) (down : Link) (e : Nat)
    (he : e ≠ s.nextId) (hep : e ≠ p) : (withNode s cur p k v down).next e = s.next e := by
  simp [withNode, Function.update_noteq he, Function.update_noteq hep]

theorem withNode_prev (s : SkipList) (cur p : Nat) (k : Int) (v : Val) (down : Link) (e : Nat)
    (he : e ≠ s.nextId) (hec : e ≠ cur) : (withNode s cur p k v down).prev e = s.prev e := by
  simp [withNode, Function.update_noteq he, Function.update_noteq hec]

theorem withNode_frame (s : SkipList) (cur p : Nat) (k : Int) (v : Val) (down : Link)
    (X : List Nat) (hp : p ∈ X) (hc : cur ∈ X) : Frame s (withNode s cur p k v down) X k v := by
  have hne : ∀ e, e < s.nextId → e ≠ s.nextId := fun e he => Nat.ne_of_lt he
  refine ⟨Nat.le_succ _, ?_, ?_, ?_, ?_, ?_, ?_, ?_⟩
  · intro e he; simp [withNode, Function.update_noteq (hne e he)]
  · intro e he; simp [withNode, Function.update_noteq (hne e he)]
  · intro e he; simp [withNode, Function.update_noteq (hne e he)]
  · intro e he; simp [withNode, Function.update_noteq (hne e he)]
  · intro e he; left; simp [withNode, Function.update_noteq (hne e he)]
  · intro e he hx
    exact withNode_next s cur p k v down e (hne e he) (fun h => hx (h ▸ hp))
  · intro e he hx
    exact withNode_prev s cur p k v down e (hne e he) (fun h => hx (h ▸ hc))

/-- The list after `cur.insert(k, v, down)`: the new node stands between `p` and `cur`. -/
theorem insert_level {s : SkipList} {lv : Level} (h : LevelOK s lv) (hnd : lv.full.Nodup)
    (k : Int) (v : Val) (down : Link) (l1 l2 : List Nat) (p cur : Nat)
    (hl : lv.l = l1 ++ l2) (h1 : ∀ e ∈ l1, keyD s e < k) (h2 : ∀ e ∈ l2, k < keyD s e)
    (hp : (lv.min :: l1).getLast? = some p) (hc : (l2 ++ [lv.max]).head? = some cur)
    (hprev : s.prev cur = .obj p) (hnext : s.next p = .obj cur) :
    LevelOK (withNode s cur p k v down)
      { min := lv.min, max := lv.max, l := l1 ++ s.nextId :: l2 } := by
  have hfull : lv.full = (lv.min :: l1) ++ (l2 ++ [lv.max]) := by simp [Level.full, hl]
  have hpU : p ∈ lv.min :: l1 := List.mem_of_getLast?_eq_some hp
  have hcW : cur ∈ l2 ++ [lv.max] := List.mem_of_mem_head? hc
  rw [hfull] at hnd
  have hdisj := (List.nodup_append.1 hnd).2.2
  have hal : ∀ e ∈ (lv.min :: l1) ++ (l2 ++ [lv.max]), e ≠ s.nextId := by
    intro e he
    rw [← hfull] at he
    exact Nat.ne_of_lt (h.alloc e he)
  have hch := h.linked
  rw [hfull] at hch
  obtain ⟨hU, hW, _⟩ := List.chain'_append.1 hch
  have hkey : ∀ e, e ≠ s.nextId → keyD (withNode s cur p k v down) e = keyD s e := by
    intro e he; simp [keyD, withNode, Function.update_noteq he]
  have hkn : keyD (withNode s cur p k v down) s.nextId = k := by simp [keyD, withNode]
  have hsub1 : ∀ e ∈ l1, e ∈ lv.l := fun e he => by rw [hl]; exact List.mem_append_left _ he
  have hsub2 : ∀ e ∈ l2, e ∈ lv.l := fun e he => by rw [hl]; exact List.mem_append_right _ he
  have hne1 : ∀ e ∈ l1, e ≠ s.nextId :=
    fun e he => hal e (List.mem_append_left _ (List.mem_cons_of_mem _ he))
  have hne2 : ∀ e ∈ l2, e ≠ s.nextId :=
    fun e he => hal e (List.mem_append_right _ (List.mem_append_left _ he))
  have hmin : lv.min ≠ s.nextId := hal _ (List.mem_append_left _ (List.mem_cons_self _ _))
  have hmax : lv.max ≠ s.nextId :=
    hal _ (List.mem_append_right _ (List.mem_append_right _ (List.mem_singleton_self _)))
  refine ⟨?_, ?_, ?_, ?_, ?_, ?_, ?_⟩
  · have hf2 : Level.full { min := lv.min, max := lv.max, l := l1 ++ s.nextId :: l2 } =
        (lv.min :: l1) ++ (s.nextId :: (l2 ++ [lv.max])) := by simp [Level.full]
    rw [hf2]
    refine List.chain'_append.2 ⟨?_, ?_, ?_⟩
    · refine List.Chain'.imp ?_ (List.Chain'.iff_mem.1 hU)
      rintro x y ⟨hx, hy, h3, h4⟩
      have hxp : x ≠ p := by
        intro hxp
        rw [hxp, hnext] at h3
        have : cur = y := by injection h3
        exact hdisj hy (this ▸ hcW)
      have hyc : y ≠ cur := fun hyc => hdisj hy (hyc ▸ hcW)
      exact ⟨by rw [withNode_next _ _ _ _ _ _ _ (hal x (List.mem_append_left _ hx)) hxp]; exact h3,
        by rw [withNode_prev _ _ _ _ _ _ _ (hal y (List.mem_append_left _ hy)) hyc]; exact h4⟩
    · refine List.chain'_cons'.2 ⟨?_, ?_⟩
      · intro y hy
        rw [hc] at hy
        have : cur = y := by simpa using hy
        subst this
        exact ⟨by simp [withNode], by simp [withNode]⟩
      · refine List.Chain'.imp ?_ (List.Chain'.iff_mem.1 hW)
        rintro x y ⟨hx, hy, h3, h4⟩
        have hxp : x ≠ p := fun hxp => hdisj hpU (hxp ▸ hx)
        have hyc : y ≠ cur := by
          intro hyc
          rw [hyc, hprev] at h4
          have : p = x := by injection h4
          exact hdisj hpU (this ▸ hx)
        exact ⟨by rw [withNode_next _ _ _ _ _ _ _ (hal x (List.mem_append_right _ hx)) hxp]
                  exact h3,
          by rw [withNode_prev _ _ _ _ _ _ _ (hal y (List.mem_append_right _ hy)) hyc]
             exact h4⟩
    · intro x hx y hy
      rw [hp] at hx
      have hxp : p = x := by simpa using hx
      have hyn : s.nextId = y := by simpa using hy
      subst hxp; subst hyn
      have hpn : p ≠ s.nextId := hal p (List.mem_append_left _ hpU)
      have hcn : cur ≠ s.nextId := hal cur (List.mem_append_right _ hcW)
      constructor
      · simp [withNode, Function.update_noteq hpn]
      · simp [withNode, Function.update_noteq (Ne.symm hcn)]
  · show (withNode s cur p k v down).isMin lv.min = true
    simp only [withNode, Function.update_noteq hmin]; exact h.min_isMin
  · show (withNode s cur p k v down).isMax lv.max = true
    simp only [withNode, Function.update_noteq hmax]; exact h.max_isMax
  · show (withNode s cur p k v down).isMin lv.max = false
    simp only [withNode, Function.update_noteq hmax]; exact h.max_notMin
  · intro e he
    have he2 : e ∈ l1 ++ s.nextId :: l2 := he
    rcases List.mem_append.1 he2 with h3 | h3
    · have := h.plain e (hsub1 e h3)
      simpa [withNode, Function.update_noteq (hne1 e h3)] using this
    · rcases List.mem_cons.1 h3 with h4 | h4
      · subst h4; simp [withNode]
      · have := h.plain e (hsub2 e h4)
        simpa [withNode, Function.update_noteq (hne2 e h4)] using this
  · show (l1 ++ s.nextId :: l2).Pairwise _
    have hs := h.sorted
    rw [hl] at hs
    obtain ⟨hs1, hs2, hs3⟩ := List.pairwise_append.1 hs
    refine List.pairwise_append.2 ⟨?_, ?_, ?_⟩
    · refine List.Pairwise.imp_of_mem ?_ hs1
      intro a b ha hb hab
      rw [hkey a (hne1 a ha), hkey b (hne1 b hb)]; exact hab
    · refine List.pairwise_cons.2 ⟨?_, ?_⟩
      · intro b hb
        rw [hkn, hkey b (hne2 b hb)]; exact h2 b hb
      · refine List.Pairwise.imp_of_mem ?_ hs2
        intro a b ha hb hab
        rw [hkey a (hne2 a ha), hkey b (hne2 b hb)]; exact hab
    · intro a ha b hb
      rcases List.mem_cons.1 hb with h4 | h4
      · rw [h4, hkn, hkey a (hne1 a ha)]; exact h1 a ha
      · rw [hkey a (hne1 a ha), hkey b (hne2 b h4)]; exact hs3 a ha b h4
  · intro e he
    show e < s.nextId + 1
    have he2 : e ∈ lv.min :: ((l1 ++ s.nextId :: l2) ++ [lv.max]) := he
    by_cases hen : e = s.nextId
    · omega
    · have : e ∈ lv.full := by
        rw [hfull]
        simp only [List.mem_cons, List.mem_append, List.mem_singleton, List.not_mem_nil,
          or_false] at he2 ⊢
        tauto
      have := h.alloc e this
      omega

end SkipList

end Dsjslib
namespace Dsjslib

namespace SkipList

/-! ## The skip list: replacing the value of a key -/

theorem sorted_inj (f : Nat → Int) :
    ∀ l : List Nat, l.Pairwise (fun a b => f a < f b) → ∀ a ∈ l, ∀ b ∈ l, f a = f b → a = b := by
  intro l
  induction l with
  | nil => intro _ a ha; cases ha
  | cons x r ih =>
    intro h a ha b hb hab
    obtain ⟨h1, h2⟩ := List.pairwise_cons.1 h
    rcases List.mem_cons.1 ha with h3 | h3 <;> rcases List.mem_cons.1 hb with h4 | h4
    · rw [h3, h4]
    · have := h1 b h4; rw [h3] at hab; omega
    · have := h1 a h3; rw [h4] at hab; omega
    · exact ih h2 a h3 b h4 hab

theorem key_unique {s : SkipList} {lv : Level} (h : LevelOK s lv) (k : Int) (a b : Nat)
    (ha : a ∈ lv.l) (hb : b ∈ lv.l) (hka : s.key a = some k) (hkb : s.key b = some k) : a = b :=
  sorted_inj (keyD s) lv.l h.sorted a ha b hb (by simp [keyD, hka, hkb])

theorem replace_falsy (k : Int) (v : Val) (fuel : Nat) (cur : Link) (s : SkipList)
    (hc : cur.truthy = false) : replace k v (fuel + 1) cur s = some s := by
  cases cur with
  | obj n => cases hc
  | undefined => rfl
  | null => rfl

theorem replace_obj (k : Int) (v : Val) (fuel n : Nat) (s : SkipList) :
    replace k v (fuel + 1) (.obj n) s =
      replace k v fuel (s.down n)
        { s with key := Function.update s.key n (some k)
                 value := Function.update s.value n v } := rfl

/-- The loop that replaces the value walks down the tower of the key: it writes `v` to every
node with the key `k`, and to nothing else. -/
theorem replace_spec (k : Int) (v : Val) :
    ∀ (rest : List Level) (s : SkipList) (lv : Level), StackOK s (lv :: rest) →
      ∀ cur ∈ lv.l, s.key cur = some k → ∀ fuel, (lv :: rest).length < fuel →
        ∃ val2, replace k v fuel (.obj cur) s = some { s with value := val2 } ∧
          (∀ e, val2 e = s.value e ∨ (e ∈ nodesOf (lv :: rest) ∧ s.key e = some k ∧ val2 e = v)) ∧
          (∀ lv2 ∈ lv :: rest, ∀ e ∈ lv2.l, s.key e = some k → val2 e = v) := by
  intro rest
  induction rest with
  | nil =>
    intro s lv h cur hc hk fuel hf
    obtain ⟨f2, hf2⟩ : ∃ f2, fuel = f2 + 2 := ⟨fuel - 2, by simp at hf; omega⟩
    subst hf2
    have hkeq : Function.update s.key cur (some k) = s.key := by
      rw [← hk]; exact Function.update_eq_self _ _
    have hd := h.2.1.2 cur hc
    refine ⟨Function.update s.value cur v, ?_, ?_, ?_⟩
    · rw [replace_obj, hkeq]
      exact replace_falsy k v f2 _ _ hd
    · intro e
      by_cases he : e = cur
      · right
        subst he
        exact ⟨List.mem_append_left _ (mem_full_of_mem hc), hk, Function.update_same _ _ _⟩
      · left; exact Function.update_noteq he _ _
    · intro lv2 hlv2 e he hke
      simp only [List.mem_singleton] at hlv2
      subst hlv2
      rw [key_unique h.1 k e cur he hc hke hk]
      exact Function.update_same _ _ _
  | cons b r ih =>
    intro s lv h cur hc hk fuel hf
    obtain ⟨f2, hf2⟩ : ∃ f2, fuel = f2 + 1 := ⟨fuel - 1, by simp at hf; omega⟩
    subst hf2
    have hkeq : Function.update s.key cur (some k) = s.key := by
      rw [← hk]; exact Function.update_eq_self _ _
    obtain ⟨e2, he2, hd, hk2⟩ := h.2.1.2 cur hc
    rw [hk] at hk2
    obtain ⟨val2, h1, h2, h3⟩ := ih { s with value := Function.update s.value cur v } b
      (StackOK.value_s _ h.2.2) e2 he2 hk2 f2 (by simp at hf ⊢; omega)
    refine ⟨val2, ?_, ?_, ?_⟩
    · rw [replace_obj, hkeq, hd]
      exact h1
    · intro e
      rcases h2 e with h4 | ⟨h4, h5, h6⟩
      · by_cases he : e = cur
        · right
          subst he
          refine ⟨List.mem_append_left _ (mem_full_of_mem hc), hk, ?_⟩
          rw [h4]; exact Function.update_same _ _ _
        · left; rw [h4]; exact Function.update_noteq he _ _
      · right; exact ⟨List.mem_append_right _ h4, h5, h6⟩
    · intro lv2 hlv2 e he hke
      rcases List.mem_cons.1 hlv2 with h4 | h4
      · subst h4
        rw [key_unique h.1 k e cur he hc hke hk]
        rcases h2 cur with h5 | ⟨_, _, h5⟩
        · rw [h5]; exact Function.update_same _ _ _
        · exact h5
      · exact h3 lv2 h4 e he hke

end SkipList

end Dsjslib
namespace Dsjslib

namespace SkipList

/-! ## The skip list: what `insert_` achieves -/

theorem Grow.refl_g (n0 : Nat) (lv : Level) : Grow n0 lv lv :=
  ⟨rfl, rfl, fun _ h => h, fun _ h => Or.inl h, Nat.le_succ _⟩

theorem grow_same (n0 : Nat) : ∀ ls : List Level, List.Forall₂ (Grow n0) ls ls
  | [] => List.Forall₂.nil
  | lv :: rest => List.Forall₂.cons (Grow.refl_g n0 lv) (grow_same n0 rest)

theorem Grow.full_sub {n0 : Nat} {lv lv2 : Level} (h : Grow n0 lv lv2) :
    ∀ e ∈ lv.full, e ∈ lv2.full := by
  intro e he
  simp only [Level.full, List.mem_cons, List.mem_append, List.mem_singleton, List.not_mem_nil,
    or_false] at he ⊢
  rw [h.1, h.2.1]
  rcases he with h1 | h1 | h1
  · exact Or.inl h1
  · exact Or.inr (Or.inl (h.2.2.1 e h1))
  · exact Or.inr (Or.inr h1)

theorem Grow.full_old {n0 : Nat} {lv lv2 : Level} (h : Grow n0 lv lv2) :
    ∀ e ∈ lv2.full, e ∈ lv.full ∨ n0 ≤ e := by
  intro e he
  simp only [Level.full, List.mem_cons, List.mem_append, List.mem_singleton, List.not_mem_nil,
    or_false] at he ⊢
  rw [h.1, h.2.1] at he
  rcases he with h1 | h1 | h1
  · exact Or.inl (Or.inl h1)
  · rcases h.2.2.2.1 e h1 with h2 | h2
    · exact Or.inl (Or.inr (Or.inl h2))
    · exact Or.inr h2
  · exact Or.inl (Or.inr (Or.inr h1))

theorem grow_nodes_sub {n0 : Nat} {ls ls2 : List Level} (h : List.Forall₂ (Grow n0) ls ls2) :
    ∀ e ∈ nodesOf ls, e ∈ nodesOf ls2 := by
  induction h with
  | nil => intro e he; exact he
  | cons h1 _ ih =>
    intro e he
    rcases List.mem_append.1 he with h2 | h2
    · exact List.mem_append_left _ (h1.full_sub e h2)
    · exact List.mem_append_right _ (ih e h2)

theorem grow_nodes_old {n0 : Nat} {ls ls2 : List Level} (h : List.Forall₂ (Grow n0) ls ls2) :
    ∀ e ∈ nodesOf ls2, e ∈ nodesOf ls ∨ n0 ≤ e := by
  induction h with
  | nil => intro e he; exact Or.inl he
  | cons h1 _ ih =>
    intro e he
    rcases List.mem_append.1 he with h2 | h2
    · rcases h1.full_old e h2 with h3 | h3
      · exact Or.inl (List.mem_append_left _ h3)
      · exact Or.inr h3
    · rcases ih e h2 with h3 | h3
      · exact Or.inl (List.mem_append_right _ h3)
      · exact Or.inr h3

theorem grow_length {n0 : Nat} {ls ls2 : List Level} (h : List.Forall₂ (Grow n0) ls ls2) :
    ls2.length = ls.length ∧ (nodesOf ls2).length ≤ (nodesOf ls).length + ls.length := by
  induction h with
  | nil => exact ⟨rfl, Nat.le_refl _⟩
  | cons h1 _ ih =>
    refine ⟨by simp [ih.1], ?_⟩
    have := h1.2.2.2.2
    have := ih.2
    simp only [nodesOf, Level.full, List.length_append, List.length_cons, List.length_nil]
    omega

theorem grow_level {n0 : Nat} {ls ls2 : List Level} (h : List.Forall₂ (Grow n0) ls ls2) :
    ∀ lv2 ∈ ls2, ∃ lv ∈ ls, Grow n0 lv lv2 := by
  induction h with
  | nil => intro lv2 h2; cases h2
  | cons h1 _ ih =>
    intro lv2 h2
    rcases List.mem_cons.1 h2 with h3 | h3
    · exact ⟨_, List.mem_cons_self _ _, h3 ▸ h1⟩
    · obtain ⟨lv, h4, h5⟩ := ih lv2 h3
      exact ⟨lv, List.mem_cons_of_mem _ h4, h5⟩

theorem grow_level_rev {n0 : Nat} {ls ls2 : List Level} (h : List.Forall₂ (Grow n0) ls ls2) :
    ∀ lv ∈ ls, ∃ lv2 ∈ ls2, Grow n0 lv lv2 := by
  induction h with
  | nil => intro lv h2; cases h2
  | cons h1 _ ih =>
    intro lv h2
    rcases List.mem_cons.1 h2 with h3 | h3
    · exact ⟨_, List.mem_cons_self _ _, h3 ▸ h1⟩
    · obtain ⟨lv2, h4, h5⟩ := ih lv h3
      exact ⟨lv2, List.mem_cons_of_mem _ h4, h5⟩

theorem nodes_length (ls : List Level) : ls.length ≤ (nodesOf ls).length := by
  induction ls with
  | nil => exact Nat.le_refl _
  | cons lv rest ih =>
    simp only [nodesOf, Level.full, List.length_append, List.length_cons, List.length_nil]
    omega

theorem Frame.rnd_f (s : SkipList) (n : Nat) (X : List Nat) (k : Int) (v : Val) :
    Frame s { s with rnd := n } X k v :=
  ⟨le_refl _, fun _ _ => rfl, fun _ _ => rfl, fun _ _ => rfl, fun _ _ => rfl,
    fun _ _ => Or.inl rfl, fun _ _ _ => rfl, fun _ _ _ => rfl⟩

theorem full_nodup_insert {lv : Level} (hnd : lv.full.Nodup) (l1 l2 : List Nat) (n : Nat)
    (hl : lv.l = l1 ++ l2) (hn : n ∉ lv.full) :
    (Level.full { min := lv.min, max := lv.max, l := l1 ++ n :: l2 }).Nodup := by
  have hperm : (Level.full { min := lv.min, max := lv.max, l := l1 ++ n :: l2 }).Perm
      (n :: lv.full) := by
    simp only [Level.full, hl, List.append_assoc, List.cons_append]
    exact (List.Perm.cons _ List.perm_middle).trans (List.Perm.swap _ _ _)
  exact hperm.nodup_iff.2 (List.nodup_cons.2 ⟨hn, hnd⟩)

theorem mem_full_insert (lv : Level) (l1 l2 : List Nat) (n : Nat) (hl : lv.l = l1 ++ l2)
    (e : Nat) :
    e ∈ Level.full { min := lv.min, max := lv.max, l := l1 ++ n :: l2 } ↔ e = n ∨ e ∈ lv.full := by
  simp only [Level.full, hl, List.mem_cons, List.mem_append, List.mem_singleton,
    List.not_mem_nil, or_false]
  tauto

theorem grow_insert (lv : Level) (l1 l2 : List Nat) (n n0 : Nat) (hl : lv.l = l1 ++ l2)
    (hn : n0 ≤ n) : Grow n0 lv { min := lv.min, max := lv.max, l := l1 ++ n :: l2 } := by
  refine ⟨rfl, rfl, ?_, ?_, ?_⟩
  · intro e he
    rw [hl] at he
    show e ∈ l1 ++ n :: l2
    simp only [List.mem_append, List.mem_cons] at he ⊢
    tauto
  · intro e he
    have he2 : e ∈ l1 ++ n :: l2 := he
    rw [hl]
    simp only [List.mem_append, List.mem_cons] at he2 ⊢
    rcases he2 with h1 | h1 | h1
    · exact Or.inl (Or.inl h1)
    · exact Or.inr (h1 ▸ hn)
    · exact Or.inl (Or.inr h1)
  · show (l1 ++ n :: l2).length ≤ lv.l.length + 1
    rw [hl]; simp only [List.length_append, List.length_cons]; omega

/-- The key was found in the list `lv`: its value is replaced on the tower below. -/
theorem post_replace {s : SkipList} {lv : Level} {rest : List Level} {k : Int} {v : Val}
    {val2 : Nat → Val} (h : StackOK s (lv :: rest)) (hnd : (nodesOf (lv :: rest)).Nodup)
    (cur : Nat) (hc : cur ∈ lv.l) (hk : s.key cur = some k)
    (h2 : ∀ e, val2 e = s.value e ∨ (e ∈ nodesOf (lv :: rest) ∧ s.key e = some k ∧ val2 e = v))
    (h3 : ∀ lv2 ∈ lv :: rest, ∀ e ∈ lv2.l, s.key e = some k → val2 e = v) :
    InsertPost s (lv :: rest) k v .undefined { s with value := val2 } (lv :: rest) := by
  refine ⟨⟨StackOK.value_s _ h, hnd, grow_same _ _, ?_, h3, ?_, rfl⟩, ?_, Or.inl rfl,
    fun _ => rfl⟩
  · exact ⟨le_refl _, fun _ _ => rfl, fun _ _ => rfl, fun _ _ => rfl, fun _ _ => rfl,
      fun e _ => h2 e, fun _ _ _ => rfl, fun _ _ _ => rfl⟩
  · intro lv2 hlv2 e he hge
    have := h.alloc_lt e (full_sub_nodes hlv2 e (mem_full_of_mem he))
    omega
  · exact ⟨lv, List.mem_cons_self _ _, cur, hc, hk⟩

end SkipList

end Dsjslib
namespace Dsjslib

namespace SkipList

theorem RestPost.empty_r (s : SkipList) (k : Int) (v : Val) : RestPost s [] k v s [] :=
  ⟨trivial, List.nodup_nil, List.Forall₂.nil, Frame.refl_s s _ k v,
    fun _ h => absurd h (List.not_mem_nil _), fun _ h => absurd h (List.not_mem_nil _), rfl⟩

theorem RestPost.flip {s s1 : SkipList} {ls ls1 : List Level} {k : Int} {v : Val}
    (h : RestPost s ls k v s1 ls1) (n : Nat) : RestPost s ls k v { s1 with rnd := n } ls1 :=
  ⟨StackOK.frame_s (Frame.rnd_f s1 n [] k v) h.stack (fun _ _ => List.not_mem_nil _), h.nodup,
    h.grow,
    Frame.trans_s h.frame (Frame.rnd_f s1 n [] k v) (fun _ he => he)
      (fun _ he => absurd he (List.not_mem_nil _)),
    h.keyed, h.fresh, h.top⟩

theorem Present.grow {s s2 : SkipList} {ls ls2 : List Level} {k k2 : Int} {v : Val}
    {X : List Nat} (hst : StackOK s ls) (hg : List.Forall₂ (Grow s.nextId) ls ls2)
    (hf : Frame s s2 X k v) (h : Present s ls k2) : Present s2 ls2 k2 := by
  obtain ⟨lv, hlv, e, he, hk⟩ := h
  obtain ⟨lv2, hlv2, hgr⟩ := grow_level_rev hg lv hlv
  refine ⟨lv2, hlv2, e, hgr.2.2.1 e he, ?_⟩
  rw [hf.key e (hst.alloc_lt e (full_sub_nodes hlv e (mem_full_of_mem he)))]
  exact hk

theorem grow_cons {s1 : SkipList} {n0 : Nat} {rest ls1 : List Level} {k : Int}
    (hg : List.Forall₂ (Grow n0) rest ls1) (hpres : Present s1 ls1 k) :
    ∃ b r b2 r2, rest = b :: r ∧ ls1 = b2 :: r2 ∧ Grow n0 b b2 := by
  cases hg with
  | nil =>
    obtain ⟨lv2, h2, _⟩ := hpres
    cases h2
  | cons hgb hgr => exact ⟨_, _, _, _, rfl, rfl, hgb⟩

/-- The lists below are done and the list `lv` gets no node. -/
theorem post_keep {s s1 : SkipList} {lv : Level} {rest ls1 : List Level} {k : Int} {v : Val}
    (hlv : LevelOK s lv) (hnd : (nodesOf (lv :: rest)).Nodup) (hdown : DownOK s lv rest.head?)
    (hstr : StackOK s rest) (hno : ∀ e ∈ lv.l, s.key e ≠ some k)
    (hrest : RestPost s rest k v s1 ls1) (hpres : Present s1 ls1 k) :
    InsertPost s (lv :: rest) k v .undefined s1 (lv :: ls1) := by
  have hnd2 : (lv.full ++ nodesOf rest).Nodup := hnd
  obtain ⟨hndl, _, hdisj0⟩ := List.nodup_append.1 hnd2
  have hdisj : ∀ e ∈ lv.full, e ∉ nodesOf rest := fun e he h2 => hdisj0 he h2
  have hlv1 : LevelOK s1 lv := hlv.frame_l hrest.frame hdisj
  have hal1 := hrest.stack.alloc_lt
  have hdisj1 : ∀ e ∈ lv.full, e ∉ nodesOf ls1 := by
    intro e he h2
    rcases grow_nodes_old hrest.grow e h2 with h3 | h3
    · exact hdisj e he h3
    · have := hlv.alloc e he; omega
  have hfr := hrest.frame
  refine ⟨⟨⟨hlv1, ?_, hrest.stack⟩, ?_, List.Forall₂.cons (Grow.refl_g _ lv) hrest.grow, ?_, ?_,
    ?_, hrest.top⟩, ?_, Or.inl rfl, fun _ => rfl⟩
  · obtain ⟨b, r, b2, r2, hr, hl1, hgb⟩ := grow_cons hrest.grow hpres
    subst hr
    subst hl1
    have hd : DownOK s lv (some b) := hdown
    show DownOK s1 lv (some b2)
    refine ⟨?_, ?_⟩
    · rw [hfr.down _ (hlv.alloc _ (min_mem_full lv)), hd.1, hgb.1]
    · intro e he
      obtain ⟨e2, h3, h4, h5⟩ := hd.2 e he
      refine ⟨e2, hgb.2.2.1 e2 h3, ?_, ?_⟩
      · rw [hfr.down _ (hlv.alloc _ (mem_full_of_mem he))]; exact h4
      · rw [hfr.key _ (hstr.1.alloc _ (mem_full_of_mem h3)),
          hfr.key _ (hlv.alloc _ (mem_full_of_mem he))]
        exact h5
  · show (lv.full ++ nodesOf ls1).Nodup
    exact List.nodup_append.2 ⟨hndl, hrest.nodup, fun e he h2 => hdisj1 e he h2⟩
  · exact Frame.trans_s hfr (Frame.refl_s s1 [] k v)
      (fun e he => List.mem_append_right _ he) (fun e he => absurd he (List.not_mem_nil _))
  · intro lv2 hlv2 e he hk
    rcases List.mem_cons.1 hlv2 with h2 | h2
    · subst h2
      rw [hfr.key e (hlv.alloc e (mem_full_of_mem he))] at hk
      exact absurd hk (hno e he)
    · exact hrest.keyed lv2 h2 e he hk
  · intro lv2 hlv2 e he hge
    rcases List.mem_cons.1 hlv2 with h2 | h2
    · subst h2
      have := hlv.alloc e (mem_full_of_mem he); omega
    · exact hrest.fresh lv2 h2 e he hge
  · obtain ⟨lv2, h2, h3⟩ := hpres
    exact ⟨lv2, List.mem_cons_of_mem _ h2, h3⟩

end SkipList

end Dsjslib
namespace Dsjslib

namespace SkipList

theorem withNode_old (s : SkipList) (cur p : Nat) (k : Int) (v : Val) (down : Link) (e : Nat)
    (he : e < s.nextId) :
    (withNode s cur p k v down).key e = s.key e ∧
      (withNode s cur p k v down).value e = s.value e ∧
      (withNode s cur p k v down).down e = s.down e := by
  have hne : e ≠ s.nextId := Nat.ne_of_lt he
  simp [withNode, Function.update_noteq hne]

theorem withNode_new (s : SkipList) (cur p : Nat) (k : Int) (v : Val) (down : Link) :
    (withNode s cur p k v down).key s.nextId = some k ∧
      (withNode s cur p k v down).value s.nextId = v ∧
      (withNode s cur p k v down).down s.nextId = down := by
  simp [withNode]

/-- The lists below are done and the list `lv` gets the new node, between `p` and `cur`. -/
theorem post_add {s s1 : SkipList} {lv : Level} {rest ls1 : List Level} {k : Int} {v : Val}
    (hlv : LevelOK s lv) (hnd : (nodesOf (lv :: rest)).Nodup) (hdown : DownOK s lv rest.head?)
    (hstr : StackOK s rest) (hno : ∀ e ∈ lv.l, s.key e ≠ some k)
    (hrest : RestPost s rest k v s1 ls1) (hnp : ¬ Present s rest k)
    (l1 l2 : List Nat) (p cur : Nat) (hl : lv.l = l1 ++ l2) (h1 : ∀ e ∈ l1, keyD s e < k)
    (h2 : ∀ e ∈ l2, k < keyD s e) (hp : (lv.min :: l1).getLast? = some p)
    (hc : (l2 ++ [lv.max]).head? = some cur) (hprev : s.prev cur = .obj p)
    (hnext : s.next p = .obj cur) (down : Link)
    (hdn : match ls1.head? with
      | none => down.truthy = false
      | some b2 => ∃ m ∈ b2.l, down = .obj m ∧ s1.key m = some k) :
    InsertPost s (lv :: rest) k v (.obj s1.nextId) (withNode s1 cur p k v down)
      ({ min := lv.min, max := lv.max, l := l1 ++ s1.nextId :: l2 } :: ls1) := by
  have hnd2 : (lv.full ++ nodesOf rest).Nodup := hnd
  obtain ⟨hndl, _, hdisj0⟩ := List.nodup_append.1 hnd2
  have hdisj : ∀ e ∈ lv.full, e ∉ nodesOf rest := fun e he h3 => hdisj0 he h3
  have hfr := hrest.frame
  have hlv1 : LevelOK s1 lv := hlv.frame_l hfr hdisj
  have hal1 := hrest.stack.alloc_lt
  have hdisj1 : ∀ e ∈ lv.full, e ∉ nodesOf ls1 := by
    intro e he h3
    rcases grow_nodes_old hrest.grow e h3 with h4 | h4
    · exact hdisj e he h4
    · have := hlv.alloc e he; omega
  have hsub1 : ∀ e ∈ l1, e ∈ lv.l := fun e he => by rw [hl]; exact List.mem_append_left _ he
  have hsub2 : ∀ e ∈ l2, e ∈ lv.l := fun e he => by rw [hl]; exact List.mem_append_right _ he
  have hkD : ∀ e ∈ lv.l, keyD s1 e = keyD s e := by
    intro e he
    simp only [keyD, hfr.key e (hlv.alloc e (mem_full_of_mem he))]
  have hpU : p ∈ lv.full := by
    have : p ∈ lv.min :: l1 := List.mem_of_getLast?_eq_some hp
    simp only [Level.full, hl, List.mem_cons, List.mem_append] at this ⊢
    tauto
  have hcW : cur ∈ lv.full := by
    have : cur ∈ l2 ++ [lv.max] := List.mem_of_mem_head? hc
    simp only [Level.full, hl, List.mem_cons, List.mem_append, List.mem_singleton] at this ⊢
    tauto
  have hprev1 : s1.prev cur = .obj p := by
    rw [hfr.prev cur (hlv.alloc cur hcW) (hdisj cur hcW)]; exact hprev
  have hnext1 : s1.next p = .obj cur := by
    rw [hfr.next p (hlv.alloc p hpU) (hdisj p hpU)]; exact hnext
  have hlv2 := insert_level hlv1 hndl k v down l1 l2 p cur hl
    (fun e he => by rw [hkD e (hsub1 e he)]; exact h1 e he)
    (fun e he => by rw [hkD e (hsub2 e he)]; exact h2 e he) hp hc hprev1 hnext1
  have hfr2 : Frame s1 (withNode s1 cur p k v down) lv.full k v :=
    withNode_frame s1 cur p k v down lv.full hpU hcW
  have hst2 : StackOK (withNode s1 cur p k v down) ls1 :=
    StackOK.frame_s hfr2 hrest.stack (fun e he h3 => hdisj1 e h3 he)
  have hn_ge : s.nextId ≤ s1.nextId := hfr.nextId
  have hn_not : s1.nextId ∉ lv.full := fun h3 => by
    have := hlv.alloc _ h3; omega
  have hold : ∀ e ∈ lv.l, (withNode s1 cur p k v down).key e = s.key e ∧
      (withNode s1 cur p k v down).down e = s.down e := by
    intro e he
    have hlt := hlv.alloc e (mem_full_of_mem he)
    have h3 := withNode_old s1 cur p k v down e (by omega)
    exact ⟨by rw [h3.1, hfr.key e hlt], by rw [h3.2.2, hfr.down e hlt]⟩
  have hmem2 : ∀ e, e ∈ l1 ++ s1.nextId :: l2 → e = s1.nextId ∨ e ∈ lv.l := by
    intro e he
    rw [hl]
    simp only [List.mem_append, List.mem_cons] at he ⊢
    tauto
  have hnew := withNode_new s1 cur p k v down
  refine ⟨⟨⟨hlv2, ?_, hst2⟩, ?_,
    List.Forall₂.cons (grow_insert lv l1 l2 s1.nextId s.nextId hl hn_ge) hrest.grow, ?_, ?_, ?_,
    hrest.top⟩, ?_, ?_, ?_⟩
  · have hmin : (withNode s1 cur p k v down).down lv.min = s.down lv.min := by
      have hlt := hlv.alloc _ (min_mem_full lv)
      rw [(withNode_old s1 cur p k v down lv.min (by omega)).2.2, hfr.down _ hlt]
    cases hg : hrest.grow with
    | nil =>
      have hd : DownOK s lv none := hdown
      have hdn2 : down.truthy = false := hdn
      show DownOK _ _ none
      refine ⟨by rw [hmin]; exact hd.1, ?_⟩
      intro e he
      rcases hmem2 e he with h3 | h3
      · rw [h3, hnew.2.2]; exact hdn2
      · rw [(hold e h3).2]; exact hd.2 e h3
    | cons hgb hgr =>
      have hd : DownOK s lv (some _) := hdown
      obtain ⟨m, hm, hdm, hkm⟩ := hdn
      show DownOK _ _ (some _)
      refine ⟨by rw [hmin, hd.1, hgb.1], ?_⟩
      intro e he
      rcases hmem2 e he with h3 | h3
      · refine ⟨m, hm, by rw [h3, hnew.2.2, hdm], ?_⟩
        have hlt := hal1 m (List.mem_append_left _ (mem_full_of_mem hm))
        rw [h3, hnew.1, (withNode_old s1 cur p k v down m hlt).1, hkm]
      · obtain ⟨e2, h4, h5, h6⟩ := hd.2 e h3
        refine ⟨e2, hgb.2.2.1 e2 h4, by rw [(hold e h3).2, h5], ?_⟩
        have hlt := hstr.1.alloc e2 (mem_full_of_mem h4)
        rw [(hold e h3).1, (withNode_old s1 cur p k v down e2 (by omega)).1, hfr.key e2 hlt, h6]
  · show (Level.full _ ++ nodesOf ls1).Nodup
    refine List.nodup_append.2 ⟨full_nodup_insert hndl l1 l2 _ hl hn_not, hrest.nodup, ?_⟩
    intro e he h3
    rcases (mem_full_insert lv l1 l2 _ hl e).1 he with h4 | h4
    · have := hal1 e h3; omega
    · exact hdisj1 e h4 h3
  · exact Frame.trans_s hfr hfr2 (fun e he => List.mem_append_right _ he)
      (fun e he => List.mem_append_left _ he)
  · intro lv2 hlv2 e he hk
    rcases List.mem_cons.1 hlv2 with h3 | h3
    · subst h3
      rcases hmem2 e he with h4 | h4
      · rw [h4]; exact hnew.2.1
      · rw [(hold e h4).1] at hk
        exact absurd hk (hno e h4)
    · have hlt := hal1 e (full_sub_nodes h3 e (mem_full_of_mem he))
      have h4 := withNode_old s1 cur p k v down e hlt
      rw [h4.1] at hk
      rw [h4.2.1]
      exact hrest.keyed lv2 h3 e he hk
  · intro lv2 hlv2 e he hge
    rcases List.mem_cons.1 hlv2 with h3 | h3
    · subst h3
      rcases hmem2 e he with h4 | h4
      · rw [h4]; exact hnew.1
      · have := hlv.alloc e (mem_full_of_mem h4); omega
    · have hlt := hal1 e (full_sub_nodes h3 e (mem_full_of_mem he))
      rw [(withNode_old s1 cur p k v down e hlt).1]
      exact hrest.fresh lv2 h3 e he hge
  · exact ⟨_, List.mem_cons_self _ _, s1.nextId, by simp, hnew.1⟩
  · exact Or.inr ⟨s1.nextId, rfl, ⟨_, _, rfl, by simp⟩, hnew.1⟩
  · rintro ⟨lv2, hlv2, e, he, hk⟩
    rcases List.mem_cons.1 hlv2 with h3 | h3
    · subst h3; exact absurd hk (hno e he)
    · exact absurd ⟨lv2, h3, e, he, hk⟩ hnp

end SkipList

end Dsjslib
namespace Dsjslib

namespace SkipList

/-! ## The skip list: running `insert_` -/

theorem insert_found (coins : Nat → Bool) (k : Int) (v : Val) (f start cur : Nat)
    (s s1 : SkipList) (h1 : advance s k (f + 1) (.obj start) = some (.obj cur))
    (h2 : compareFn s cur k = 0) (h3 : replace k v (f + 1) (.obj cur) s = some s1) :
    insert_ coins k v (f + 1) start s = .ok .undefined s1 := by
  simp only [insert_, h1, h2, if_true, h3]

theorem insert_bottom (coins : Nat → Bool) (k : Int) (v : Val) (f start cur p : Nat)
    (s : SkipList) (h1 : advance s k (f + 1) (.obj start) = some (.obj cur))
    (h2 : compareFn s cur k ≠ 0) (h3 : s.prev cur = .obj p)
    (h4 : (s.down p).truthy = false) (h5 : (s.down start).truthy = false) :
    insert_ coins k v (f + 1) start s = insert cur k v .undefined s := by
  simp only [insert_, h1, h2, if_false, h3]
  cases hd : s.down p with
  | obj d => rw [hd] at h4; cases h4
  | undefined => simp [h5]
  | null => simp [h5]

theorem insert_rec (coins : Nat → Bool) (k : Int) (v : Val) (f start cur p d : Nat)
    (s s1 : SkipList) (down : Link)
    (h1 : advance s k (f + 1) (.obj start) = some (.obj cur))
    (h2 : compareFn s cur k ≠ 0) (h3 : s.prev cur = .obj p) (h4 : s.down p = .obj d)
    (h5 : insert_ coins k v f d s = .ok down s1) (h6 : (s1.down start).truthy = true) :
    insert_ coins k v (f + 1) start s =
      if down.truthy then
        if coins s1.rnd then insert cur k v down { s1 with rnd := s1.rnd + 1 }
        else .ok .undefined { s1 with rnd := s1.rnd + 1 }
      else .ok .undefined s1 := by
  simp only [insert_, h1, h2, if_false, h3, h4, h5, h6, flip]
  rfl

theorem start_low {s : SkipList} {lv : Level} {k : Int} {l1 l2 : List Nat} {start : Nat}
    (hs : start ∈ lv.min :: lv.l) (hlow : start = lv.min ∨ keyD s start < k)
    (hl : lv.l = l1 ++ l2) (h2 : ∀ e ∈ l2, k ≤ keyD s e) : start ∈ lv.min :: l1 := by
  rcases hlow with h | h
  · rw [h]; exact List.mem_cons_self _ _
  · rcases List.mem_cons.1 hs with h3 | h3
    · rw [h3]; exact List.mem_cons_self _ _
    · rw [hl] at h3
      rcases List.mem_append.1 h3 with h4 | h4
      · exact List.mem_cons_of_mem _ h4
      · have := h2 start h4; omega

theorem found_key {s : SkipList} {lv : Level} (h : LevelOK s lv) {k : Int} {l1 l2 : List Nat}
    {cur : Nat} (hl : lv.l = l1 ++ l2) (hc : (l2 ++ [lv.max]).head? = some cur)
    (hcmp : compareFn s cur k = 0) : cur ∈ lv.l ∧ s.key cur = some k := by
  cases l2 with
  | nil =>
    simp only [List.nil_append, List.head?_cons, Option.some.injEq] at hc
    rw [← hc, compare_max h] at hcmp
    cases hcmp
  | cons a r =>
    simp only [List.cons_append, List.head?_cons, Option.some.injEq] at hc
    subst hc
    have ha : a ∈ lv.l := by rw [hl]; simp
    refine ⟨ha, ?_⟩
    rw [compare_plain h k a ha] at hcmp
    rw [key_of_keyD h a ha]
    split at hcmp
    · cases hcmp
    · split at hcmp
      · cases hcmp
      · congr 1; omega

theorem not_found {s : SkipList} {lv : Level} (h : LevelOK s lv) {k : Int} {l1 l2 : List Nat}
    {cur : Nat} (hl : lv.l = l1 ++ l2) (h1 : ∀ e ∈ l1, keyD s e < k)
    (h2 : ∀ e ∈ l2, k ≤ keyD s e) (hc : (l2 ++ [lv.max]).head? = some cur)
    (hcmp : compareFn s cur k ≠ 0) :
    (∀ e ∈ l2, k < keyD s e) ∧ ∀ e ∈ lv.l, s.key e ≠ some k := by
  have hstrict : ∀ e ∈ l2, k < keyD s e := by
    cases l2 with
    | nil => intro e he; cases he
    | cons a r =>
      simp only [List.cons_append, List.head?_cons, Option.some.injEq] at hc
      subst hc
      have ha : a ∈ lv.l := by rw [hl]; simp
      have h3 := h2 a (List.mem_cons_self _ _)
      have h4 : k < keyD s a := by
        rw [compare_plain h k a ha] at hcmp
        by_contra h5
        have : keyD s a = k := by omega
        simp [this] at hcmp
      intro e he
      rcases List.mem_cons.1 he with h5 | h5
      · rw [h5]; exact h4
      · have hs := h.sorted
        rw [hl] at hs
        have := (List.pairwise_cons.1 (List.pairwise_append.1 hs).2.1).1 e h5
        omega
  refine ⟨hstrict, ?_⟩
  intro e he hk
  have hkd : keyD s e = k := by simp [keyD, hk]
  rw [hl] at he
  rcases List.mem_append.1 he with h3 | h3
  · have := h1 e h3; omega
  · have := hstrict e h3; omega

theorem p_mem {lv : Level} {l1 l2 : List Nat} {p : Nat} (hl : lv.l = l1 ++ l2)
    (hp : (lv.min :: l1).getLast? = some p) : p = lv.min ∨ (p ∈ lv.l ∧ p ∈ l1) := by
  have : p ∈ lv.min :: l1 := List.mem_of_getLast?_eq_some hp
  rcases List.mem_cons.1 this with h | h
  · exact Or.inl h
  · exact Or.inr ⟨by rw [hl]; exact List.mem_append_left _ h, h⟩

theorem down_falsy {s : SkipList} {lv : Level} (hd : DownOK s lv none) (e : Nat)
    (he : e ∈ lv.min :: lv.l) : (s.down e).truthy = false := by
  rcases List.mem_cons.1 he with h | h
  · rw [h]; exact hd.1
  · exact hd.2 e h

theorem down_truthy {s : SkipList} {lv b : Level} (hd : DownOK s lv (some b)) (e : Nat)
    (he : e ∈ lv.min :: lv.l) : (s.down e).truthy = true := by
  rcases List.mem_cons.1 he with h | h
  · rw [h, hd.1]; rfl
  · obtain ⟨e2, _, h2, _⟩ := hd.2 e h
    rw [h2]; rfl

theorem down_start {s : SkipList} {lv b : Level} (hd : DownOK s lv (some b)) {k : Int}
    {l1 l2 : List Nat} {p : Nat} (hl : lv.l = l1 ++ l2) (h1 : ∀ e ∈ l1, keyD s e < k)
    (hp : (lv.min :: l1).getLast? = some p) :
    ∃ d, s.down p = .obj d ∧ d ∈ b.min :: b.l ∧ (d = b.min ∨ keyD s d < k) := by
  rcases p_mem hl hp with h | ⟨h, h3⟩
  · exact ⟨b.min, by rw [h]; exact hd.1, List.mem_cons_self _ _, Or.inl rfl⟩
  · obtain ⟨e2, h4, h5, h6⟩ := hd.2 p h
    refine ⟨e2, h5, List.mem_cons_of_mem _ h4, Or.inr ?_⟩
    have := h1 p h3
    simp only [keyD, h6] at this ⊢
    exact this

end SkipList

end Dsjslib
namespace Dsjslib

namespace SkipList

theorem full_length_le (lv : Level) (rest : List Level) :
    lv.full.length + (nodesOf rest).length = (nodesOf (lv :: rest)).length := by
  simp [nodesOf]

theorem full_length_two (lv : Level) : 2 ≤ lv.full.length := by
  simp [Level.full]

/-- With enough fuel `insert_` returns and keeps the lists in order, with the key in them. -/
theorem insert_spec (coins : Nat → Bool) (k : Int) (v : Val) :
    ∀ (rest : List Level) (s : SkipList) (lv : Level), StackOK s (lv :: rest) →
      (nodesOf (lv :: rest)).Nodup → ∀ start ∈ lv.min :: lv.l,
      (start = lv.min ∨ keyD s start < k) →
      ∀ fuel, (nodesOf (lv :: rest)).length < fuel →
        ∃ res s2 ls2, insert_ coins k v fuel start s = .ok res s2 ∧
          InsertPost s (lv :: rest) k v res s2 ls2 := by
  intro rest
  induction rest with
  | nil =>
    intro s lv h hnd start hs hlow fuel hf
    obtain ⟨l1, l2, p, cur, hl, h1, h2, hp, hc, hprev, hnext, hadv⟩ := level_pos h.1 k
    obtain ⟨f, hfe⟩ : ∃ f, fuel = f + 1 := ⟨fuel - 1, by omega⟩
    subst hfe
    have hflen := full_length_le lv []
    have hadv2 := hadv start (start_low hs hlow hl h2) (f + 1) (by omega)
    by_cases hcmp : compareFn s cur k = 0
    · obtain ⟨hcl, hk⟩ := found_key h.1 hl hc hcmp
      obtain ⟨val2, hr, hv1, hv2⟩ := replace_spec k v [] s lv h cur hcl hk (f + 1)
        (by have := nodes_length [lv]; omega)
      exact ⟨.undefined, _, _, insert_found coins k v f start cur s _ hadv2 hcmp hr,
        post_replace h hnd cur hcl hk hv1 hv2⟩
    · obtain ⟨h2s, hno⟩ := not_found h.1 hl h1 h2 hc hcmp
      have hd : DownOK s lv none := h.2.1
      have hpm : p ∈ lv.min :: lv.l := by
        rcases p_mem hl hp with h3 | h3
        · rw [h3]; exact List.mem_cons_self _ _
        · exact List.mem_cons_of_mem _ h3.1
      have hcn : cur ≠ s.nextId := by
        have hcm : cur ∈ lv.full := by
          have : cur ∈ l2 ++ [lv.max] := List.mem_of_mem_head? hc
          simp only [Level.full, hl, List.mem_cons, List.mem_append, List.mem_singleton]
            at this ⊢
          tauto
        exact Nat.ne_of_lt (h.1.alloc cur hcm)
      refine ⟨.obj s.nextId, withNode s cur p k v .undefined, _, ?_,
        post_add h.1 hnd h.2.1 trivial hno (RestPost.empty_r s k v)
          (by rintro ⟨lv2, h3, _⟩; cases h3) l1 l2 p cur hl h1 h2s hp hc hprev hnext
          .undefined rfl⟩
      rw [insert_bottom coins k v f start cur p s hadv2 hcmp hprev (down_falsy hd p hpm)
        (down_falsy hd start hs)]
      exact insert_eq s cur p k v .undefined hprev hcn
  | cons b r ih =>
    intro s lv h hnd start hs hlow fuel hf
    obtain ⟨l1, l2, p, cur, hl, h1, h2, hp, hc, hprev, hnext, hadv⟩ := level_pos h.1 k
    obtain ⟨f, hfe⟩ : ∃ f, fuel = f + 1 := ⟨fuel - 1, by omega⟩
    subst hfe
    have hflen := full_length_le lv (b :: r)
    have hf2 := full_length_two lv
    have hadv2 := hadv start (start_low hs hlow hl h2) (f + 1) (by omega)
    by_cases hcmp : compareFn s cur k = 0
    · obtain ⟨hcl, hk⟩ := found_key h.1 hl hc hcmp
      obtain ⟨val2, hr, hv1, hv2⟩ := replace_spec k v (b :: r) s lv h cur hcl hk (f + 1)
        (by have := nodes_length (lv :: b :: r); omega)
      exact ⟨.undefined, _, _, insert_found coins k v f start cur s _ hadv2 hcmp hr,
        post_replace h hnd cur hcl hk hv1 hv2⟩
    · obtain ⟨h2s, hno⟩ := not_found h.1 hl h1 h2 hc hcmp
      have hd : DownOK s lv (some b) := h.2.1
      obtain ⟨d, hdp, hdm, hdlow⟩ := down_start hd hl h1 hp
      have hnd2 : (lv.full ++ nodesOf (b :: r)).Nodup := hnd
      obtain ⟨res1, s1, ls1, hrun, post1⟩ := ih s b h.2.2 (List.nodup_append.1 hnd2).2.1 d hdm
        hdlow f (by omega)
      have hcm : cur ∈ lv.full := by
        have : cur ∈ l2 ++ [lv.max] := List.mem_of_mem_head? hc
        simp only [Level.full, hl, List.mem_cons, List.mem_append, List.mem_singleton] at this ⊢
        tauto
      have hsm : start ∈ lv.full := by
        simp only [Level.full, List.mem_cons, List.mem_append] at hs ⊢
        tauto
      have hds : (s1.down start).truthy = true := by
        rw [post1.rest.frame.down start (h.1.alloc start hsm)]
        exact down_truthy hd start hs
      have hrec := insert_rec coins k v f start cur p d s s1 res1 hadv2 hcmp hprev hdp hrun hds
      rcases post1.ret with hres | ⟨m, hres, ⟨b2, r2, hls1, hm⟩, hkm⟩
      · subst hres
        refine ⟨.undefined, s1, lv :: ls1, ?_,
          post_keep h.1 hnd h.2.1 h.2.2 hno post1.rest post1.present⟩
        rw [hrec]; rfl
      · subst hres
        have hnp : ¬ Present s (b :: r) k := fun h3 => by
          have := post1.old h3
          cases this
        by_cases hcoin : coins s1.rnd = true
        · have hrest := post1.rest.flip (s1.rnd + 1)
          have hdisj : cur ∉ nodesOf (b :: r) :=
            fun h3 => (List.nodup_append.1 hnd2).2.2 hcm h3
          have hprev1 : s1.prev cur = .obj p := by
            rw [post1.rest.frame.prev cur (h.1.alloc cur hcm) hdisj]; exact hprev
          have hcn : cur ≠ s1.nextId := by
            have := h.1.alloc cur hcm
            have := post1.rest.frame.nextId
            omega
          refine ⟨.obj s1.nextId, withNode { s1 with rnd := s1.rnd + 1 } cur p k v (.obj m), _,
            ?_, post_add h.1 hnd h.2.1 h.2.2 hno hrest hnp l1 l2 p cur hl h1 h2s hp hc hprev
              hnext (.obj m) ?_⟩
          · rw [hrec]
            simp only [Link.truthy, hcoin, if_true]
            exact insert_eq { s1 with rnd := s1.rnd + 1 } cur p k v (.obj m) hprev1 hcn
          · rw [hls1]
            exact ⟨m, hm, rfl, hkm⟩
        · refine ⟨.undefined, { s1 with rnd := s1.rnd + 1 }, lv :: ls1, ?_,
            post_keep h.1 hnd h.2.1 h.2.2 hno (post1.rest.flip (s1.rnd + 1)) post1.present⟩
          rw [hrec]
          simp only [Link.truthy, hcoin, if_true]
          rfl

end SkipList

end Dsjslib
namespace Dsjslib

namespace SkipList

/-! ## The skip list: `search_` -/

theorem search_found (k : Int) (f start cur : Nat) (s : SkipList)
    (h1 : advance s k (f + 1) (.obj start) = some (.obj cur)) (h2 : compareFn s cur k = 0) :
    search_ k (f + 1) start s = .ok (some (k, s.value cur)) s := by
  simp only [search_, h1, h2, if_true]

theorem search_bottom (k : Int) (f start cur p : Nat) (s : SkipList)
    (h1 : advance s k (f + 1) (.obj start) = some (.obj cur)) (h2 : compareFn s cur k ≠ 0)
    (h3 : s.prev cur = .obj p) (h4 : (s.down p).truthy = false) :
    search_ k (f + 1) start s = .ok none s := by
  simp only [search_, h1, h2, if_false, h3]
  cases hd : s.down p with
  | obj d => rw [hd] at h4; cases h4
  | undefined => rfl
  | null => rfl

theorem search_rec (k : Int) (f start cur p d : Nat) (s : SkipList)
    (h1 : advance s k (f + 1) (.obj start) = some (.obj cur)) (h2 : compareFn s cur k ≠ 0)
    (h3 : s.prev cur = .obj p) (h4 : s.down p = .obj d) :
    search_ k (f + 1) start s = search_ k f d s := by
  simp only [search_, h1, h2, if_false, h3, h4]

/-- With enough fuel `search_` returns the value of a node with the key, or nothing when the
lists have no such node. -/
theorem search_spec (k : Int) :
    ∀ (rest : List Level) (s : SkipList) (lv : Level), StackOK s (lv :: rest) →
      ∀ start ∈ lv.min :: lv.l, (start = lv.min ∨ keyD s start < k) →
      ∀ fuel, (nodesOf (lv :: rest)).length < fuel →
        ∃ r, search_ k fuel start s = .ok r s ∧
          ((∃ lv2 ∈ lv :: rest, ∃ e ∈ lv2.l, s.key e = some k ∧ r = some (k, s.value e)) ∨
            (¬ Present s (lv :: rest) k ∧ r = none)) := by
  intro rest
  induction rest with
  | nil =>
    intro s lv h start hs hlow fuel hf
    obtain ⟨l1, l2, p, cur, hl, h1, h2, hp, hc, hprev, hnext, hadv⟩ := level_pos h.1 k
    obtain ⟨f, hfe⟩ : ∃ f, fuel = f + 1 := ⟨fuel - 1, by omega⟩
    subst hfe
    have hflen := full_length_le lv []
    have hadv2 := hadv start (start_low hs hlow hl h2) (f + 1) (by omega)
    by_cases hcmp : compareFn s cur k = 0
    · obtain ⟨hcl, hk⟩ := found_key h.1 hl hc hcmp
      exact ⟨_, search_found k f start cur s hadv2 hcmp,
        Or.inl ⟨lv, List.mem_cons_self _ _, cur, hcl, hk, rfl⟩⟩
    · obtain ⟨_, hno⟩ := not_found h.1 hl h1 h2 hc hcmp
      have hd : DownOK s lv none := h.2.1
      have hpm : p ∈ lv.min :: lv.l := by
        rcases p_mem hl hp with h3 | h3
        · rw [h3]; exact List.mem_cons_self _ _
        · exact List.mem_cons_of_mem _ h3.1
      refine ⟨none, search_bottom k f start cur p s hadv2 hcmp hprev (down_falsy hd p hpm),
        Or.inr ⟨?_, rfl⟩⟩
      rintro ⟨lv2, hlv2, e, he, hk⟩
      simp only [List.mem_singleton] at hlv2
      subst hlv2
      exact hno e he hk
  | cons b r ih =>
    intro s lv h start hs hlow fuel hf
    obtain ⟨l1, l2, p, cur, hl, h1, h2, hp, hc, hprev, hnext, hadv⟩ := level_pos h.1 k
    obtain ⟨f, hfe⟩ : ∃ f, fuel = f + 1 := ⟨fuel - 1, by omega⟩
    subst hfe
    have hflen := full_length_le lv (b :: r)
    have hf2 := full_length_two lv
    have hadv2 := hadv start (start_low hs hlow hl h2) (f + 1) (by omega)
    by_cases hcmp : compareFn s cur k = 0
    · obtain ⟨hcl, hk⟩ := found_key h.1 hl hc hcmp
      exact ⟨_, search_found k f start cur s hadv2 hcmp,
        Or.inl ⟨lv, List.mem_cons_self _ _, cur, hcl, hk, rfl⟩⟩
    · obtain ⟨_, hno⟩ := not_found h.1 hl h1 h2 hc hcmp
      have hd : DownOK s lv (some b) := h.2.1
      obtain ⟨d, hdp, hdm, hdlow⟩ := down_start hd hl h1 hp
      obtain ⟨res, hrun, hres⟩ := ih s b h.2.2 d hdm hdlow f (by omega)
      refine ⟨res, by rw [search_rec k f start cur p d s hadv2 hcmp hprev hdp]; exact hrun, ?_⟩
      rcases hres with ⟨lv2, hlv2, e, he, hk, hr⟩ | ⟨hnp, hr⟩
      · exact Or.inl ⟨lv2, List.mem_cons_of_mem _ hlv2, e, he, hk, hr⟩
      · refine Or.inr ⟨?_, hr⟩
        rintro ⟨lv2, hlv2, e, he, hk⟩
        rcases List.mem_cons.1 hlv2 with h3 | h3
        · subst h3; exact hno e he hk
        · exact hnp ⟨lv2, h3, e, he, hk⟩

/-- On a skip list that holds the map `M`, `get(k)` returns `{key: k, value: M k}`, or
`undefined` when `M` has no value for `k`. -/
theorem get_spec {s : SkipList} {ls : List Level} {M : Int → Option Val} (h : Inv s ls M)
    (k : Int) (fuel : Nat) (hf : (nodesOf ls).length < fuel) :
    get fuel k s = .ok ((M k).map fun v => (k, v)) s := by
  obtain ⟨lv, rest, hls, htop⟩ := h.top
  subst hls
  obtain ⟨r, hrun, hres⟩ := search_spec k rest s lv h.stack lv.min (List.mem_cons_self _ _)
    (Or.inl rfl) fuel hf
  rw [get, htop, hrun]
  rcases hres with ⟨lv2, hlv2, e, he, hk, hr⟩ | ⟨hnp, hr⟩
  · have := h.vals lv2 hlv2 e he
    simp only [keyD, hk, Option.getD_some] at this
    rw [hr, this]; rfl
  · have : M k = none := by
      by_contra h3
      exact hnp (h.dom k h3)
    rw [hr, this]; rfl

end SkipList

end Dsjslib
namespace Dsjslib

namespace SkipList

/-! ## The skip list: `put` -/

/-- After `insert_(k, v, top)` the skip list holds the map with `v` under `k`. -/
theorem inv_of_post {s s2 : SkipList} {ls ls2 : List Level} {M : Int → Option Val} {k : Int}
    {v : Val} {res : Link} (h : Inv s ls M) (post : InsertPost s ls k v res s2 ls2) :
    Inv s2 ls2 (Function.update M k (some v)) := by
  have hfr := post.rest.frame
  refine ⟨post.rest.stack, post.rest.nodup, ?_, ?_, ?_⟩
  · obtain ⟨lv, rest, hls, htop⟩ := h.top
    subst hls
    cases hg : post.rest.grow with
    | cons hgb hgr => exact ⟨_, _, rfl, by rw [post.rest.top, htop, hgb.1]⟩
  · intro lv2 hlv2 e he
    have hplain := (post.rest.stack.level lv2 hlv2).plain e he
    obtain ⟨kk, hkk⟩ := Option.isSome_iff_exists.1 hplain.2.2
    have hkd : keyD s2 e = kk := by simp [keyD, hkk]
    rw [hkd]
    by_cases hk : kk = k
    · subst hk
      rw [Function.update_same, post.rest.keyed lv2 hlv2 e he hkk]
    · obtain ⟨lv, hlv, hgr⟩ := grow_level post.rest.grow lv2 hlv2
      have hel : e ∈ lv.l := by
        rcases hgr.2.2.2.1 e he with h3 | h3
        · exact h3
        · have := post.rest.fresh lv2 hlv2 e he h3
          rw [hkk] at this
          exact absurd (Option.some.inj this) hk
      have hlt := h.stack.alloc_lt e (full_sub_nodes hlv e (mem_full_of_mem hel))
      have hks : s.key e = some kk := by rw [← hfr.key e hlt]; exact hkk
      have hval : s2.value e = s.value e := by
        rcases hfr.value e hlt with h3 | ⟨_, h3, _⟩
        · exact h3
        · rw [hks] at h3
          exact absurd (Option.some.inj h3) hk
      have := h.vals lv hlv e hel
      have hkd2 : keyD s e = kk := by simp [keyD, hks]
      rw [hkd2] at this
      rw [Function.update_noteq hk, hval]
      exact this
  · intro k2 hk2
    by_cases hk : k2 = k
    · rw [hk]; exact post.present
    · rw [Function.update_noteq hk] at hk2
      exact Present.grow h.stack post.rest.grow hfr (h.dom k2 hk2)

theorem Inv.rnd_i {s : SkipList} {ls : List Level} {M : Int → Option Val} (h : Inv s ls M)
    (n : Nat) : Inv { s with rnd := n } ls M :=
  ⟨StackOK.frame_s (Frame.rnd_f s n [] 0 .undefined) h.stack (fun _ _ => List.not_mem_nil _),
    h.nodup, h.top, h.vals, h.dom⟩

theorem newList_eq (s : SkipList) :
    (let (newList, s2) := List_ s
     let s3 := { s2 with down := Function.update s2.down newList (.obj s2.top_) }
     { s3 with top_ := newList }) = withList s := by
  simp [List_, Node_, withList]

theorem putLoop_succ (coins : Nat → Bool) (k : Int) (v : Val) (fuel n : Nat) (topNode : Link)
    (s : SkipList) :
    putLoop coins k v fuel (n + 1) topNode s =
      if (coins s.rnd && topNode.truthy) = true then
        match insert_ coins k v fuel (withList { s with rnd := s.rnd + 1 }).top_
          (withList { s with rnd := s.rnd + 1 }) with
        | .ok t s5 => putLoop coins k v fuel n t s5
        | .thrown e s5 => .thrown e s5
        | .fuelOut => .fuelOut
      else .ok () { s with rnd := s.rnd + 1 } := by
  simp [putLoop, flip, List_, Node_, withList]

theorem putLoop_stop (coins : Nat → Bool) (k : Int) (v : Val) (fuel n : Nat) (topNode : Link)
    (s : SkipList) (h : (coins s.rnd && topNode.truthy) = false) :
    putLoop coins k v fuel (n + 1) topNode s = .ok () { s with rnd := s.rnd + 1 } := by
  rw [putLoop_succ, h]
  rfl

theorem putLoop_go (coins : Nat → Bool) (k : Int) (v : Val) (fuel n : Nat) (topNode t : Link)
    (s s5 : SkipList) (h : (coins s.rnd && topNode.truthy) = true)
    (hi : insert_ coins k v fuel (withList { s with rnd := s.rnd + 1 }).top_
      (withList { s with rnd := s.rnd + 1 }) = .ok t s5) :
    putLoop coins k v fuel (n + 1) topNode s = putLoop coins k v fuel n t s5 := by
  rw [putLoop_succ, h, if_pos rfl, hi]

theorem withList_old (s : SkipList) (e : Nat) (he : e < s.nextId) :
    (withList s).key e = s.key e ∧ (withList s).value e = s.value e ∧
      (withList s).next e = s.next e ∧ (withList s).prev e = s.prev e ∧
      (withList s).down e = s.down e ∧ (withList s).isMin e = s.isMin e ∧
      (withList s).isMax e = s.isMax e := by
  have h1 : e ≠ s.nextId := Nat.ne_of_lt he
  have h2 : e ≠ s.nextId + 1 := by omega
  simp [withList, Function.update_noteq h1, Function.update_noteq h2]

theorem withList_frame (s : SkipList) (X : List Nat) (k : Int) (v : Val) :
    Frame s (withList s) X k v :=
  ⟨Nat.le_add_right _ 2,
    fun e he => (withList_old s e he).1, fun e he => (withList_old s e he).2.2.2.2.2.1,
    fun e he => (withList_old s e he).2.2.2.2.2.2, fun e he => (withList_old s e he).2.2.2.2.1,
    fun e he => Or.inl (withList_old s e he).2.1, fun e he _ => (withList_old s e he).2.2.1,
    fun e he _ => (withList_old s e he).2.2.2.1⟩

end SkipList

end Dsjslib
namespace Dsjslib

namespace SkipList

/-- The skip list with one more, empty, list on top. -/
theorem inv_withList {s : SkipList} {ls : List Level} {M : Int → Option Val} (h : Inv s ls M) :
    Inv (withList s) ({ min := s.nextId, max := s.nextId + 1, l := [] } :: ls) M := by
  obtain ⟨lv, rest, hls, htop⟩ := h.top
  have hfr := withList_frame s [] 0 .undefined
  have hst : StackOK (withList s) ls := StackOK.frame_s hfr h.stack (fun _ _ => List.not_mem_nil _)
  have hne : s.nextId ≠ s.nextId + 1 := by omega
  refine ⟨⟨⟨?_, ?_, ?_, ?_, ?_, List.Pairwise.nil, ?_⟩, ?_, hst⟩, ?_, ⟨_, _, rfl, rfl⟩, ?_, ?_⟩
  · show List.Chain' _ [s.nextId, s.nextId + 1]
    refine List.chain'_pair.2 ⟨?_, ?_⟩
    · simp [withList]
    · simp [withList]
  · show (withList s).isMin s.nextId = true
    simp [withList, Function.update_noteq hne]
  · show (withList s).isMax (s.nextId + 1) = true
    simp [withList]
  · show (withList s).isMin (s.nextId + 1) = false
    simp [withList]
  · intro e he; cases he
  · intro e he
    show e < s.nextId + 2
    simp only [Level.full, List.nil_append, List.mem_cons, List.mem_singleton,
      List.not_mem_nil, or_false] at he
    omega
  · subst hls
    show DownOK (withList s) _ (some lv)
    refine ⟨?_, fun e he => by cases he⟩
    show (withList s).down s.nextId = .obj lv.min
    simp [withList, htop]
  · show ([s.nextId, s.nextId + 1] ++ nodesOf ls).Nodup
    refine List.nodup_append.2 ⟨by simp, h.nodup, ?_⟩
    intro e he h2
    have := h.stack.alloc_lt e h2
    simp only [List.mem_cons, List.mem_singleton, List.not_mem_nil, or_false] at he
    omega
  · intro lv2 hlv2 e he
    rcases List.mem_cons.1 hlv2 with h2 | h2
    · subst h2; cases he
    · have hlt := h.stack.alloc_lt e (full_sub_nodes h2 e (mem_full_of_mem he))
      have hold := withList_old s e hlt
      simp only [keyD, hold.1, hold.2.1]
      exact h.vals lv2 h2 e he
  · intro k hk
    obtain ⟨lv2, hlv2, e, he, hke⟩ := h.dom k hk
    have hlt := h.stack.alloc_lt e (full_sub_nodes hlv2 e (mem_full_of_mem he))
    exact ⟨lv2, List.mem_cons_of_mem _ hlv2, e, he, by rw [(withList_old s e hlt).1]; exact hke⟩

theorem nodes_cons_nil (a b : Nat) (ls : List Level) :
    (nodesOf ({ min := a, max := b, l := [] } :: ls)).length = (nodesOf ls).length + 2 := by
  simp only [nodesOf, Level.full, List.length_append, List.length_cons, List.length_nil,
    List.nil_append]
  omega

/-- With enough fuel `put(k, v)` returns, and the skip list then holds the map with `v` under
`k`; it has at most one more list. -/
theorem put_spec (coins : Nat → Bool) {s : SkipList} {ls : List Level} {M : Int → Option Val}
    (h : Inv s ls M) (k : Int) (v : Val) (fuel : Nat)
    (hf : (nodesOf ls).length + ls.length + 2 < fuel) :
    ∃ s2 ls2, put coins fuel k v s = .ok () s2 ∧ Inv s2 ls2 (Function.update M k (some v)) ∧
      ls2.length ≤ ls.length + 1 ∧
      (nodesOf ls2).length ≤ (nodesOf ls).length + 2 * ls.length + 3 := by
  obtain ⟨lv, rest, hls, htop⟩ := h.top
  subst hls
  obtain ⟨res, s1, ls1, hrun, post1⟩ := insert_spec coins k v rest s lv h.stack h.nodup lv.min
    (List.mem_cons_self _ _) (Or.inl rfl) fuel (by omega)
  have hinv1 := inv_of_post h post1
  have hlen1 := grow_length post1.rest.grow
  obtain ⟨n, hn⟩ : ∃ n, fuel = n + 2 := ⟨fuel - 2, by omega⟩
  have hput : put coins fuel k v s = putLoop coins k v fuel fuel res s1 := by
    rw [put, htop, hrun]
  by_cases hgo : (coins s1.rnd && res.truthy) = true
  · have hinv1r := hinv1.rnd_i (s1.rnd + 1)
    have hinvL := inv_withList hinv1r
    obtain ⟨res2, s5, ls5, hrun2, post2⟩ := insert_spec coins k v ls1
      (withList { s1 with rnd := s1.rnd + 1 }) _ hinvL.stack hinvL.nodup _
      (List.mem_cons_self _ _) (Or.inl rfl) fuel
      (by
        have := hlen1.2
        rw [nodes_cons_nil]
        simp only [List.length_cons] at this ⊢
        omega)
    have hres2 : res2 = .undefined :=
      post2.old (hinvL.dom k (by rw [Function.update_same]; exact fun h3 => by cases h3))
    subst hres2
    have hinv5 := inv_of_post hinvL post2
    rw [Function.update_idem] at hinv5
    have hlen5 := grow_length post2.rest.grow
    refine ⟨{ s5 with rnd := s5.rnd + 1 }, ls5, ?_, hinv5.rnd_i _, ?_, ?_⟩
    · rw [hput, hn, putLoop_go coins k v (n + 2) (n + 1) res .undefined s1 s5 hgo
        (by rw [← hn]; exact hrun2)]
      exact putLoop_stop coins k v (n + 2) n .undefined s5 (by simp [Link.truthy])
    · rw [hlen5.1]
      have := hlen1.1
      simp only [List.length_cons] at this ⊢
      omega
    · have h5 := hlen5.2
      have h1 := hlen1.2
      have h0 := hlen1.1
      rw [nodes_cons_nil] at h5
      simp only [List.length_cons] at h5 h1 h0 ⊢
      omega
  · refine ⟨{ s1 with rnd := s1.rnd + 1 }, ls1, ?_, hinv1.rnd_i _, by omega, by omega⟩
    rw [hput, hn]
    exact putLoop_stop coins k v (n + 2) (n + 1) res s1 (by simpa using hgo)

end SkipList

end Dsjslib
namespace Dsjslib

namespace SkipList

/-! ## The skip list: sequences of `put` -/

theorem inv_new : Inv SkipList.new [{ min := 0, max := 1, l := [] }] (fun _ => none) := by
  refine ⟨⟨⟨?_, rfl, rfl, rfl, ?_, List.Pairwise.nil, ?_⟩, ⟨rfl, ?_⟩, trivial⟩, ?_,
    ⟨_, _, rfl, rfl⟩, ?_, ?_⟩
  · show List.Chain' _ [0, 1]
    exact List.chain'_pair.2 ⟨rfl, rfl⟩
  · intro e he; cases he
  · intro e he
    show e < 2
    simp only [Level.full, List.nil_append, List.mem_cons, List.mem_singleton,
      List.not_mem_nil, or_false] at he
    omega
  · intro e he; cases he
  · show [0, 1].Nodup
    decide
  · intro lv hlv e he
    simp only [List.mem_singleton] at hlv
    subst hlv
    cases he
  · intro k hk
    exact absurd rfl hk

theorem lastPut_cons (k k2 : Int) (v : Val) (ops : List (Int × Val)) (M : Int → Option Val) :
    (match lastPut k ops with
      | some w => some w
      | none => Function.update M k2 (some v) k) =
    (match lastPut k ((k2, v) :: ops) with
      | some w => some w
      | none => M k) := by
  simp only [lastPut]
  cases lastPut k ops with
  | some w => rfl
  | none =>
    by_cases h : k2 = k
    · subst h; simp
    · have h2 : k ≠ k2 := fun h3 => h h3.symm
      simp [h, Function.update_noteq h2]

/-- With enough fuel a sequence of `put` calls returns, and the skip list then holds, for each
key, the value of the most recent `put`. -/
theorem run_spec (coins : Nat → Bool) (fuel : Nat) :
    ∀ (ops : List (Int × Val)) (s : SkipList) (ls : List Level) (M : Int → Option Val),
      Inv s ls M →
      (nodesOf ls).length + (2 * ls.length + 3) * ops.length + ops.length * ops.length < fuel →
      ∃ s2 ls2, runPuts coins fuel ops s = some s2 ∧
        Inv s2 ls2 (fun k => match lastPut k ops with
          | some w => some w
          | none => M k) ∧
        (nodesOf ls2).length < fuel := by
  intro ops
  induction ops with
  | nil =>
    intro s ls M h hf
    exact ⟨s, ls, rfl, h, by simpa using hf⟩
  | cons op ops ih =>
    intro s ls M h hf
    obtain ⟨k2, v⟩ := op
    have e1 : (2 * ls.length + 3) * (ops.length + 1) =
        (2 * ls.length + 3) * ops.length + (2 * ls.length + 3) := by ring
    have e2 : (ops.length + 1) * (ops.length + 1) =
        ops.length * ops.length + 2 * ops.length + 1 := by ring
    simp only [List.length_cons] at hf
    rw [e1, e2] at hf
    obtain ⟨s1, ls1, hput, hinv1, hL, hT⟩ := put_spec coins h k2 v fuel (by omega)
    have h3 : (2 * ls1.length + 3) * ops.length ≤ (2 * ls.length + 5) * ops.length :=
      Nat.mul_le_mul_right _ (by omega)
    have e3 : (2 * ls.length + 5) * ops.length =
        (2 * ls.length + 3) * ops.length + 2 * ops.length := by ring
    obtain ⟨s2, ls2, hrun, hinv2, hlt⟩ := ih s1 ls1 _ hinv1 (by omega)
    refine ⟨s2, ls2, by simp only [runPuts, hput, hrun], ?_, hlt⟩
    have hM : (fun k => match lastPut k ops with
        | some w => some w
        | none => Function.update M k2 (some v) k) =
      (fun k => match lastPut k ((k2, v) :: ops) with
        | some w => some w
        | none => M k) := funext fun k => lastPut_cons k k2 v ops M
    rw [← hM]
    exact hinv2

end SkipList

end Dsjslib
namespace Dsjslib

/-! ## The claims -/

/-- C6: the constructor fails with a configuration error exactly when a weigher is given without a
weight bound, or a weight bound without a weigher, or a weight bound with a weigher together
with a size bound; in every other case it returns an empty cache: size 0, weight 0, all
counters 0, nothing in the mapping. -/
theorem c6_configuration_validation (cs : CacheSpec) :
    ((∃ msg, Cache.new cs = .error (.error msg)) ↔
      ((cs.weigherFunction.isSome ∧ ¬ Bound cs.maximumWeight) ∨
       (Bound cs.maximumWeight ∧ cs.weigherFunction.isSome = false) ∨
       (Bound cs.maximumWeight ∧ cs.weigherFunction.isSome ∧ Bound cs.maximumSize))) ∧
    ((∃ msg, Cache.new cs = .error (.error msg)) ∨
      ∃ c, Cache.new cs = .ok c ∧ c.size = 0 ∧ c.weight = 0 ∧ c.stats = Stats.mk 0 0 0 ∧
        (∀ k, c._cache k = none) ∧ c.events = []) := by
  have hb : ∀ x : Option Int, Bound x ↔
      (match x with | some w => decide (w > -1) | none => false) = true := by
    intro x
    cases x with
    | none => simp [Bound]
    | some w => simp [Bound]
  have hnew : ∀ s, Cache.configure cs = .ok s → ∃ c, Cache.new cs = .ok c ∧ c.size = 0 ∧
      c.weight = 0 ∧ c.stats = Stats.mk 0 0 0 ∧ (∀ k, c._cache k = none) ∧ c.events = [] := by
    intro s hs
    exact ⟨initState (Cache.blank s), by simp only [Cache.new, hs, init_eq], rfl, rfl, rfl,
      fun _ => rfl, rfl⟩
  have hnewe : ∀ e, Cache.configure cs = .error e → Cache.new cs = .error e := by
    intro e he; simp only [Cache.new, he]
  rw [hb cs.maximumWeight, hb cs.maximumSize]
  cases hW : (match cs.maximumWeight with | some w => decide (w > -1) | none => false) <;>
  cases hF : cs.weigherFunction.isSome <;>
  cases hS : (match cs.maximumSize with | some w => decide (w > -1) | none => false)
  all_goals
    first
    | (have hc : ∃ s, Cache.configure cs = .ok s := by
        simp only [Cache.configure, hW, hF, hS]; simp
       obtain ⟨s, hs⟩ := hc
       obtain ⟨c, h1, h2⟩ := hnew s hs
       refine ⟨?_, Or.inr ⟨c, h1, h2⟩⟩
       simp [h1])
    | (have hc : ∃ msg, Cache.configure cs = .error (.error msg) := by
        simp only [Cache.configure, hW, hF, hS]; simp
       obtain ⟨msg, hs⟩ := hc
       have h1 := hnewe _ hs
       refine ⟨?_, Or.inl ⟨msg, h1⟩⟩
       simp [h1])

/-- C7 (fails on the code): weight mode with `maximumWeight = 10`; after `put('a', 100)` and
`put('a', 1)` the eviction step of `put('b', 2)` evicts `a` and ends with the weight 99, above
the bound; the put ends with the weight 101. -/
theorem c7_weight_above_bound_after_eviction :
    (Cache._cleanup 0 9 true (allocEntry 0 "b" (.num 2) Example.overwritten)).value? = some () ∧
    ((Cache._cleanup 0 9 true (allocEntry 0 "b" (.num 2) Example.overwritten)).stateD
      Example.overwritten).weight = 99 ∧
    ((Cache._cleanup 0 9 true (allocEntry 0 "b" (.num 2) Example.overwritten)).stateD
      Example.overwritten)._cache "a" = none ∧
    Example.overwritten._cache "a" = some 1 ∧
    ((Cache.put 0 9 "b" (.num 2) Example.overwritten).stateD Example.overwritten).weight =
      101 := by
  decide

/-- C8 (fails on the code): weight mode; after `put('a', 1)` and `put('a', 5)` the only entry is
`a` with the value 5, which weighs 5, and the field `weight` is 1. -/
theorem c8_weight_not_adjusted_on_overwrite :
    Example.reweighed.weight = 1 ∧ Example.reweighed.size = 1 ∧
    Example.reweighed._cache "a" = some 1 ∧
    Example.reweighed.heap.value 1 = .num 5 ∧
    Example.weigher "a" (Example.reweighed.heap.value 1) = 5 := by
  decide

/-- C9 (fails on the code): after the reload of the expired entry `k` completes with the value 7
at time 2000, the entry holds 7 but its `writeTime` is still 0, it is still expired, and the next
`get('k', cb)` at time 2000 calls the loader again instead of the callback. -/
theorem c9_reload_keeps_writeTime :
    Example.reloadedOnce._cache "k" = some 2 ∧
    Example.reloadedOnce.heap.value 2 = .num 7 ∧
    Example.reloadedOnce.heap.writeTime 2 = some 0 ∧
    Entry.isExpired 2 2000 Example.reloadedOnce = true ∧
    Example.reloadedOnce.events =
      [Event.loader "k" (some 2), Event.callback .undefined (.num 7)] ∧
    ((Cache.get 2000 "k" true false Example.reloadedOnce).stateD Example.reloadedOnce).events =
      [Event.loader "k" (some 2), Event.callback .undefined (.num 7),
       Event.loader "k" (some 2)] := by
  decide

/-- C10: when the loader of a `get` completes with a truthy error, for an expired entry as well
as for an absent key, the callback is called once with that error and nothing else changes: the
state afterwards is the state before with the one call of the callback recorded. -/
theorem c10_loader_failure (c : Cache) (now fuel entry : Nat) (key : String)
    (error result : Val) (h : error.truthy = true) :
    Cache.reloaded entry true error result c =
      .ok () { c with events := c.events ++ [Event.callback error result] } ∧
    Cache.loaded now fuel key true error result c =
      .ok () { c with events := c.events ++ [Event.callback error result] } :=
  ⟨reloaded_error entry true error result c h, loaded_error now fuel key true error result c h⟩

theorem c10_loader_failure_witness :
    (Val.error "load failed").truthy = true ∧
    (Cache.reloaded 2 true (.error "load failed") .undefined Example.written =
      .ok () { Example.written with
        events := Example.written.events ++
          [Event.callback (.error "load failed") .undefined] } ∧
    Cache.loaded 0 9 "x" true (.error "load failed") .undefined Example.written =
      .ok () { Example.written with
        events := Example.written.events ++
          [Event.callback (.error "load failed") .undefined] }) :=
  ⟨by decide, c10_loader_failure Example.written 0 9 2 "x" (.error "load failed") .undefined
    (by decide)⟩

/-- C11 (fails on the code): `invalidateAll` is `_init`, which defines `stats` anew: after one
`get` with `requestCount = 1` and `missCount = 1`, `invalidateAll()` leaves all counters 0. -/
theorem c11_invalidateAll_resets_stats :
    Example.missedOnce.stats = Stats.mk 0 1 1 ∧
    (Cache.invalidateAll Example.missedOnce).value? = some () ∧
    ((Cache.invalidateAll Example.missedOnce).stateD Example.missedOnce).stats =
      Stats.mk 0 0 0 := by
  decide

/-- C12 (fails on the code): `invalidate` of a key that is not in the mapping throws a
`TypeError`. -/
theorem c12_invalidate_absent_throws :
    Example.written._cache "other" = none ∧
    (Cache.invalidate "other" Example.written).error? = some Val.typeError := by
  decide

/-- C15 (fails on the code): with a one second expiry and no loader, the entry written at time 0
is read at time 2000: it is expired and removed, the callback gets an absent value, and
`missCount` is still 0. -/
theorem c15_expired_read_not_counted_as_miss :
    Entry.isExpired 2 2000 Example.written = true ∧
    ((Cache.get 2000 "k" true false Example.written).stateD Example.written).stats =
      Stats.mk 0 0 1 ∧
    ((Cache.get 2000 "k" true false Example.written).stateD Example.written).events =
      [Event.callback .null .undefined] ∧
    ((Cache.getIfPresent 2000 "k" Example.written).stateD Example.written).stats =
      Stats.mk 0 0 1 := by
  decide

/-- C16 (fails on the code): `getIfPresent` of the present, unexpired key `k`, which holds 1,
returns `undefined`. -/
theorem c16_getIfPresent_returns_undefined :
    Example.written._cache "k" = some 2 ∧ Example.written.heap.value 2 = .num 1 ∧
    Entry.isExpired 2 500 Example.written = false ∧
    (Cache.getIfPresent 500 "k" Example.written).value? = some Val.undefined := by
  decide

/-- C19 (fails on the code): after `put(16, 'sVal'); put(29, 'zzz'); put(29, 'newvalfor29')` the
call `get(29)` returns the value `'zzz'` of the first put: the second put made a second node. -/
theorem c19_put_existing_key_not_replaced :
    BinarySearchTree.get 20 29 Example.twice29 =
      .ok (.kv 29 (.str "zzz")) Example.twice29 := by
  decide

/-- C20 (fails on the code): `successor` of the key of the root throws a `TypeError`. -/
theorem c20_successor_of_root_throws :
    BinarySearchTree.successor 20 16 Example.twice29 = .thrown .typeError Example.twice29 ∧
    BinarySearchTree.successor 20 1 Example.single = .thrown .typeError Example.single := by
  decide

/-- C21 (fails on the code): `predecessor` of a left child that has a left child throws a
`ReferenceError`, and `predecessor` of the key of the root throws a `TypeError`. -/
theorem c21_predecessor_throws :
    BinarySearchTree.predecessor 20 3 Example.leftSpine =
      .thrown .referenceError Example.leftSpine ∧
    BinarySearchTree.predecessor 20 5 Example.leftSpine =
      .thrown .typeError Example.leftSpine := by
  decide

/-- C22 (fails on the code): `delete` of the only key leaves the root, so that `get` still finds
the key; `delete` of the key 3 with two children gives the successor key 5 the value of 3. -/
theorem c22_delete_root_and_two_children :
    BinarySearchTree.delete 20 1 Example.single = .ok () Example.single ∧
    BinarySearchTree.get 20 1 Example.single = .ok (.kv 1 (.str "a")) Example.single ∧
    BinarySearchTree.get 20 5 Example.twoChildren =
      .ok (.kv 5 (.str "five")) Example.twoChildren ∧
    BinarySearchTree.get 20 5
        (Example.treeAfter (BinarySearchTree.delete 20 3 Example.twoChildren)) =
      .ok (.kv 5 (.str "three"))
        (Example.treeAfter (BinarySearchTree.delete 20 3 Example.twoChildren)) := by
  decide

/-- C25 (fails on the code): a loader is called for the absent key `k`, `put('k', 1)` follows,
and the loader completes with 2: then `size` is 2, the mapping holds the one key `k`, and the
access queue holds the two entries 3 and 2, both with the key `k`. -/
theorem c25_size_counts_entry_twice :
    Example.raced.size = 2 ∧ Example.raced._cache "k" = some 3 ∧
    (∀ k, Example.raced._cache k ≠ none → k = "k") ∧
    Example.raced._accessQueue = Queue.mk 3 0 ∧
    Example.raced.heap.next .A 3 = .obj 2 ∧ Example.raced.heap.next .A 2 = .obj 0 ∧
    Example.raced.heap.key 3 = some "k" ∧ Example.raced.heap.key 2 = some "k" := by
  refine ⟨by decide, by decide, ?_, by decide, by decide, by decide, by decide, by decide⟩
  intro k hk
  have h : Example.raced._cache =
      Function.update (Function.update (fun _ => none) "k" (some 2)) "k" (some 3) := rfl
  rw [h] at hk
  by_contra hne
  apply hk
  rw [Function.update_noteq hne, Function.update_noteq hne]

end Dsjslib
namespace Dsjslib

/-- C3 (fails after a loader race): on a cache with `{expiresAfterWrite: 1, loaderFunction: f}`
and no capacity setting, `get('k', cb)` misses and calls the loader, `put('k', 1)` follows, and
the loader completes with `(undefined, 2)`.  In the state so reached `put('k', 9)` at time 5000
returns normally; its expiry scan removes the older entry of `'k'`, and with it the key leaves
the mapping.  The `get('k', cb)` that follows at the same time misses: it calls the loader, and
the callback is never called with `(null, 9)`. -/
theorem c3_round_trip_lost_after_race :
    Reachable Example.raced ∧ Example.raced._spec.maxSize = none ∧
    Example.raced._spec.maxWeight = none ∧ (Val.num 9).legal ∧
    Example.raced.events = [Event.loader "k" none, Event.callback .undefined (.num 2)] ∧
    ∃ c1 c2, Cache.put 5000 9 "k" (.num 9) Example.raced = .ok .undefined c1 ∧
      c1._cache "k" = none ∧
      Cache.get 5000 "k" true false c1 = .ok .undefined c2 ∧
      c2.events = [Event.loader "k" none, Event.callback .undefined (.num 2),
        Event.loader "k" none] ∧
      c2._cache "k" = none := by
  refine ⟨reachable_raced, by decide, by decide, by decide, by decide, ?_⟩
  obtain ⟨c1, h1, hc, he, hs, _⟩ := raced_put
  have hk : c1._cache "k" = none := by rw [hc]; simp
  refine ⟨c1, _, h1, hk, get_miss 5000 "k" true false c1 hk, ?_, hk⟩
  show c1.events ++ (if c1._spec.loaderFn && !false then [Event.loader "k" none] else []) = _
  rw [he, hs]
  decide

/-- C4: with `expiresAfterWrite = d > 0` seconds and no loader, a `get(key, cb)` of an entry
written at `t0` that is made later than `t0 + d * 1000` ms calls `cb` with `(null, undefined)`,
takes the entry out of the mapping and of both queues, lowers `size` by 1 and notifies the
removal listener (if there is one) once with the cause `'expired'`; a `get` up to that time
calls `cb` with the stored value and leaves the mapping and `size` as they are. -/
theorem c4_lazy_expiry (c : Cache) (hwf : WF c) (d : Int) (hd : 0 < d)
    (hexp : c._spec.expiresAfterWrite = some (d * 1000)) (hl : c._spec.loaderFn = false)
    (key : String) (e t0 : Nat) (hk : c._cache key = some e)
    (hw : c.heap.writeTime e = some t0) (t : Nat) :
    ((t : Int) - t0 > d * 1000 →
      ∃ c2 la2 lw2, Cache.get t key true false c = .ok .undefined c2 ∧
        c2.events = c.events ++
          (if c._spec.onRemove then [Event.onRemove key (c.heap.value e) "expired"] else []) ++
          [Event.callback .null .undefined] ∧
        c2._cache = Function.update c._cache key none ∧ c2.size = c.size - 1 ∧
        Rep c2 la2 lw2 ∧ e ∉ la2 ∧ e ∉ lw2 ∧ c2._writeQueue.isSome) ∧
    ((t : Int) - t0 ≤ d * 1000 →
      ∃ c2, Cache.get t key true false c = .ok .undefined c2 ∧
        c2.events = c.events ++ [Event.callback .null (c.heap.value e)] ∧
        c2._cache = c._cache ∧ c2.size = c.size) := by
  obtain ⟨la, lw, hr, hst⟩ := hwf
  have hke : c.heap.key e = some key := (hr.map key e hk).2
  have hd2 : d * 1000 ≠ 0 := by omega
  have hd3 : 0 < d * 1000 := by omega
  constructor
  · intro ht
    have hx : Entry.isExpired e t c = true := by
      simp only [Entry.isExpired, hexp, hw]
      simp [hd2, hd3]; exact ht
    obtain ⟨c2, h1, hr2, _, hs2, hc2, hz2, he2⟩ :=
      get_expired_spec t key true false c la lw hr e hk hx (by simp [hl])
    have hws : c._writeQueue.isSome := by
      rw [hr.wq, hexp]; simpa using hd2
    obtain ⟨Qw, hQ⟩ := Option.isSome_iff_exists.1 hws
    refine ⟨c2, la.erase e, lw.erase e, h1, ?_, hc2, hz2, hr2, ?_, ?_, ?_⟩
    · rw [he2]
      by_cases ho : c._spec.onRemove = true
      · simp [notes, ho, hke, propKey, cbEvents, _REMOVAL_CAUSE_E]
      · simp [notes, ho, cbEvents]
    · exact fun h2 => ((List.Nodup.mem_erase_iff hr.qa.nodup).1 h2).1 rfl
    · exact fun h2 => ((List.Nodup.mem_erase_iff (hr.qw Qw hQ).1.nodup).1 h2).1 rfl
    · rw [hs2.wq]; exact hws
  · intro ht
    have hx : Entry.isExpired e t c = false := by
      simp only [Entry.isExpired, hexp, hw]
      simp [hd2, hd3]; omega
    obtain ⟨c2, h1, _, _, _, hc2, hz2, _, he2, _⟩ :=
      get_hit_spec t key true false c la lw hr e hk hx
    exact ⟨c2, h1, by rw [he2]; rfl, hc2, hz2⟩

theorem c4_lazy_expiry_witness :
    WF Example.written ∧ (0 : Int) < 1 ∧
    Example.written._spec.expiresAfterWrite = some (1 * 1000) ∧
    Example.written._spec.loaderFn = false ∧ Example.written._cache "k" = some 2 ∧
    Example.written.heap.writeTime 2 = some 0 ∧
    (((1500 : Nat) : Int) - (0 : Nat) > 1 * 1000 →
      ∃ c2 la2 lw2, Cache.get 1500 "k" true false Example.written = .ok .undefined c2 ∧
        c2.events = Example.written.events ++
          (if Example.written._spec.onRemove then
            [Event.onRemove "k" (Example.written.heap.value 2) "expired"] else []) ++
          [Event.callback .null .undefined] ∧
        c2._cache = Function.update Example.written._cache "k" none ∧
        c2.size = Example.written.size - 1 ∧
        Rep c2 la2 lw2 ∧ 2 ∉ la2 ∧ 2 ∉ lw2 ∧ c2._writeQueue.isSome) ∧
    (((1500 : Nat) : Int) - (0 : Nat) ≤ 1 * 1000 →
      ∃ c2, Cache.get 1500 "k" true false Example.written = .ok .undefined c2 ∧
        c2.events = Example.written.events ++
          [Event.callback .null (Example.written.heap.value 2)] ∧
        c2._cache = Example.written._cache ∧ c2.size = Example.written.size) :=
  ⟨wf_written, by decide, by decide, by decide, by decide, by decide,
    c4_lazy_expiry Example.written wf_written 1 (by decide) (by decide) (by decide) "k" 2 0
      (by decide) (by decide) 1500⟩

/-- C14: on a well-formed state every `get` and `getIfPresent` raises `requestCount` by 1 and
raises `hitCount` by 1 when the key is present and not expired, by 0 otherwise; `put`,
`invalidate` and the loader completions leave `stats` as it is. -/
theorem c14_request_and_hit_counters (c : Cache) (hwf : WF c) (fuel : Nat)
    (hf : c.size < fuel) :
    (∀ now key callback suppressLoad,
      ∃ c2, Cache.get now key callback suppressLoad c = .ok .undefined c2 ∧
        c2.stats.requestCount = c.stats.requestCount + 1 ∧
        c2.stats.hitCount = c.stats.hitCount +
          (match c._cache key with
           | some e => if Entry.isExpired e now c then 0 else 1
           | none => 0)) ∧
    (∀ now key,
      ∃ c2, Cache.getIfPresent now key c = .ok .undefined c2 ∧
        c2.stats.requestCount = c.stats.requestCount + 1 ∧
        c2.stats.hitCount = c.stats.hitCount +
          (match c._cache key with
           | some e => if Entry.isExpired e now c then 0 else 1
           | none => 0)) ∧
    (∀ now key value,
      ∃ c2, (Cache.put now fuel key value c).state? = some c2 ∧ c2.stats = c.stats) ∧
    (∀ key, ∃ c2, (Cache.invalidate key c).state? = some c2 ∧ c2.stats = c.stats) ∧
    (∀ e callback error result, (c.heap.key e).isSome →
      ∃ c2, Cache.reloaded e callback error result c = .ok () c2 ∧ c2.stats = c.stats) ∧
    (∀ now key callback error result,
      ∃ c2, Cache.loaded now fuel key callback error result c = .ok () c2 ∧
        c2.stats = c.stats) := by
  obtain ⟨la, lw, hr, hst⟩ := hwf
  have hlen := WF.fuel hr fuel hf
  refine ⟨?_, ?_, ?_, ?_, ?_, ?_⟩
  · intro now key callback suppressLoad
    obtain ⟨c2, h1, h2, h3, _⟩ := get_stats now key callback suppressLoad c la lw hr
    exact ⟨c2, h1, h2, h3⟩
  · intro now key
    obtain ⟨c2, h1, h2, h3, _⟩ := get_stats now key false true c la lw hr
    exact ⟨c2, h1, h2, h3⟩
  · intro now key value
    exact put_stats now fuel key value c la lw hr hlen
  · intro key
    exact invalidate_stats key c la lw hr
  · intro e callback error result hkey
    obtain ⟨c2, la2, lw2, h1, _, _, h2, _⟩ :=
      reloaded_spec e callback error result c la lw hr hkey
    exact ⟨c2, h1, h2⟩
  · intro now key callback error result
    obtain ⟨c2, la2, lw2, h1, _, _, h2, _⟩ :=
      loaded_spec now fuel key callback error result c la lw hr hlen
    exact ⟨c2, h1, h2⟩

theorem c14_request_and_hit_counters_witness :
    WF Example.written ∧ Example.written.size < (9 : Nat) ∧
    ∃ c2, Cache.get 500 "k" true false Example.written = .ok .undefined c2 ∧
      c2.stats.requestCount = Example.written.stats.requestCount + 1 ∧
      c2.stats.hitCount = Example.written.stats.hitCount +
        (match Example.written._cache "k" with
         | some e => if Entry.isExpired e 500 Example.written then 0 else 1
         | none => 0) :=
  ⟨wf_written, by decide,
    (c14_request_and_hit_counters Example.written wf_written 9 (by decide)).1 500 "k" true
      false⟩

/-- C17 (as stated, fails): `put` has no `return` statement; `put('k1', 1)` on a new cache
returns `undefined`, on which no further `put` can be called. -/
theorem c17_put_returns_undefined :
    (Cache.put 0 9 "k1" (.num 1) (Cache.make CacheSpec.none)).value? = some Val.undefined := by
  decide

/-- C17 (amended): in every reachable state `put(key, value)` with a legal value returns
`undefined`; and when the state is well-formed (the queues, the mapping and `size` agree, and
no key has two entries) it performs the write: afterwards the mapping holds an entry for the
key with that value. -/
theorem c17_put_writes_and_returns_undefined (c : Cache) (hreach : Reachable c)
    (now fuel : Nat) (key : String) (value : Val) (hv : value.legal) (hf : c.size < fuel) :
    ∃ c2, Cache.put now fuel key value c = .ok .undefined c2 ∧
      (WF c → ∃ x, c2._cache key = some x ∧ c2.heap.value x = value) := by
  obtain ⟨la, lw, hr⟩ := reachable_rep c hreach
  have hlen := WF.fuel hr fuel hf
  have hret : ∃ c2, Cache.put now fuel key value c = .ok .undefined c2 := by
    cases hk : c._cache key with
    | none =>
      obtain ⟨c1, c2, la2, lw2, rmE, rmC, la1, lw1, h1, _⟩ :=
        put_new_spec now fuel key value c la lw hr hv hk hlen
      exact ⟨c2, h1⟩
    | some ex =>
      obtain ⟨cp, c2, la2, lw2, rmE, la1, lw1, h1, _⟩ :=
        put_exists_spec now fuel key value c la lw hr hv ex hk hlen
      exact ⟨c2, h1⟩
  obtain ⟨c2, h1⟩ := hret
  refine ⟨c2, h1, ?_⟩
  rintro ⟨la3, lw3, hr3, hst3⟩
  obtain ⟨c3, la4, lw4, x, h2, _, _, h3, h4, _⟩ :=
    put_legal_spec now fuel key value c la3 lw3 hr3 hst3 hv (WF.fuel hr3 fuel hf)
  rw [h1] at h2
  cases h2
  exact ⟨x, h3, h4⟩

theorem c17_put_writes_and_returns_undefined_witness :
    Reachable Example.written ∧ (Val.str "v2").legal ∧ Example.written.size < (9 : Nat) ∧
    WF Example.written ∧
    ∃ c2, Cache.put 5 9 "k2" (.str "v2") Example.written = .ok .undefined c2 ∧
      (WF Example.written → ∃ x, c2._cache "k2" = some x ∧ c2.heap.value x = .str "v2") :=
  ⟨reachable_written, by decide, by decide, wf_written,
    c17_put_writes_and_returns_undefined Example.written reachable_written 5 9 "k2"
      (.str "v2") (by decide) (by decide)⟩

/-- C18: on a well-formed state `put(key, v)` throws exactly when `v` is `undefined` or `null`
(so `0`, `''` and `false` are accepted), and when it throws, for a new key and for an existing
one, it ends in the state in which it began: nothing is written, removed or notified. -/
theorem c18_value_errors_are_atomic (c : Cache) (hwf : WF c) (now fuel : Nat) (key : String)
    (v : Val) (hf : c.size < fuel) :
    ((∃ e c2, Cache.put now fuel key v c = .thrown e c2) ↔ (v = .undefined ∨ v = .null)) ∧
    (∀ e c2, Cache.put now fuel key v c = .thrown e c2 → c2 = c) ∧
    ((v ≠ .undefined ∧ v ≠ .null) → ∃ c2, Cache.put now fuel key v c = .ok .undefined c2) := by
  obtain ⟨la, lw, hr, hst⟩ := hwf
  by_cases hv : v.legal
  · obtain ⟨c2, la2, lw2, x, h1, _⟩ :=
      put_legal_spec now fuel key v c la lw hr hst hv (WF.fuel hr fuel hf)
    refine ⟨⟨?_, ?_⟩, ?_, fun _ => ⟨c2, h1⟩⟩
    · rintro ⟨e, c3, h3⟩; rw [h1] at h3; cases h3
    · rintro (h3 | h3)
      · exact absurd h3 hv.1
      · exact absurd h3 hv.2
    · intro e c3 h3; rw [h1] at h3; cases h3
  · have h1 := put_illegal now fuel key v c hv
    have hv2 : v = .undefined ∨ v = .null := by
      unfold Val.legal at hv
      by_cases h3 : v = .undefined
      · exact Or.inl h3
      · by_cases h4 : v = .null
        · exact Or.inr h4
        · exact absurd ⟨h3, h4⟩ hv
    refine ⟨⟨fun _ => hv2, fun _ => ⟨_, c, h1⟩⟩, ?_, ?_⟩
    · intro e c3 h3; rw [h1] at h3; cases h3; rfl
    · intro h3; exact absurd h3 hv

theorem c18_value_errors_are_atomic_witness :
    WF Example.written ∧ Example.written.size < (9 : Nat) ∧
    (((∃ e c2, Cache.put 5 9 "k" .null Example.written = .thrown e c2) ↔
      (Val.null = .undefined ∨ Val.null = .null)) ∧
    (∀ e c2, Cache.put 5 9 "k" .null Example.written = .thrown e c2 →
      c2 = Example.written) ∧
    ((Val.null ≠ .undefined ∧ Val.null ≠ .null) →
      ∃ c2, Cache.put 5 9 "k" .null Example.written = .ok .undefined c2)) :=
  ⟨wf_written, by decide,
    c18_value_errors_are_atomic Example.written wf_written 5 9 "k" .null (by decide)⟩

end Dsjslib
namespace Dsjslib

/-- C1 (as stated, fails): with `maximumSize = 0` the size is 1 after one `put`, which adds
the new entry after the eviction scan. -/
theorem c1_size_zero_not_bounded :
    ¬ ((Cache.put 0 9 "a" (.num 1) (Cache.make (Example.sizeSpec 0))).stateD
        (Cache.make (Example.sizeSpec 0))).size ≤ 0 := by
  decide

/-- C1 (amended): for every `N >= 1` given as `maximumSize` (no weight settings) and every
sequence of `put` calls on a new cache, the field `size` is at most `N` after every `put`. -/
theorem c1_capacity_bound (cs : CacheSpec) (N : Int) (hN : 1 ≤ N)
    (hs : cs.maximumSize = some N) (hw : cs.maximumWeight = none)
    (hf : cs.weigherFunction = none) (ops : List Op)
    (hops : ∀ op ∈ ops, ∃ t k v, op = Op.put t k v) (fuel : Nat) (hfuel : ops.length < fuel) :
    ∀ n, ∃ c, runOps fuel (ops.take n) (Cache.make cs) = some c ∧ c.size ≤ N := by
  intro n
  have hc := configure_size cs hw hf
  obtain ⟨_, h2, _⟩ := new_spec cs _ hc (by intro w h; rw [hw] at h; cases h)
  rw [make_eq cs _ hc]
  refine run_puts_size N fuel (ops.take n) (fun op hop => hops op (List.mem_of_mem_take hop))
    _ [] [] h2 ⟨hs, hN, rfl⟩ (by simp; omega) ?_
  simp only [List.length_nil, List.length_take]
  omega

theorem c1_capacity_bound_witness :
    (1 : Int) ≤ 2 ∧ (Example.sizeSpec 2).maximumSize = some 2 ∧
    (Example.sizeSpec 2).maximumWeight = none ∧ (Example.sizeSpec 2).weigherFunction = none ∧
    (∀ op ∈ [Op.put 0 "a" (.num 1), Op.put 1 "b" (.num 2), Op.put 2 "c" (.num 3)],
      ∃ t k v, op = Op.put t k v) ∧
    [Op.put 0 "a" (.num 1), Op.put 1 "b" (.num 2), Op.put 2 "c" (.num 3)].length < 9 ∧
    ∀ n, ∃ c, runOps 9
      ([Op.put 0 "a" (.num 1), Op.put 1 "b" (.num 2), Op.put 2 "c" (.num 3)].take n)
      (Cache.make (Example.sizeSpec 2)) = some c ∧ c.size ≤ 2 :=
  have h : ∀ op ∈ [Op.put 0 "a" (.num 1), Op.put 1 "b" (.num 2), Op.put 2 "c" (.num 3)],
      ∃ t k v, op = Op.put t k v := by
    intro op hop
    simp only [List.mem_cons, List.mem_singleton, List.not_mem_nil, or_false] at hop
    rcases hop with h | h | h <;> exact ⟨_, _, _, h⟩
  ⟨by decide, rfl, rfl, rfl, h, by decide,
    c1_capacity_bound (Example.sizeSpec 2) 2 (by decide) rfl rfl rfl _ h 9 (by decide)⟩

end Dsjslib
namespace Dsjslib

/-- C5: in a cache with `expiresAfterWrite = d > 0` seconds and no loader, after any sequence of
`put`, `get`, `getIfPresent` and `invalidate` calls under a clock that does not go back, a `put`
of a valid value at time `t` returns and leaves in the mapping only entries with a write time
`w` such that `t - w <= d * 1000` ms. -/
theorem c5_proactive_expiry (cs : CacheSpec) (d : Int) (hd : 0 < d)
    (hcfg : ∃ s, Cache.configure cs = .ok s)
    (hmw : ∀ w, cs.maximumWeight = some w → 0 ≤ w)
    (hexp : cs.expiresAfterWrite = some d) (hl : cs.loaderFunction = false)
    (ops : List Op) (t : Nat) (key : String) (value : Val) (hv : value.legal)
    (hclk : Clocked 0 (ops ++ [Op.put t key value])) (fuel : Nat) (hfuel : ops.length < fuel) :
    ∃ c c2, runOps fuel ops (Cache.make cs) = some c ∧
      Cache.put t fuel key value c = .ok .undefined c2 ∧
      ∀ k e, c2._cache k = some e →
        ∃ w, c2.heap.writeTime e = some w ∧ (t : Int) - w ≤ d * 1000 := by
  obtain ⟨s, hs⟩ := hcfg
  obtain ⟨_, h2, _⟩ := new_spec cs s hs hmw
  obtain ⟨he, hlo, _⟩ := configure_exp cs s hs
  have hE : (0 : Int) < d * 1000 := by omega
  have hinv : ExpInv (d * 1000) (Cache.make cs) [] [] 0 := by
    rw [make_eq cs s hs]
    refine ⟨h2, ?_, ?_, ⟨?_, List.Pairwise.nil⟩⟩
    · show s.expiresAfterWrite = _
      rw [he, hexp]; rfl
    · show s.loaderFn = _
      rw [hlo, hl]
    · intro e h; cases h
  obtain ⟨c1, c2, la2, lw2, h3, h4, h5, h6⟩ :=
    run_exp (d * 1000) hE fuel t key value hv ops _ [] [] 0 hinv (by simpa using hfuel) hclk
  refine ⟨c1, c2, h3, h4, ?_⟩
  intro k e hk
  have hel : e ∈ la2 := (h5.rep.map k e hk).1
  have hws : c2._writeQueue.isSome := by
    rw [h5.rep.wq, h5.exp]
    have : d * 1000 ≠ 0 := by omega
    simpa using this
  obtain ⟨Qw, hQ⟩ := Option.isSome_iff_exists.1 hws
  have hew : e ∈ lw2 := (h5.rep.qw Qw hQ).2.1.mem_iff.2 hel
  obtain ⟨w, hw, _⟩ := h5.ts.timed e hew
  have hx := h6 e hew
  rw [isExpired_eq c2 (d * 1000) hE h5.exp e w t hw] at hx
  simp only [decide_eq_false_iff_not, not_lt] at hx
  exact ⟨w, hw, hx⟩

theorem c5_proactive_expiry_witness :
    (0 : Int) < 1 ∧ (∃ s, Cache.configure Example.expirySpec = .ok s) ∧
    (∀ w, Example.expirySpec.maximumWeight = some w → 0 ≤ w) ∧
    Example.expirySpec.expiresAfterWrite = some 1 ∧
    Example.expirySpec.loaderFunction = false ∧ Val.legal (.num 3) ∧
    Clocked 0 ([Op.put 0 "a" (.num 1), Op.put 600 "b" (.num 2)] ++ [Op.put 1500 "c" (.num 3)]) ∧
    [Op.put 0 "a" (.num 1), Op.put 600 "b" (.num 2)].length < 9 ∧
    ∃ c c2, runOps 9 [Op.put 0 "a" (.num 1), Op.put 600 "b" (.num 2)]
        (Cache.make Example.expirySpec) = some c ∧
      Cache.put 1500 9 "c" (.num 3) c = .ok .undefined c2 ∧
      ∀ k e, c2._cache k = some e →
        ∃ w, c2.heap.writeTime e = some w ∧ ((1500 : Nat) : Int) - w ≤ 1 * 1000 :=
  ⟨by decide, ⟨_, rfl⟩, (by intro w h; cases h), rfl, rfl, by decide, by simp [Clocked], by decide,
    c5_proactive_expiry Example.expirySpec 1 (by decide) ⟨_, rfl⟩ (by intro w h; cases h) rfl rfl
      [Op.put 0 "a" (.num 1), Op.put 600 "b" (.num 2)] 1500 "c" (.num 3) (by decide)
      (by simp [Clocked]) 9 (by decide)⟩

end Dsjslib
namespace Dsjslib

/-- C2: in a cache with `maximumSize = N >= 1`, no weight settings and no expiry, after any
sequence of calls a `put` of a valid value under a new key returns; below the bound it removes
nothing, and at the bound it removes exactly one entry, the one whose key was promoted (by a
`put` or by a `get`/`getIfPresent` that hit) longer ago than every other key of the mapping,
notifying the listener with the cause `'capacity'`; all other entries stay. -/
theorem c2_lru_victim (cs : CacheSpec) (N : Int) (hN : 1 ≤ N)
    (hs : cs.maximumSize = some N) (hw : cs.maximumWeight = none)
    (hf : cs.weigherFunction = none) (hexp : cs.expiresAfterWrite = none)
    (ops : List Op) (fuel : Nat) (hfuel : ops.length < fuel) (t : Nat) (key : String)
    (value : Val) (hv : value.legal) :
    ∃ c, runOps fuel ops (Cache.make cs) = some c ∧
      (c._cache key = none →
        ∃ c2, Cache.put t fuel key value c = .ok .undefined c2 ∧
          ((c.size < N ∧ c2.events = c.events ∧ ∀ k, k ≠ key → c2._cache k = c._cache k) ∨
           (c.size = N ∧ ∃ kv ev, c._cache kv = some ev ∧ c2._cache kv = none ∧
              c2.events = c.events ++
                (if c._spec.onRemove then [Event.onRemove kv (c.heap.value ev) "capacity"]
                 else []) ∧
              ∀ k e, k ≠ kv → c._cache k = some e →
                c2._cache k = some e ∧
                  ages fuel ops (Cache.make cs) (fun _ => 0) k <
                    ages fuel ops (Cache.make cs) (fun _ => 0) kv))) := by
  have hc := configure_size cs hw hf
  obtain ⟨_, h2, h3⟩ := new_spec cs _ hc (by intro w h; rw [hw] at h; cases h)
  have hinv : LruInv N (Cache.make cs) [] [] (fun _ => 0) := by
    rw [make_eq cs _ hc]
    refine ⟨h2, h3, ⟨hs, hN, rfl⟩, ?_, ?_, List.Pairwise.nil⟩
    · show Option.map _ cs.expiresAfterWrite = none
      rw [hexp]; rfl
    · simp only [List.length_nil]; push_cast; omega
  obtain ⟨c, la, lw, h4, h5, h6⟩ :=
    run_lru N fuel ops _ [] [] _ hinv (by simpa using hfuel)
  refine ⟨c, h4, ?_⟩
  intro hk
  obtain ⟨c2, la2, lw2, rmC, h7, _, _, _, hsplit, hcache, hev, hcases⟩ :=
    put_new_lru N t fuel key value c la lw h5.rep h5.strong h5.mode h5.noexp h5.le hv hk
      (by simp only [List.length_nil, Nat.zero_add] at h6; omega)
  refine ⟨c2, h7, ?_⟩
  rcases hcases with ⟨h8, h9⟩ | ⟨h8, v, h9⟩
  · left
    subst h9
    refine ⟨by rw [h5.rep.size_eq]; exact h8, by rw [hev, notes_nil, List.append_nil], ?_⟩
    intro k hne
    rw [hcache, Function.update_noteq hne]
    rfl
  · right
    subst h9
    have hv1 : v ∈ la := by rw [hsplit]; simp
    have hcv := strong_cache h5.rep h5.strong v hv1
    have hkv : propKey (c.heap.key v) ≠ key := by
      intro h10; rw [h10, hk] at hcv; cases hcv
    refine ⟨by rw [h5.rep.size_eq]; exact h8, propKey (c.heap.key v), v, hcv, ?_, ?_, ?_⟩
    · rw [hcache, Function.update_noteq hkv]
      exact delKeys_of_mem c [v] _ v (List.mem_singleton_self v)
    · rw [hev]; rfl
    · intro k e hne hke
      have hek : k ≠ key := by
        intro h10; rw [h10, hk] at hke; cases hke
      obtain ⟨hel, hkey⟩ := h5.rep.map k e hke
      refine ⟨?_, ?_⟩
      · rw [hcache, Function.update_noteq hek, delKeys_of_not c [v] _ k ?_]
        · exact hke
        · intro e2 he2
          rw [List.mem_singleton.1 he2]
          exact Ne.symm hne
      · have hev2 : e ≠ v := by
          intro h10; rw [h10] at hkey; rw [hkey] at hne; exact hne rfl
        have hel2 : e ∈ la2 := by
          rw [hsplit] at hel
          rcases List.mem_append.1 hel with h10 | h10
          · exact h10
          · exact absurd (List.mem_singleton.1 h10) hev2
        have hord := h5.order
        rw [hsplit] at hord
        have := (List.pairwise_append.1 hord).2.2 e hel2 v (List.mem_singleton_self v)
        rw [hkey] at this
        exact this

theorem c2_lru_victim_witness :
    (1 : Int) ≤ 2 ∧ (Example.sizeSpec 2).maximumSize = some 2 ∧
    (Example.sizeSpec 2).maximumWeight = none ∧ (Example.sizeSpec 2).weigherFunction = none ∧
    (Example.sizeSpec 2).expiresAfterWrite = none ∧
    [Op.put 0 "A" (.num 1), Op.put 1 "B" (.num 2), Op.get 2 "A"].length < 9 ∧
    Val.legal (.num 3) ∧
    Example.lruRun._cache "B" = none ∧ (Example.lruRun._cache "A").isSome ∧
    (Example.lruRun._cache "C").isSome ∧ Example.lruRun.size = 2 ∧
    ∃ c, runOps 9 [Op.put 0 "A" (.num 1), Op.put 1 "B" (.num 2), Op.get 2 "A"]
        (Cache.make (Example.sizeSpec 2)) = some c ∧
      (c._cache "C" = none →
        ∃ c2, Cache.put 3 9 "C" (.num 3) c = .ok .undefined c2 ∧
          ((c.size < 2 ∧ c2.events = c.events ∧ ∀ k, k ≠ "C" → c2._cache k = c._cache k) ∨
           (c.size = 2 ∧ ∃ kv ev, c._cache kv = some ev ∧ c2._cache kv = none ∧
              c2.events = c.events ++
                (if c._spec.onRemove then [Event.onRemove kv (c.heap.value ev) "capacity"]
                 else []) ∧
              ∀ k e, k ≠ kv → c._cache k = some e →
                c2._cache k = some e ∧
                  ages 9 [Op.put 0 "A" (.num 1), Op.put 1 "B" (.num 2), Op.get 2 "A"]
                      (Cache.make (Example.sizeSpec 2)) (fun _ => 0) k <
                    ages 9 [Op.put 0 "A" (.num 1), Op.put 1 "B" (.num 2), Op.get 2 "A"]
                      (Cache.make (Example.sizeSpec 2)) (fun _ => 0) kv))) :=
  ⟨by decide, rfl, rfl, rfl, rfl, by decide, by decide, by decide, by decide, by decide,
    by decide,
    c2_lru_victim (Example.sizeSpec 2) 2 (by decide) rfl rfl rfl rfl
      [Op.put 0 "A" (.num 1), Op.put 1 "B" (.num 2), Op.get 2 "A"] 9 (by decide) 3 "C"
      (.num 3) (by decide)⟩

end Dsjslib
namespace Dsjslib

/-- C13 (fails after a loader race): with a listener and a loader, `get('k', cb)` misses and
calls the loader, `put('k', 1)` follows, and the loader completes with `(undefined, 2)`: the
mapping holds the loader's entry (value 2) under `'k'`, and the queues also hold the entry of
the `put` (value 1).  With `expiresAfterWrite: 1`, `put('k', 9)` at time 5000 writes 9 into the
mapped entry 3 and then takes it out of the mapping, and the one call of the listener is
`('k', 1, 'expired')`, with the value of entry 2, which the mapping did not hold.  With
`maximumSize: 2`, `put('j', 5)` takes the mapped entry 2 (value 2) out of the mapping, and the
one call of the listener is `('k', 1, 'capacity')`, with the value of entry 1. -/
theorem c13_orphan_notified_for_mapped_entry :
    (Reachable Example.racedHeard ∧ Example.racedHeard._spec.onRemove = true ∧
      Example.racedHeard._cache "k" = some 3 ∧ Example.racedHeard.heap.value 3 = .num 2 ∧
      Example.racedHeard.heap.value 2 = .num 1 ∧
      (∀ k, Example.racedHeard._cache k ≠ some 2) ∧
      ∃ c2, Cache.put 5000 9 "k" (.num 9) Example.racedHeard = .ok .undefined c2 ∧
        removedBy Example.racedHeard c2 3 ∧ c2.heap.value 3 = .num 9 ∧
        c2.events = Example.racedHeard.events ++ [Event.onRemove "k" (.num 1) "expired"]) ∧
    (Reachable Example.racedFull ∧ Example.racedFull._spec.onRemove = true ∧
      Example.racedFull._cache "k" = some 2 ∧ Example.racedFull.heap.value 2 = .num 2 ∧
      Example.racedFull.heap.value 1 = .num 1 ∧
      (∀ k, Example.racedFull._cache k ≠ some 1) ∧
      ∃ c2, Cache.put 0 9 "j" (.num 5) Example.racedFull = .ok .undefined c2 ∧
        removedBy Example.racedFull c2 2 ∧
        c2.events = Example.racedFull.events ++ [Event.onRemove "k" (.num 1) "capacity"]) := by
  constructor
  · refine ⟨reachable_racedHeard, by decide, by decide, by decide, by decide, ?_, ?_⟩
    · intro k hk
      have h : Example.racedHeard._cache =
          Function.update (Function.update (fun _ => none) "k" (some 2)) "k" (some 3) := rfl
      rw [h] at hk
      by_cases hkk : k = "k"
      · rw [hkk, Function.update_same] at hk
        cases hk
      · rw [Function.update_noteq hkk, Function.update_noteq hkk] at hk
        cases hk
    · obtain ⟨c2, h1, hc, he, _, hv⟩ := racedHeard_put
      refine ⟨c2, h1, ⟨"k", by decide, ?_⟩, hv, ?_⟩
      · rw [hc]; simp
      · rw [he]
        have : notes Example.racedHeard _REMOVAL_CAUSE_E [2] =
            [Event.onRemove "k" (.num 1) "expired"] := by decide
        rw [this]
  · refine ⟨reachable_racedFull, by decide, by decide, by decide, by decide, ?_, ?_⟩
    · intro k hk
      have h : Example.racedFull._cache =
          Function.update (Function.update (fun _ => none) "k" (some 1)) "k" (some 2) := rfl
      rw [h] at hk
      by_cases hkk : k = "k"
      · rw [hkk, Function.update_same] at hk
        cases hk
      · rw [Function.update_noteq hkk, Function.update_noteq hkk] at hk
        cases hk
    · obtain ⟨c2, h1, hc, he⟩ := racedFull_put
      refine ⟨c2, h1, ⟨"k", by decide, ?_⟩, ?_⟩
      · rw [hc]; simp
      · rw [he]
        have : notes Example.racedFull _REMOVAL_CAUSE_C [1] =
            [Event.onRemove "k" (.num 1) "capacity"] := by decide
        rw [this]

end Dsjslib
namespace Dsjslib

/-- C24: in every state reachable from a new cache by `put`, `get`, `getIfPresent`,
`invalidate` and the loader completions, the walk along the `next` links of the access queue
from `head` ends at the sentinel and meets every entry of the mapping exactly once; with
`expiresAfterWrite > 0` there is a write queue, for which the same holds; in each queue `next`
and `prev` are inverse to each other on the entries; and `remove`, `moveToHead` and
`_promoteEntry` on one queue leave the links and the queue object of the other queue as they
are. -/
theorem c24_queue_membership (c : Cache) (h : Reachable c) :
    (∃ la, walk la.length (c.heap.next .A) c._accessQueue.head c._accessQueue.tail = some la ∧
      (∀ k e, c._cache k = some e → la.count e = 1) ∧
      Inverse (c.heap.next .A) (c.heap.prev .A) la) ∧
    (∀ E, c._spec.expiresAfterWrite = some E → 0 < E →
      ∃ Qw lw, c._writeQueue = some Qw ∧
        walk lw.length (c.heap.next .W) Qw.head Qw.tail = some lw ∧
        (∀ k e, c._cache k = some e → lw.count e = 1) ∧
        Inverse (c.heap.next .W) (c.heap.prev .W) lw) ∧
    (∀ q x, (Entry.remove x q c).Framed q c ∧ (Entry.moveToHead x q c).Framed q c ∧
      (Cache._promoteEntry x q c).Framed q c) := by
  obtain ⟨la, lw, hr⟩ := reachable_rep c h
  refine ⟨⟨la, hr.qa.walk_eq, ?_, hr.qa.inverse⟩, ?_, ?_⟩
  · intro k e hk
    exact List.count_eq_one_of_mem hr.qa.nodup (hr.map k e hk).1
  · intro E hE hpos
    have hws : c._writeQueue.isSome := by
      rw [hr.wq, hE]
      have : E ≠ 0 := by omega
      simpa using this
    obtain ⟨Qw, hQ⟩ := Option.isSome_iff_exists.1 hws
    obtain ⟨hq, hperm, _, _⟩ := hr.qw Qw hQ
    refine ⟨Qw, lw, hQ, hq.walk_eq, ?_, hq.inverse⟩
    intro k e hk
    exact List.count_eq_one_of_mem hq.nodup (hperm.mem_iff.2 (hr.map k e hk).1)
  · intro q x
    exact ⟨frames_remove q x c, frames_moveToHead q x c, frames_promote q x c⟩

theorem c24_queue_membership_witness :
    Reachable Example.raced ∧
    (∃ la, walk la.length (Example.raced.heap.next .A) Example.raced._accessQueue.head
        Example.raced._accessQueue.tail = some la ∧
      (∀ k e, Example.raced._cache k = some e → la.count e = 1) ∧
      Inverse (Example.raced.heap.next .A) (Example.raced.heap.prev .A) la) ∧
    (∀ E, Example.raced._spec.expiresAfterWrite = some E → 0 < E →
      ∃ Qw lw, Example.raced._writeQueue = some Qw ∧
        walk lw.length (Example.raced.heap.next .W) Qw.head Qw.tail = some lw ∧
        (∀ k e, Example.raced._cache k = some e → lw.count e = 1) ∧
        Inverse (Example.raced.heap.next .W) (Example.raced.heap.prev .W) lw) ∧
    (∀ q x, (Entry.remove x q Example.raced).Framed q Example.raced ∧
      (Entry.moveToHead x q Example.raced).Framed q Example.raced ∧
      (Cache._promoteEntry x q Example.raced).Framed q Example.raced) :=
  ⟨reachable_raced, c24_queue_membership Example.raced reachable_raced⟩

end Dsjslib
namespace Dsjslib

/-- C23: for every sequence of `put` calls with integer keys on a new skip list and every stream
of coin flips, with enough fuel every `put` returns, and afterwards the lists of the skip list
are in order and every node of every list holds the value of the most recent `put` of its key;
`get(k)` returns `{key: k, value: v}` with that value `v`, and `undefined` for a key that was
never put. -/
theorem c23_skiplist_map_semantics (coins : Nat → Bool) (ops : List (Int × Val)) (fuel : Nat)
    (hf : (ops.length + 3) * (ops.length + 3) ≤ fuel) :
    ∃ s ls, SkipList.runPuts coins fuel ops SkipList.new = some s ∧
      SkipList.Inv s ls (fun k => SkipList.lastPut k ops) ∧
      ∀ k, SkipList.get fuel k s = .ok ((SkipList.lastPut k ops).map fun v => (k, v)) s := by
  have e1 : (ops.length + 3) * (ops.length + 3) =
      ops.length * ops.length + 5 * ops.length + ops.length + 9 := by ring
  obtain ⟨s, ls, hrun, hinv, hlt⟩ := SkipList.run_spec coins fuel ops SkipList.new _ _
    SkipList.inv_new (by
      simp only [SkipList.nodesOf, SkipList.Level.full, List.length_append, List.length_cons,
        List.length_nil, List.nil_append]
      omega)
  have hM : (fun k => match SkipList.lastPut k ops with
      | some w => some w
      | none => none) = fun k => SkipList.lastPut k ops := by
    funext k
    cases SkipList.lastPut k ops <;> rfl
  rw [hM] at hinv
  exact ⟨s, ls, hrun, hinv, fun k => SkipList.get_spec hinv k fuel hlt⟩

theorem c23_skiplist_map_semantics_witness :
    (Example.skipOps.length + 3) * (Example.skipOps.length + 3) ≤ 36 ∧
    (SkipList.get 36 5 Example.skipRun).value? = some (some (5, .num 55)) ∧
    (SkipList.get 36 3 Example.skipRun).value? = some (some (3, .num 30)) ∧
    (SkipList.get 36 4 Example.skipRun).value? = some none ∧
    ∃ s ls, SkipList.runPuts Example.skipCoins 36 Example.skipOps SkipList.new = some s ∧
      SkipList.Inv s ls (fun k => SkipList.lastPut k Example.skipOps) ∧
      ∀ k, SkipList.get 36 k s =
        .ok ((SkipList.lastPut k Example.skipOps).map fun v => (k, v)) s :=
  ⟨by decide, by decide, by decide, by decide,
    c23_skiplist_map_semantics Example.skipCoins Example.skipOps 36 (by decide)⟩

end Dsjslib
